import Mathlib

/-!
# ChronOS: a shallow embedding of the cooperative kernel

Sources embedded: `include/config.h`, `include/threads.h`, `include/chronos.h`,
`src/threads.c` (thread_create, scheduler, kernel_call), `src/chronos.c` (support
operations, os_tick) and `src/list.c`.

Modelling conventions.

* A pointer to a `thread_t` (or `callback_t`) is an address, a `Nat`; the records
  live in a heap `Nat → thread_t`.  `NULL` for `_thrp` is `none`.
* An intrusive linked list (`list.h`) is represented by the sequence of addresses
  reached from its head by following `next`; `list_for_each` is iteration over
  that sequence, `list_remove` of a member is `List.erase` and `list_add` appends.
  The functions of `list.c` themselves are embedded over the words of memory,
  where the sequence representation is proved.
* The `flags` union of `thread_t` is the 16-bit word; a one-bit field is a bit of
  that word (`f_nice` bit 0 ... `f_terminate` bit 7) and `prio` is bits 8-10.
* `word_t`/`uint32_t` values are `Nat`; the only arithmetic that can wrap in the
  embedded code is `ticks++`, taken modulo `2^32`.
* `disable()`/`enable()` act on the interrupt-enable flag `ie`;
  `switch_threads` loads `$sp` from `_new_sp` and ends with `ei`.
-/

namespace ChronOS

/-! ## Constants (`config.h`, `threads.h`, `chronos.h`) -/

/-- Constant `MAX_PRIO`, defined as `3` in config.h. -/
def MAX_PRIO : Nat := 3

/-- Constant `MASK_WAIT`, defined as `0b00011110` in threads.h. -/
def MASK_WAIT : Nat := 0b00011110

/-- Constant `MASK_TIMEOUT`, defined as `0b00001100` in threads.h. -/
def MASK_TIMEOUT : Nat := 0b00001100

/-- Constant `MASK_TERMINATE`, defined as `0b11000000` in threads.h. -/
def MASK_TERMINATE : Nat := 0b11000000

/-- Constant `SV_YIELD`, defined as `0` in chronos.h. -/
def SV_YIELD : Nat := 0
/-- Constant `SV_SLEEP`, defined as `1` in chronos.h. -/
def SV_SLEEP : Nat := 1
/-- Constant `SV_SETTIMEOUT`, defined as `2` in chronos.h. -/
def SV_SETTIMEOUT : Nat := 2
/-- Constant `SV_WAIT`, defined as `3` in chronos.h. -/
def SV_WAIT : Nat := 3
/-- Constant `SV_SIGNAL`, defined as `4` in chronos.h. -/
def SV_SIGNAL : Nat := 4
/-- Constant `SV_LOCK`, defined as `5` in chronos.h. -/
def SV_LOCK : Nat := 5
/-- Constant `SV_UNLOCK`, defined as `6` in chronos.h. -/
def SV_UNLOCK : Nat := 6
/-- Constant `SV_END`, defined as `9` in chronos.h. -/
def SV_END : Nat := 9

/-! ## Bit fields -/

/-- Store of the one-bit field at position `i` of the word `w`: only that bit
changes. -/
def bit_assign (w i : Nat) (b : Bool) : Nat :=
  if b then w ||| 2 ^ i else w ^^^ (w &&& 2 ^ i)

/-- The thread control structure `thread_t` of chronos.h, without the list link
(see the modelling conventions). -/
structure thread_t where
  /-- The union word: bits 0-7 are the flags, bits 8-10 the priority. -/
  flags : Nat
  /-- Signal or mutex identification. -/
  data : Nat
  /-- Initial stack pointer (the allocated stack region). -/
  sp0 : Nat
  /-- Saved stack pointer. -/
  sp : Nat
  /-- Tick-down counter. -/
  timer : Nat
deriving DecidableEq

namespace thread_t

/-- Bit 0: the thread ran and released the CPU with yield. -/
def f_nice (t : thread_t) : Bool := t.flags.testBit 0
/-- Bit 1: a timing is active. -/
def f_time_pending (t : thread_t) : Bool := t.flags.testBit 1
/-- Bit 2: waits for a signal. -/
def f_waiting (t : thread_t) : Bool := t.flags.testBit 2
/-- Bit 3: waits for a mutex. -/
def f_semaphore (t : thread_t) : Bool := t.flags.testBit 3
/-- Bit 4: suspended. -/
def f_suspend (t : thread_t) : Bool := t.flags.testBit 4
/-- Bit 6: return value (timeout). -/
def f_timeout (t : thread_t) : Bool := t.flags.testBit 6
/-- Bit 7: termination request. -/
def f_terminate (t : thread_t) : Bool := t.flags.testBit 7
/-- Bits 8-10: priority of the thread. -/
def prio (t : thread_t) : Nat := (t.flags >>> 8) % 8

/-- Assignment `t->f_nice = b`. -/
def set_f_nice (t : thread_t) (b : Bool) : thread_t := { t with flags := bit_assign t.flags 0 b }
/-- Assignment `t->f_time_pending = b`. -/
def set_f_time_pending (t : thread_t) (b : Bool) : thread_t :=
  { t with flags := bit_assign t.flags 1 b }
/-- Assignment `t->f_waiting = b`. -/
def set_f_waiting (t : thread_t) (b : Bool) : thread_t := { t with flags := bit_assign t.flags 2 b }
/-- Assignment `t->f_semaphore = b`. -/
def set_f_semaphore (t : thread_t) (b : Bool) : thread_t :=
  { t with flags := bit_assign t.flags 3 b }
/-- Assignment `t->f_suspend = b`. -/
def set_f_suspend (t : thread_t) (b : Bool) : thread_t := { t with flags := bit_assign t.flags 4 b }
/-- Assignment `t->f_timeout = b`. -/
def set_f_timeout (t : thread_t) (b : Bool) : thread_t := { t with flags := bit_assign t.flags 6 b }

end thread_t

/-- The callback record `callback_t` of chronos.h, without the list link. -/
structure callback_t where
  /-- Function to call (a code address). -/
  function : Nat
  /-- Parameter for the function. -/
  param : Nat
  /-- Ticks before the call. -/
  timer : Nat
deriving DecidableEq

/-- The global state of the kernel: the globals of threads.c and chronos.c, the
record heaps, the byte memory holding the mutexes, and the two pieces of CPU
state the embedded code acts on (`$sp` and the interrupt-enable flag). -/
structure kernel where
  /-- Heap of thread records, by address. -/
  thr : Nat → thread_t
  /-- Heap of callback records, by address. -/
  cbk : Nat → callback_t
  /-- `_threads[MAX_PRIO]`: for each priority the sequence of its members. -/
  _threads : Nat → List Nat
  /-- `_callbacks`: the sequence of pending callbacks. -/
  _callbacks : List Nat
  /-- `_thrp`: the current thread, `none` for `NULL`. -/
  _thrp : Option Nat
  /-- `ticks`: system tick counter (`uint32_t`). -/
  ticks : Nat
  /-- Byte memory (a mutex is one byte). -/
  mem : Nat → Nat
  /-- Interrupt enable: `di` clears it, `ei` sets it. -/
  ie : Bool
  /-- CPU stack pointer `$sp`. -/
  sp_reg : Nat
  /-- `_main_sp`: stack pointer backup of the main thread. -/
  _main_sp : Nat
  /-- `_new_sp`: exchange slot read by `switch_threads`. -/
  _new_sp : Nat
  /-- `_old_sp`: exchange slot written by `kernel_call`. -/
  _old_sp : Nat

/-- One `list_for_each` loop whose body rewrites the visited record with `f`:
the heap after visiting the addresses of `l` in order. -/
def heap_apply {α : Type} (f : α → α) (l : List Nat) (h : Nat → α) : Nat → α :=
  l.foldl (fun h a => Function.update h a (f (h a))) h

/-- The `switch_threads` routine of threads.c, restricted to the modelled CPU
state: `di`, `lw $sp, _new_sp`, ..., `ei`. -/
def switch_threads (k : kernel) : kernel :=
  { k with sp_reg := k._new_sp, ie := true }

/-! ## Scheduler, part 2 and dispatch (threads.c lines 189-218)

Part 1 of `scheduler()`, the execution of the due callbacks, runs user code and
is not part of this section; a scheduler pass below is the thread selection that
follows it. -/

/-- The test of the first inner loop of the scheduler:
`if(_thrp->f_nice) continue; if((_thrp->flags & MASK_WAIT) == 0) goto ready;`. -/
def sched_ready (t : thread_t) : Bool :=
  !t.f_nice && (t.flags &&& MASK_WAIT == 0)

/-- The second inner loop of the scheduler on level `i`:
`list_for_each(_threads[i], _thrp) { _thrp->f_nice = FALSE; }`. -/
def clear_nice (k : kernel) (i : Nat) : kernel :=
  { k with thr := heap_apply (fun t => t.set_f_nice false) (k._threads i) k.thr }

/-- The label `ready:` of the scheduler: `disable(); _main_sp = $sp;
_new_sp = _thrp->sp; switch_threads();` with `_thrp` the chosen thread. -/
def dispatch (k : kernel) (a : Nat) : kernel :=
  switch_threads
    { k with _thrp := some a, ie := false, _main_sp := k.sp_reg, _new_sp := (k.thr a).sp }

/-- The loop `for(i = MAX_PRIO-1; i >= 0; i--)` of the scheduler with `n` levels
still to visit (the next level is `n - 1`), followed by the "No threads" exit. -/
def scheduler_levels : Nat → kernel → kernel
  | 0, k => { k with _thrp := none, ie := true }
  | n + 1, k =>
    match (k._threads n).find? (fun a => sched_ready (k.thr a)) with
    | some a => dispatch k a
    | none => scheduler_levels n (clear_nice k n)

/-- Part 2 of `scheduler()` ("Look for the next thread") and its two exits; it is
entered with interrupts disabled by part 1. -/
def scheduler_threads (k : kernel) : kernel :=
  scheduler_levels MAX_PRIO { k with ie := false }

/-! ## Kernel services entry point (threads.c lines 228-332) -/

/-- How the first half of `kernel_call` leaves: it returns a value to the calling
thread, or it switches to the main thread (the call returns only when the thread
is dispatched again). -/
inductive kc_exit where
  | to_thread (r : Bool)
  | to_main
deriving DecidableEq

/-- The label `return_to_main:` up to `switch_threads()`:
`_old_sp = $sp; _thrp->sp = _old_sp; _thrp = NULL; _new_sp = _main_sp;`. -/
def return_to_main (k : kernel) (a : Nat) : kernel × kc_exit :=
  (switch_threads
    { k with
      _old_sp := k.sp_reg
      thr := Function.update k.thr a { k.thr a with sp := k.sp_reg }
      _thrp := none
      _new_sp := k._main_sp },
   kc_exit.to_main)

/-- The label `return_to_thread:`, `enable(); return TRUE;`. -/
def return_to_thread (k : kernel) : kernel × kc_exit :=
  ({ k with ie := true }, kc_exit.to_thread true)

/-- The label `return_to_thread_no_timeout:`,
`if(!_thrp->f_time_pending) _thrp->timer = 0;`, falling into `return_to_thread`. -/
def return_to_thread_no_timeout (k : kernel) (a : Nat) : kernel × kc_exit :=
  if !(k.thr a).f_time_pending then
    return_to_thread { k with thr := Function.update k.thr a { k.thr a with timer := 0 } }
  else
    return_to_thread k

/-- The function `kernel_call(func, arg)` up to the point where it either returns
to the calling thread or switches to the main thread. `func` is a `uint16_t`,
`arg` a `word_t`. -/
def kernel_call (func arg : Nat) (k : kernel) : kernel × kc_exit :=
  match k._thrp with
  | none => (k, kc_exit.to_thread false)
  | some a =>
    let k := { k with ie := false }
    if func = SV_YIELD then
      return_to_main { k with thr := Function.update k.thr a ((k.thr a).set_f_nice true) } a
    else if func = SV_END then
      return_to_main
        { k with
          _threads := Function.update k._threads (k.thr a).prio
            ((k._threads (k.thr a).prio).erase a) } a
    else if func = SV_SLEEP then
      return_to_main
        { k with
          thr := Function.update k.thr a
            ({ k.thr a with timer := arg }.set_f_time_pending true) } a
    else if func = SV_WAIT then
      return_to_main
        { k with
          thr := Function.update k.thr a
            { (k.thr a).set_f_waiting true with data := arg } } a
    else if func = SV_SETTIMEOUT then
      return_to_thread
        { k with
          thr := Function.update k.thr a
            ({ k.thr a with timer := arg }.set_f_timeout false) }
    else if func = SV_LOCK then
      if k.mem arg ≠ 0 then
        return_to_main
          { k with
            thr := Function.update k.thr a
              { (k.thr a).set_f_semaphore true with data := arg } } a
      else
        return_to_thread_no_timeout { k with mem := Function.update k.mem arg 1 } a
    else
      return_to_thread_no_timeout k a

/-- The end of `kernel_call`, reached when the thread is executed again
(threads.c lines 326-331): `if(_thrp == NULL) return FALSE;
if(_thrp->f_timeout) return FALSE; return TRUE;`. -/
def kernel_call_resume (k : kernel) : Bool :=
  match k._thrp with
  | none => false
  | some a => !(k.thr a).f_timeout

/-! ## Support operations (chronos.c) -/

/-- The priorities in the order of `for(prio = MAX_PRIO-1; prio >= 0; prio--)`. -/
def levels_down : List Nat := (List.range MAX_PRIO).reverse

/-- The priorities in the order of `for(i=0; i<MAX_PRIO; i++)`. -/
def levels_up : List Nat := List.range MAX_PRIO

/-- The word `flags & (~MASK_WAIT)` stored back into the 16-bit `flags`. -/
def clear_wait_mask (w : Nat) : Nat := (w &&& (0xFFFFFFFF ^^^ MASK_WAIT)) % 2 ^ 16

/-- Body of `thread_terminate(th)` on the record of `th`:
`th->flags = (th->flags & (~MASK_WAIT)) | MASK_TERMINATE;`. -/
def terminate_thread (t : thread_t) : thread_t :=
  { t with flags := (clear_wait_mask t.flags ||| MASK_TERMINATE) % 2 ^ 16 }

/-- The function `thread_terminate(th)`. -/
def thread_terminate (th : Nat) (k : kernel) : kernel :=
  { k with thr := Function.update k.thr th (terminate_thread (k.thr th)), ie := true }

/-- The function `thread_suspend(th)`: `th->f_suspend = TRUE`. -/
def thread_suspend (th : Nat) (k : kernel) : kernel :=
  { k with thr := Function.update k.thr th ((k.thr th).set_f_suspend true), ie := true }

/-- The function `thread_release(th)`: `th->f_suspend = FALSE`. -/
def thread_release (th : Nat) (k : kernel) : kernel :=
  { k with thr := Function.update k.thr th ((k.thr th).set_f_suspend false), ie := true }

/-- The statements `p->f_waiting = FALSE; if(!p->f_time_pending) p->timer = 0;`
(and the same with `f_semaphore`), after the flag has been cleared. -/
def cancel_timer (t : thread_t) : thread_t :=
  if !t.f_time_pending then { t with timer := 0 } else t

/-- Body of the inner loop of `thread_signal(ptr)` on one record. -/
def signal_thread (ptr : Nat) (t : thread_t) : thread_t :=
  if t.f_waiting then
    if t.data = ptr then cancel_timer (t.set_f_waiting false) else t
  else t

/-- The function `thread_signal(ptr)`. -/
def thread_signal (ptr : Nat) (k : kernel) : kernel :=
  { k with
    thr := levels_down.foldl (fun h i => heap_apply (signal_thread ptr) (k._threads i) h) k.thr
    ie := true }

/-- Body of `thread_force(th)` on the record of `th`. -/
def force_thread (t : thread_t) : thread_t :=
  if t.f_waiting then cancel_timer ((t.set_f_waiting false).set_f_timeout true) else t

/-- The function `thread_force(th)`. -/
def thread_force (th : Nat) (k : kernel) : kernel :=
  { k with thr := Function.update k.thr th (force_thread (k.thr th)), ie := true }

/-- The test of the inner loop of `thread_unlock(ptr)`:
`if(p->f_semaphore) if(p->data == (word_t)ptr)`. -/
def unlock_match (ptr : Nat) (t : thread_t) : Bool :=
  t.f_semaphore && (t.data == ptr)

/-- The search loop of `thread_unlock(ptr)` with `n` levels still to visit: the
thread at which the loop returns, if any. -/
def unlock_find (ptr : Nat) (k : kernel) : Nat → Option Nat
  | 0 => none
  | n + 1 =>
    match (k._threads n).find? (fun a => unlock_match ptr (k.thr a)) with
    | some a => some a
    | none => unlock_find ptr k n

/-- The function `thread_unlock(ptr)`. -/
def thread_unlock (ptr : Nat) (k : kernel) : kernel :=
  if k.mem ptr = 0 then
    { k with ie := true }
  else
    match unlock_find ptr k MAX_PRIO with
    | some a =>
      { k with
        thr := Function.update k.thr a (cancel_timer ((k.thr a).set_f_semaphore false))
        ie := true }
    | none => { k with mem := Function.update k.mem ptr 0, ie := true }

/-! ## System tick (chronos.c lines 457-499) -/

/-- Body of the callback loop of `os_tick`: `if(c->timer) c->timer--;`. -/
def tick_callback (c : callback_t) : callback_t :=
  if c.timer ≠ 0 then { c with timer := c.timer - 1 } else c

/-- Body of the thread loop of `os_tick` on one record. -/
def tick_thread (p : thread_t) : thread_t :=
  if p.timer ≠ 0 then
    let p1 : thread_t := { p with timer := p.timer - 1 }
    if p1.timer = 0 then
      let p2 : thread_t :=
        if p1.flags &&& MASK_TIMEOUT ≠ 0 then
          ({ p1 with flags := clear_wait_mask p1.flags }).set_f_timeout true
        else p1
      p2.set_f_time_pending false
    else p1
  else p

/-- The interrupt handler `os_tick()`. -/
def os_tick (k : kernel) : kernel :=
  { k with
    ticks := (k.ticks + 1) % 2 ^ 32
    cbk := heap_apply tick_callback k._callbacks k.cbk
    thr := levels_up.foldl (fun h i => heap_apply tick_thread (k._threads i) h) k.thr }

/-! ## Thread table and reference definitions used by the statements -/

/-- All members of the thread table, level after level. -/
def all_threads (k : kernel) : List Nat := levels_up.flatMap k._threads

/-- A thread record is linked into the thread table at most once: the data model
of intrusive lists, a record having a single `list` link. -/
def table_wf (k : kernel) : Prop := (all_threads k).Nodup

instance (k : kernel) : Decidable (table_wf k) := by
  unfold table_wf
  infer_instance

/-- The five bits `nice`, `time_pending`, `waiting`, `semaphore` and `suspend` of a
record are all zero. -/
def five_bits_zero (t : thread_t) : Bool :=
  !t.f_nice && !t.f_time_pending && !t.f_waiting && !t.f_semaphore && !t.f_suspend

/-- Runnable, as the strict-priority statement uses the word: the bits
`time_pending`, `waiting`, `semaphore` and `suspend` are all clear. -/
def runnable (t : thread_t) : Bool :=
  !t.f_time_pending && !t.f_waiting && !t.f_semaphore && !t.f_suspend

/-- Reference definition of thread selection, following the specification: among
the levels `n - 1` down to `0`, the first thread, in collection order, of the
highest level that contains a thread whose five bits are all zero; `none` when no
level contains one. -/
def spec_select (k : kernel) : Nat → Option Nat
  | 0 => none
  | n + 1 =>
    match (k._threads n).find? (fun a => five_bits_zero (k.thr a)) with
    | some a => some a
    | none => spec_select k n

/-- The reference selection in words: `a` is the first thread, in collection
order, whose five bits are all zero, of the highest priority level that contains
such a thread. -/
def first_ready (k : kernel) (a : Nat) : Prop :=
  ∃ p pre post, p < MAX_PRIO ∧ k._threads p = pre ++ a :: post ∧
    five_bits_zero (k.thr a) = true ∧
    (∀ b, b ∈ pre → five_bits_zero (k.thr b) = false) ∧
    ∀ q, p < q → q < MAX_PRIO → ∀ b, b ∈ k._threads q → five_bits_zero (k.thr b) = false

/-- The strict-priority statement with "runnable" read as the four wait bits
being clear: when the pass dispatches a member `a` of level `p`, no member of a
level above `p` is runnable. -/
def strict_priority (k : kernel) : Prop :=
  ∀ a p, (scheduler_threads k)._thrp = some a → p < MAX_PRIO → a ∈ k._threads p →
    ∀ q, p < q → q < MAX_PRIO → ∀ b, b ∈ k._threads q → runnable (k.thr b) = false

/-! ## Runs -/

/-- What can happen to the kernel state between two points of a run: a timer
interrupt, a pass of the main loop through the thread selection, a kernel call of
the current thread, and the support operations. -/
inductive event where
  | tick
  | sched
  | call (func arg : Nat)
  | signal (id : Nat)
  | unlock (m : Nat)
  | force (th : Nat)
  | terminate (th : Nat)
  | suspend (th : Nat)
  | release (th : Nat)
deriving DecidableEq

/-- The state after one event. -/
def step : event → kernel → kernel
  | event.tick, k => os_tick k
  | event.sched, k => scheduler_threads k
  | event.call func arg, k => (kernel_call func arg k).1
  | event.signal id, k => thread_signal id k
  | event.unlock m, k => thread_unlock m k
  | event.force th, k => thread_force th k
  | event.terminate th, k => thread_terminate th k
  | event.suspend th, k => thread_suspend th k
  | event.release th, k => thread_release th k

/-- The state after a sequence of events. -/
def run : List event → kernel → kernel
  | [], k => k
  | e :: es, k => run es (step e k)

/-- Number of timer interrupts in a sequence of events. -/
def ticks_in : List event → Nat
  | [] => 0
  | event.tick :: es => ticks_in es + 1
  | _ :: es => ticks_in es

/-- The event `e`, occurring in state `k`, does not end a wait of thread `a`
abnormally: it is not the tick on which a timed wait or timed lock of `a`
expires, and it is neither `thread_force(a)` nor `thread_terminate(a)`. -/
def spares (a : Nat) (k : kernel) : event → Prop
  | event.tick => ¬ ((k.thr a).timer = 1 ∧ (k.thr a).flags &&& MASK_TIMEOUT ≠ 0)
  | event.force th => th ≠ a
  | event.terminate th => th ≠ a
  | _ => True

/-- The event `e`, occurring in state `k`, is a tick, a scheduler pass, a kernel
call, or a signal, unlock, force, terminate, suspend or release that does not
touch the record of thread `a`. -/
def quiet (a : Nat) (k : kernel) : event → Prop
  | event.tick => True
  | event.sched => True
  | event.call _ _ => True
  | e => (step e k).thr a = k.thr a

/-- The events `es`, starting in state `k`, all happen while thread `a` is not
the current thread, and each satisfies `P` in the state where it happens. -/
def away (a : Nat) (P : kernel → event → Prop) : kernel → List event → Prop
  | _, [] => True
  | k, e :: es => k._thrp ≠ some a ∧ P k e ∧ away a P (step e k) es

/-- The event `e`, occurring in state `k` while thread `a` is running its own
code between two kernel calls: a timer interrupt, or a signal, unlock, force,
terminate, suspend or release that does not touch the record of `a`. It is not
a scheduler pass (the scheduler runs in the main thread) and not a kernel call
(`a` is the running thread and makes none). -/
def interrupting (a : Nat) (k : kernel) : event → Prop
  | event.tick => True
  | event.sched => False
  | event.call _ _ => False
  | e => (step e k).thr a = k.thr a

/-- The events `es`, starting in state `k`, are all `interrupting` for `a` in the
state where they happen. -/
def during (a : Nat) : kernel → List event → Prop
  | _, [] => True
  | k, e :: es => interrupting a k e ∧ during a (step e k) es

/-- The calls `thread_set_timeout(n); thread_wait(id);` of the current thread, up
to the switch to the main thread. `SV_SETTIMEOUT` returns to the thread through
`enable()` (threads.c lines 308-310), so interrupts are served between the two
calls: `between` is the sequence of events that happen after the first call has
returned and before the second call is made. -/
def timed_wait (n id : Nat) (between : List event) (k : kernel) : kernel :=
  (kernel_call SV_WAIT id (run between (kernel_call SV_SETTIMEOUT n k).1)).1

/-- The event `e`, occurring in state `k`, leaves thread `a` blocked: it is quiet
for `a` and it is not the expiry of a timed wait or lock of `a`. -/
def idle (a : Nat) (k : kernel) (e : event) : Prop :=
  quiet a k e ∧ spares a k e

instance (a : Nat) (k : kernel) (e : event) : Decidable (spares a k e) := by
  cases e <;> unfold spares <;> infer_instance

instance (a : Nat) (k : kernel) (e : event) : Decidable (quiet a k e) := by
  cases e <;> unfold quiet <;> infer_instance

instance (a : Nat) (k : kernel) (e : event) : Decidable (idle a k e) := by
  unfold idle
  infer_instance

instance (a : Nat) (k : kernel) (e : event) : Decidable (interrupting a k e) := by
  cases e <;> unfold interrupting <;> infer_instance

/-- Deciding `during`. -/
def during_decidable (a : Nat) : (es : List event) → (k : kernel) → Decidable (during a k es)
  | [], _ => isTrue trivial
  | e :: es, k =>
    have := during_decidable a es (step e k)
    inferInstanceAs (Decidable (interrupting a k e ∧ during a (step e k) es))

instance (a : Nat) (k : kernel) (es : List event) : Decidable (during a k es) :=
  during_decidable a es k

/-- Deciding `away` for a decidable condition on the events. -/
def away_decidable (a : Nat) (P : kernel → event → Prop) [∀ k e, Decidable (P k e)] :
    (es : List event) → (k : kernel) → Decidable (away a P k es)
  | [], _ => isTrue trivial
  | e :: es, k =>
    have := away_decidable a P es (step e k)
    inferInstanceAs (Decidable (k._thrp ≠ some a ∧ P k e ∧ away a P (step e k) es))

instance (a : Nat) (P : kernel → event → Prop) [∀ k e, Decidable (P k e)] (k : kernel)
    (es : List event) : Decidable (away a P k es) :=
  away_decidable a P es k

/-! ## Concrete states -/

/-- A record with the given flags word, data and timer. -/
def mk_thread (flags data timer : Nat) : thread_t :=
  { flags := flags, data := data, sp0 := 0, sp := 0, timer := timer }

/-- A state with the given thread heap, thread table, current thread and byte
memory, and nothing else. -/
def mk_kernel (thr : Nat → thread_t) (threads : Nat → List Nat) (cur : Option Nat)
    (mem : Nat → Nat) : kernel :=
  { thr := thr, cbk := fun _ => { function := 0, param := 0, timer := 0 },
    _threads := threads, _callbacks := [], _thrp := cur, ticks := 0, mem := mem,
    ie := true, sp_reg := 0, _main_sp := 0, _new_sp := 0, _old_sp := 0 }

/-- Thread 1 at priority 2 has yielded (`nice` set, flags `0x201`) and waits for
nothing; thread 2 at priority 1 is ready (flags `0x100`). -/
def ex_yielded_above : kernel :=
  mk_kernel (fun a => if a = 1 then mk_thread 0x201 0 0 else mk_thread 0x100 0 0)
    (fun i => if i = 2 then [1] else if i = 1 then [2] else []) none (fun _ => 0)

/-- One turn of the main loop `for(;;) { scheduler(); }` in which the thread that
the pass dispatches immediately calls `thread_yield()`. -/
def yield_pass (k : kernel) : kernel :=
  match (scheduler_threads k)._thrp with
  | some _ => (kernel_call SV_YIELD 0 (scheduler_threads k)).1
  | none => scheduler_threads k

/-- The states of a round at level `L` of the table `tbl`: the members `pre` of
the level have run and yielded in this round, the members `post` have all five
bits zero, and no member of another level is runnable. -/
def round_state (tbl : Nat → List Nat) (L : Nat) (pre post : List Nat) (k : kernel) : Prop :=
  k._threads = tbl ∧
  (∀ a, a ∈ pre → runnable (k.thr a) = true ∧ (k.thr a).f_nice = true) ∧
  (∀ a, a ∈ post → five_bits_zero (k.thr a) = true) ∧
  (∀ q, q < MAX_PRIO → q ≠ L → ∀ b, b ∈ tbl q → runnable (k.thr b) = false)

/-- Three threads 1, 2, 3 at priority 0 with all flag bits zero and nothing else
in the table. -/
def ex_three_ready : kernel :=
  mk_kernel (fun _ => mk_thread 0 0 0) (fun i => if i = 0 then [1, 2, 3] else []) none
    (fun _ => 0)

/-- Reference for the hand-off of `thread_unlock(m)`, following the
specification: `a` is the first thread, in collection order, with `semaphore`
set and `data == m`, of the highest priority level that has such a thread. -/
def first_waiter (k : kernel) (m a : Nat) : Prop :=
  ∃ p pre post, p < MAX_PRIO ∧ k._threads p = pre ++ a :: post ∧
    ((k.thr a).f_semaphore = true ∧ (k.thr a).data = m) ∧
    (∀ b, b ∈ pre → ¬ ((k.thr b).f_semaphore = true ∧ (k.thr b).data = m)) ∧
    ∀ q, p < q → q < MAX_PRIO → ∀ b, b ∈ k._threads q →
      ¬ ((k.thr b).f_semaphore = true ∧ (k.thr b).data = m)

/-- Threads 1 (priority 1) and 2, 3 (priority 0); 1 and 3 wait for signal 7
(flags `0x104`, `0x004`), 2 waits for signal 8. -/
def ex_waiters : kernel :=
  mk_kernel
    (fun a => if a = 1 then mk_thread 0x104 7 5 else if a = 2 then mk_thread 0x004 8 0
      else mk_thread 0x004 7 0)
    (fun i => if i = 1 then [1] else if i = 0 then [2, 3] else []) none (fun _ => 0)

/-- Threads 1 (priority 2, running), 2 (priority 1) and 3 (priority 0); 2 and 3
are blocked on the mutex at address 40 (flags `0x108`, `0x008`), which is held. -/
def ex_mutex_held : kernel :=
  mk_kernel
    (fun a => if a = 1 then mk_thread 0x200 0 0 else if a = 2 then mk_thread 0x108 40 0
      else mk_thread 0x008 40 0)
    (fun i => if i = 2 then [1] else if i = 1 then [2] else if i = 0 then [3] else [])
    (some 1) (fun x => if x = 40 then 1 else 0)

/-- A single thread, 1, at priority 0 with all flags zero, which is the current
thread. -/
def ex_single : kernel :=
  mk_kernel (fun _ => mk_thread 0 0 0) (fun i => if i = 0 then [1] else []) (some 1)
    (fun _ => 0)

/-- The state in which thread 1 of `ex_single` runs again after
`thread_set_timeout(1); thread_wait(9);` has timed out: SETTIMEOUT, WAIT, one
tick, one scheduler pass. -/
def ex_timed_out : kernel :=
  run [event.call SV_SETTIMEOUT 1, event.call SV_WAIT 9, event.tick, event.sched] ex_single

/-- Threads 1 (priority 1) and 2 (priority 0), both with all flags zero; thread
2 is the current thread and the mutex at address 40 is held (by thread 1). -/
def ex_two_threads : kernel :=
  mk_kernel (fun _ => mk_thread 0 0 0) (fun i => if i = 1 then [1] else if i = 0 then [2] else [])
    (some 2) (fun x => if x = 40 then 1 else 0)

/-- The state `ex_two_threads` before thread 1 took the mutex: thread 1 is the
current thread and the mutex at address 40 is free. -/
def ex_mutex_free : kernel :=
  mk_kernel (fun _ => mk_thread 0 0 0) (fun i => if i = 1 then [1] else if i = 0 then [2] else [])
    (some 1) (fun _ => 0)

/-! ## Second-sitting definitions: termination query -/

/-- The function `thread_not_terminated()` (chronos.c lines 391-397):
`if(_thrp == NULL) return TRUE; return (bool_t)!_thrp->f_terminate;`. -/
def thread_not_terminated (k : kernel) : Bool :=
  match k._thrp with
  | none => true
  | some a => !(k.thr a).f_terminate

/-- Any event may happen: the condition on runs that only asks the thread to be
away. -/
def any_event (_ : kernel) (_ : event) : Prop := True

instance (k : kernel) (e : event) : Decidable (any_event k e) := by
  unfold any_event
  infer_instance

/-- Thread 1 at priority 0, not the current thread, already suspended by an
earlier `thread_suspend` (flags `0x010`). -/
def ex_suspended : kernel :=
  mk_kernel (fun _ => mk_thread 0x010 0 0) (fun i => if i = 0 then [1] else []) none
    (fun _ => 0)

/-- Thread 1 at priority 1 waits for signal 9 with a deadline of 5 ticks (flags
`0x104`); it is not current. -/
def ex_waiting : kernel :=
  mk_kernel (fun _ => mk_thread 0x104 9 5) (fun i => if i = 1 then [1] else []) none
    (fun _ => 0)

/-! ## Callbacks (chronos.c lines 256-330, threads.c lines 169-187)

`malloc` is outside the repository: the address it returns, or `none` when it
fails, is an argument of the operations that call it. A function pointer is an
address; `NULL` is 0. -/

/-- The function `callback_fire(fn, par, time)`, with `alloc` the result of
`malloc(sizeof(callback_t))`. -/
def callback_fire (fn par time : Nat) (alloc : Option Nat) (k : kernel) : kernel :=
  if fn = 0 then k
  else
    match alloc with
    | none => k
    | some novo =>
      { k with
        cbk := Function.update k.cbk novo { function := fn, param := par, timer := time }
        _callbacks := k._callbacks ++ [novo]
        ie := true }

/-- The function `callback_refire(fn, par, time)`, with `alloc` the result of
`malloc(sizeof(callback_t))` should the search find nothing. -/
def callback_refire (fn par time : Nat) (alloc : Option Nat) (k : kernel) : kernel :=
  if fn = 0 then k
  else
    match k._callbacks.find? (fun p => (k.cbk p).function == fn) with
    | some p =>
      { k with
        cbk := Function.update k.cbk p { k.cbk p with timer := time, param := par }
        ie := true }
    | none =>
      match alloc with
      | none => { k with ie := false }
      | some p =>
        { k with
          cbk := Function.update k.cbk p { function := fn, param := par, timer := time }
          _callbacks := k._callbacks ++ [p]
          ie := true }

/-- One invocation of a callback by the scheduler: the record, the function and
the parameter it was called with. -/
structure invocation where
  /-- Address of the callback record. -/
  cb : Nat
  /-- The function called, `cb->function`. -/
  function : Nat
  /-- The argument passed, `cb->param`. -/
  param : Nat
deriving DecidableEq

/-- Part 1 of `scheduler()` ("Execute callbacks"), from the label `tenta:`. The
state transformer `code fn param` is all that happens between `enable()` and
`disable()` around the call `c(cb->param)`: the user code behind the function
pointer `fn`, and the interrupts served while it runs. Each unit of fuel pays
for one traversal from `tenta:`; the invocations are appended to `log`. -/
def scheduler_callbacks (code : Nat → Nat → kernel → kernel) :
    Nat → kernel → List invocation → Option (kernel × List invocation)
  | 0, _, _ => none
  | fuel + 1, k, log =>
    match k._callbacks.find? (fun cb => (k.cbk cb).timer == 0) with
    | some cb =>
      let k1 := code (k.cbk cb).function (k.cbk cb).param { k with ie := true }
      scheduler_callbacks code fuel
        { k1 with ie := false, _callbacks := k1._callbacks.erase cb }
        (log ++ [{ cb := cb, function := (k.cbk cb).function, param := (k.cbk cb).param }])
    | none => some (k, log)

/-- The function `scheduler()`: part 1, then the thread selection and dispatch. -/
def scheduler (code : Nat → Nat → kernel → kernel) (fuel : Nat) (k : kernel) :
    Option (kernel × List invocation) :=
  match scheduler_callbacks code fuel { k with ie := false } [] with
  | some (k1, log) => some (scheduler_threads k1, log)
  | none => none

/-- Two pending callbacks: record 10 calls function 77 with parameter 1 in 3
ticks, record 11 calls function 88 with parameter 2 at the next pass. -/
def ex_callbacks : kernel :=
  { mk_kernel (fun _ => mk_thread 0 0 0) (fun _ => []) none (fun _ => 0) with
    cbk := fun a =>
      if a = 10 then { function := 77, param := 1, timer := 3 }
      else { function := 88, param := 2, timer := 0 }
    _callbacks := [10, 11] }

/-- What happens between a `callback_fire` and the pass that runs the callback:
a timer interrupt served outside the scheduler, or one call of `scheduler()` by
the main loop. -/
inductive cb_event where
  | tick
  | pass
deriving DecidableEq

/-- The invocation of the callback record `cb` of state `k`. -/
def invocation_of (k : kernel) (cb : Nat) : invocation :=
  { cb := cb, function := (k.cbk cb).function, param := (k.cbk cb).param }

/-- The callback functions do not themselves modify the callback collection, and
`irq fn param s` timer interrupts are served while the function `fn` runs from
state `s` with interrupts enabled: after the call the collection is the same
sequence, and the records are those that `irq fn param s` runs of `os_tick`
leave. -/
def callback_env (code : Nat → Nat → kernel → kernel) (irq : Nat → Nat → kernel → Nat) :
    Prop :=
  ∀ f p s, (code f p s)._callbacks = s._callbacks ∧
    (code f p s).cbk = (os_tick^[irq f p s] s).cbk

/-- The state in which the scheduler is back at the label `tenta:` after the
invocation `i` made from state `s`: `enable(); c(cb->param); disable();
free(cb); list_remove(&_callbacks, cb);`. -/
def after_call (code : Nat → Nat → kernel → kernel) (s : kernel) (i : invocation) : kernel :=
  { code i.function i.param { s with ie := true } with
    ie := false
    _callbacks := (code i.function i.param { s with ie := true })._callbacks.erase i.cb }

/-- The state after the invocations `fired`, made one after the other from `s`. -/
def after_calls (code : Nat → Nat → kernel → kernel) (fired : List invocation)
    (s : kernel) : kernel :=
  fired.foldl (after_call code) s

/-- The number of timer interrupts served during the invocations `fired`, made
one after the other from `s`. -/
def calls_ticks (code : Nat → Nat → kernel → kernel) (irq : Nat → Nat → kernel → Nat) :
    List invocation → kernel → Nat
  | [], _ => 0
  | i :: fired, s =>
    irq i.function i.param { s with ie := true } + calls_ticks code irq fired (after_call code s i)

/-- The invocations `fired` are those of part 1 of the scheduler from state `s`:
each is the invocation of the first record of the collection whose timer is 0
in the state where it is made, and after the last one no record has timer 0. -/
def due_trace (code : Nat → Nat → kernel → kernel) : kernel → List invocation → Prop
  | s, [] => s._callbacks.find? (fun cb => (s.cbk cb).timer == 0) = none
  | s, i :: fired =>
    s._callbacks.find? (fun cb => (s.cbk cb).timer == 0) = some i.cb ∧
      i = invocation_of s i.cb ∧ due_trace code (after_call code s i) fired

/-- The state, the invocations and the number of timer interrupts served so far
(inside and outside the scheduler) after a sequence of ticks and scheduler
passes; a pass is given the fuel `length + 1`, which is enough for it to
return. -/
def cb_run (code : Nat → Nat → kernel → kernel) (irq : Nat → Nat → kernel → Nat) :
    List cb_event → kernel → List invocation → Nat → Option (kernel × List invocation × Nat)
  | [], k, log, n => some (k, log, n)
  | cb_event.tick :: es, k, log, n => cb_run code irq es (os_tick k) log (n + 1)
  | cb_event.pass :: es, k, log, n =>
    match scheduler code (k._callbacks.length + 1) k with
    | some (k1, fired) =>
      cb_run code irq es k1 (log ++ fired)
        (n + calls_ticks code irq fired { k with ie := false })
    | none => none

/-- The record `x`, fired as `f(p)` with delay `t`, is pending `n` ticks after
the call: it is in the collection once, with `t - n` ticks left, and has not
been invoked. -/
def cb_pending (x f p t : Nat) (k : kernel) (log : List invocation) (n : Nat) : Prop :=
  k._callbacks.count x = 1 ∧ k.cbk x = { function := f, param := p, timer := t - n } ∧
    ∀ i, i ∈ log → i.cb ≠ x

/-- The record `x`, fired as `f(p)` with delay `t`, is done `n` ticks after the
call: at least `t` ticks have gone by, the record has been invoked exactly
once, as `f(p)`, and it is no longer in the collection. -/
def cb_done (x f p t : Nat) (k : kernel) (log : List invocation) (n : Nat) : Prop :=
  t ≤ n ∧ x ∉ k._callbacks ∧ (log.map invocation.cb).count x = 1 ∧
    ∀ i, i ∈ log → i.cb = x → i = { cb := x, function := f, param := p }

/-- What happens around the callback functions in the examples: the function
stores its own address at the address given as its parameter, and one timer
interrupt is served while function 88 runs. -/
def ex_code (f p : Nat) (k : kernel) : kernel :=
  if f = 88 then os_tick { k with mem := Function.update k.mem p f }
  else { k with mem := Function.update k.mem p f }

/-- The timer interrupts served during the callbacks of `ex_code`. -/
def ex_irq (f _ : Nat) (_ : kernel) : Nat := if f = 88 then 1 else 0

/-! ## `callback_cancel` on the linked records

`callback_cancel` hands `list_remove` the value of `_callbacks` (the address of
the first record) where `list_remove` expects the address of the cell that holds
the head pointer. What `list_remove` then reads and writes are fields of the
first record, so this function is embedded over the words of memory rather than
over the sequence of members. A memory is a map from byte addresses to 32-bit
words, `0` is `NULL`, and a record of type `callback_t` at address `p` has
`list.next` at `p`, `list.prev` at `p + 4`, `function` at `p + 8`, `param` at
`p + 12` and `timer` at `p + 16`. -/

/-- The function `list_remove(list, item)` of list.c, word for word; `m list` is
`*lst`, `m item` is `item->next` and `m (item + 4)` is `item->prev`. -/
def list_remove (m : Nat → Nat) (list item : Nat) : Nat → Nat :=
  if item = 0 then m
  else if m list = 0 then m
  else
    let p := m item
    let q := m (item + 4)
    if m list = item then
      let m1 := Function.update m list p
      if p ≠ 0 then Function.update m1 (p + 4) q else m1
    else
      let m1 := if p ≠ 0 then Function.update m (p + 4) q
        else Function.update m (m list + 4) q
      if q ≠ 0 then Function.update m1 q p else m1

/-- The records met by `list_for_each` from `p` on, at most `fuel` of them. -/
def list_from (m : Nat → Nat) : Nat → Nat → List Nat
  | 0, _ => []
  | fuel + 1, p => if p = 0 then [] else p :: list_from m fuel (m p)

/-- The loop of `callback_cancel(fn)` from the moment `list_for_each` examines
`p`; `g` is the address of the global `_callbacks`. A matching record is handed
to `list_remove(_callbacks, p)` and the search starts again from the head
(`goto tenta`); falling out of the loop returns the memory. Every examined
record costs one unit of fuel, `none` is fuel exhausted. The record keeps its
contents across `free(p)`. -/
def callback_cancel_loop (g fn : Nat) : Nat → (Nat → Nat) → Nat → Option (Nat → Nat)
  | 0, _, _ => none
  | fuel + 1, m, p =>
    if p = 0 then some m
    else if m (p + 8) = fn then
      callback_cancel_loop g fn fuel (list_remove m (m g) p) (list_remove m (m g) p g)
    else callback_cancel_loop g fn fuel m (m p)

/-- The function `callback_cancel(fn)` of chronos.c over the memory `m`, with
the global `_callbacks` at address `g`. -/
def callback_cancel (g fn fuel : Nat) (m : Nat → Nat) : Option (Nat → Nat) :=
  if fn = 0 then some m else callback_cancel_loop g fn fuel m (m g)

/-- The memory after `callback_fire(77, 1, 5)` on an empty collection, with
`_callbacks` at address 100 and the new record at address 200: `list_add` has
made the record the head, with `next` and `prev` both `NULL`. -/
def ex_cancel_mem : Nat → Nat :=
  fun x => if x = 100 then 200 else if x = 208 then 77 else if x = 212 then 1
    else if x = 216 then 5 else 0

/-! ## `thread_priority` and `os_count_ready` -/

/-- The value of a `char` that holds the byte `b`. chronos.h defines `uint8_t`
as plain `char`, whose signedness is the compiler's choice: `char_signed` is
`true` for the C32 compiler for PIC32 that timer.h names, where the bytes from
128 on are the negative values. -/
def char_value (char_signed : Bool) (b : Nat) : Int :=
  if char_signed = true ∧ 128 ≤ b % 256 then (b % 256 : Int) - 256 else (b % 256 : Int)

/-- The store `p->prio = v` into the bit field `unsigned prio:3` (bits 8 to 10
of the flags word): the low three bits of `v` are kept. -/
def thread_t.set_prio (t : thread_t) (v : Int) : thread_t :=
  { t with flags :=
      bit_assign (bit_assign (bit_assign t.flags 8 ((v % 8).toNat.testBit 0))
        9 ((v % 8).toNat.testBit 1)) 10 ((v % 8).toNat.testBit 2) }

/-- The function `thread_priority(prio)` of chronos.c; `arg` is the byte passed
for the `char` parameter. The comparisons are made on `int`, after the usual
promotions. The result is `none` when one of the two indices into
`_threads[MAX_PRIO]` lies outside the array. -/
def thread_priority (char_signed : Bool) (arg : Nat) (k : kernel) : Option kernel :=
  match k._thrp with
  | none => some k
  | some a =>
    let prio0 := char_value char_signed arg
    let prio1 : Int := if prio0 > ( MAX_PRIO : Int) - 1 then ( MAX_PRIO : Int) - 1 else prio0
    if ((k.thr a).prio : Int) = prio1 then some k
    else
      let old := (k.thr a).prio
      let thr1 := Function.update k.thr a ((k.thr a).set_prio prio1)
      if old < MAX_PRIO ∧ 0 ≤ prio1 ∧ prio1 < ( MAX_PRIO : Int) then
        let t1 := Function.update k._threads old ((k._threads old).erase a)
        some { k with
          thr := thr1
          _threads := Function.update t1 prio1.toNat (t1 prio1.toNat ++ [a])
          ie := true }
      else none

/-- The operator `&&` of C on two integers. -/
def logical_and (a b : Nat) : Nat := if a ≠ 0 ∧ b ≠ 0 then 1 else 0

/-- The flags words of the records that `list_for_each(_threads, p)` visits in
`os_count_ready`. The loop starts at the array `_threads` itself, read as a
record: its `list.next` is the word `_threads[0]`, and its `flags` the low half
of the word at offset 8, `_threads[2]` (32-bit pointers, little endian). From
there it walks the members of level 0. -/
def os_count_ready_visited (k : kernel) : List Nat :=
  ((k._threads 2).headD 0 % 2 ^ 16) :: (k._threads 0).map (fun a => (k.thr a).flags)

/-- The function `os_count_ready()` of chronos.c: for each `i < MAX_PRIO` the
same loop `list_for_each(_threads, p)`, counting the records with
`(p->flags && MASK_WAIT) == 0`; the count is returned as `uint16_t`. -/
def os_count_ready (k : kernel) : Nat :=
  ((List.range MAX_PRIO).foldl
    (fun n _ => (os_count_ready_visited k).foldl
      (fun n w => if logical_and w MASK_WAIT = 0 then n + 1 else n) n) 0) % 2 ^ 16

/-- Reference for `os_count_ready`, after the specification: the number of
threads, over all priority levels, whose wait-mask bits are all clear. -/
def ready_count (k : kernel) : Nat :=
  ((all_threads k).filter (fun a => (k.thr a).flags &&& MASK_WAIT == 0)).length

/-! ## Creation and removal of threads (threads.c lines 110-154, chronos.c)

`malloc` is outside the repository: the address it returns, `none` when it
fails, is an argument of `thread_create`. The stack region lives in the byte
memory, the record in the heap of thread records. -/

/-- The function `kernel_init(pclock)`: the table, the callback collection, the
current thread and `ticks` are cleared; the records and the rest of the machine
state are what they were (the timer programming is not part of the state). -/
def kernel_init (k : kernel) : kernel :=
  { k with _threads := fun _ => [], _callbacks := [], _thrp := none, ticks := 0 }

/-- The call `memset(s, c, n)` on the byte memory. -/
def memset (m : Nat → Nat) (s c n : Nat) : Nat → Nat :=
  fun x => if s ≤ x ∧ x < s + n then c else m x

/-- The statement `sp--` on a 32-bit pointer to bytes. -/
def ptr_dec (a : Nat) : Nat := (a + 2 ^ 32 - 1) % 2 ^ 32

/-- Byte `addr.b[i]` of the union `_uint32_t` that holds the word `w` (little
endian, as on the PIC32). -/
def byte_of (w i : Nat) : Nat := (w >>> (8 * i)) % 256

/-- The word that `lw` loads from the byte address `a` (little endian). -/
def load_word (m : Nat → Nat) (a : Nat) : Nat :=
  m a + 256 * m (a + 1) + 256 ^ 2 * m (a + 2) + 256 ^ 3 * m (a + 3)

/-- The stack pointer that `thread_create` computes from the start `sp0` of the
region: `stack_size &= 0xfffc; sp = sp + stack_size;
sp = (byte_t*)((uint32_t)sp & 0xfffffffc);`. -/
def initial_sp (sp0 stack_size : Nat) : Nat :=
  ((sp0 + ((stack_size % 2 ^ 16) &&& 0xfffc)) % 2 ^ 32) &&& 0xfffffffc

/-- The four stores `*sp-- = addr.b[3]; ... *sp-- = addr.b[0];` after the first
`sp--`, with `addr.d = (uint32_t)thr`. -/
def store_entry (m : Nat → Nat) (sp entry : Nat) : Nat → Nat :=
  let a3 := ptr_dec sp
  let a2 := ptr_dec a3
  let a1 := ptr_dec a2
  let a0 := ptr_dec a1
  Function.update (Function.update (Function.update (Function.update m
    a3 (byte_of (entry % 2 ^ 32) 3)) a2 (byte_of (entry % 2 ^ 32) 2))
    a1 (byte_of (entry % 2 ^ 32) 1)) a0 (byte_of (entry % 2 ^ 32) 0)

/-- The function `thread_create(thr, stack_size)`: `alloc_p` is the result of
`malloc(sizeof(thread_t))`, `alloc_sp` that of `malloc(stack_size + 4)`. The
result is the new state and the returned pointer. Of the record only `sp0`,
`sp` and `flags` are written: `data` and `timer` keep what the block held. -/
def thread_create (entry stack_size : Nat) (alloc_p alloc_sp : Option Nat) (k : kernel) :
    kernel × Option Nat :=
  match alloc_p with
  | none => (k, none)
  | some p =>
    match alloc_sp with
    | none => (k, none)
    | some sp0 =>
      let m1 := memset k.mem sp0 0 (stack_size % 2 ^ 16 + 4)
      let sp := initial_sp sp0 stack_size
      ({ k with
          mem := store_entry m1 sp entry
          thr := Function.update k.thr p { k.thr p with sp0 := sp0, sp := sp, flags := 0 }
          _threads := Function.update k._threads 0 (k._threads 0 ++ [p])
          ie := true },
       some p)

/-- The function `thread_kill(th)`: `prio = th->prio;
list_remove(&_threads[prio], th);` between `disable()` and `enable()`; the two
calls of `free` hand the blocks back to the allocator. -/
def thread_kill (th : Nat) (k : kernel) : kernel :=
  { k with
    _threads := Function.update k._threads (k.thr th).prio
      ((k._threads (k.thr th).prio).erase th)
    ie := true }

/-- The function `os_count_threads()`: the sum over the levels of
`list_length(_threads[i])`, each a `uint16_t`, returned as `uint16_t`. -/
def os_count_threads (k : kernel) : Nat :=
  (levels_up.foldl (fun n i => n + (k._threads i).length % 2 ^ 16) 0) % 2 ^ 16

/-- The function `thread_is_running(th)`: `list_contains(_threads[i], th)` for
some level. -/
def thread_is_running (th : Nat) (k : kernel) : Bool :=
  levels_up.any (fun i => decide (th ∈ k._threads i))

/-! ## Runs of the public operations

The states reachable from `kernel_init`: a run is a sequence of public
operations and timer interrupts. The callbacks that part 1 of `scheduler()`
invokes act on the threads through the public operations, which stand in the
run as operations of their own; `callback_cancel` acts on callback records
only. -/

/-- The public operations: the events of `event` (timer interrupt, scheduler
pass, `kernel_call` and the support operations of one argument), and
`thread_create`, `thread_kill`, `thread_priority`, `callback_fire`,
`callback_refire` with the results of their calls of `malloc`. -/
inductive api where
  | ev (e : event)
  | create (entry stack_size : Nat) (alloc_p alloc_sp : Option Nat)
  | kill (th : Nat)
  | priority (arg : Nat)
  | fire (fn par time : Nat) (alloc : Option Nat)
  | refire (fn par time : Nat) (alloc : Option Nat)
deriving DecidableEq

/-- The state after one operation; `none` when `thread_priority` indexes
outside `_threads`. `cs` tells whether plain `char` is signed. -/
def api_step (cs : Bool) : api → kernel → Option kernel
  | api.ev e, k => some (step e k)
  | api.create entry stack_size alloc_p alloc_sp, k =>
    some (thread_create entry stack_size alloc_p alloc_sp k).1
  | api.kill th, k => some (thread_kill th k)
  | api.priority arg, k => thread_priority cs arg k
  | api.fire fn par time alloc, k => some (callback_fire fn par time alloc k)
  | api.refire fn par time alloc, k => some (callback_refire fn par time alloc k)

/-- What the environment owes an operation: the block that `malloc` returns for
a new record is not a record in use, and `thread_kill` is called on a thread
that is in the table and is not the current one. -/
def api_pre : api → kernel → Bool
  | api.create _ _ (some p) _, k => decide (p ∉ all_threads k)
  | api.kill th, k => decide (th ∈ all_threads k) && decide (k._thrp ≠ some th)
  | _, _ => true

/-- The live threads after one operation, `live` being those before: a
successful `thread_create` adds the new record, `thread_kill(th)` removes `th`
and `thread_end()` removes the calling thread. -/
def api_live : api → kernel → List Nat → List Nat
  | api.create _ _ (some p) (some _), _, live => live ++ [p]
  | api.kill th, _, live => live.erase th
  | api.ev (event.call func _), k, live =>
    if func = SV_END then
      match k._thrp with
      | some c => live.erase c
      | none => live
    else live
  | _, _, live => live

/-- The state and the live threads after a sequence of operations; `none` when
an operation is called outside `api_pre` or has no defined result. -/
def api_run (cs : Bool) : List api → kernel → List Nat → Option (kernel × List Nat)
  | [], k, live => some (k, live)
  | o :: os, k, live =>
    if api_pre o k then
      match api_step cs o k with
      | some k1 => api_run cs os k1 (api_live o k live)
      | none => none
    else none

/-- The run in which a thread is created, dispatched by the scheduler, and
calls `thread_sleep(0)`. -/
def ex_sleep_zero : List api :=
  [api.create 0x9D001234 64 (some 1) (some 0x1000), api.ev event.sched,
    api.ev (event.call SV_SLEEP 0)]

/-! ## Invariants of the reachable states -/

/-- How the flags word `w` of a record can have become `w2` through operations
other than a kernel call of the thread itself: no bit is set that was clear,
except suspend, timeout and terminate (bits 4, 6 and 7), and the priority field
(bits 8 to 10) is the same. -/
def evolves (w w2 : Nat) : Prop :=
  (∀ j, w2.testBit j = true → w.testBit j = true ∨ j = 4 ∨ j = 6 ∨ j = 7) ∧
  (∀ j, 8 ≤ j → j < 11 → w2.testBit j = w.testBit j)

/-- The membership invariant of the thread table: a record is linked at most
once, and every member of the collection of level `i` has priority `i`. -/
def table_inv (k : kernel) : Prop :=
  table_wf k ∧ ∀ i, i < MAX_PRIO → ∀ a, a ∈ k._threads i → (k.thr a).prio = i

/-- The live threads are the members of the table, each listed once, and the
current thread is one of them. -/
def live_inv (k : kernel) (live : List Nat) : Prop :=
  live.Nodup ∧ (∀ a, a ∈ live ↔ a ∈ all_threads k) ∧
  ∀ c, k._thrp = some c → c ∈ all_threads k

/-- The blocking-flag invariant: no member of the table has both waiting and
semaphore set, and the current thread has none of waiting, semaphore and
time_pending set. -/
def blocking_inv (k : kernel) : Prop :=
  (∀ a, a ∈ all_threads k →
    ¬ ((k.thr a).f_waiting = true ∧ (k.thr a).f_semaphore = true)) ∧
  ∀ c, k._thrp = some c →
    (k.thr c).f_waiting = false ∧ (k.thr c).f_semaphore = false ∧
      (k.thr c).f_time_pending = false

/-- A run from `kernel_init`: two threads are created, the first is dispatched,
raises its priority to 2, arms a deadline and waits for signal 9; the second is
dispatched, locks the mutex at 40 and ends; a timer interrupt follows, the
first thread is killed and a third thread is created. -/
def ex_api_run : List api :=
  [api.create 0x9D001234 64 (some 1) (some 0x1000),
    api.create 0x9D005678 64 (some 2) (some 0x2000), api.ev event.sched,
    api.priority 2, api.ev (event.call SV_SETTIMEOUT 5), api.ev (event.call SV_WAIT 9),
    api.ev event.sched, api.ev (event.call SV_LOCK 40), api.ev (event.call SV_END 0),
    api.ev event.tick, api.kill 1, api.create 0x9D009abc 128 (some 3) (some 0x3000)]

/-- The first eight operations of `ex_api_run`: thread 1 waits for signal 9 at
priority 2 and thread 2 is current, holding the mutex at 40. -/
def ex_blocking_run : List api := ex_api_run.take 8

/-! ## The linked lists of list.c on the words of memory

A node is the address `x` of a `list_item_t`: `next` is the word at `x`, `prev`
the word at `x + 4`. A list is the address `g` of the cell that holds the
pointer to its first node. -/

/-- The function `list_add(list, item)` of list.c, word for word. -/
def list_add (m : Nat → Nat) (list item : Nat) : Nat → Nat :=
  if m list = 0 then
    let m1 := Function.update m list item
    let m2 := Function.update m1 (m1 list) 0
    Function.update m2 (m2 list + 4) 0
  else
    let p := if m (m list + 4) = 0 then m list else m (m list + 4)
    let m1 := Function.update m (m list + 4) item
    let m2 := Function.update m1 (item + 4) p
    let m3 := Function.update m2 item 0
    Function.update m3 p item

/-- The function `list_push(list, item)` of list.c, word for word. -/
def list_push (m : Nat → Nat) (list item : Nat) : Nat → Nat :=
  if m list = 0 then
    let m1 := Function.update m list item
    let m2 := Function.update m1 (m1 list) 0
    Function.update m2 (m2 list + 4) 0
  else
    let m1 := Function.update m (item + 4) (m (m list + 4))
    let m2 := Function.update m1 item (m1 list)
    Function.update m2 list item

/-- The loop of `list_length`: `for(...; p != NULL; p = p->next) i++;`, one unit
of fuel for each test of `p`; `none` is fuel exhausted. -/
def list_length_loop (m : Nat → Nat) : Nat → Nat → Nat → Option Nat
  | 0, _, _ => none
  | fuel + 1, p, i => if p = 0 then some i else list_length_loop m fuel (m p) (i + 1)

/-- The function `list_length(list)`, `list` being the pointer to the first
node; the count is returned as `uint16_t`. -/
def list_length (m : Nat → Nat) (fuel list : Nat) : Option Nat :=
  (list_length_loop m fuel list 0).map (fun i => i % 2 ^ 16)

/-- The function `list_contains(list, item)`, `list` being the pointer to the
first node; one unit of fuel for each test of `p`. -/
def list_contains (m : Nat → Nat) (item : Nat) : Nat → Nat → Option Bool
  | 0, _ => none
  | fuel + 1, p =>
    if p = 0 then some false
    else if item = p then some true
    else list_contains m item fuel (m p)

/-- The nodes `l` are those reached from `p` by following `next` until `q`. -/
def lseg (m : Nat → Nat) : Nat → Nat → List Nat → Prop
  | p, q, [] => p = q
  | p, q, x :: xs => p = x ∧ x ≠ 0 ∧ lseg m (m x) q xs

/-- Deciding `lseg`. -/
def lseg_decidable (m : Nat → Nat) : (p q : Nat) → (l : List Nat) → Decidable (lseg m p q l)
  | p, q, [] => inferInstanceAs (Decidable (p = q))
  | p, q, x :: xs =>
    have := lseg_decidable m (m x) q xs
    inferInstanceAs (Decidable (p = x ∧ x ≠ 0 ∧ lseg m (m x) q xs))

instance (m : Nat → Nat) (p q : Nat) (l : List Nat) : Decidable (lseg m p q l) :=
  lseg_decidable m p q l

/-- The last of the nodes `x :: l`. -/
def last_of : Nat → List Nat → Nat
  | x, [] => x
  | _, y :: ys => last_of y ys

/-- The requirement on the `prev` of the first node: null, for a list of one
node only, or the last node. -/
def head_prev_ok (m : Nat → Nat) : List Nat → Prop
  | [] => True
  | x :: xs => (m (x + 4) = 0 ∧ xs = []) ∨ m (x + 4) = last_of x xs

instance (m : Nat → Nat) (l : List Nat) : Decidable (head_prev_ok m l) := by
  cases l with
  | nil => exact isTrue trivial
  | cons x xs => exact inferInstanceAs (Decidable ((m (x + 4) = 0 ∧ xs = []) ∨ _))

/-- The `prev` of each of the nodes `l` is the node before it, `y` being the
node before the first. -/
def prev_ok (m : Nat → Nat) : Nat → List Nat → Prop
  | _, [] => True
  | y, z :: zs => m (z + 4) = y ∧ prev_ok m z zs

/-- The `prev` of every node but the first is the node before it. -/
def inner_prev_ok (m : Nat → Nat) : List Nat → Prop
  | [] => True
  | x :: xs => prev_ok m x xs

/-- The nodes and the head cell are distinct objects: no link cell of a node is
the head cell or a link cell of another node. -/
def cells_apart (g : Nat) (l : List Nat) : Prop :=
  (∀ x, x ∈ l → x ≠ g ∧ x + 4 ≠ g) ∧ ∀ x, x ∈ l → ∀ y, y ∈ l → x + 4 ≠ y

/-- The list at `g` holds the sequence `l`, as the claim on list.c requires it:
`l` is reached from the head by `next` and the `prev` of the first node is null
or the last node. -/
def list_seq (m : Nat → Nat) (g : Nat) (l : List Nat) : Prop :=
  lseg m (m g) 0 l ∧ head_prev_ok m l

/-- The list at `g` holds the sequence `l` and is doubly linked: in addition to
`list_seq`, the `prev` of every other node is the node before it. -/
def list_rep (m : Nat → Nat) (g : Nat) (l : List Nat) : Prop :=
  list_seq m g l ∧ inner_prev_ok m l

/-- The memory after `list_add(&l, 8); list_add(&l, 16); list_push(&l, 24);` on
the empty list at address 100. -/
def ex_pushed : Nat → Nat :=
  list_push (list_add (list_add (fun _ => 0) 100 8) 100 16) 100 24

/-- Deciding `prev_ok`. -/
def prev_ok_decidable (m : Nat → Nat) : (y : Nat) → (l : List Nat) → Decidable (prev_ok m y l)
  | _, [] => isTrue trivial
  | y, z :: zs =>
    have := prev_ok_decidable m z zs
    inferInstanceAs (Decidable (m (z + 4) = y ∧ prev_ok m z zs))

instance (m : Nat → Nat) (y : Nat) (l : List Nat) : Decidable (prev_ok m y l) :=
  prev_ok_decidable m y l

instance (m : Nat → Nat) (l : List Nat) : Decidable (inner_prev_ok m l) := by
  cases l with
  | nil => exact isTrue trivial
  | cons x xs => exact inferInstanceAs (Decidable (prev_ok m x xs))

instance (g : Nat) (l : List Nat) : Decidable (cells_apart g l) := by
  unfold cells_apart
  infer_instance

instance (m : Nat → Nat) (g : Nat) (l : List Nat) : Decidable (list_seq m g l) := by
  unfold list_seq
  infer_instance

instance (m : Nat → Nat) (g : Nat) (l : List Nat) : Decidable (list_rep m g l) := by
  unfold list_rep
  infer_instance

/-- The memory after `list_add(&l, 8); list_add(&l, 16);` on the empty list at
address 100. -/
def ex_two : Nat → Nat := list_add (list_add (fun _ => 0) 100 8) 100 16

/-- The function `thread_priority(prio)` up to its call of `list_add`:
`disable(); old = _thrp->prio; _thrp->prio = prio;
list_remove(&_threads[old], _thrp);` have been executed. The result is `none`
when the function returns before, or when `old` is not an index of
`_threads`. -/
def thread_priority_before_add (char_signed : Bool) (arg : Nat) (k : kernel) :
    Option kernel :=
  match k._thrp with
  | none => none
  | some a =>
    let prio0 := char_value char_signed arg
    let prio1 : Int := if prio0 > ( MAX_PRIO : Int) - 1 then ( MAX_PRIO : Int) - 1 else prio0
    if ((k.thr a).prio : Int) = prio1 then none
    else
      let old := (k.thr a).prio
      if old < MAX_PRIO then
        some { k with
          ie := false
          thr := Function.update k.thr a ((k.thr a).set_prio prio1)
          _threads := Function.update k._threads old ((k._threads old).erase a) }
      else none

/-- The run in which a thread is created and dispatched by the scheduler. -/
def ex_dispatched : List api :=
  [api.create 0x9D001234 64 (some 1) (some 0x1000), api.ev event.sched]

/-- The yield invariant: a member of the table whose nice bit is set has neither
waiting nor semaphore set, and the current thread has its nice bit clear. The
nice bit is set by `SV_YIELD` alone, on the current thread, which then leaves
the processor; part 2 of the scheduler dispatches a thread only with its nice
bit clear. -/
def yield_inv (k : kernel) : Prop :=
  (∀ a, a ∈ all_threads k → (k.thr a).f_nice = true →
    (k.thr a).f_waiting = false ∧ (k.thr a).f_semaphore = false) ∧
  ∀ c, k._thrp = some c → (k.thr c).f_nice = false

/-- The run in which a thread is created, dispatched, arms a deadline of one
tick with `SV_SETTIMEOUT` and waits for signal 9. -/
def ex_deadline_run : List api :=
  [api.create 0x9D001234 64 (some 1) (some 0x1000), api.ev event.sched,
    api.ev (event.call SV_SETTIMEOUT 1), api.ev (event.call SV_WAIT 9)]

/-- The state reached from `kernel_init` by `callback_fire(77, 1, 1)` and
`callback_fire(88, 2, 0)`, the records being allocated at 10 and 11: record 10
calls function 77 with parameter 1 in one tick, record 11 calls function 88
with parameter 2 at the next pass. -/
def ex_callbacks_due : kernel :=
  callback_fire 88 2 0 (some 11) (callback_fire 77 1 1 (some 10) (kernel_init ex_single))

/-- The state reached from `kernel_init` by `thread_create(0x9D001234, 64)`, the
record being allocated at 1 and the stack at 0x1000, and one scheduler pass,
which dispatches the thread: thread 1 is the current thread. -/
def ex_running : kernel :=
  scheduler_threads
    (thread_create 0x9D001234 64 (some 1) (some 0x1000) (kernel_init ex_single)).1

/-! # Lemmas -/

/-! ## Bits -/

theorem testBit_bit_assign (w i j : Nat) (b : Bool) :
    (bit_assign w i b).testBit j = if j = i then b else w.testBit j := by
  unfold bit_assign
  by_cases hji : j = i
  · subst hji
    cases b <;> simp [Nat.testBit_two_pow_self]
  · have h2 : (2 ^ i).testBit j = false := Nat.testBit_two_pow_of_ne (Ne.symm hji)
    cases b <;> simp [hji, h2]

theorem testBit_mask_wait (j : Nat) :
    MASK_WAIT.testBit j =
      (decide (j = 1) || decide (j = 2) || decide (j = 3) || decide (j = 4)) := by
  by_cases h : j < 5
  · interval_cases j <;> decide
  · have h5 : 5 ≤ j := Nat.le_of_not_lt h
    have hlt : MASK_WAIT < 2 ^ j :=
      lt_of_lt_of_le (by decide : MASK_WAIT < 2 ^ 5) (Nat.pow_le_pow_right (by decide) h5)
    rw [Nat.testBit_lt_two_pow hlt]
    have h1 : j ≠ 1 := by omega
    have h2 : j ≠ 2 := by omega
    have h3 : j ≠ 3 := by omega
    have h4 : j ≠ 4 := by omega
    simp [h1, h2, h3, h4]

theorem and_mask_wait_eq_zero (w : Nat) :
    w &&& MASK_WAIT = 0 ↔
      w.testBit 1 = false ∧ w.testBit 2 = false ∧ w.testBit 3 = false ∧
        w.testBit 4 = false := by
  constructor
  · intro h
    have hb : ∀ j, (w.testBit j && MASK_WAIT.testBit j) = false := by
      intro j
      rw [← Nat.testBit_and, h]
      simp
    have h1 := hb 1
    have h2 := hb 2
    have h3 := hb 3
    have h4 := hb 4
    simp [testBit_mask_wait] at h1 h2 h3 h4
    exact ⟨h1, h2, h3, h4⟩
  · rintro ⟨h1, h2, h3, h4⟩
    apply Nat.eq_of_testBit_eq
    intro j
    rw [Nat.testBit_and, testBit_mask_wait]
    by_cases e1 : j = 1
    · subst e1; simp [h1]
    by_cases e2 : j = 2
    · subst e2; simp [h2]
    by_cases e3 : j = 3
    · subst e3; simp [h3]
    by_cases e4 : j = 4
    · subst e4; simp [h4]
    simp [e1, e2, e3, e4]

/-- The scheduler's readiness test is the test that the five bits are zero. -/
theorem sched_ready_eq (t : thread_t) : sched_ready t = five_bits_zero t := by
  unfold sched_ready five_bits_zero thread_t.f_nice thread_t.f_time_pending
    thread_t.f_waiting thread_t.f_semaphore thread_t.f_suspend
  by_cases h : t.flags &&& MASK_WAIT = 0
  · obtain ⟨h1, h2, h3, h4⟩ := (and_mask_wait_eq_zero _).1 h
    simp [h, h1, h2, h3, h4]
  · have hn : ¬ (t.flags.testBit 1 = false ∧ t.flags.testBit 2 = false ∧
        t.flags.testBit 3 = false ∧ t.flags.testBit 4 = false) :=
      fun hc => h ((and_mask_wait_eq_zero _).2 hc)
    have hb : (t.flags &&& MASK_WAIT == 0) = false := by simpa using h
    rw [hb]
    cases h1 : t.flags.testBit 1 <;> cases h2 : t.flags.testBit 2 <;>
      cases h3 : t.flags.testBit 3 <;> cases h4 : t.flags.testBit 4 <;>
      simp_all

/-! ## Heaps -/

theorem heap_apply_cons {α : Type} (f : α → α) (a : Nat) (l : List Nat) (h : Nat → α) :
    heap_apply f (a :: l) h = heap_apply f l (Function.update h a (f (h a))) := rfl

theorem heap_apply_append {α : Type} (f : α → α) (l l' : List Nat) (h : Nat → α) :
    heap_apply f (l ++ l') h = heap_apply f l' (heap_apply f l h) := by
  unfold heap_apply
  rw [List.foldl_append]

/-- A record that the loop does not visit is left as it was. -/
theorem heap_apply_not_mem {α : Type} (f : α → α) (l : List Nat) (h : Nat → α) (x : Nat)
    (hx : x ∉ l) : heap_apply f l h x = h x := by
  induction l generalizing h with
  | nil => rfl
  | cons a l ih =>
    rw [heap_apply_cons, ih _ (fun hm => hx (List.mem_cons_of_mem _ hm))]
    have hxa : x ≠ a := fun e => hx (e ▸ List.mem_cons_self _ _)
    exact Function.update_noteq hxa _ _

/-- A record visited by a loop with an idempotent body has the body applied. -/
theorem heap_apply_idem {α : Type} (f : α → α) (hf : ∀ t, f (f t) = f t) (l : List Nat)
    (h : Nat → α) (x : Nat) (hx : x ∈ l) : heap_apply f l h x = f (h x) := by
  induction l generalizing h with
  | nil => cases hx
  | cons a l ih =>
    rw [heap_apply_cons]
    by_cases hxl : x ∈ l
    · rw [ih _ hxl]
      by_cases hxa : x = a
      · subst hxa
        rw [Function.update_same, hf]
      · rw [Function.update_noteq hxa]
    · have hxa : x = a := by
        rcases List.mem_cons.1 hx with e | e
        · exact e
        · exact absurd e hxl
      subst hxa
      rw [heap_apply_not_mem _ _ _ _ hxl, Function.update_same]

/-- A record visited once has the body applied once. -/
theorem heap_apply_nodup {α : Type} (f : α → α) (l : List Nat) (hl : l.Nodup)
    (h : Nat → α) (x : Nat) (hx : x ∈ l) : heap_apply f l h x = f (h x) := by
  induction l generalizing h with
  | nil => cases hx
  | cons a l ih =>
    rw [heap_apply_cons]
    have hal : a ∉ l := (List.nodup_cons.1 hl).1
    rcases List.mem_cons.1 hx with e | e
    · subst e
      rw [heap_apply_not_mem _ _ _ _ hal, Function.update_same]
    · rw [ih (List.nodup_cons.1 hl).2 _ e]
      have hxa : x ≠ a := fun e2 => hal (e2 ▸ e)
      rw [Function.update_noteq hxa]

/-! ## Thread table -/

theorem mem_all_threads (k : kernel) (a : Nat) :
    a ∈ all_threads k ↔ ∃ i, i < MAX_PRIO ∧ a ∈ k._threads i := by
  unfold all_threads levels_up
  simp [List.mem_flatMap]

/-- In a well-formed table no record is a member of two levels. -/
theorem table_wf_disjoint (k : kernel) (h : table_wf k) (i j : Nat) (hi : i < MAX_PRIO)
    (hj : j < MAX_PRIO) (hij : i ≠ j) (a : Nat) (hai : a ∈ k._threads i) :
    a ∉ k._threads j := by
  unfold table_wf all_threads levels_up at h
  rw [List.nodup_flatMap] at h
  have hp := h.2
  rcases Nat.lt_or_gt_of_ne hij with hlt | hgt
  · have hd := List.pairwise_iff_get.1 hp ⟨i, by simpa using hi⟩ ⟨j, by simpa using hj⟩
      (by simpa using hlt)
    simp only [List.get_eq_getElem, List.getElem_range, Function.onFun] at hd
    exact fun haj => hd hai haj
  · have hd := List.pairwise_iff_get.1 hp ⟨j, by simpa using hj⟩ ⟨i, by simpa using hi⟩
      (by simpa using hgt)
    simp only [List.get_eq_getElem, List.getElem_range, Function.onFun] at hd
    exact fun haj => hd haj hai

/-- In a well-formed table no record occurs twice in a level. -/
theorem table_wf_nodup (k : kernel) (h : table_wf k) (i : Nat) (hi : i < MAX_PRIO) :
    (k._threads i).Nodup := by
  unfold table_wf all_threads levels_up at h
  rw [List.nodup_flatMap] at h
  exact h.1 i (by simpa using hi)

/-! ## Scheduler -/

theorem dispatch_thrp (k : kernel) (a : Nat) : (dispatch k a)._thrp = some a := rfl

theorem dispatch_thr (k : kernel) (a : Nat) : (dispatch k a).thr = k.thr := rfl

theorem clear_nice_thr_not_mem (k : kernel) (i a : Nat) (ha : a ∉ k._threads i) :
    (clear_nice k i).thr a = k.thr a := by
  show heap_apply (fun t => t.set_f_nice false) (k._threads i) k.thr a = k.thr a
  exact heap_apply_not_mem _ _ _ _ ha

/-- The reference selection reads only the records of the levels it visits. -/
theorem spec_select_congr (k k2 : kernel) (n : Nat) (ht : k2._threads = k._threads)
    (hr : ∀ i, i < n → ∀ a, a ∈ k._threads i → k2.thr a = k.thr a) :
    spec_select k2 n = spec_select k n := by
  induction n with
  | zero => rfl
  | succ n ih =>
    have hfind : (k2._threads n).find? (fun a => five_bits_zero (k2.thr a)) =
        (k._threads n).find? (fun a => five_bits_zero (k.thr a)) := by
      rw [ht]
      have hl : ∀ l : List Nat, (∀ a, a ∈ l → k2.thr a = k.thr a) →
          l.find? (fun a => five_bits_zero (k2.thr a)) =
            l.find? (fun a => five_bits_zero (k.thr a)) := by
        intro l
        induction l with
        | nil => intro _; rfl
        | cons b l ihl =>
          intro hb
          simp only [List.find?_cons, hb b (List.mem_cons_self _ _)]
          rw [ihl (fun a ha => hb a (List.mem_cons_of_mem _ ha))]
      exact hl _ (hr n (Nat.lt_succ_self n))
    simp only [spec_select, hfind]
    rw [ih (fun i hi a ha => hr i (Nat.lt_succ_of_lt hi) a ha)]

/-- The level loop of the scheduler leaves in `_thrp` the reference selection,
when no record of a level below is a member of a level above it. -/
theorem scheduler_levels_thrp (n : Nat) (k : kernel)
    (hd : ∀ i j, i < j → j < n → ∀ a, a ∈ k._threads i → a ∉ k._threads j) :
    (scheduler_levels n k)._thrp = spec_select k n := by
  induction n generalizing k with
  | zero => rfl
  | succ n ih =>
    have hp : (fun a => sched_ready (k.thr a)) = (fun a => five_bits_zero (k.thr a)) :=
      funext (fun a => sched_ready_eq _)
    simp only [scheduler_levels, spec_select, hp]
    cases hf : (k._threads n).find? (fun a => five_bits_zero (k.thr a)) with
    | some a => exact dispatch_thrp k a
    | none =>
      simp only []
      rw [ih (clear_nice k n)
        (fun i j hij hj a ha => hd i j hij (Nat.lt_succ_of_lt hj) a ha)]
      exact spec_select_congr k (clear_nice k n) n rfl
        (fun i hi a ha => clear_nice_thr_not_mem k n a (hd i n hi (Nat.lt_succ_self n) a ha))

/-- The thread left in `_thrp` by the level loop passes the readiness test, on
the records before and after the loop. -/
theorem scheduler_levels_ready (n : Nat) (k : kernel) (a : Nat)
    (h : (scheduler_levels n k)._thrp = some a) :
    sched_ready ((scheduler_levels n k).thr a) = true := by
  induction n generalizing k with
  | zero => cases h
  | succ n ih =>
    simp only [scheduler_levels] at h ⊢
    cases hf : (k._threads n).find? (fun a => sched_ready (k.thr a)) with
    | some b =>
      rw [hf] at h
      simp only [dispatch_thrp, Option.some.injEq] at h
      subst h
      simp only [dispatch_thr]
      exact @List.find?_some _ (fun a => sched_ready (k.thr a)) _ _ hf
    | none =>
      rw [hf] at h
      exact ih _ h

theorem spec_select_some (k : kernel) (n a : Nat) (h : spec_select k n = some a) :
    ∃ p, p < n ∧ a ∈ k._threads p ∧ five_bits_zero (k.thr a) = true ∧
      ∀ q, p < q → q < n → ∀ b, b ∈ k._threads q → five_bits_zero (k.thr b) = false := by
  induction n with
  | zero => cases h
  | succ n ih =>
    simp only [spec_select] at h
    cases hf : (k._threads n).find? (fun a => five_bits_zero (k.thr a)) with
    | some b =>
      rw [hf] at h
      simp only [Option.some.injEq] at h
      subst h
      refine ⟨n, Nat.lt_succ_self n, List.mem_of_find?_eq_some hf,
        @List.find?_some _ (fun a => five_bits_zero (k.thr a)) _ _ hf, ?_⟩
      intro q hq hq2
      omega
    | none =>
      rw [hf] at h
      obtain ⟨p, hp, hmem, hz, hall⟩ := ih h
      refine ⟨p, Nat.lt_succ_of_lt hp, hmem, hz, ?_⟩
      intro q hpq hq b hb
      by_cases hqn : q = n
      · subst hqn
        have := List.find?_eq_none.1 hf b hb
        simpa using this
      · exact hall q hpq (by omega) b hb

theorem scheduler_threads_thrp (k : kernel) (hwf : table_wf k) :
    (scheduler_threads k)._thrp = spec_select k MAX_PRIO := by
  unfold scheduler_threads
  rw [scheduler_levels_thrp MAX_PRIO { k with ie := false }
    (fun i j hij hj a ha =>
      table_wf_disjoint k hwf i j (lt_trans hij hj) hj (Nat.ne_of_lt hij) a ha)]
  exact spec_select_congr k _ MAX_PRIO rfl (fun _ _ _ _ => rfl)

/-! ## Flag accessors after a bit-field store -/

theorem runnable_set_f_nice (t : thread_t) (b : Bool) :
    runnable (t.set_f_nice b) = runnable t := by
  simp [runnable, thread_t.f_time_pending, thread_t.f_waiting, thread_t.f_semaphore,
    thread_t.f_suspend, thread_t.set_f_nice, testBit_bit_assign]

theorem f_nice_set_f_nice (t : thread_t) (b : Bool) : (t.set_f_nice b).f_nice = b := by
  show (bit_assign t.flags 0 b).testBit 0 = b
  rw [testBit_bit_assign]
  simp

theorem five_bits_zero_eq (t : thread_t) : five_bits_zero t = (!t.f_nice && runnable t) := by
  unfold five_bits_zero runnable
  cases t.f_nice <;> cases t.f_time_pending <;> cases t.f_waiting <;>
    cases t.f_semaphore <;> cases t.f_suspend <;> rfl

theorem set_f_nice_false_idem (t : thread_t) :
    (t.set_f_nice false).set_f_nice false = t.set_f_nice false := by
  unfold thread_t.set_f_nice
  congr 1
  apply Nat.eq_of_testBit_eq
  intro j
  simp only [testBit_bit_assign]
  by_cases hj : j = 0 <;> simp [hj]

/-! ## Scheduler: the records after a pass -/

theorem clear_nice_thr_mem (k : kernel) (i a : Nat) (ha : a ∈ k._threads i) :
    (clear_nice k i).thr a = (k.thr a).set_f_nice false := by
  show heap_apply (fun t => t.set_f_nice false) (k._threads i) k.thr a = _
  exact heap_apply_idem _ set_f_nice_false_idem _ _ _ ha

/-- A pass changes at most the nice bit of a record, by clearing it. -/
theorem scheduler_levels_thr_cases (n : Nat) (k : kernel) (a : Nat) :
    (scheduler_levels n k).thr a = k.thr a ∨
      (scheduler_levels n k).thr a = (k.thr a).set_f_nice false := by
  induction n generalizing k with
  | zero => exact Or.inl rfl
  | succ n ih =>
    simp only [scheduler_levels]
    cases hf : (k._threads n).find? (fun a => sched_ready (k.thr a)) with
    | some b => exact Or.inl rfl
    | none =>
      simp only []
      by_cases ha : a ∈ k._threads n
      · rcases ih (clear_nice k n) with h | h
        · exact Or.inr (h.trans (clear_nice_thr_mem k n a ha))
        · refine Or.inr (h.trans ?_)
          rw [clear_nice_thr_mem k n a ha, set_f_nice_false_idem]
      · rcases ih (clear_nice k n) with h | h
        · exact Or.inl (h.trans (clear_nice_thr_not_mem k n a ha))
        · refine Or.inr (h.trans ?_)
          rw [clear_nice_thr_not_mem k n a ha]

theorem scheduler_levels_threads (n : Nat) (k : kernel) :
    (scheduler_levels n k)._threads = k._threads := by
  induction n generalizing k with
  | zero => rfl
  | succ n ih =>
    simp only [scheduler_levels]
    cases hf : (k._threads n).find? (fun a => sched_ready (k.thr a)) with
    | some b => rfl
    | none => exact ih _

/-- A pass leaves the four wait bits of every record as they were. -/
theorem scheduler_levels_runnable (n : Nat) (k : kernel) (a : Nat) :
    runnable ((scheduler_levels n k).thr a) = runnable (k.thr a) := by
  rcases scheduler_levels_thr_cases n k a with h | h
  · rw [h]
  · rw [h, runnable_set_f_nice]

/-- A record all of whose levels hold a ready thread is not touched by a pass. -/
theorem scheduler_levels_thr_unchanged (n : Nat) (k : kernel) (b : Nat)
    (hd : ∀ i j, i < j → j < n → ∀ a, a ∈ k._threads i → a ∉ k._threads j)
    (hb : ∀ q, q < n → b ∈ k._threads q →
      ∃ c, c ∈ k._threads q ∧ sched_ready (k.thr c) = true) :
    (scheduler_levels n k).thr b = k.thr b := by
  induction n generalizing k with
  | zero => rfl
  | succ n ih =>
    simp only [scheduler_levels]
    cases hf : (k._threads n).find? (fun a => sched_ready (k.thr a)) with
    | some c => rfl
    | none =>
      simp only []
      have hbn : b ∉ k._threads n := by
        intro hmem
        obtain ⟨c, hc, hr⟩ := hb n (Nat.lt_succ_self n) hmem
        have := List.find?_eq_none.1 hf c hc
        exact this hr
      rw [ih (clear_nice k n)
        (fun i j hij hj a ha => hd i j hij (Nat.lt_succ_of_lt hj) a ha) ?_]
      · exact clear_nice_thr_not_mem k n b hbn
      · intro q hq hmem
        obtain ⟨c, hc, hr⟩ := hb q (Nat.lt_succ_of_lt hq) hmem
        refine ⟨c, hc, ?_⟩
        rw [clear_nice_thr_not_mem k n c (hd q n hq (Nat.lt_succ_self n) c hc)]
        exact hr

/-- When no level holds a ready thread, a pass dispatches nothing and clears the
nice bit of every member of the table. -/
theorem scheduler_levels_none (n : Nat) (k : kernel)
    (hd : ∀ i j, i < j → j < n → ∀ a, a ∈ k._threads i → a ∉ k._threads j)
    (hn : ∀ q, q < n → ∀ c, c ∈ k._threads q → sched_ready (k.thr c) = false) :
    (scheduler_levels n k)._thrp = none ∧
      ∀ q, q < n → ∀ c, c ∈ k._threads q →
        (scheduler_levels n k).thr c = (k.thr c).set_f_nice false := by
  induction n generalizing k with
  | zero => exact ⟨rfl, fun q hq => absurd hq (Nat.not_lt_zero q)⟩
  | succ n ih =>
    have hf : (k._threads n).find? (fun a => sched_ready (k.thr a)) = none := by
      rw [List.find?_eq_none]
      intro c hc
      rw [hn n (Nat.lt_succ_self n) c hc]
      simp
    simp only [scheduler_levels, hf]
    have hih := ih (clear_nice k n)
      (fun i j hij hj a ha => hd i j hij (Nat.lt_succ_of_lt hj) a ha)
      (fun q hq c hc => by
        rw [clear_nice_thr_not_mem k n c (hd q n hq (Nat.lt_succ_self n) c hc)]
        exact hn q (Nat.lt_succ_of_lt hq) c hc)
    refine ⟨hih.1, ?_⟩
    intro q hq c hc
    by_cases hqn : q = n
    · subst hqn
      rcases scheduler_levels_thr_cases q (clear_nice k q) c with h | h
      · rw [h, clear_nice_thr_mem k q c hc]
      · rw [h, clear_nice_thr_mem k q c hc, set_f_nice_false_idem]
    · have hq2 : q < n := by omega
      rw [hih.2 q hq2 c hc, clear_nice_thr_not_mem k n c (hd q n hq2 (Nat.lt_succ_self n) c hc)]

/-- The reference selection, given the level and the thread it finds. -/
theorem spec_select_eq_of (k : kernel) (n p a : Nat) (hp : p < n)
    (hf : (k._threads p).find? (fun a => five_bits_zero (k.thr a)) = some a)
    (hall : ∀ q, p < q → q < n → ∀ b, b ∈ k._threads q → five_bits_zero (k.thr b) = false) :
    spec_select k n = some a := by
  induction n with
  | zero => omega
  | succ n ih =>
    simp only [spec_select]
    by_cases hpn : p = n
    · subst hpn
      rw [hf]
    · have hnone : (k._threads n).find? (fun a => five_bits_zero (k.thr a)) = none := by
        rw [List.find?_eq_none]
        intro b hb
        rw [hall n (by omega) (Nat.lt_succ_self n) b hb]
        simp
      rw [hnone]
      exact ih (by omega) (fun q hpq hq b hb => hall q hpq (Nat.lt_succ_of_lt hq) b hb)

/-- The reference function selects `a` exactly when `a` is the first thread with
the five bits zero of the highest level, among the `n` lowest, that has one. -/
theorem spec_select_eq_some_iff (k : kernel) (n a : Nat) :
    spec_select k n = some a ↔
      ∃ p pre post, p < n ∧ k._threads p = pre ++ a :: post ∧
        five_bits_zero (k.thr a) = true ∧
        (∀ b, b ∈ pre → five_bits_zero (k.thr b) = false) ∧
        ∀ q, p < q → q < n → ∀ b, b ∈ k._threads q → five_bits_zero (k.thr b) = false := by
  induction n with
  | zero =>
    constructor
    · intro h
      cases h
    · rintro ⟨p, _, _, hp, _⟩
      omega
  | succ n ih =>
    simp only [spec_select]
    cases hf : (k._threads n).find? (fun a => five_bits_zero (k.thr a)) with
    | some b =>
      have hb : five_bits_zero (k.thr b) = true :=
        @List.find?_some _ (fun a => five_bits_zero (k.thr a)) _ _ hf
      have hbm : b ∈ k._threads n := List.mem_of_find?_eq_some hf
      constructor
      · intro h
        simp only [Option.some.injEq] at h
        subst h
        obtain ⟨_, pre, post, hsplit, hpre⟩ := List.find?_eq_some.1 hf
        refine ⟨n, pre, post, Nat.lt_succ_self n, hsplit, hb, ?_, ?_⟩
        · intro c hc
          simpa using hpre c hc
        · intro q hq hq2
          omega
      · rintro ⟨p, pre, post, hp, hsplit, hz, hpre, hall⟩
        by_cases hpn : p = n
        · subst hpn
          have hfa : (k._threads p).find? (fun a => five_bits_zero (k.thr a)) = some a :=
            List.find?_eq_some.2 ⟨hz, pre, post, hsplit, fun c hc => by simp [hpre c hc]⟩
          rw [hf] at hfa
          exact hfa
        · exfalso
          rw [hall n (by omega) (Nat.lt_succ_self n) b hbm] at hb
          cases hb
    | none =>
      simp only []
      rw [ih]
      have hnone : ∀ c, c ∈ k._threads n → five_bits_zero (k.thr c) = false := by
        intro c hc
        simpa using List.find?_eq_none.1 hf c hc
      constructor
      · rintro ⟨p, pre, post, hp, hsplit, hz, hpre, hall⟩
        refine ⟨p, pre, post, Nat.lt_succ_of_lt hp, hsplit, hz, hpre, ?_⟩
        intro q hpq hq c hc
        by_cases hqn : q = n
        · subst hqn
          exact hnone c hc
        · exact hall q hpq (by omega) c hc
      · rintro ⟨p, pre, post, hp, hsplit, hz, hpre, hall⟩
        by_cases hpn : p = n
        · exfalso
          subst hpn
          rw [hnone a (by rw [hsplit]; simp)] at hz
          cases hz
        · exact ⟨p, pre, post, by omega, hsplit, hz, hpre,
            fun q hpq hq c hc => hall q hpq (Nat.lt_succ_of_lt hq) c hc⟩

/-! # Scheduler: thread selection -/

/-- C1. For every thread table (each record linked at most once), the thread the
scheduler leaves in `_thrp` and dispatches is the reference selection: the first
thread, in collection order, of the highest priority level containing a thread
whose bits nice, time_pending, waiting, semaphore and suspend are all zero (as
the function `spec_select` and as the predicate `first_ready`), and `NULL` when
no level contains one; a dispatched thread has none of the five bits set, before
and after the pass. -/
theorem scheduler_selection_is_reference (k : kernel) (hwf : table_wf k) :
    (scheduler_threads k)._thrp = spec_select k MAX_PRIO ∧
    (∀ a, (scheduler_threads k)._thrp = some a ↔ first_ready k a) ∧
    (spec_select k MAX_PRIO = none ↔
      ∀ i, i < MAX_PRIO → ∀ a, a ∈ k._threads i → five_bits_zero (k.thr a) = false) ∧
    ∀ a, (scheduler_threads k)._thrp = some a →
      five_bits_zero (k.thr a) = true ∧
        five_bits_zero ((scheduler_threads k).thr a) = true := by
  refine ⟨scheduler_threads_thrp k hwf, ?_, ?_, ?_⟩
  · intro a
    rw [scheduler_threads_thrp k hwf]
    exact spec_select_eq_some_iff k MAX_PRIO a
  · constructor
    · intro hn i hi a ha
      have key : ∀ n, spec_select k n = none → ∀ i, i < n → ∀ a, a ∈ k._threads i →
          five_bits_zero (k.thr a) = false := by
        intro n
        induction n with
        | zero => intro _ i hi; omega
        | succ n ih =>
          intro h i hi a ha
          simp only [spec_select] at h
          cases hf : (k._threads n).find? (fun a => five_bits_zero (k.thr a)) with
          | some b => rw [hf] at h; cases h
          | none =>
            rw [hf] at h
            by_cases hin : i = n
            · subst hin
              simpa using List.find?_eq_none.1 hf a ha
            · exact ih h i (by omega) a ha
      exact key MAX_PRIO hn i hi a ha
    · intro hall
      cases hs : spec_select k MAX_PRIO with
      | none => rfl
      | some a =>
        obtain ⟨p, hp, hmem, hz, _⟩ := spec_select_some k MAX_PRIO a hs
        rw [hall p hp a hmem] at hz
        cases hz
  · intro a ha
    constructor
    · rw [scheduler_threads_thrp k hwf] at ha
      obtain ⟨_, _, _, hz, _⟩ := spec_select_some k MAX_PRIO a ha
      exact hz
    · rw [← sched_ready_eq]
      exact scheduler_levels_ready MAX_PRIO _ a ha

/-- Witness of C1 on a two-level table. -/
theorem scheduler_selection_is_reference_witness :
    table_wf ex_yielded_above ∧
    ((scheduler_threads ex_yielded_above)._thrp = spec_select ex_yielded_above MAX_PRIO ∧
    (∀ a, (scheduler_threads ex_yielded_above)._thrp = some a ↔
      first_ready ex_yielded_above a) ∧
    (spec_select ex_yielded_above MAX_PRIO = none ↔
      ∀ i, i < MAX_PRIO → ∀ a, a ∈ ex_yielded_above._threads i →
        five_bits_zero (ex_yielded_above.thr a) = false) ∧
    ∀ a, (scheduler_threads ex_yielded_above)._thrp = some a →
      five_bits_zero (ex_yielded_above.thr a) = true ∧
        five_bits_zero ((scheduler_threads ex_yielded_above).thr a) = true) :=
  ⟨by decide, scheduler_selection_is_reference ex_yielded_above (by decide)⟩

/-- C2, as stated, fails: thread 1 of priority 2 has yielded and is runnable (its
four wait bits are clear), yet the pass dispatches thread 2 of priority 1. -/
theorem strict_priority_counterexample :
    table_wf ex_yielded_above ∧
    (scheduler_threads ex_yielded_above)._thrp = some 2 ∧
    (ex_yielded_above.thr 2).prio = 1 ∧ 2 ∈ ex_yielded_above._threads 1 ∧
    (ex_yielded_above.thr 1).prio = 2 ∧ 1 ∈ ex_yielded_above._threads 2 ∧
    runnable (ex_yielded_above.thr 1) = true ∧
    ¬ strict_priority ex_yielded_above := by
  refine ⟨by decide, by decide, by decide, by decide, by decide, by decide, by decide, ?_⟩
  intro h
  have := h 2 1 (by decide) (by decide) (by decide) 2 (by decide) (by decide) 1 (by decide)
  revert this
  decide

/-- C2, amended. When a pass dispatches a member `a` of level `p`, no member of a
level above `p` has all five bits nice, time_pending, waiting, semaphore and
suspend clear: a thread above that is runnable has its nice bit set. -/
theorem strict_priority_up_to_nice (k : kernel) (hwf : table_wf k) (a p : Nat)
    (hd : (scheduler_threads k)._thrp = some a) (hp : p < MAX_PRIO)
    (ha : a ∈ k._threads p) (q : Nat) (hpq : p < q) (hq : q < MAX_PRIO) (b : Nat)
    (hb : b ∈ k._threads q) :
    five_bits_zero (k.thr b) = false ∧
      (runnable (k.thr b) = true → (k.thr b).f_nice = true) := by
  rw [scheduler_threads_thrp k hwf] at hd
  obtain ⟨p2, hp2, hmem, _, hall⟩ := spec_select_some k MAX_PRIO a hd
  have hpp : p2 = p := by
    by_contra hne
    exact table_wf_disjoint k hwf p2 p hp2 hp hne a hmem ha
  subst hpp
  have hz := hall q hpq hq b hb
  refine ⟨hz, ?_⟩
  intro hr
  unfold five_bits_zero at hz
  unfold runnable at hr
  cases hn : (k.thr b).f_nice
  · simp [hn] at hz
    simp at hr
    obtain ⟨⟨⟨h1, h2⟩, h3⟩, h4⟩ := hr
    have := hz h1 h2 h3
    rw [h4] at this
    cases this
  · rfl

/-- Witness of the amended C2: thread 2 of level 1 is dispatched, and thread 1 of
level 2 has its nice bit set. -/
theorem strict_priority_up_to_nice_witness :
    five_bits_zero (ex_yielded_above.thr 1) = false ∧
      (runnable (ex_yielded_above.thr 1) = true → (ex_yielded_above.thr 1).f_nice = true) :=
  strict_priority_up_to_nice ex_yielded_above (by decide) 2 1 (by decide) (by decide)
    (by decide) 2 (by decide) (by decide) 1 (by decide)

/-! # Round robin within a level -/

theorem table_wf_of_threads_eq (k k2 : kernel) (h : k2._threads = k._threads)
    (hwf : table_wf k) : table_wf k2 := by
  unfold table_wf all_threads at hwf ⊢
  rw [h]
  exact hwf

theorem kernel_call_yield (k : kernel) (a arg : Nat) (h : k._thrp = some a) :
    (kernel_call SV_YIELD arg k).1.thr =
        Function.update k.thr a { (k.thr a).set_f_nice true with sp := k.sp_reg } ∧
      (kernel_call SV_YIELD arg k).1._threads = k._threads ∧
      (kernel_call SV_YIELD arg k).1._thrp = none ∧
      (kernel_call SV_YIELD arg k).2 = kc_exit.to_main := by
  unfold kernel_call
  rw [h]
  simp [return_to_main, switch_threads]

theorem scheduler_threads_threads (k : kernel) : (scheduler_threads k)._threads = k._threads :=
  scheduler_levels_threads MAX_PRIO _

theorem succ_mod_of_lt (j n : Nat) (h : j % n + 1 < n) : (j + 1) % n = j % n + 1 := by
  rw [Nat.add_mod, Nat.mod_eq_of_lt (by omega : 1 < n), Nat.mod_eq_of_lt h]

theorem succ_mod_of_eq (j n : Nat) (h : j % n + 1 = n) : (j + 1) % n = 0 := by
  rw [Nat.add_mod]
  by_cases h1 : n = 1
  · subst h1
    simp [Nat.mod_one]
  · have hn : 1 < n := by omega
    rw [Nat.mod_eq_of_lt hn, h, Nat.mod_self]

/-- A pass in the middle of a round dispatches the next member of the level, and
its yield moves it to the members that have run. -/
theorem round_step (k : kernel) (L : Nat) (hL : L < MAX_PRIO) (hwf : table_wf k)
    (pre post : List Nat) (a : Nat) (hl : k._threads L = pre ++ a :: post)
    (hr : round_state k._threads L pre (a :: post) k) :
    (scheduler_threads k)._thrp = some a ∧
      round_state k._threads L (pre ++ [a]) post (yield_pass k) := by
  obtain ⟨_, hpre, hpost, hoth⟩ := hr
  have hnd : (pre ++ a :: post).Nodup := hl ▸ table_wf_nodup k hwf L hL
  have ha_pre : a ∉ pre := fun hm =>
    (List.disjoint_of_nodup_append hnd) hm (List.mem_cons_self _ _)
  have ha_post : a ∉ post := (List.nodup_cons.1 (List.nodup_append.1 hnd).2.1).1
  have haL : a ∈ k._threads L := by rw [hl]; simp
  have haz : five_bits_zero (k.thr a) = true := hpost a (List.mem_cons_self _ _)
  -- the selection
  have hsel : (scheduler_threads k)._thrp = some a := by
    rw [scheduler_threads_thrp k hwf]
    apply spec_select_eq_of k MAX_PRIO L a hL
    · rw [hl, List.find?_append]
      have hnone : pre.find? (fun a => five_bits_zero (k.thr a)) = none := by
        rw [List.find?_eq_none]
        intro b hb
        rw [five_bits_zero_eq, (hpre b hb).2]
        simp
      rw [hnone]
      simp [haz]
    · intro q hq hq2 b hb
      rw [five_bits_zero_eq, hoth q hq2 (by omega) b hb]
      simp
  refine ⟨hsel, ?_⟩
  -- the records of the level are not touched by the pass
  have hsame : ∀ b, b ∈ k._threads L → (scheduler_threads k).thr b = k.thr b := by
    intro b hb
    apply scheduler_levels_thr_unchanged MAX_PRIO { k with ie := false } b
    · intro i j hij hj c hc
      exact table_wf_disjoint k hwf i j (lt_trans hij hj) hj (Nat.ne_of_lt hij) c hc
    · intro q hq hbq
      have hqL : q = L := by
        by_contra hne
        exact table_wf_disjoint k hwf q L hq hL hne b hbq hb
      subst hqL
      exact ⟨a, haL, by rw [sched_ready_eq]; exact haz⟩
  have hyp : yield_pass k = (kernel_call SV_YIELD 0 (scheduler_threads k)).1 := by
    unfold yield_pass
    rw [hsel]
  obtain ⟨hthr, hthreads, _, _⟩ := kernel_call_yield (scheduler_threads k) a 0 hsel
  have hne : ∀ b, b ≠ a → (yield_pass k).thr b = (scheduler_threads k).thr b := by
    intro b hb
    rw [hyp, hthr, Function.update_noteq hb]
  have hat : (yield_pass k).thr a =
      { ((scheduler_threads k).thr a).set_f_nice true with
        sp := (scheduler_threads k).sp_reg } := by
    rw [hyp, hthr, Function.update_same]
  refine ⟨?_, ?_, ?_, ?_⟩
  · rw [hyp, hthreads, scheduler_threads_threads]
  · intro b hb
    rcases List.mem_append.1 hb with hb | hb
    · have hba : b ≠ a := fun e => ha_pre (e ▸ hb)
      rw [hne b hba, hsame b (by rw [hl]; simp [hb])]
      exact hpre b hb
    · have hba : b = a := by simpa using hb
      subst hba
      rw [hat]
      constructor
      · show runnable (((scheduler_threads k).thr b).set_f_nice true) = true
        rw [runnable_set_f_nice, hsame b haL]
        have := haz
        rw [five_bits_zero_eq] at this
        simp at this
        exact this.2
      · show (((scheduler_threads k).thr b).set_f_nice true).f_nice = true
        exact f_nice_set_f_nice _ _
  · intro b hb
    have hba : b ≠ a := fun e => ha_post (e ▸ hb)
    rw [hne b hba, hsame b (by rw [hl]; simp [hb])]
    exact hpost b (List.mem_cons_of_mem _ hb)
  · intro q hq hqL b hb
    have hba : b ≠ a := fun e => table_wf_disjoint k hwf q L hq hL hqL b hb (e ▸ haL)
    rw [hne b hba]
    show runnable ((scheduler_levels MAX_PRIO { k with ie := false }).thr b) = false
    rw [scheduler_levels_runnable]
    exact hoth q hq hqL b hb

/-- The pass after the last member of the level has yielded dispatches nothing,
clears the nice bits of the level and starts a new round. -/
theorem round_reset (k : kernel) (L : Nat) (hL : L < MAX_PRIO) (hwf : table_wf k)
    (pre : List Nat) (hl : k._threads L = pre)
    (hr : round_state k._threads L pre [] k) :
    (scheduler_threads k)._thrp = none ∧
      (∀ a, a ∈ pre → ((scheduler_threads k).thr a).f_nice = false) ∧
      round_state k._threads L [] pre (yield_pass k) := by
  obtain ⟨_, hpre, _, hoth⟩ := hr
  have hnone := scheduler_levels_none MAX_PRIO { k with ie := false }
    (fun i j hij hj c hc =>
      table_wf_disjoint k hwf i j (lt_trans hij hj) hj (Nat.ne_of_lt hij) c hc)
    (fun q hq c hc => by
      show sched_ready (k.thr c) = false
      rw [sched_ready_eq, five_bits_zero_eq]
      by_cases hqL : q = L
      · subst hqL
        rw [(hpre c (hl ▸ hc)).2]
        simp
      · rw [hoth q hq hqL c hc]
        simp)
  have hsel : (scheduler_threads k)._thrp = none := hnone.1
  have hyp : yield_pass k = scheduler_threads k := by
    unfold yield_pass
    rw [hsel]
  have hclr : ∀ a, a ∈ pre → (scheduler_threads k).thr a = (k.thr a).set_f_nice false :=
    fun a ha => hnone.2 L hL a (hl ▸ ha)
  refine ⟨hsel, ?_, ?_, ?_, ?_, ?_⟩
  · intro a ha
    rw [hclr a ha, f_nice_set_f_nice]
  · rw [hyp, scheduler_threads_threads]
  · intro a ha
    cases ha
  · intro a ha
    rw [hyp, hclr a ha, five_bits_zero_eq, f_nice_set_f_nice, runnable_set_f_nice,
      (hpre a ha).1]
    rfl
  · intro q hq hqL b hb
    rw [hyp]
    show runnable ((scheduler_levels MAX_PRIO { k with ie := false }).thr b) = false
    rw [scheduler_levels_runnable]
    exact hoth q hq hqL b hb

/-- The state before pass number `j` of the run in which every dispatched thread
yields at once: position `j % (k + 1)` of a round. -/
theorem round_invariant (k : kernel) (L : Nat) (hL : L < MAX_PRIO) (hwf : table_wf k)
    (hz : ∀ a, a ∈ k._threads L → five_bits_zero (k.thr a) = true)
    (ho : ∀ q, q < MAX_PRIO → q ≠ L → ∀ b, b ∈ k._threads q → runnable (k.thr b) = false)
    (j : Nat) :
    ∃ pre post, k._threads L = pre ++ post ∧
      pre.length = j % ((k._threads L).length + 1) ∧
      round_state k._threads L pre post (yield_pass^[j] k) := by
  induction j with
  | zero =>
    refine ⟨[], k._threads L, rfl, by simp, rfl, ?_, hz, ho⟩
    intro a ha
    cases ha
  | succ j ih =>
    obtain ⟨pre, post, hl, hlen, hr⟩ := ih
    have hth : (yield_pass^[j] k)._threads = k._threads := hr.1
    have hwf2 : table_wf (yield_pass^[j] k) := table_wf_of_threads_eq k _ hth hwf
    rw [Function.iterate_succ_apply']
    have hlen2 : (k._threads L).length = pre.length + post.length := by
      rw [hl, List.length_append]
    cases post with
    | nil =>
      have hr2 : round_state (yield_pass^[j] k)._threads L pre [] (yield_pass^[j] k) := by
        rw [hth]; exact hr
      have hl2 : (yield_pass^[j] k)._threads L = pre := by rw [hth, hl]; simp
      obtain ⟨_, _, hnew⟩ := round_reset (yield_pass^[j] k) L hL hwf2 pre hl2 hr2
      rw [hth] at hnew
      refine ⟨[], pre, by rw [hl]; simp, ?_, hnew⟩
      rw [succ_mod_of_eq j _ (by rw [← hlen, hlen2]; simp)]
      rfl
    | cons a post =>
      have hr2 : round_state (yield_pass^[j] k)._threads L pre (a :: post)
          (yield_pass^[j] k) := by
        rw [hth]; exact hr
      have hl2 : (yield_pass^[j] k)._threads L = pre ++ a :: post := by rw [hth, hl]
      obtain ⟨_, hnew⟩ := round_step (yield_pass^[j] k) L hL hwf2 pre post a hl2 hr2
      rw [hth] at hnew
      refine ⟨pre ++ [a], post, by rw [hl]; simp, ?_, hnew⟩
      rw [succ_mod_of_lt j _ (by rw [← hlen, hlen2]; simp), ← hlen]
      simp

/-- C3. Round robin within a level. Let level `L` hold `k` threads whose five
scheduling bits are zero (in particular: all flag bits zero), no thread of another
level being runnable, each record linked once. In the run where every dispatched
thread calls YIELD at once, pass number `j` (from 0) dispatches member number
`j % (k + 1)` of the level in collection order for the first `k` passes of each
group of `k + 1`, and the last pass of the group dispatches nothing and leaves
every nice bit of the level clear; the members of the level are pairwise
distinct, so each one runs exactly once per round. -/
theorem round_robin_within_level (k : kernel) (L : Nat) (hL : L < MAX_PRIO)
    (hwf : table_wf k)
    (hz : ∀ a, a ∈ k._threads L → five_bits_zero (k.thr a) = true)
    (ho : ∀ q, q < MAX_PRIO → q ≠ L → ∀ b, b ∈ k._threads q → runnable (k.thr b) = false)
    (j : Nat) :
    (k._threads L).Nodup ∧
    (scheduler_threads (yield_pass^[j] k))._thrp =
        (k._threads L)[j % ((k._threads L).length + 1)]? ∧
    (j % ((k._threads L).length + 1) = (k._threads L).length →
      ∀ a, a ∈ k._threads L →
        ((scheduler_threads (yield_pass^[j] k)).thr a).f_nice = false) := by
  obtain ⟨pre, post, hl, hlen, hr⟩ := round_invariant k L hL hwf hz ho j
  have hth : (yield_pass^[j] k)._threads = k._threads := hr.1
  have hwf2 : table_wf (yield_pass^[j] k) := table_wf_of_threads_eq k _ hth hwf
  refine ⟨table_wf_nodup k hwf L hL, ?_, ?_⟩
  · cases post with
    | nil =>
      have hr2 : round_state (yield_pass^[j] k)._threads L pre [] (yield_pass^[j] k) := by
        rw [hth]; exact hr
      have hl2 : (yield_pass^[j] k)._threads L = pre := by rw [hth, hl]; simp
      rw [(round_reset (yield_pass^[j] k) L hL hwf2 pre hl2 hr2).1, ← hlen, hl]
      simp
    | cons a post =>
      have hr2 : round_state (yield_pass^[j] k)._threads L pre (a :: post)
          (yield_pass^[j] k) := by
        rw [hth]; exact hr
      have hl2 : (yield_pass^[j] k)._threads L = pre ++ a :: post := by rw [hth, hl]
      rw [(round_step (yield_pass^[j] k) L hL hwf2 pre post a hl2 hr2).1, ← hlen, hl,
        List.getElem?_append_right (le_refl _)]
      simp
  · intro hj a ha
    have hpost : post = [] := by
      have h1 : (k._threads L).length = pre.length + post.length := by
        rw [hl, List.length_append]
      have h2 : post.length = 0 := by omega
      exact List.length_eq_zero.1 h2
    subst hpost
    have hr2 : round_state (yield_pass^[j] k)._threads L pre [] (yield_pass^[j] k) := by
      rw [hth]; exact hr
    have hl2 : (yield_pass^[j] k)._threads L = pre := by rw [hth, hl]; simp
    exact (round_reset (yield_pass^[j] k) L hL hwf2 pre hl2 hr2).2.1 a
      (by rw [hl] at ha; simpa using ha)

/-- Witness of C3 with three threads at priority 0: passes 0 to 4. -/
theorem round_robin_within_level_witness :
    (scheduler_threads (yield_pass^[4] ex_three_ready))._thrp = some 1 ∧
    (scheduler_threads (yield_pass^[3] ex_three_ready))._thrp = none ∧
    ∀ a, a ∈ ex_three_ready._threads 0 →
      ((scheduler_threads (yield_pass^[3] ex_three_ready)).thr a).f_nice = false := by
  have h4 := round_robin_within_level ex_three_ready 0 (by decide) (by decide)
    (by decide) (by decide) 4
  have h3 := round_robin_within_level ex_three_ready 0 (by decide) (by decide)
    (by decide) (by decide) 3
  exact ⟨h4.2.1, h3.2.1, h3.2.2 (by decide)⟩

/-! # Support operations -/

/-- The nested loops over the levels visit the concatenation of the levels. -/
theorem foldl_heap_apply {α : Type} (f : α → α) (T : Nat → List Nat) (ls : List Nat)
    (h : Nat → α) :
    ls.foldl (fun h i => heap_apply f (T i) h) h = heap_apply f (ls.flatMap T) h := by
  induction ls generalizing h with
  | nil => rfl
  | cons i ls ih =>
    rw [List.foldl_cons, ih, List.flatMap_cons, heap_apply_append]

theorem mem_levels_down_flatMap (k : kernel) (a : Nat) :
    a ∈ levels_down.flatMap k._threads ↔ a ∈ all_threads k := by
  unfold levels_down all_threads levels_up
  simp [List.mem_flatMap]

theorem f_waiting_cancel_timer (t : thread_t) : (cancel_timer t).f_waiting = t.f_waiting := by
  unfold cancel_timer
  split <;> rfl

theorem f_waiting_set_f_waiting (t : thread_t) (b : Bool) : (t.set_f_waiting b).f_waiting = b := by
  show (bit_assign t.flags 2 b).testBit 2 = b
  rw [testBit_bit_assign]
  simp

theorem signal_thread_idem (ptr : Nat) (t : thread_t) :
    signal_thread ptr (signal_thread ptr t) = signal_thread ptr t := by
  by_cases hw : t.f_waiting = true
  · by_cases hd : t.data = ptr
    · have h1 : signal_thread ptr t = cancel_timer (t.set_f_waiting false) := by
        unfold signal_thread
        rw [if_pos hw, if_pos hd]
      have h2 : (cancel_timer (t.set_f_waiting false)).f_waiting = false := by
        rw [f_waiting_cancel_timer, f_waiting_set_f_waiting]
      rw [h1]
      unfold signal_thread
      rw [h2]
      simp
    · have h1 : signal_thread ptr t = t := by
        unfold signal_thread
        rw [if_pos hw, if_neg hd]
      rw [h1, h1]
  · have h1 : signal_thread ptr t = t := by
      unfold signal_thread
      rw [if_neg hw]
    rw [h1, h1]

theorem thread_signal_thr (ptr : Nat) (k : kernel) (a : Nat) :
    (thread_signal ptr k).thr a =
      if a ∈ all_threads k then signal_thread ptr (k.thr a) else k.thr a := by
  show levels_down.foldl (fun h i => heap_apply (signal_thread ptr) (k._threads i) h) k.thr a = _
  rw [foldl_heap_apply]
  by_cases ha : a ∈ all_threads k
  · rw [if_pos ha]
    exact heap_apply_idem _ (signal_thread_idem ptr) _ _ _ ((mem_levels_down_flatMap k a).2 ha)
  · rw [if_neg ha]
    exact heap_apply_not_mem _ _ _ _ (fun hm => ha ((mem_levels_down_flatMap k a).1 hm))

/-- C6. The call `thread_signal(id)` releases all and only the matching waiters:
a member of the table that had `waiting` set and `data == id` has `waiting`
clear, its timer zeroed when `time_pending` was clear and unchanged otherwise, and
every other bit and field as before; every other record is unchanged; the
collections, the callbacks, the current thread, the tick counter and the byte
memory are unchanged. -/
theorem thread_signal_releases_matching (k : kernel) (id : Nat) :
    (∀ a, a ∈ all_threads k → (k.thr a).f_waiting = true → (k.thr a).data = id →
      ((thread_signal id k).thr a).f_waiting = false ∧
      ((thread_signal id k).thr a).timer =
        (if (k.thr a).f_time_pending then (k.thr a).timer else 0) ∧
      (∀ j, j ≠ 2 →
        ((thread_signal id k).thr a).flags.testBit j = (k.thr a).flags.testBit j) ∧
      ((thread_signal id k).thr a).data = (k.thr a).data ∧
      ((thread_signal id k).thr a).sp0 = (k.thr a).sp0 ∧
      ((thread_signal id k).thr a).sp = (k.thr a).sp) ∧
    (∀ a, ¬ (a ∈ all_threads k ∧ (k.thr a).f_waiting = true ∧ (k.thr a).data = id) →
      (thread_signal id k).thr a = k.thr a) ∧
    (thread_signal id k)._threads = k._threads ∧
    (thread_signal id k)._callbacks = k._callbacks ∧
    (thread_signal id k).cbk = k.cbk ∧
    (thread_signal id k)._thrp = k._thrp ∧
    (thread_signal id k).ticks = k.ticks ∧
    (thread_signal id k).mem = k.mem := by
  refine ⟨?_, ?_, rfl, rfl, rfl, rfl, rfl, rfl⟩
  · intro a ha hw hd
    rw [thread_signal_thr, if_pos ha]
    have h1 : signal_thread id (k.thr a) = cancel_timer ((k.thr a).set_f_waiting false) := by
      unfold signal_thread
      rw [if_pos hw, if_pos hd]
    rw [h1]
    have htp : ((k.thr a).set_f_waiting false).f_time_pending = (k.thr a).f_time_pending := by
      show (bit_assign (k.thr a).flags 2 false).testBit 1 = (k.thr a).flags.testBit 1
      rw [testBit_bit_assign]
      simp
    refine ⟨?_, ?_, ?_, ?_, ?_, ?_⟩
    · rw [f_waiting_cancel_timer, f_waiting_set_f_waiting]
    · unfold cancel_timer
      rw [htp]
      cases (k.thr a).f_time_pending <;> rfl
    · intro j hj
      have : (cancel_timer ((k.thr a).set_f_waiting false)).flags =
          bit_assign (k.thr a).flags 2 false := by
        unfold cancel_timer
        split <;> rfl
      rw [this, testBit_bit_assign, if_neg hj]
    · unfold cancel_timer
      split <;> rfl
    · unfold cancel_timer
      split <;> rfl
    · unfold cancel_timer
      split <;> rfl
  · intro a hna
    rw [thread_signal_thr]
    by_cases ha : a ∈ all_threads k
    · rw [if_pos ha]
      unfold signal_thread
      by_cases hw : (k.thr a).f_waiting = true
      · have hd : ¬ (k.thr a).data = id := fun hd => hna ⟨ha, hw, hd⟩
        rw [if_pos hw, if_neg hd]
      · rw [if_neg hw]
    · rw [if_neg ha]

/-- Witness of C6 on `ex_waiters` with signal 7: threads 1 and 3 are released,
the timer of thread 1 is zeroed, and thread 2, which waits for signal 8, is left
as it was. -/
theorem thread_signal_releases_matching_witness :
    ((thread_signal 7 ex_waiters).thr 1).f_waiting = false ∧
    ((thread_signal 7 ex_waiters).thr 1).timer = 0 ∧
    ((thread_signal 7 ex_waiters).thr 3).f_waiting = false ∧
    (thread_signal 7 ex_waiters).thr 2 = ex_waiters.thr 2 :=
  ⟨((thread_signal_releases_matching ex_waiters 7).1 1 (by decide) (by decide) (by decide)).1,
    ((thread_signal_releases_matching ex_waiters 7).1 1 (by decide) (by decide)
      (by decide)).2.1,
    ((thread_signal_releases_matching ex_waiters 7).1 3 (by decide) (by decide) (by decide)).1,
    (thread_signal_releases_matching ex_waiters 7).2.1 2 (by decide)⟩

theorem cancel_timer_timer (t : thread_t) :
    (cancel_timer t).timer = if t.f_time_pending then t.timer else 0 := by
  unfold cancel_timer
  cases t.f_time_pending <;> rfl

theorem f_semaphore_set_f_semaphore (t : thread_t) (b : Bool) :
    (t.set_f_semaphore b).f_semaphore = b := by
  show (bit_assign t.flags 3 b).testBit 3 = b
  rw [testBit_bit_assign]
  simp

theorem f_semaphore_cancel_timer (t : thread_t) :
    (cancel_timer t).f_semaphore = t.f_semaphore := by
  unfold cancel_timer
  split <;> rfl

theorem unlock_match_iff (m : Nat) (t : thread_t) :
    unlock_match m t = true ↔ (t.f_semaphore = true ∧ t.data = m) := by
  unfold unlock_match
  simp

/-- The search loop of `thread_unlock` returns the first waiter of the highest
level that has one. -/
theorem unlock_find_some (m : Nat) (k : kernel) (n a : Nat)
    (h : unlock_find m k n = some a) :
    ∃ p pre post, p < n ∧ k._threads p = pre ++ a :: post ∧
      ((k.thr a).f_semaphore = true ∧ (k.thr a).data = m) ∧
      (∀ b, b ∈ pre → ¬ ((k.thr b).f_semaphore = true ∧ (k.thr b).data = m)) ∧
      ∀ q, p < q → q < n → ∀ b, b ∈ k._threads q →
        ¬ ((k.thr b).f_semaphore = true ∧ (k.thr b).data = m) := by
  induction n with
  | zero => cases h
  | succ n ih =>
    simp only [unlock_find] at h
    cases hf : (k._threads n).find? (fun a => unlock_match m (k.thr a)) with
    | some b =>
      rw [hf] at h
      simp only [Option.some.injEq] at h
      subst h
      obtain ⟨hpb, pre, post, hsplit, hpre⟩ := List.find?_eq_some.1 hf
      refine ⟨n, pre, post, Nat.lt_succ_self n, hsplit, (unlock_match_iff m _).1 hpb, ?_, ?_⟩
      · intro c hc hmatch
        have := hpre c hc
        rw [(unlock_match_iff m _).2 hmatch] at this
        cases this
      · intro q hq hq2
        omega
    | none =>
      rw [hf] at h
      obtain ⟨p, pre, post, hp, hsplit, hm, hpre, hall⟩ := ih h
      refine ⟨p, pre, post, Nat.lt_succ_of_lt hp, hsplit, hm, hpre, ?_⟩
      intro q hpq hq b hb hmatch
      by_cases hqn : q = n
      · subst hqn
        have := List.find?_eq_none.1 hf b hb
        exact this ((unlock_match_iff m _).2 hmatch)
      · exact hall q hpq (by omega) b hb hmatch

theorem unlock_find_none (m : Nat) (k : kernel) (n : Nat) :
    unlock_find m k n = none ↔
      ∀ q, q < n → ∀ b, b ∈ k._threads q →
        ¬ ((k.thr b).f_semaphore = true ∧ (k.thr b).data = m) := by
  induction n with
  | zero =>
    constructor
    · intro _ q hq
      omega
    · intro _
      rfl
  | succ n ih =>
    simp only [unlock_find]
    cases hf : (k._threads n).find? (fun a => unlock_match m (k.thr a)) with
    | some b =>
      constructor
      · intro h
        cases h
      · intro h
        exact absurd ((unlock_match_iff m _).1
          (@List.find?_some _ (fun a => unlock_match m (k.thr a)) _ _ hf))
          (h n (Nat.lt_succ_self n) b (List.mem_of_find?_eq_some hf))
    | none =>
      simp only []
      rw [ih]
      constructor
      · intro h q hq b hb hmatch
        by_cases hqn : q = n
        · subst hqn
          exact List.find?_eq_none.1 hf b hb ((unlock_match_iff m _).2 hmatch)
        · exact h q (by omega) b hb hmatch
      · intro h q hq b hb
        exact h q (Nat.lt_succ_of_lt hq) b hb

/-- C7. The call `thread_unlock(m)`: when `*m == 0` nothing changes; when the
mutex is held and some member of the table has `semaphore` set and `data == m`,
exactly one record changes, that of the first such thread in collection order of
the highest priority level that has one: its `semaphore` bit is cleared and its
timer zeroed when `time_pending` is clear, and the mutex byte is left as it was
(held); when no member waits on `m`, the byte becomes 0 and no record changes. -/
theorem thread_unlock_hand_off (k : kernel) (m : Nat) :
    (k.mem m = 0 → thread_unlock m k = { k with ie := true }) ∧
    (k.mem m ≠ 0 →
      (∃ b, b ∈ all_threads k ∧ (k.thr b).f_semaphore = true ∧ (k.thr b).data = m) →
      ∃ a, first_waiter k m a ∧
        (thread_unlock m k).thr a = cancel_timer ((k.thr a).set_f_semaphore false) ∧
        ((thread_unlock m k).thr a).f_semaphore = false ∧
        ((thread_unlock m k).thr a).timer =
          (if (k.thr a).f_time_pending then (k.thr a).timer else 0) ∧
        (∀ j, j ≠ 3 →
          ((thread_unlock m k).thr a).flags.testBit j = (k.thr a).flags.testBit j) ∧
        (thread_unlock m k).thr a ≠ k.thr a ∧
        (∀ b, b ≠ a → (thread_unlock m k).thr b = k.thr b) ∧
        (thread_unlock m k).mem = k.mem ∧
        (thread_unlock m k)._threads = k._threads) ∧
    (k.mem m ≠ 0 →
      (¬ ∃ b, b ∈ all_threads k ∧ (k.thr b).f_semaphore = true ∧ (k.thr b).data = m) →
      thread_unlock m k = { k with mem := Function.update k.mem m 0, ie := true }) := by
  refine ⟨?_, ?_, ?_⟩
  · intro h0
    unfold thread_unlock
    rw [if_pos h0]
  · intro h1 hex
    cases hf : unlock_find m k MAX_PRIO with
    | none =>
      exfalso
      obtain ⟨b, hb, hs, hd⟩ := hex
      obtain ⟨i, hi, hbi⟩ := (mem_all_threads k b).1 hb
      exact (unlock_find_none m k MAX_PRIO).1 hf i hi b hbi ⟨hs, hd⟩
    | some a =>
      have hu : thread_unlock m k =
          { k with
            thr := Function.update k.thr a (cancel_timer ((k.thr a).set_f_semaphore false))
            ie := true } := by
        unfold thread_unlock
        rw [if_neg h1, hf]
      obtain ⟨p, pre, post, hp, hsplit, hm, hpre, hall⟩ := unlock_find_some m k MAX_PRIO a hf
      have hta : (thread_unlock m k).thr a =
          cancel_timer ((k.thr a).set_f_semaphore false) := by
        rw [hu]
        exact Function.update_same _ _ _
      have hsem : ((thread_unlock m k).thr a).f_semaphore = false := by
        rw [hta, f_semaphore_cancel_timer, f_semaphore_set_f_semaphore]
      refine ⟨a, ⟨p, pre, post, hp, hsplit, hm, hpre, hall⟩, hta, hsem, ?_, ?_, ?_, ?_, ?_, ?_⟩
      · rw [hta, cancel_timer_timer]
        have htp : ((k.thr a).set_f_semaphore false).f_time_pending =
            (k.thr a).f_time_pending := by
          show (bit_assign (k.thr a).flags 3 false).testBit 1 = _
          rw [testBit_bit_assign]
          rfl
        rw [htp]
        rfl
      · intro j hj
        have hfl : (cancel_timer ((k.thr a).set_f_semaphore false)).flags =
            bit_assign (k.thr a).flags 3 false := by
          unfold cancel_timer
          split <;> rfl
        rw [hta, hfl, testBit_bit_assign, if_neg hj]
      · intro heq
        rw [heq, hm.1] at hsem
        cases hsem
      · intro b hb
        rw [hu]
        exact Function.update_noteq hb _ _
      · rw [hu]
      · rw [hu]
  · intro h1 hne
    have hf : unlock_find m k MAX_PRIO = none := by
      rw [unlock_find_none]
      intro q hq b hb hmatch
      exact hne ⟨b, (mem_all_threads k b).2 ⟨q, hq, hb⟩, hmatch.1, hmatch.2⟩
    unfold thread_unlock
    rw [if_neg h1, hf]

/-- Witness of C7 (hand-off): the mutex at address 40 is held, threads 2 (priority
1) and 3 (priority 0) wait on it, and thread 2 receives it. -/
theorem thread_unlock_hand_off_witness :
    ex_mutex_held.mem 40 ≠ 0 ∧
    ∃ a, first_waiter ex_mutex_held 40 a ∧
      (thread_unlock 40 ex_mutex_held).thr a =
        cancel_timer ((ex_mutex_held.thr a).set_f_semaphore false) ∧
      ((thread_unlock 40 ex_mutex_held).thr a).f_semaphore = false ∧
      ((thread_unlock 40 ex_mutex_held).thr a).timer =
        (if (ex_mutex_held.thr a).f_time_pending then (ex_mutex_held.thr a).timer else 0) ∧
      (∀ j, j ≠ 3 →
        ((thread_unlock 40 ex_mutex_held).thr a).flags.testBit j =
          (ex_mutex_held.thr a).flags.testBit j) ∧
      (thread_unlock 40 ex_mutex_held).thr a ≠ ex_mutex_held.thr a ∧
      (∀ b, b ≠ a → (thread_unlock 40 ex_mutex_held).thr b = ex_mutex_held.thr b) ∧
      (thread_unlock 40 ex_mutex_held).mem = ex_mutex_held.mem ∧
      (thread_unlock 40 ex_mutex_held)._threads = ex_mutex_held._threads :=
  ⟨by decide,
    (thread_unlock_hand_off ex_mutex_held 40).2.1 (by decide)
      ⟨2, by decide, by decide, by decide⟩⟩

/-! # Kernel services -/

/-- The priority field is not touched by a store to one of the flag bits. -/
theorem prio_bit_assign (w i : Nat) (b : Bool) (hi : i < 8) :
    (bit_assign w i b >>> 8) % 8 = (w >>> 8) % 8 := by
  show (bit_assign w i b >>> 8) % 2 ^ 3 = (w >>> 8) % 2 ^ 3
  apply Nat.eq_of_testBit_eq
  intro j
  rw [Nat.testBit_mod_two_pow, Nat.testBit_mod_two_pow, Nat.testBit_shiftRight,
    Nat.testBit_shiftRight, testBit_bit_assign, if_neg (by omega)]

/-- C10. SETTIMEOUT from thread context: `kernel_call(SV_SETTIMEOUT, n)` returns
TRUE to the caller, which stays the current thread; afterwards its timer is `n`
and its timeout bit is clear; every other bit of its flags word, its priority,
data and stack pointers, every other thread record, the collections and the byte
memory are unchanged. -/
theorem kernel_call_settimeout (k : kernel) (a n : Nat) (hcur : k._thrp = some a) :
    (kernel_call SV_SETTIMEOUT n k).2 = kc_exit.to_thread true ∧
    (kernel_call SV_SETTIMEOUT n k).1._thrp = some a ∧
    ((kernel_call SV_SETTIMEOUT n k).1.thr a).timer = n ∧
    ((kernel_call SV_SETTIMEOUT n k).1.thr a).f_timeout = false ∧
    (∀ j, j ≠ 6 →
      ((kernel_call SV_SETTIMEOUT n k).1.thr a).flags.testBit j = (k.thr a).flags.testBit j) ∧
    ((kernel_call SV_SETTIMEOUT n k).1.thr a).prio = (k.thr a).prio ∧
    ((kernel_call SV_SETTIMEOUT n k).1.thr a).data = (k.thr a).data ∧
    ((kernel_call SV_SETTIMEOUT n k).1.thr a).sp0 = (k.thr a).sp0 ∧
    ((kernel_call SV_SETTIMEOUT n k).1.thr a).sp = (k.thr a).sp ∧
    (∀ b, b ≠ a → (kernel_call SV_SETTIMEOUT n k).1.thr b = k.thr b) ∧
    (kernel_call SV_SETTIMEOUT n k).1._threads = k._threads ∧
    (kernel_call SV_SETTIMEOUT n k).1.mem = k.mem := by
  have hk : kernel_call SV_SETTIMEOUT n k =
      ({ k with
          ie := true
          thr := Function.update k.thr a
            ({ k.thr a with timer := n }.set_f_timeout false) },
        kc_exit.to_thread true) := by
    unfold kernel_call
    rw [hcur]
    simp [SV_SETTIMEOUT, SV_YIELD, SV_END, SV_SLEEP, SV_WAIT, return_to_thread]
  rw [hk]
  refine ⟨rfl, hcur, ?_, ?_, ?_, ?_, ?_, ?_, ?_, ?_, rfl, rfl⟩
  · simp only [Function.update_same]
    rfl
  · simp only [Function.update_same]
    show (bit_assign (k.thr a).flags 6 false).testBit 6 = false
    rw [testBit_bit_assign]
    simp
  · intro j hj
    simp only [Function.update_same]
    show (bit_assign (k.thr a).flags 6 false).testBit j = _
    rw [testBit_bit_assign, if_neg hj]
  · simp only [Function.update_same]
    exact prio_bit_assign _ 6 false (by decide)
  · simp only [Function.update_same]
    rfl
  · simp only [Function.update_same]
    rfl
  · simp only [Function.update_same]
    rfl
  · intro b hb
    exact Function.update_noteq hb _ _

/-- Witness of C10: thread 1 of `ex_mutex_held` is current and arms a deadline of
5 ticks. -/
theorem kernel_call_settimeout_witness :
    ex_mutex_held._thrp = some 1 ∧
    (kernel_call SV_SETTIMEOUT 5 ex_mutex_held).2 = kc_exit.to_thread true ∧
    ((kernel_call SV_SETTIMEOUT 5 ex_mutex_held).1.thr 1).timer = 5 :=
  ⟨rfl, (kernel_call_settimeout ex_mutex_held 1 5 rfl).1,
    (kernel_call_settimeout ex_mutex_held 1 5 rfl).2.2.1⟩

/-! # Runs: what an event does to the record of a thread that is not current -/

/-- A kernel call touches no record but that of the current thread, leaves every
collection as it was or, for END, without the current thread, and leaves the tick
counter alone. -/
theorem kernel_call_frame (k : kernel) (c func arg : Nat) (hc : k._thrp = some c) :
    (∀ a, a ≠ c → (kernel_call func arg k).1.thr a = k.thr a) ∧
    (∀ i, (kernel_call func arg k).1._threads i = k._threads i ∨
      (kernel_call func arg k).1._threads i = (k._threads i).erase c) ∧
    (kernel_call func arg k).1.ticks = k.ticks := by
  unfold kernel_call
  rw [hc]
  dsimp only
  by_cases h1 : func = SV_YIELD
  · rw [if_pos h1]
    exact ⟨fun a hne => by simp [return_to_main, switch_threads, Function.update_noteq hne],
      fun i => Or.inl rfl, rfl⟩
  rw [if_neg h1]
  by_cases h2 : func = SV_END
  · rw [if_pos h2]
    refine ⟨fun a hne => by simp [return_to_main, switch_threads, Function.update_noteq hne],
      fun i => ?_, rfl⟩
    by_cases hi : i = (k.thr c).prio
    · subst hi
      right
      simp [return_to_main, switch_threads]
    · left
      simp [return_to_main, switch_threads, Function.update_noteq hi]
  rw [if_neg h2]
  by_cases h3 : func = SV_SLEEP
  · rw [if_pos h3]
    exact ⟨fun a hne => by simp [return_to_main, switch_threads, Function.update_noteq hne],
      fun i => Or.inl rfl, rfl⟩
  rw [if_neg h3]
  by_cases h4 : func = SV_WAIT
  · rw [if_pos h4]
    exact ⟨fun a hne => by simp [return_to_main, switch_threads, Function.update_noteq hne],
      fun i => Or.inl rfl, rfl⟩
  rw [if_neg h4]
  by_cases h5 : func = SV_SETTIMEOUT
  · rw [if_pos h5]
    exact ⟨fun a hne => by simp [return_to_thread, Function.update_noteq hne],
      fun i => Or.inl rfl, rfl⟩
  rw [if_neg h5]
  have hnt : ∀ k2 : kernel, k2.thr = k.thr → k2._threads = k._threads → k2.ticks = k.ticks →
      (∀ a, a ≠ c → (return_to_thread_no_timeout k2 c).1.thr a = k.thr a) ∧
      (∀ i, (return_to_thread_no_timeout k2 c).1._threads i = k._threads i ∨
        (return_to_thread_no_timeout k2 c).1._threads i = (k._threads i).erase c) ∧
      (return_to_thread_no_timeout k2 c).1.ticks = k.ticks := by
    intro k2 e1 e2 e3
    unfold return_to_thread_no_timeout
    split_ifs
    · exact ⟨fun a hne => by simp [return_to_thread, Function.update_noteq hne, e1],
        fun i => Or.inl (by simp [return_to_thread, e2]), by simp [return_to_thread, e3]⟩
    · exact ⟨fun a hne => by simp [return_to_thread, e1],
        fun i => Or.inl (by simp [return_to_thread, e2]), by simp [return_to_thread, e3]⟩
  by_cases h6 : func = SV_LOCK
  · rw [if_pos h6]
    by_cases h7 : k.mem arg ≠ 0
    · rw [if_pos h7]
      exact ⟨fun a hne => by simp [return_to_main, switch_threads, Function.update_noteq hne],
        fun i => Or.inl rfl, rfl⟩
    · rw [if_neg h7]
      exact hnt _ rfl rfl rfl
  rw [if_neg h6]
  exact hnt _ rfl rfl rfl

theorem kernel_call_no_thread (k : kernel) (func arg : Nat) (h : k._thrp = none) :
    kernel_call func arg k = (k, kc_exit.to_thread false) := by
  unfold kernel_call
  rw [h]

theorem kernel_call_thr_other (k : kernel) (a func arg : Nat) (h : k._thrp ≠ some a) :
    (kernel_call func arg k).1.thr a = k.thr a := by
  cases hc : k._thrp with
  | none => rw [kernel_call_no_thread k func arg hc]
  | some c =>
    have hne : a ≠ c := fun e => h (by rw [hc, e])
    exact (kernel_call_frame k c func arg hc).1 a hne

theorem kernel_call_threads (k : kernel) (func arg i : Nat) :
    (kernel_call func arg k).1._threads i = k._threads i ∨
      ∃ c, k._thrp = some c ∧
        (kernel_call func arg k).1._threads i = (k._threads i).erase c := by
  cases hc : k._thrp with
  | none =>
    left
    rw [kernel_call_no_thread k func arg hc]
  | some c =>
    rcases (kernel_call_frame k c func arg hc).2.1 i with h | h
    · exact Or.inl h
    · exact Or.inr ⟨c, rfl, h⟩

theorem scheduler_threads_thr_cases (k : kernel) (a : Nat) :
    (scheduler_threads k).thr a = k.thr a ∨
      (scheduler_threads k).thr a = (k.thr a).set_f_nice false :=
  scheduler_levels_thr_cases MAX_PRIO { k with ie := false } a

theorem thread_unlock_threads (m : Nat) (k : kernel) :
    (thread_unlock m k)._threads = k._threads := by
  unfold thread_unlock
  split_ifs
  · rfl
  · cases unlock_find m k MAX_PRIO <;> rfl

theorem thread_unlock_thr_cases (m : Nat) (k : kernel) (a : Nat) :
    (thread_unlock m k).thr a = k.thr a ∨
      (thread_unlock m k).thr a = cancel_timer ((k.thr a).set_f_semaphore false) := by
  unfold thread_unlock
  split_ifs
  · exact Or.inl rfl
  · cases unlock_find m k MAX_PRIO with
    | none => exact Or.inl rfl
    | some b =>
      by_cases hab : a = b
      · subst hab
        right
        simp
      · left
        simp [Function.update_noteq hab]

/-- Every event leaves each collection as it was or removes one member. -/
theorem step_threads_sublist (e : event) (k : kernel) (i : Nat) :
    ((step e k)._threads i).Sublist (k._threads i) := by
  cases e with
  | tick => exact List.Sublist.refl _
  | sched => rw [show (step event.sched k) = scheduler_threads k from rfl,
      scheduler_threads_threads]
  | call func arg =>
    rcases kernel_call_threads k func arg i with h | ⟨c, _, h⟩
    · rw [show (step (event.call func arg) k) = (kernel_call func arg k).1 from rfl, h]
    · rw [show (step (event.call func arg) k) = (kernel_call func arg k).1 from rfl, h]
      exact List.erase_sublist _ _
  | signal id => exact List.Sublist.refl _
  | unlock m => rw [show (step (event.unlock m) k) = thread_unlock m k from rfl,
      thread_unlock_threads]
  | force th => exact List.Sublist.refl _
  | terminate th => exact List.Sublist.refl _
  | suspend th => exact List.Sublist.refl _
  | release th => exact List.Sublist.refl _

/-- A thread that is not current stays in its collection. -/
theorem step_threads_mem (e : event) (k : kernel) (a i : Nat) (h : k._thrp ≠ some a)
    (ha : a ∈ k._threads i) : a ∈ (step e k)._threads i := by
  cases e with
  | tick => exact ha
  | sched => rw [show (step event.sched k) = scheduler_threads k from rfl,
      scheduler_threads_threads]; exact ha
  | call func arg =>
    rcases kernel_call_threads k func arg i with h2 | ⟨c, hc, h2⟩
    · rw [show (step (event.call func arg) k) = (kernel_call func arg k).1 from rfl, h2]
      exact ha
    · rw [show (step (event.call func arg) k) = (kernel_call func arg k).1 from rfl, h2]
      have hne : a ≠ c := fun e => h (by rw [hc, e])
      exact (List.mem_erase_of_ne hne).2 ha
  | signal id => exact ha
  | unlock m => rw [show (step (event.unlock m) k) = thread_unlock m k from rfl,
      thread_unlock_threads]; exact ha
  | force th => exact ha
  | terminate th => exact ha
  | suspend th => exact ha
  | release th => exact ha

theorem flatMap_sublist (T T2 : Nat → List Nat) (ls : List Nat)
    (h : ∀ i, (T2 i).Sublist (T i)) : (ls.flatMap T2).Sublist (ls.flatMap T) := by
  induction ls with
  | nil => exact List.Sublist.refl _
  | cons i ls ih =>
    rw [List.flatMap_cons, List.flatMap_cons]
    exact List.Sublist.append (h i) ih

/-- Every event keeps the thread table well formed. -/
theorem step_table_wf (e : event) (k : kernel) (hwf : table_wf k) : table_wf (step e k) := by
  unfold table_wf all_threads at hwf ⊢
  exact List.Nodup.sublist (flatMap_sublist _ _ _ (step_threads_sublist e k)) hwf

theorem step_mem_all_threads (e : event) (k : kernel) (a : Nat) (h : k._thrp ≠ some a)
    (ha : a ∈ all_threads k) : a ∈ all_threads (step e k) := by
  obtain ⟨i, hi, hai⟩ := (mem_all_threads k a).1 ha
  exact (mem_all_threads _ a).2 ⟨i, hi, step_threads_mem e k a i h hai⟩

/-- The tick handler applies the thread body once to every member of a well
formed table, and to nothing else. -/
theorem os_tick_thr (k : kernel) (hwf : table_wf k) (a : Nat) :
    (os_tick k).thr a = if a ∈ all_threads k then tick_thread (k.thr a) else k.thr a := by
  show levels_up.foldl (fun h i => heap_apply tick_thread (k._threads i) h) k.thr a = _
  rw [foldl_heap_apply]
  by_cases ha : a ∈ all_threads k
  · rw [if_pos ha]
    exact heap_apply_nodup _ _ hwf _ _ ha
  · rw [if_neg ha]
    exact heap_apply_not_mem _ _ _ _ ha

/-! ## Bits of the composite masks -/

theorem testBit_mask_timeout (j : Nat) :
    MASK_TIMEOUT.testBit j = (decide (j = 2) || decide (j = 3)) := by
  by_cases h : j < 4
  · interval_cases j <;> decide
  · have h4 : 4 ≤ j := Nat.le_of_not_lt h
    have hlt : MASK_TIMEOUT < 2 ^ j :=
      lt_of_lt_of_le (by decide : MASK_TIMEOUT < 2 ^ 4) (Nat.pow_le_pow_right (by decide) h4)
    rw [Nat.testBit_lt_two_pow hlt]
    have h2 : j ≠ 2 := by omega
    have h3 : j ≠ 3 := by omega
    simp [h2, h3]

theorem and_mask_timeout_eq_zero (w : Nat) :
    w &&& MASK_TIMEOUT = 0 ↔ w.testBit 2 = false ∧ w.testBit 3 = false := by
  constructor
  · intro h
    have hb : ∀ j, (w.testBit j && MASK_TIMEOUT.testBit j) = false := by
      intro j
      rw [← Nat.testBit_and, h]
      simp
    have h2 := hb 2
    have h3 := hb 3
    simp [testBit_mask_timeout] at h2 h3
    exact ⟨h2, h3⟩
  · rintro ⟨h2, h3⟩
    apply Nat.eq_of_testBit_eq
    intro j
    rw [Nat.testBit_and, testBit_mask_timeout]
    by_cases e2 : j = 2
    · subst e2; simp [h2]
    by_cases e3 : j = 3
    · subst e3; simp [h3]
    simp [e2, e3]

/-- The bits of `flags & ~MASK_WAIT` stored in the 16-bit word. -/
theorem testBit_clear_wait_mask (w j : Nat) :
    (clear_wait_mask w).testBit j =
      (decide (j < 16) && (w.testBit j && !MASK_WAIT.testBit j)) := by
  unfold clear_wait_mask
  rw [Nat.testBit_mod_two_pow, Nat.testBit_and, Nat.testBit_xor]
  by_cases hj : j < 16
  · have h32 : (0xFFFFFFFF : Nat).testBit j = true := by
      rw [show (0xFFFFFFFF : Nat) = 2 ^ 32 - 1 from rfl, Nat.testBit_two_pow_sub_one]
      simp
      omega
    rw [h32]
    simp
  · simp [hj]

/-! ## The thread body of the tick handler, case by case -/

theorem tick_thread_zero (t : thread_t) (h : t.timer = 0) : tick_thread t = t := by
  unfold tick_thread
  simp [h]

theorem tick_thread_many (t : thread_t) (h : 2 ≤ t.timer) :
    tick_thread t = { t with timer := t.timer - 1 } := by
  unfold tick_thread
  have h1 : t.timer ≠ 0 := by omega
  have h2 : t.timer - 1 ≠ 0 := by omega
  simp [h1, h2]

theorem tick_thread_last_plain (t : thread_t) (h : t.timer = 1)
    (hm : t.flags &&& MASK_TIMEOUT = 0) :
    tick_thread t = ({ t with timer := 0 } : thread_t).set_f_time_pending false := by
  unfold tick_thread
  simp [h, hm]

theorem tick_thread_last_wait (t : thread_t) (h : t.timer = 1)
    (hm : t.flags &&& MASK_TIMEOUT ≠ 0) :
    tick_thread t =
      (({ t with timer := 0, flags := clear_wait_mask t.flags } : thread_t).set_f_timeout
        true).set_f_time_pending false := by
  unfold tick_thread
  simp [h, hm]

/-! ## The timeout bit -/

theorem f_timeout_set_f_nice (t : thread_t) (b : Bool) :
    (t.set_f_nice b).f_timeout = t.f_timeout := by
  show (bit_assign t.flags 0 b).testBit 6 = _
  rw [testBit_bit_assign]
  rfl

theorem f_timeout_set_f_time_pending (t : thread_t) (b : Bool) :
    (t.set_f_time_pending b).f_timeout = t.f_timeout := by
  show (bit_assign t.flags 1 b).testBit 6 = _
  rw [testBit_bit_assign]
  rfl

theorem f_timeout_set_f_waiting (t : thread_t) (b : Bool) :
    (t.set_f_waiting b).f_timeout = t.f_timeout := by
  show (bit_assign t.flags 2 b).testBit 6 = _
  rw [testBit_bit_assign]
  rfl

theorem f_timeout_set_f_semaphore (t : thread_t) (b : Bool) :
    (t.set_f_semaphore b).f_timeout = t.f_timeout := by
  show (bit_assign t.flags 3 b).testBit 6 = _
  rw [testBit_bit_assign]
  rfl

theorem f_timeout_set_f_suspend (t : thread_t) (b : Bool) :
    (t.set_f_suspend b).f_timeout = t.f_timeout := by
  show (bit_assign t.flags 4 b).testBit 6 = _
  rw [testBit_bit_assign]
  rfl

theorem f_timeout_cancel_timer (t : thread_t) : (cancel_timer t).f_timeout = t.f_timeout := by
  unfold cancel_timer
  split <;> rfl

theorem f_timeout_signal_thread (ptr : Nat) (t : thread_t) :
    (signal_thread ptr t).f_timeout = t.f_timeout := by
  unfold signal_thread
  split_ifs
  · rw [f_timeout_cancel_timer, f_timeout_set_f_waiting]
  · rfl
  · rfl

/-- A tick that is not the expiry of a timed wait or lock leaves the timeout bit
as it was. -/
theorem f_timeout_tick_thread (t : thread_t)
    (h : ¬ (t.timer = 1 ∧ t.flags &&& MASK_TIMEOUT ≠ 0)) :
    (tick_thread t).f_timeout = t.f_timeout := by
  by_cases h0 : t.timer = 0
  · rw [tick_thread_zero t h0]
  by_cases h1 : t.timer = 1
  · have hm : t.flags &&& MASK_TIMEOUT = 0 := by
      by_contra hne
      exact h ⟨h1, hne⟩
    rw [tick_thread_last_plain t h1 hm, f_timeout_set_f_time_pending]
    rfl
  · rw [tick_thread_many t (by omega)]
    rfl

/-- An event that spares thread `a`, happening while `a` is not current, leaves
the timeout bit of `a` as it was. -/
theorem step_f_timeout (a : Nat) (e : event) (k : kernel) (hwf : table_wf k)
    (hcur : k._thrp ≠ some a) (hs : spares a k e) :
    ((step e k).thr a).f_timeout = (k.thr a).f_timeout := by
  cases e with
  | tick =>
    show ((os_tick k).thr a).f_timeout = _
    rw [os_tick_thr k hwf]
    split_ifs
    · exact f_timeout_tick_thread _ hs
    · rfl
  | sched =>
    rcases scheduler_threads_thr_cases k a with h | h
    · show ((scheduler_threads k).thr a).f_timeout = _
      rw [h]
    · show ((scheduler_threads k).thr a).f_timeout = _
      rw [h, f_timeout_set_f_nice]
  | call func arg =>
    show ((kernel_call func arg k).1.thr a).f_timeout = _
    rw [kernel_call_thr_other k a func arg hcur]
  | signal id =>
    show ((thread_signal id k).thr a).f_timeout = _
    rw [thread_signal_thr]
    split_ifs
    · exact f_timeout_signal_thread _ _
    · rfl
  | unlock m =>
    rcases thread_unlock_thr_cases m k a with h | h
    · show ((thread_unlock m k).thr a).f_timeout = _
      rw [h]
    · show ((thread_unlock m k).thr a).f_timeout = _
      rw [h, f_timeout_cancel_timer, f_timeout_set_f_semaphore]
  | force th =>
    have hne : a ≠ th := fun e => hs e.symm
    show (Function.update k.thr th (force_thread (k.thr th)) a).f_timeout = _
    rw [Function.update_noteq hne]
  | terminate th =>
    have hne : a ≠ th := fun e => hs e.symm
    show (Function.update k.thr th (terminate_thread (k.thr th)) a).f_timeout = _
    rw [Function.update_noteq hne]
  | suspend th =>
    show (Function.update k.thr th ((k.thr th).set_f_suspend true) a).f_timeout = _
    by_cases hne : a = th
    · subst hne
      rw [Function.update_same, f_timeout_set_f_suspend]
    · rw [Function.update_noteq hne]
  | release th =>
    show (Function.update k.thr th ((k.thr th).set_f_suspend false) a).f_timeout = _
    by_cases hne : a = th
    · subst hne
      rw [Function.update_same, f_timeout_set_f_suspend]
    · rw [Function.update_noteq hne]

theorem run_f_timeout (a : Nat) (es : List event) (k : kernel) (hwf : table_wf k)
    (h : away a (spares a) k es) :
    ((run es k).thr a).f_timeout = (k.thr a).f_timeout := by
  induction es generalizing k with
  | nil => rfl
  | cons e es ih =>
    obtain ⟨hcur, hs, hrest⟩ := h
    show ((run es (step e k)).thr a).f_timeout = _
    rw [ih (step e k) (step_table_wf e k hwf) hrest]
    exact step_f_timeout a e k hwf hcur hs

/-- The suspending services leave through the switch to the main thread, with no
current thread, and do not touch the timeout bit of the caller. -/
theorem kernel_call_suspends (k : kernel) (a func arg : Nat) (hcur : k._thrp = some a)
    (hf : func = SV_YIELD ∨ func = SV_SLEEP ∨ func = SV_WAIT ∨
      (func = SV_LOCK ∧ k.mem arg ≠ 0)) :
    (kernel_call func arg k).2 = kc_exit.to_main ∧
      (kernel_call func arg k).1._thrp = none ∧
      ((kernel_call func arg k).1.thr a).f_timeout = (k.thr a).f_timeout := by
  unfold kernel_call
  rw [hcur]
  dsimp only
  rcases hf with h | h | h | ⟨h, hm⟩
  · subst h
    simp only [if_true]
    refine ⟨rfl, rfl, ?_⟩
    simp only [return_to_main, switch_threads, Function.update_same]
    exact f_timeout_set_f_nice (k.thr a) true
  · subst h
    simp only [SV_SLEEP, SV_YIELD, SV_END, if_true, if_false, OfNat.ofNat_ne_zero,
      Nat.reduceEqDiff, one_ne_zero]
    refine ⟨rfl, rfl, ?_⟩
    simp only [return_to_main, switch_threads, Function.update_same]
    exact f_timeout_set_f_time_pending { k.thr a with timer := arg } true
  · subst h
    simp only [SV_WAIT, SV_SLEEP, SV_YIELD, SV_END, if_true, if_false, OfNat.ofNat_ne_zero,
      Nat.reduceEqDiff]
    refine ⟨rfl, rfl, ?_⟩
    simp only [return_to_main, switch_threads, Function.update_same]
    exact f_timeout_set_f_waiting (k.thr a) true
  · subst h
    simp only [SV_LOCK, SV_SETTIMEOUT, SV_WAIT, SV_SLEEP, SV_YIELD, SV_END, if_true, if_false,
      OfNat.ofNat_ne_zero, Nat.reduceEqDiff]
    rw [if_pos hm]
    refine ⟨rfl, rfl, ?_⟩
    simp only [return_to_main, switch_threads, Function.update_same]
    exact f_timeout_set_f_semaphore (k.thr a) true

/-! # Return value of a suspending service -/

/-- C4, as stated, fails. Thread 1 has come back from a timed-out wait (its
kernel_call returned false, rightly) and now calls YIELD; the suspension ends by
the nice round reset of the next pass and the pass after dispatches it again, yet
kernel_call returns false, because nothing but SETTIMEOUT clears the timeout bit. -/
theorem resume_after_yield_counterexample :
    table_wf ex_timed_out ∧ ex_timed_out._thrp = some 1 ∧
    kernel_call_resume ex_timed_out = false ∧
    (kernel_call SV_YIELD 0 ex_timed_out).2 = kc_exit.to_main ∧
    away 1 (spares 1) (kernel_call SV_YIELD 0 ex_timed_out).1 [event.sched, event.sched] ∧
    (run [event.sched] (kernel_call SV_YIELD 0 ex_timed_out).1)._thrp = none ∧
    (run [event.sched, event.sched] (kernel_call SV_YIELD 0 ex_timed_out).1)._thrp = some 1 ∧
    kernel_call_resume
      (run [event.sched, event.sched] (kernel_call SV_YIELD 0 ex_timed_out).1) = false :=
  ⟨by decide, by decide, by decide, by decide, (by decide),
    by decide, by decide, by decide⟩

/-- C4, amended. The current thread `a` calls YIELD, SLEEP, WAIT or LOCK on a held
mutex: the call switches to the main thread. After any events that happen while
`a` is not current and that are neither the expiry of a timed wait or lock of `a`
nor `thread_force(a)` nor `thread_terminate(a)` (so scheduler passes with their
nice reset, sleep expiry, signals and unlock hand-offs are all allowed), when `a`
is dispatched again kernel_call returns true exactly when the timeout bit of `a`
was clear at the call. In every state, kernel_call returns false on resumption
exactly when there is no current thread or the timeout bit of the current thread
is set. -/
theorem kernel_call_resume_value (k : kernel) (a func arg : Nat) (es : List event)
    (hwf : table_wf k) (hcur : k._thrp = some a)
    (hf : func = SV_YIELD ∨ func = SV_SLEEP ∨ func = SV_WAIT ∨
      (func = SV_LOCK ∧ k.mem arg ≠ 0))
    (hrun : away a (spares a) (kernel_call func arg k).1 es)
    (hdisp : (run es (kernel_call func arg k).1)._thrp = some a) :
    (kernel_call func arg k).2 = kc_exit.to_main ∧
    (kernel_call func arg k).1._thrp = none ∧
    kernel_call_resume (run es (kernel_call func arg k).1) = !(k.thr a).f_timeout ∧
    ∀ k2 : kernel, kernel_call_resume k2 = false ↔
      (k2._thrp = none ∨ ∃ b, k2._thrp = some b ∧ (k2.thr b).f_timeout = true) := by
  obtain ⟨h1, h2, h3⟩ := kernel_call_suspends k a func arg hcur hf
  have hwf1 : table_wf (kernel_call func arg k).1 := step_table_wf (event.call func arg) k hwf
  refine ⟨h1, h2, ?_, ?_⟩
  · unfold kernel_call_resume
    rw [hdisp]
    simp only []
    rw [run_f_timeout a es _ hwf1 hrun, h3]
  · intro k2
    unfold kernel_call_resume
    cases hc : k2._thrp with
    | none => simp
    | some b => simp

/-- Witness of the amended C4: thread 1 of `ex_single`, whose timeout bit is
clear, yields and gets true when it runs again two passes later. -/
theorem kernel_call_resume_value_witness :
    kernel_call_resume
      (run [event.sched, event.sched] (kernel_call SV_YIELD 0 ex_single).1) = true :=
  (kernel_call_resume_value ex_single 1 SV_YIELD 0 [event.sched, event.sched] (by decide) rfl
    (Or.inl rfl) (by decide) (by decide)).2.2.1

/-! # Timed waits and sleeps -/

/-- A thread whose wait bits are not all clear is not selected by a pass. -/
theorem scheduler_not_selected (k : kernel) (a : Nat) (h : runnable (k.thr a) = false) :
    (scheduler_threads k)._thrp ≠ some a := by
  intro hsel
  have hr := scheduler_levels_ready MAX_PRIO { k with ie := false } a hsel
  rw [sched_ready_eq, five_bits_zero_eq] at hr
  have hrun : runnable ((scheduler_levels MAX_PRIO { k with ie := false }).thr a) =
      runnable (k.thr a) := scheduler_levels_runnable MAX_PRIO { k with ie := false } a
  rw [hrun, h] at hr
  simp at hr

/-- What a quiet event does to the record of a member of the table that is not
current: a tick applies the thread body of the tick handler, any other event
leaves the record alone or clears its nice bit. -/
theorem quiet_step_thr (a : Nat) (e : event) (k : kernel) (hwf : table_wf k)
    (hmem : a ∈ all_threads k) (hcur : k._thrp ≠ some a) (hq : quiet a k e) :
    (e = event.tick ∧ (step e k).thr a = tick_thread (k.thr a)) ∨
      (e ≠ event.tick ∧
        ((step e k).thr a = k.thr a ∨ (step e k).thr a = (k.thr a).set_f_nice false)) := by
  cases e with
  | tick =>
    left
    refine ⟨rfl, ?_⟩
    show (os_tick k).thr a = _
    rw [os_tick_thr k hwf, if_pos hmem]
  | sched =>
    right
    exact ⟨(fun h => by cases h), scheduler_threads_thr_cases k a⟩
  | call func arg =>
    right
    exact ⟨(fun h => by cases h), Or.inl (kernel_call_thr_other k a func arg hcur)⟩
  | signal id => exact Or.inr ⟨(fun h => by cases h), Or.inl hq⟩
  | unlock m => exact Or.inr ⟨(fun h => by cases h), Or.inl hq⟩
  | force th => exact Or.inr ⟨(fun h => by cases h), Or.inl hq⟩
  | terminate th => exact Or.inr ⟨(fun h => by cases h), Or.inl hq⟩
  | suspend th => exact Or.inr ⟨(fun h => by cases h), Or.inl hq⟩
  | release th => exact Or.inr ⟨(fun h => by cases h), Or.inl hq⟩

theorem ticks_in_cons_tick (es : List event) : ticks_in (event.tick :: es) = ticks_in es + 1 :=
  rfl

theorem ticks_in_cons_other (e : event) (es : List event) (h : e ≠ event.tick) :
    ticks_in (e :: es) = ticks_in es := by
  cases e with
  | tick => exact absurd rfl h
  | _ => rfl

/-- A property of the record of `a`, indexed by the number of ticks so far, that
is kept by clearing the nice bit and carried to the next index by the tick body,
holds along every quiet run. -/
theorem run_quiet_invariant (a : Nat) (Q : Nat → thread_t → Prop)
    (hnice : ∀ j t, Q j t → Q j (t.set_f_nice false))
    (htick : ∀ j t, Q j t → Q (j + 1) (tick_thread t))
    (es : List event) (k : kernel) (j : Nat) (hwf : table_wf k) (hmem : a ∈ all_threads k)
    (hrun : away a (quiet a) k es) (h0 : Q j (k.thr a)) :
    Q (j + ticks_in es) ((run es k).thr a) := by
  induction es generalizing k j with
  | nil => exact h0
  | cons e es ih =>
    obtain ⟨hcur, hq, hrest⟩ := hrun
    have hwf2 := step_table_wf e k hwf
    have hmem2 := step_mem_all_threads e k a hcur hmem
    show Q (j + ticks_in (e :: es)) ((run es (step e k)).thr a)
    rcases quiet_step_thr a e k hwf hmem hcur hq with ⟨he, ht⟩ | ⟨he, ht⟩
    · subst he
      rw [ticks_in_cons_tick, show j + (ticks_in es + 1) = (j + 1) + ticks_in es by omega]
      exact ih (step event.tick k) (j + 1) hwf2 hmem2 hrest (ht ▸ htick j _ h0)
    · rw [ticks_in_cons_other e es he]
      rcases ht with ht | ht
      · exact ih (step e k) j hwf2 hmem2 hrest (ht ▸ h0)
      · exact ih (step e k) j hwf2 hmem2 hrest (ht ▸ hnice j _ h0)

theorem kernel_call_settimeout_eq (k : kernel) (a n : Nat) (hcur : k._thrp = some a) :
    kernel_call SV_SETTIMEOUT n k =
      ({ k with
          ie := true
          thr := Function.update k.thr a
            ({ k.thr a with timer := n }.set_f_timeout false) },
        kc_exit.to_thread true) := by
  unfold kernel_call
  rw [hcur]
  simp [SV_SETTIMEOUT, SV_YIELD, SV_END, SV_SLEEP, SV_WAIT, return_to_thread]

theorem kernel_call_wait_eq (k : kernel) (a id : Nat) (hcur : k._thrp = some a) :
    kernel_call SV_WAIT id k =
      return_to_main
        { k with
          ie := false
          thr := Function.update k.thr a { (k.thr a).set_f_waiting true with data := id } } a := by
  unfold kernel_call
  rw [hcur]
  simp [SV_YIELD, SV_END, SV_SLEEP, SV_WAIT]

theorem kernel_call_sleep_eq (k : kernel) (a n : Nat) (hcur : k._thrp = some a) :
    kernel_call SV_SLEEP n k =
      return_to_main
        { k with
          ie := false
          thr := Function.update k.thr a
            ({ k.thr a with timer := n }.set_f_time_pending true) } a := by
  unfold kernel_call
  rw [hcur]
  simp [SV_YIELD, SV_END, SV_SLEEP]

theorem runnable_of_f_waiting (t : thread_t) (h : t.f_waiting = true) : runnable t = false := by
  unfold runnable
  rw [h]
  simp

theorem runnable_of_f_time_pending (t : thread_t) (h : t.f_time_pending = true) :
    runnable t = false := by
  unfold runnable
  rw [h]
  simp

theorem and_mask_timeout_ne_zero_of_f_waiting (t : thread_t) (h : t.f_waiting = true) :
    t.flags &&& MASK_TIMEOUT ≠ 0 := by
  intro h0
  have := ((and_mask_timeout_eq_zero _).1 h0).1
  rw [show t.flags.testBit 2 = t.f_waiting from rfl, h] at this
  cases this

/-- The record of a thread waiting with `n - j` ticks left, `j` ticks after the
call, and the record after the expiry. -/
theorem timed_wait_tick (n j : Nat) (t : thread_t)
    (h : (j < n → t.timer = n - j ∧ t.f_waiting = true) ∧
      (n ≤ j → t.timer = 0 ∧ t.f_waiting = false ∧ t.f_timeout = true)) :
    (j + 1 < n → (tick_thread t).timer = n - (j + 1) ∧ (tick_thread t).f_waiting = true) ∧
      (n ≤ j + 1 → (tick_thread t).timer = 0 ∧ (tick_thread t).f_waiting = false ∧
        (tick_thread t).f_timeout = true) := by
  constructor
  · intro hj
    obtain ⟨ht, hw⟩ := h.1 (by omega)
    rw [tick_thread_many t (by omega)]
    exact ⟨by show t.timer - 1 = _; omega, hw⟩
  · intro hj
    by_cases hjn : n ≤ j
    · obtain ⟨ht, hw, hto⟩ := h.2 hjn
      rw [tick_thread_zero t ht]
      exact ⟨ht, hw, hto⟩
    · obtain ⟨ht, hw⟩ := h.1 (by omega)
      have h1 : t.timer = 1 := by omega
      rw [tick_thread_last_wait t h1 (and_mask_timeout_ne_zero_of_f_waiting t hw)]
      refine ⟨rfl, ?_, ?_⟩
      · show (bit_assign (bit_assign (clear_wait_mask t.flags) 6 true) 1 false).testBit 2 = false
        rw [testBit_bit_assign, testBit_bit_assign, testBit_clear_wait_mask, testBit_mask_wait]
        simp
      · show (bit_assign (bit_assign (clear_wait_mask t.flags) 6 true) 1 false).testBit 6 = true
        rw [testBit_bit_assign, testBit_bit_assign]
        simp

theorem resume_of_f_timeout (k : kernel) (a : Nat) (hc : k._thrp = some a)
    (ht : (k.thr a).f_timeout = true) : kernel_call_resume k = false := by
  unfold kernel_call_resume
  rw [hc]
  simp only []
  rw [ht]
  rfl

theorem scheduler_threads_f_timeout (k : kernel) (a : Nat) :
    ((scheduler_threads k).thr a).f_timeout = (k.thr a).f_timeout := by
  rcases scheduler_threads_thr_cases k a with h | h
  · rw [h]
  · rw [h, f_timeout_set_f_nice]

theorem f_time_pending_set_f_time_pending (t : thread_t) (b : Bool) :
    (t.set_f_time_pending b).f_time_pending = b := by
  show (bit_assign t.flags 1 b).testBit 1 = b
  rw [testBit_bit_assign]
  simp

theorem scheduler_levels_ticks (n : Nat) (k : kernel) : (scheduler_levels n k).ticks = k.ticks := by
  induction n generalizing k with
  | zero => rfl
  | succ n ih =>
    simp only [scheduler_levels]
    cases (k._threads n).find? (fun a => sched_ready (k.thr a)) with
    | some b => rfl
    | none => exact ih _

theorem thread_unlock_ticks (m : Nat) (k : kernel) : (thread_unlock m k).ticks = k.ticks := by
  unfold thread_unlock
  split_ifs
  · rfl
  · cases unlock_find m k MAX_PRIO <;> rfl

/-- Only the tick handler advances the tick counter, by one modulo `2^32`. -/
theorem step_ticks (e : event) (k : kernel) :
    (step e k).ticks = if e = event.tick then (k.ticks + 1) % 2 ^ 32 else k.ticks := by
  cases e with
  | tick => rfl
  | sched => exact scheduler_levels_ticks MAX_PRIO _
  | call func arg =>
    show (kernel_call func arg k).1.ticks = k.ticks
    cases hc : k._thrp with
    | none => rw [kernel_call_no_thread k func arg hc]
    | some c => exact (kernel_call_frame k c func arg hc).2.2
  | signal id => rfl
  | unlock m => exact thread_unlock_ticks m k
  | force th => rfl
  | terminate th => rfl
  | suspend th => rfl
  | release th => rfl

theorem run_ticks (es : List event) (k : kernel) :
    (run es k).ticks % 2 ^ 32 = (k.ticks + ticks_in es) % 2 ^ 32 := by
  induction es generalizing k with
  | nil => rfl
  | cons e es ih =>
    show (run es (step e k)).ticks % 2 ^ 32 = _
    rw [ih, step_ticks]
    by_cases he : e = event.tick
    · subst he
      rw [if_pos rfl, ticks_in_cons_tick]
      simp only [show (2 : Nat) ^ 32 = 4294967296 from rfl]
      omega
    · rw [if_neg he, ticks_in_cons_other e es he]

/-- The record of a sleeping thread `j` ticks after the call, with `n - j` ticks
left, and the record after the expiry. -/
theorem sleep_tick (n j : Nat) (tau : Bool) (t : thread_t)
    (h : (j < n → t.timer = n - j ∧ t.f_time_pending = true ∧
        t.flags &&& MASK_TIMEOUT = 0 ∧ t.f_timeout = tau) ∧
      (n ≤ j → t.timer = 0 ∧ t.f_time_pending = false ∧ t.f_timeout = tau)) :
    (j + 1 < n → (tick_thread t).timer = n - (j + 1) ∧ (tick_thread t).f_time_pending = true ∧
        (tick_thread t).flags &&& MASK_TIMEOUT = 0 ∧ (tick_thread t).f_timeout = tau) ∧
      (n ≤ j + 1 → (tick_thread t).timer = 0 ∧ (tick_thread t).f_time_pending = false ∧
        (tick_thread t).f_timeout = tau) := by
  constructor
  · intro hj
    obtain ⟨ht, hp, hm, hto⟩ := h.1 (by omega)
    rw [tick_thread_many t (by omega)]
    exact ⟨by show t.timer - 1 = _; omega, hp, hm, hto⟩
  · intro hj
    by_cases hjn : n ≤ j
    · obtain ⟨ht, hp, hto⟩ := h.2 hjn
      rw [tick_thread_zero t ht]
      exact ⟨ht, hp, hto⟩
    · obtain ⟨ht, hp, hm, hto⟩ := h.1 (by omega)
      have h1 : t.timer = 1 := by omega
      rw [tick_thread_last_plain t h1 hm]
      refine ⟨rfl, f_time_pending_set_f_time_pending _ false, ?_⟩
      rw [f_timeout_set_f_time_pending]
      exact hto

theorem and_mask_timeout_bit_assign (w i : Nat) (b : Bool) (h2 : i ≠ 2) (h3 : i ≠ 3) :
    bit_assign w i b &&& MASK_TIMEOUT = 0 ↔ w &&& MASK_TIMEOUT = 0 := by
  rw [and_mask_timeout_eq_zero, and_mask_timeout_eq_zero, testBit_bit_assign,
    testBit_bit_assign, if_neg (Ne.symm h2), if_neg (Ne.symm h3)]

/-- C9. Sleep duration. The current thread `a`, a member of the table that is
running (its waiting and semaphore bits are clear), calls SLEEP(n) with `n >= 1`:
the call switches to the main thread with timer `n` and time_pending set. Along
any run of ticks, scheduler passes, kernel calls of other threads and support
operations that do not touch the record of `a`: after fewer than `n` ticks
time_pending is still set and a scheduler pass does not select `a`; after `n`
ticks (exactly `n`, or more while `a` has not run) time_pending is clear, the
timer is 0 and the timeout bit is what it was before the call; the tick counter
has advanced by the number of ticks modulo `2^32`. -/
theorem sleep_duration (k : kernel) (a n : Nat) (es : List event)
    (hwf : table_wf k) (hmem : a ∈ all_threads k) (hcur : k._thrp = some a) (hn : 1 ≤ n)
    (hw : (k.thr a).f_waiting = false) (hs : (k.thr a).f_semaphore = false)
    (hrun : away a (quiet a) (kernel_call SV_SLEEP n k).1 es) :
    (kernel_call SV_SLEEP n k).2 = kc_exit.to_main ∧
    ((kernel_call SV_SLEEP n k).1.thr a).timer = n ∧
    ((kernel_call SV_SLEEP n k).1.thr a).f_time_pending = true ∧
    (ticks_in es < n →
      ((run es (kernel_call SV_SLEEP n k).1).thr a).f_time_pending = true ∧
      ((run es (kernel_call SV_SLEEP n k).1).thr a).timer = n - ticks_in es ∧
      (scheduler_threads (run es (kernel_call SV_SLEEP n k).1))._thrp ≠ some a) ∧
    (n ≤ ticks_in es →
      ((run es (kernel_call SV_SLEEP n k).1).thr a).f_time_pending = false ∧
      ((run es (kernel_call SV_SLEEP n k).1).thr a).timer = 0 ∧
      ((run es (kernel_call SV_SLEEP n k).1).thr a).f_timeout = (k.thr a).f_timeout) ∧
    (run es (kernel_call SV_SLEEP n k).1).ticks % 2 ^ 32 = (k.ticks + ticks_in es) % 2 ^ 32 := by
  have heq := kernel_call_sleep_eq k a n hcur
  have hrec : (kernel_call SV_SLEEP n k).1.thr a =
      { ({ k.thr a with timer := n } : thread_t).set_f_time_pending true with sp := k.sp_reg } := by
    rw [heq]
    simp [return_to_main, switch_threads]
  have hthreads : (kernel_call SV_SLEEP n k).1._threads = k._threads := by rw [heq]; rfl
  have hticks : (kernel_call SV_SLEEP n k).1.ticks = k.ticks := by rw [heq]; rfl
  have hwf2 : table_wf (kernel_call SV_SLEEP n k).1 := table_wf_of_threads_eq k _ hthreads hwf
  have hmem2 : a ∈ all_threads (kernel_call SV_SLEEP n k).1 := by
    unfold all_threads
    rw [hthreads]
    exact hmem
  have hm0 : (k.thr a).flags &&& MASK_TIMEOUT = 0 :=
    (and_mask_timeout_eq_zero _).2 ⟨hw, hs⟩
  have htp : ((kernel_call SV_SLEEP n k).1.thr a).f_time_pending = true := by
    rw [hrec]
    exact f_time_pending_set_f_time_pending _ true
  have h0 : (0 < n → ((kernel_call SV_SLEEP n k).1.thr a).timer = n - 0 ∧
        ((kernel_call SV_SLEEP n k).1.thr a).f_time_pending = true ∧
        ((kernel_call SV_SLEEP n k).1.thr a).flags &&& MASK_TIMEOUT = 0 ∧
        ((kernel_call SV_SLEEP n k).1.thr a).f_timeout = (k.thr a).f_timeout) ∧
      (n ≤ 0 → ((kernel_call SV_SLEEP n k).1.thr a).timer = 0 ∧
        ((kernel_call SV_SLEEP n k).1.thr a).f_time_pending = false ∧
        ((kernel_call SV_SLEEP n k).1.thr a).f_timeout = (k.thr a).f_timeout) := by
    refine ⟨fun _ => ⟨by rw [hrec]; rfl, htp, ?_, ?_⟩, fun h => by omega⟩
    · rw [hrec]
      exact (and_mask_timeout_bit_assign _ 1 true (by decide) (by decide)).2 hm0
    · rw [hrec]
      exact f_timeout_set_f_time_pending { k.thr a with timer := n } true
  have hQ := run_quiet_invariant a
    (fun j t => (j < n → t.timer = n - j ∧ t.f_time_pending = true ∧
        t.flags &&& MASK_TIMEOUT = 0 ∧ t.f_timeout = (k.thr a).f_timeout) ∧
      (n ≤ j → t.timer = 0 ∧ t.f_time_pending = false ∧ t.f_timeout = (k.thr a).f_timeout))
    (fun j t h => ⟨fun hj => ⟨(h.1 hj).1, by
        show (bit_assign t.flags 0 false).testBit 1 = true
        rw [testBit_bit_assign]
        exact (h.1 hj).2.1,
        (and_mask_timeout_bit_assign _ 0 false (by decide) (by decide)).2 (h.1 hj).2.2.1, by
        rw [f_timeout_set_f_nice]
        exact (h.1 hj).2.2.2⟩,
      fun hj => ⟨(h.2 hj).1, by
        show (bit_assign t.flags 0 false).testBit 1 = false
        rw [testBit_bit_assign]
        exact (h.2 hj).2.1, by
        rw [f_timeout_set_f_nice]
        exact (h.2 hj).2.2⟩⟩)
    (fun j t h => sleep_tick n j (k.thr a).f_timeout t h)
    es (kernel_call SV_SLEEP n k).1 0 hwf2 hmem2 hrun h0
  rw [Nat.zero_add] at hQ
  refine ⟨by rw [heq]; rfl, by rw [hrec]; rfl, htp, ?_, ?_, ?_⟩
  · intro hj
    obtain ⟨ht, hp, _, _⟩ := hQ.1 hj
    exact ⟨hp, ht, scheduler_not_selected _ a (runnable_of_f_time_pending _ hp)⟩
  · intro hj
    obtain ⟨ht, hp, hto⟩ := hQ.2 hj
    exact ⟨hp, ht, hto⟩
  · rw [run_ticks, hticks]

/-- Witness of C9: thread 1 of `ex_single` sleeps 2 ticks; after one tick a pass
does not select it, after two ticks its time_pending bit is clear. -/
theorem sleep_duration_witness :
    (scheduler_threads (run [event.tick] (kernel_call SV_SLEEP 2 ex_single).1))._thrp ≠ some 1 ∧
    ((run [event.tick, event.sched, event.tick]
      (kernel_call SV_SLEEP 2 ex_single).1).thr 1).f_time_pending = false :=
  ⟨((sleep_duration ex_single 1 2 [event.tick] (by decide) (by decide) rfl (by decide)
      (by decide) (by decide) (by decide)).2.2.2.1 (by decide)).2.2,
    ((sleep_duration ex_single 1 2 [event.tick, event.sched, event.tick] (by decide)
      (by decide) rfl (by decide) (by decide) (by decide)
      (by decide)).2.2.2.2.1
        (by decide)).1⟩

/-! # Mutex hand-off -/

theorem run_table_wf (a : Nat) (P : kernel → event → Prop) (es : List event) (k : kernel)
    (hwf : table_wf k) (hmem : a ∈ all_threads k) (hrun : away a P k es) :
    table_wf (run es k) ∧ a ∈ all_threads (run es k) := by
  induction es generalizing k with
  | nil => exact ⟨hwf, hmem⟩
  | cons e es ih =>
    obtain ⟨hcur, _, hrest⟩ := hrun
    exact ih (step e k) (step_table_wf e k hwf) (step_mem_all_threads e k a hcur hmem) hrest

/-- A property of the record of `a` that every permitted event keeps holds along
the run. -/
theorem run_invariant (a : Nat) (P : kernel → event → Prop) (Q : thread_t → Prop)
    (hstep : ∀ k e, table_wf k → a ∈ all_threads k → k._thrp ≠ some a → P k e →
      Q (k.thr a) → Q ((step e k).thr a))
    (es : List event) (k : kernel) (hwf : table_wf k) (hmem : a ∈ all_threads k)
    (hrun : away a P k es) (h0 : Q (k.thr a)) : Q ((run es k).thr a) := by
  induction es generalizing k with
  | nil => exact h0
  | cons e es ih =>
    obtain ⟨hcur, hp, hrest⟩ := hrun
    exact ih (step e k) (step_table_wf e k hwf) (step_mem_all_threads e k a hcur hmem) hrest
      (hstep k e hwf hmem hcur hp h0)

theorem f_semaphore_set_f_nice (t : thread_t) (b : Bool) :
    (t.set_f_nice b).f_semaphore = t.f_semaphore := by
  show (bit_assign t.flags 0 b).testBit 3 = _
  rw [testBit_bit_assign]
  rfl

theorem f_semaphore_set_f_time_pending (t : thread_t) (b : Bool) :
    (t.set_f_time_pending b).f_semaphore = t.f_semaphore := by
  show (bit_assign t.flags 1 b).testBit 3 = _
  rw [testBit_bit_assign]
  rfl

/-- A tick that is not the expiry of a timed wait or lock leaves the semaphore
bit and the data word as they were. -/
theorem tick_thread_blocked (t : thread_t)
    (h : ¬ (t.timer = 1 ∧ t.flags &&& MASK_TIMEOUT ≠ 0)) :
    (tick_thread t).f_semaphore = t.f_semaphore ∧ (tick_thread t).data = t.data := by
  by_cases h0 : t.timer = 0
  · rw [tick_thread_zero t h0]
    exact ⟨rfl, rfl⟩
  by_cases h1 : t.timer = 1
  · have hm : t.flags &&& MASK_TIMEOUT = 0 := by
      by_contra hne
      exact h ⟨h1, hne⟩
    rw [tick_thread_last_plain t h1 hm]
    exact ⟨f_semaphore_set_f_time_pending _ false, rfl⟩
  · rw [tick_thread_many t (by omega)]
    exact ⟨rfl, rfl⟩

/-- An idle event keeps a blocked thread blocked on the same mutex, with the
same timeout bit. -/
theorem idle_step_blocked (a m : Nat) (tau : Bool) (k : kernel) (e : event)
    (hwf : table_wf k) (hmem : a ∈ all_threads k) (hcur : k._thrp ≠ some a)
    (hi : idle a k e)
    (h : (k.thr a).f_semaphore = true ∧ (k.thr a).data = m ∧ (k.thr a).f_timeout = tau) :
    ((step e k).thr a).f_semaphore = true ∧ ((step e k).thr a).data = m ∧
      ((step e k).thr a).f_timeout = tau := by
  have hto := step_f_timeout a e k hwf hcur hi.2
  refine ⟨?_, ?_, hto.trans h.2.2⟩
  · rcases quiet_step_thr a e k hwf hmem hcur hi.1 with ⟨he, ht⟩ | ⟨_, ht | ht⟩
    · subst he
      rw [ht, (tick_thread_blocked _ hi.2).1]
      exact h.1
    · rw [ht]
      exact h.1
    · rw [ht, f_semaphore_set_f_nice]
      exact h.1
  · rcases quiet_step_thr a e k hwf hmem hcur hi.1 with ⟨he, ht⟩ | ⟨_, ht | ht⟩
    · subst he
      rw [ht, (tick_thread_blocked _ hi.2).2]
      exact h.2.1
    · rw [ht]
      exact h.2.1
    · rw [ht]
      exact h.2.1

theorem runnable_of_f_semaphore (t : thread_t) (h : t.f_semaphore = true) :
    runnable t = false := by
  unfold runnable
  rw [h]
  simp

theorem kernel_call_lock_free (k : kernel) (a m : Nat) (hcur : k._thrp = some a)
    (hm : k.mem m = 0) :
    kernel_call SV_LOCK m k =
      return_to_thread_no_timeout
        { k with ie := false, mem := Function.update k.mem m 1 } a := by
  unfold kernel_call
  rw [hcur]
  simp [SV_YIELD, SV_END, SV_SLEEP, SV_WAIT, SV_SETTIMEOUT, SV_LOCK, hm]

theorem kernel_call_lock_held (k : kernel) (a m : Nat) (hcur : k._thrp = some a)
    (hm : k.mem m ≠ 0) :
    kernel_call SV_LOCK m k =
      return_to_main
        { k with
          ie := false
          thr := Function.update k.thr a { (k.thr a).set_f_semaphore true with data := m } } a := by
  unfold kernel_call
  rw [hcur]
  simp [SV_YIELD, SV_END, SV_SLEEP, SV_WAIT, SV_SETTIMEOUT, SV_LOCK, hm]

theorem return_to_thread_no_timeout_facts (k : kernel) (a : Nat) :
    (return_to_thread_no_timeout k a).2 = kc_exit.to_thread true ∧
      (return_to_thread_no_timeout k a).1._thrp = k._thrp ∧
      (return_to_thread_no_timeout k a).1.mem = k.mem ∧
      ((return_to_thread_no_timeout k a).1.thr a).flags = (k.thr a).flags := by
  unfold return_to_thread_no_timeout
  split_ifs
  · simp [return_to_thread]
  · simp [return_to_thread]

theorem testBit_mask_terminate (j : Nat) :
    MASK_TERMINATE.testBit j = (decide (j = 6) || decide (j = 7)) := by
  by_cases h : j < 8
  · interval_cases j <;> decide
  · have h8 : 8 ≤ j := Nat.le_of_not_lt h
    have hlt : MASK_TERMINATE < 2 ^ j :=
      lt_of_lt_of_le (by decide : MASK_TERMINATE < 2 ^ 8) (Nat.pow_le_pow_right (by decide) h8)
    rw [Nat.testBit_lt_two_pow hlt]
    have h6 : j ≠ 6 := by omega
    have h7 : j ≠ 7 := by omega
    simp [h6, h7]

/-- The bits of the flags word that `thread_terminate` stores. -/
theorem testBit_terminate_thread (t : thread_t) (j : Nat) :
    (terminate_thread t).flags.testBit j =
      (decide (j < 16) &&
        ((t.flags.testBit j && !MASK_WAIT.testBit j) || MASK_TERMINATE.testBit j)) := by
  show ((clear_wait_mask t.flags ||| MASK_TERMINATE) % 2 ^ 16).testBit j = _
  rw [Nat.testBit_mod_two_pow, Nat.testBit_or, testBit_clear_wait_mask]
  by_cases hj : j < 16 <;> simp [hj]

/-- The priority field depends on bits 8 to 10 only. -/
theorem prio_eq_of_testBit (w w2 : Nat)
    (h : ∀ j, 8 ≤ j → j < 11 → w2.testBit j = w.testBit j) :
    (w2 >>> 8) % 8 = (w >>> 8) % 8 := by
  show (w2 >>> 8) % 2 ^ 3 = (w >>> 8) % 2 ^ 3
  apply Nat.eq_of_testBit_eq
  intro j
  rw [Nat.testBit_mod_two_pow, Nat.testBit_mod_two_pow, Nat.testBit_shiftRight,
    Nat.testBit_shiftRight]
  by_cases hj : j < 3
  · rw [h (8 + j) (by omega) (by omega)]
  · simp [hj]

theorem testBit_eq_false_of_lt (w j : Nat) (hw : w < 2 ^ 16) (hj : 16 ≤ j) :
    w.testBit j = false :=
  Nat.testBit_lt_two_pow (lt_of_lt_of_le hw (Nat.pow_le_pow_right (by decide) hj))

/-- A property of one record that the loop body keeps is kept by the loop. -/
theorem heap_apply_keeps {α : Type} (f : α → α) (Q : α → Prop) (hf : ∀ t, Q t → Q (f t))
    (l : List Nat) (h : Nat → α) (x : Nat) (hx : Q (h x)) : Q (heap_apply f l h x) := by
  induction l generalizing h with
  | nil => exact hx
  | cons a l ih =>
    rw [heap_apply_cons]
    apply ih
    by_cases hxa : x = a
    · subst hxa
      rw [Function.update_same]
      exact hf _ hx
    · rw [Function.update_noteq hxa]
      exact hx

theorem foldl_heap_apply_keeps {α : Type} (f : α → α) (Q : α → Prop)
    (hf : ∀ t, Q t → Q (f t)) (T : Nat → List Nat) (ls : List Nat) (h : Nat → α) (x : Nat)
    (hx : Q (h x)) : Q (ls.foldl (fun h i => heap_apply f (T i) h) h x) := by
  rw [foldl_heap_apply]
  exact heap_apply_keeps f Q hf _ h x hx

/-! ## The timeout and terminate bits stay set while the thread is away -/

theorem bit_assign_keeps (w i j : Nat) (b : Bool) (hij : i ≠ j ∨ b = true)
    (h : w.testBit i = true) : (bit_assign w j b).testBit i = true := by
  rw [testBit_bit_assign]
  by_cases e : i = j
  · rw [if_pos e]
    rcases hij with hne | hb
    · exact absurd e hne
    · exact hb
  · rw [if_neg e]
    exact h

theorem clear_wait_mask_keeps (w i : Nat) (hi : i = 6 ∨ i = 7) (h : w.testBit i = true) :
    (clear_wait_mask w).testBit i = true := by
  rw [testBit_clear_wait_mask, testBit_mask_wait, h]
  rcases hi with e | e <;> subst e <;> decide

theorem cancel_timer_flags (t : thread_t) : (cancel_timer t).flags = t.flags := by
  unfold cancel_timer
  split <;> rfl

theorem tick_thread_keeps (t : thread_t) (i : Nat) (hi : i = 6 ∨ i = 7)
    (h : t.flags.testBit i = true) : (tick_thread t).flags.testBit i = true := by
  have hi1 : i ≠ 1 := by rcases hi with e | e <;> omega
  by_cases h0 : t.timer = 0
  · rw [tick_thread_zero t h0]
    exact h
  by_cases h1 : t.timer = 1
  · by_cases hm : t.flags &&& MASK_TIMEOUT = 0
    · rw [tick_thread_last_plain t h1 hm]
      exact bit_assign_keeps _ i 1 false (Or.inl hi1) h
    · rw [tick_thread_last_wait t h1 hm]
      apply bit_assign_keeps _ i 1 false (Or.inl hi1)
      apply bit_assign_keeps _ i 6 true (Or.inr rfl)
      exact clear_wait_mask_keeps _ i hi h
  · rw [tick_thread_many t (by omega)]
    exact h

theorem signal_thread_keeps (ptr : Nat) (t : thread_t) (i : Nat) (hi : i = 6 ∨ i = 7)
    (h : t.flags.testBit i = true) : (signal_thread ptr t).flags.testBit i = true := by
  have hi2 : i ≠ 2 := by rcases hi with e | e <;> omega
  unfold signal_thread
  split_ifs
  · rw [cancel_timer_flags]
    exact bit_assign_keeps _ i 2 false (Or.inl hi2) h
  · exact h
  · exact h

theorem force_thread_keeps (t : thread_t) (i : Nat) (hi : i = 6 ∨ i = 7)
    (h : t.flags.testBit i = true) : (force_thread t).flags.testBit i = true := by
  have hi2 : i ≠ 2 := by rcases hi with e | e <;> omega
  unfold force_thread
  split_ifs
  · rw [cancel_timer_flags]
    apply bit_assign_keeps _ i 6 true (Or.inr rfl)
    exact bit_assign_keeps _ i 2 false (Or.inl hi2) h
  · exact h

theorem terminate_thread_sets (t : thread_t) (i : Nat) (hi : i = 6 ∨ i = 7) :
    (terminate_thread t).flags.testBit i = true := by
  rw [testBit_terminate_thread, testBit_mask_terminate]
  rcases hi with e | e <;> subst e <;> simp

/-- Whatever happens while thread `a` is not current, bit 6 (timeout) and bit 7
(terminate) of its flags stay set once they are set. -/
theorem step_keeps_bit (i : Nat) (hi : i = 6 ∨ i = 7) (a : Nat) (e : event) (k : kernel)
    (hcur : k._thrp ≠ some a) (h : (k.thr a).flags.testBit i = true) :
    ((step e k).thr a).flags.testBit i = true := by
  have hi0 : i ≠ 0 := by rcases hi with e | e <;> omega
  have hi3 : i ≠ 3 := by rcases hi with e | e <;> omega
  have hi4 : i ≠ 4 := by rcases hi with e | e <;> omega
  cases e with
  | tick =>
    exact foldl_heap_apply_keeps tick_thread (fun t => t.flags.testBit i = true)
      (fun t ht => tick_thread_keeps t i hi ht) k._threads levels_up k.thr a h
  | sched =>
    show ((scheduler_threads k).thr a).flags.testBit i = true
    rcases scheduler_threads_thr_cases k a with e | e
    · rw [e]
      exact h
    · rw [e]
      exact bit_assign_keeps _ i 0 false (Or.inl hi0) h
  | call func arg =>
    show ((kernel_call func arg k).1.thr a).flags.testBit i = true
    rw [kernel_call_thr_other k a func arg hcur]
    exact h
  | signal id =>
    exact foldl_heap_apply_keeps (signal_thread id) (fun t => t.flags.testBit i = true)
      (fun t ht => signal_thread_keeps id t i hi ht) k._threads levels_down k.thr a h
  | unlock m =>
    show ((thread_unlock m k).thr a).flags.testBit i = true
    rcases thread_unlock_thr_cases m k a with e | e
    · rw [e]
      exact h
    · rw [e, cancel_timer_flags]
      exact bit_assign_keeps _ i 3 false (Or.inl hi3) h
  | force th =>
    show (Function.update k.thr th (force_thread (k.thr th)) a).flags.testBit i = true
    by_cases hne : a = th
    · subst hne
      rw [Function.update_same]
      exact force_thread_keeps _ i hi h
    · rw [Function.update_noteq hne]
      exact h
  | terminate th =>
    show (Function.update k.thr th (terminate_thread (k.thr th)) a).flags.testBit i = true
    by_cases hne : a = th
    · subst hne
      rw [Function.update_same]
      exact terminate_thread_sets _ i hi
    · rw [Function.update_noteq hne]
      exact h
  | suspend th =>
    show (Function.update k.thr th ((k.thr th).set_f_suspend true) a).flags.testBit i = true
    by_cases hne : a = th
    · subst hne
      rw [Function.update_same]
      exact bit_assign_keeps _ i 4 true (Or.inl hi4) h
    · rw [Function.update_noteq hne]
      exact h
  | release th =>
    show (Function.update k.thr th ((k.thr th).set_f_suspend false) a).flags.testBit i = true
    by_cases hne : a = th
    · subst hne
      rw [Function.update_same]
      exact bit_assign_keeps _ i 4 false (Or.inl hi4) h
    · rw [Function.update_noteq hne]
      exact h

theorem run_keeps_bit (i : Nat) (hi : i = 6 ∨ i = 7) (a : Nat) (es : List event) (k : kernel)
    (hrun : away a any_event k es) (h : (k.thr a).flags.testBit i = true) :
    ((run es k).thr a).flags.testBit i = true := by
  induction es generalizing k with
  | nil => exact h
  | cons e es ih =>
    obtain ⟨hcur, _, hrest⟩ := hrun
    exact ih (step e k) hrest (step_keeps_bit i hi a e k hcur h)

theorem bit_assign_bit_assign (w i : Nat) (b c : Bool) :
    bit_assign (bit_assign w i b) i c = bit_assign w i c := by
  apply Nat.eq_of_testBit_eq
  intro j
  simp only [testBit_bit_assign]
  by_cases hj : j = i <;> simp [hj]

theorem bit_assign_self (w i : Nat) (b : Bool) (h : w.testBit i = b) : bit_assign w i b = w := by
  apply Nat.eq_of_testBit_eq
  intro j
  rw [testBit_bit_assign]
  by_cases hj : j = i
  · rw [if_pos hj, hj, h]
  · rw [if_neg hj]

theorem thread_not_terminated_of_bit (k : kernel) (a : Nat) (hc : k._thrp = some a)
    (h : (k.thr a).flags.testBit 7 = true) : thread_not_terminated k = false := by
  unfold thread_not_terminated
  rw [hc]
  show (!(k.thr a).flags.testBit 7) = false
  rw [h]
  rfl

/-- C11. The call `thread_terminate(th)`, for every record (a 16-bit flags word):
afterwards the bits time_pending, waiting, semaphore and suspend (1 to 4) are
clear, the bits timeout and terminate (6 and 7) are set and every other bit of
the flags word is as before, so that the nice bit and the priority field are
unchanged, as are data, timer and the stack pointers. Consequently, when `th` is
the current thread `thread_not_terminated()` returns false; and whatever happens
while `th` is away, when `th` is dispatched again its kernel_call returns false
and `thread_not_terminated()` returns false. -/
theorem thread_terminate_record (k : kernel) (th : Nat) (h16 : (k.thr th).flags < 2 ^ 16) :
    (∀ j, ((thread_terminate th k).thr th).flags.testBit j =
      if j = 1 ∨ j = 2 ∨ j = 3 ∨ j = 4 then false
      else if j = 6 ∨ j = 7 then true else (k.thr th).flags.testBit j) ∧
    ((thread_terminate th k).thr th).f_nice = (k.thr th).f_nice ∧
    ((thread_terminate th k).thr th).prio = (k.thr th).prio ∧
    ((thread_terminate th k).thr th).data = (k.thr th).data ∧
    ((thread_terminate th k).thr th).timer = (k.thr th).timer ∧
    ((thread_terminate th k).thr th).sp0 = (k.thr th).sp0 ∧
    ((thread_terminate th k).thr th).sp = (k.thr th).sp ∧
    (k._thrp = some th → thread_not_terminated (thread_terminate th k) = false) ∧
    (∀ es, away th any_event (thread_terminate th k) es →
      (run es (thread_terminate th k))._thrp = some th →
      kernel_call_resume (run es (thread_terminate th k)) = false ∧
        thread_not_terminated (run es (thread_terminate th k)) = false) := by
  have hrec : (thread_terminate th k).thr th = terminate_thread (k.thr th) :=
    Function.update_same _ _ _
  have hbits : ∀ j, (terminate_thread (k.thr th)).flags.testBit j =
      if j = 1 ∨ j = 2 ∨ j = 3 ∨ j = 4 then false
      else if j = 6 ∨ j = 7 then true else (k.thr th).flags.testBit j := by
    intro j
    rw [testBit_terminate_thread, testBit_mask_wait, testBit_mask_terminate]
    by_cases hw : j = 1 ∨ j = 2 ∨ j = 3 ∨ j = 4
    · rw [if_pos hw]
      rcases hw with e | e | e | e <;> subst e <;> simp
    · rw [if_neg hw]
      have n1 : j ≠ 1 := fun e => hw (Or.inl e)
      have n2 : j ≠ 2 := fun e => hw (Or.inr (Or.inl e))
      have n3 : j ≠ 3 := fun e => hw (Or.inr (Or.inr (Or.inl e)))
      have n4 : j ≠ 4 := fun e => hw (Or.inr (Or.inr (Or.inr e)))
      by_cases ht : j = 6 ∨ j = 7
      · rw [if_pos ht]
        rcases ht with e | e <;> subst e <;> simp
      · rw [if_neg ht]
        have n6 : j ≠ 6 := fun e => ht (Or.inl e)
        have n7 : j ≠ 7 := fun e => ht (Or.inr e)
        by_cases hj : j < 16
        · simp [hj, n1, n2, n3, n4, n6, n7]
        · rw [testBit_eq_false_of_lt _ j h16 (by omega)]
          simp [hj]
  have h6 : ((thread_terminate th k).thr th).flags.testBit 6 = true := by
    rw [hrec]
    exact terminate_thread_sets _ 6 (Or.inl rfl)
  have h7 : ((thread_terminate th k).thr th).flags.testBit 7 = true := by
    rw [hrec]
    exact terminate_thread_sets _ 7 (Or.inr rfl)
  refine ⟨fun j => by rw [hrec]; exact hbits j, ?_, ?_, by rw [hrec]; rfl, by rw [hrec]; rfl,
    by rw [hrec]; rfl, by rw [hrec]; rfl, ?_, ?_⟩
  · rw [hrec]
    show (terminate_thread (k.thr th)).flags.testBit 0 = _
    rw [hbits]
    rfl
  · rw [hrec]
    apply prio_eq_of_testBit
    intro j hj1 hj2
    rw [hbits, if_neg (by omega), if_neg (by omega)]
  · intro hc
    exact thread_not_terminated_of_bit _ th hc h7
  · intro es hrun hd
    exact ⟨resume_of_f_timeout _ th hd (run_keeps_bit 6 (Or.inl rfl) th es _ hrun h6),
      thread_not_terminated_of_bit _ th hd (run_keeps_bit 7 (Or.inr rfl) th es _ hrun h7)⟩

/-- Witness of C11: thread 1 of `ex_waiting` waits with a deadline; it is
terminated, a pass dispatches it, and its kernel_call returns false. -/
theorem thread_terminate_record_witness :
    (ex_waiting.thr 1).flags < 2 ^ 16 ∧
    ((thread_terminate 1 ex_waiting).thr 1).flags = 0x1C0 ∧
    (run [event.tick, event.sched] (thread_terminate 1 ex_waiting))._thrp = some 1 ∧
    kernel_call_resume (run [event.tick, event.sched] (thread_terminate 1 ex_waiting)) =
      false :=
  ⟨by decide, by decide, by decide,
    ((thread_terminate_record ex_waiting 1 (by decide)).2.2.2.2.2.2.2.2
      [event.tick, event.sched] (by decide) (by decide)).1⟩

/-- C12. The call `thread_force(th)`: when `th` has waiting set, afterwards waiting
is clear, timeout is set, the timer is 0 when time_pending was clear and
unchanged otherwise, every other bit and the data word are as before, and
whatever happens while `th` is away, its kernel_call returns false when it is
dispatched again; when `th` does not have waiting set (also when it is blocked on
a mutex or sleeping) its record is unchanged. No other record is touched. -/
theorem thread_force_record (k : kernel) (th : Nat) :
    ((k.thr th).f_waiting = true →
      ((thread_force th k).thr th).f_waiting = false ∧
      ((thread_force th k).thr th).f_timeout = true ∧
      ((thread_force th k).thr th).timer =
        (if (k.thr th).f_time_pending then (k.thr th).timer else 0) ∧
      (∀ j, j ≠ 2 → j ≠ 6 →
        ((thread_force th k).thr th).flags.testBit j = (k.thr th).flags.testBit j) ∧
      ((thread_force th k).thr th).data = (k.thr th).data ∧
      ∀ es, away th any_event (thread_force th k) es →
        (run es (thread_force th k))._thrp = some th →
        kernel_call_resume (run es (thread_force th k)) = false) ∧
    ((k.thr th).f_waiting = false → (thread_force th k).thr th = k.thr th) ∧
    (∀ b, b ≠ th → (thread_force th k).thr b = k.thr b) ∧
    (thread_force th k)._threads = k._threads ∧
    (thread_force th k).mem = k.mem := by
  have hrec : (thread_force th k).thr th = force_thread (k.thr th) :=
    Function.update_same _ _ _
  refine ⟨?_, ?_, fun b hb => Function.update_noteq hb _ _, rfl, rfl⟩
  · intro hw
    have hf : force_thread (k.thr th) =
        cancel_timer (((k.thr th).set_f_waiting false).set_f_timeout true) := by
      unfold force_thread
      rw [if_pos hw]
    have hfl : (force_thread (k.thr th)).flags =
        bit_assign (bit_assign (k.thr th).flags 2 false) 6 true := by
      rw [hf, cancel_timer_flags]
      rfl
    have h6 : ((thread_force th k).thr th).flags.testBit 6 = true := by
      rw [hrec, hfl, testBit_bit_assign]
      rfl
    refine ⟨?_, h6, ?_, ?_, ?_, ?_⟩
    · show ((thread_force th k).thr th).flags.testBit 2 = false
      rw [hrec, hfl, testBit_bit_assign, testBit_bit_assign]
      rfl
    · rw [hrec, hf, cancel_timer_timer]
      have htp : (((k.thr th).set_f_waiting false).set_f_timeout true).f_time_pending =
          (k.thr th).f_time_pending := by
        show (bit_assign (bit_assign (k.thr th).flags 2 false) 6 true).testBit 1 = _
        rw [testBit_bit_assign, testBit_bit_assign]
        rfl
      rw [htp]
      rfl
    · intro j h2 h6
      rw [hrec, hfl, testBit_bit_assign, testBit_bit_assign, if_neg h6, if_neg h2]
    · rw [hrec, hf]
      unfold cancel_timer
      split <;> rfl
    · intro es hrun hd
      exact resume_of_f_timeout _ th hd (run_keeps_bit 6 (Or.inl rfl) th es _ hrun h6)
  · intro hw
    rw [hrec]
    unfold force_thread
    rw [hw]
    rfl

/-- Witness of C12: thread 1 of `ex_waiting` is forced; the next pass dispatches
it and its kernel_call returns false. -/
theorem thread_force_record_witness :
    ((thread_force 1 ex_waiting).thr 1).f_waiting = false ∧
    (run [event.sched] (thread_force 1 ex_waiting))._thrp = some 1 ∧
    kernel_call_resume (run [event.sched] (thread_force 1 ex_waiting)) = false :=
  ⟨((thread_force_record ex_waiting 1).1 (by decide)).1, by decide,
    ((thread_force_record ex_waiting 1).1 (by decide)).2.2.2.2.2 [event.sched] (by decide)
      (by decide)⟩

/-- C13, as stated, fails: thread 1 is already suspended; `thread_suspend`
followed by `thread_release` leaves it released, so its record differs from the
one before and it has become runnable. -/
theorem suspend_release_counterexample :
    (thread_release 1 (thread_suspend 1 ex_suspended)).thr 1 ≠ ex_suspended.thr 1 ∧
    (ex_suspended.thr 1).f_suspend = true ∧
    ((thread_release 1 (thread_suspend 1 ex_suspended)).thr 1).f_suspend = false ∧
    runnable (ex_suspended.thr 1) = false ∧
    runnable ((thread_release 1 (thread_suspend 1 ex_suspended)).thr 1) = true := by
  refine ⟨?_, by decide, by decide, by decide, by decide⟩
  intro h
  have h2 := congrArg thread_t.f_suspend h
  revert h2
  decide

/-- C13, amended. For every record, `thread_suspend(th)` followed by
`thread_release(th)` with nothing in between leaves the record with its suspend
bit clear and everything else as before; the record is equal to the one before
`thread_suspend` exactly when its suspend bit was clear then. No other record is
touched. -/
theorem suspend_release_round_trip (k : kernel) (th : Nat) :
    (thread_release th (thread_suspend th k)).thr th = (k.thr th).set_f_suspend false ∧
    ((thread_release th (thread_suspend th k)).thr th = k.thr th ↔
      (k.thr th).f_suspend = false) ∧
    (∀ j, j ≠ 4 →
      ((thread_release th (thread_suspend th k)).thr th).flags.testBit j =
        (k.thr th).flags.testBit j) ∧
    (∀ b, b ≠ th → (thread_release th (thread_suspend th k)).thr b = k.thr b) ∧
    (thread_release th (thread_suspend th k))._threads = k._threads := by
  have hrec : (thread_release th (thread_suspend th k)).thr th =
      (k.thr th).set_f_suspend false := by
    show Function.update (Function.update k.thr th ((k.thr th).set_f_suspend true)) th
      ((Function.update k.thr th ((k.thr th).set_f_suspend true) th).set_f_suspend false) th = _
    rw [Function.update_same, Function.update_same]
    show ({ k.thr th with flags := bit_assign (bit_assign (k.thr th).flags 4 true) 4 false } :
      thread_t) = _
    rw [bit_assign_bit_assign]
    rfl
  refine ⟨hrec, ?_, ?_, ?_, rfl⟩
  · rw [hrec]
    constructor
    · intro h
      have h2 := congrArg thread_t.f_suspend h
      rw [← h2]
      show (bit_assign (k.thr th).flags 4 false).testBit 4 = false
      rw [testBit_bit_assign]
      rfl
    · intro h
      show ({ k.thr th with flags := bit_assign (k.thr th).flags 4 false } : thread_t) = _
      rw [bit_assign_self _ 4 false h]
  · intro j hj
    rw [hrec]
    show (bit_assign (k.thr th).flags 4 false).testBit j = _
    rw [testBit_bit_assign, if_neg hj]
  · intro b hb
    show Function.update (Function.update k.thr th ((k.thr th).set_f_suspend true)) th
      ((Function.update k.thr th ((k.thr th).set_f_suspend true) th).set_f_suspend false) b = _
    rw [Function.update_noteq hb, Function.update_noteq hb]

/-! # Tick expiry mask -/

/-- The record of a member of the table after a tick. A timer of 0 leaves the
record unchanged and a timer above 1 is decremented. When the timer is 1: the
timer becomes 0 and time_pending is cleared; if waiting or semaphore was set,
bits 1 to 4 of the flags are cleared, bit 6 (timeout) is set and every other
bit of the 16-bit word is as before; if neither was set, no bit other than
time_pending changes. -/
theorem os_tick_expiry_bits (k : kernel) (a : Nat) (hwf : table_wf k)
    (hmem : a ∈ all_threads k) :
    ((k.thr a).timer = 0 → (os_tick k).thr a = k.thr a) ∧
    (2 ≤ (k.thr a).timer →
      (os_tick k).thr a = { k.thr a with timer := (k.thr a).timer - 1 }) ∧
    ((k.thr a).timer = 1 →
      ((os_tick k).thr a).timer = 0 ∧
      ((os_tick k).thr a).f_time_pending = false ∧
      ((os_tick k).thr a).data = (k.thr a).data ∧
      (((k.thr a).f_waiting = true ∨ (k.thr a).f_semaphore = true) →
        ∀ j, j < 16 → ((os_tick k).thr a).flags.testBit j =
          if j = 1 ∨ j = 2 ∨ j = 3 ∨ j = 4 then false
          else if j = 6 then true else (k.thr a).flags.testBit j) ∧
      (¬ ((k.thr a).f_waiting = true ∨ (k.thr a).f_semaphore = true) →
        ∀ j, j ≠ 1 → ((os_tick k).thr a).flags.testBit j = (k.thr a).flags.testBit j)) := by
  have hrec : (os_tick k).thr a = tick_thread (k.thr a) := by
    rw [os_tick_thr k hwf, if_pos hmem]
  rw [hrec]
  refine ⟨fun h0 => tick_thread_zero _ h0, fun h2 => tick_thread_many _ h2, ?_⟩
  intro h1
  by_cases hm : (k.thr a).flags &&& MASK_TIMEOUT = 0
  · have hb := (and_mask_timeout_eq_zero _).1 hm
    rw [tick_thread_last_plain _ h1 hm]
    refine ⟨rfl, f_time_pending_set_f_time_pending _ false, rfl, ?_, ?_⟩
    · intro hws
      exfalso
      rcases hws with h | h
      · rw [show (k.thr a).f_waiting = (k.thr a).flags.testBit 2 from rfl, hb.1] at h
        cases h
      · rw [show (k.thr a).f_semaphore = (k.thr a).flags.testBit 3 from rfl, hb.2] at h
        cases h
    · intro _ j hj
      show (bit_assign (k.thr a).flags 1 false).testBit j = _
      rw [testBit_bit_assign, if_neg hj]
  · rw [tick_thread_last_wait _ h1 hm]
    refine ⟨rfl, f_time_pending_set_f_time_pending _ false, rfl, ?_, ?_⟩
    · intro _ j hj
      show (bit_assign (bit_assign (clear_wait_mask (k.thr a).flags) 6 true) 1 false).testBit j = _
      rw [testBit_bit_assign, testBit_bit_assign, testBit_clear_wait_mask, testBit_mask_wait]
      by_cases hw : j = 1 ∨ j = 2 ∨ j = 3 ∨ j = 4
      · rw [if_pos hw]
        rcases hw with e | e | e | e <;> subst e <;> simp
      · rw [if_neg hw]
        have n1 : j ≠ 1 := fun e => hw (Or.inl e)
        have n2 : j ≠ 2 := fun e => hw (Or.inr (Or.inl e))
        have n3 : j ≠ 3 := fun e => hw (Or.inr (Or.inr (Or.inl e)))
        have n4 : j ≠ 4 := fun e => hw (Or.inr (Or.inr (Or.inr e)))
        by_cases h6 : j = 6
        · simp [h6]
        · simp [hj, n1, n2, n3, n4, h6]
    · intro hn
      exfalso
      apply hn
      by_contra hc
      apply hm
      rw [and_mask_timeout_eq_zero]
      constructor
      · cases hb : (k.thr a).flags.testBit 2
        · rfl
        · exact absurd (Or.inl hb) hc
      · cases hb : (k.thr a).flags.testBit 3
        · rfl
        · exact absurd (Or.inr hb) hc

/-! # Unknown service codes -/

/-- C20, as stated, fails: thread 1 arms a deadline of 5 ticks with SETTIMEOUT and
then makes the call with the unhandled code `SV_SIGNAL`; the call returns true
to it but its timer is 0, the deadline is no longer armed. -/
theorem unknown_service_counterexample :
    ((kernel_call SV_SETTIMEOUT 5 ex_single).1.thr 1).timer = 5 ∧
    (kernel_call SV_SETTIMEOUT 5 ex_single).1._thrp = some 1 ∧
    (kernel_call SV_SIGNAL 0 (kernel_call SV_SETTIMEOUT 5 ex_single).1).2 =
      kc_exit.to_thread true ∧
    ((kernel_call SV_SIGNAL 0 (kernel_call SV_SETTIMEOUT 5 ex_single).1).1.thr 1).timer = 0 := by
  decide

/-- C20, amended. For every service code other than YIELD, SLEEP, SETTIMEOUT,
WAIT, LOCK and END (the codes `SV_SIGNAL` and `SV_UNLOCK` included) and every
state with a current thread, `kernel_call` returns true to the caller, which
stays current; the flags, data and stack pointers of its record, every other
record, the collections and the byte memory are unchanged; its timer is set to 0
when time_pending is clear (a deadline armed by SETTIMEOUT is cancelled) and is
unchanged when time_pending is set. -/
theorem kernel_call_unknown (k : kernel) (a func arg : Nat) (hcur : k._thrp = some a)
    (h0 : func ≠ SV_YIELD) (h1 : func ≠ SV_SLEEP) (h2 : func ≠ SV_SETTIMEOUT)
    (h3 : func ≠ SV_WAIT) (h5 : func ≠ SV_LOCK) (h9 : func ≠ SV_END) :
    (kernel_call func arg k).2 = kc_exit.to_thread true ∧
    (kernel_call func arg k).1._thrp = some a ∧
    (kernel_call func arg k).1.thr a = cancel_timer (k.thr a) ∧
    ((kernel_call func arg k).1.thr a).flags = (k.thr a).flags ∧
    ((kernel_call func arg k).1.thr a).data = (k.thr a).data ∧
    ((kernel_call func arg k).1.thr a).timer =
      (if (k.thr a).f_time_pending then (k.thr a).timer else 0) ∧
    (∀ b, b ≠ a → (kernel_call func arg k).1.thr b = k.thr b) ∧
    (kernel_call func arg k).1._threads = k._threads ∧
    (kernel_call func arg k).1.mem = k.mem := by
  have hk : kernel_call func arg k = return_to_thread_no_timeout { k with ie := false } a := by
    unfold kernel_call
    rw [hcur]
    simp only [if_neg h0, if_neg h1, if_neg h2, if_neg h3, if_neg h5, if_neg h9]
  have hrec : (kernel_call func arg k).1.thr a = cancel_timer (k.thr a) := by
    rw [hk]
    unfold return_to_thread_no_timeout cancel_timer
    cases htp : (k.thr a).f_time_pending <;> simp [htp, return_to_thread]
  refine ⟨?_, ?_, hrec, ?_, ?_, ?_, ?_, ?_, ?_⟩
  · rw [hk]
    exact (return_to_thread_no_timeout_facts _ a).1
  · rw [hk]
    exact (return_to_thread_no_timeout_facts _ a).2.1.trans hcur
  · rw [hrec, cancel_timer_flags]
  · rw [hrec]
    unfold cancel_timer
    split <;> rfl
  · rw [hrec, cancel_timer_timer]
  · intro b hb
    exact (kernel_call_frame k a func arg hcur).1 b hb
  · rw [hk]
    unfold return_to_thread_no_timeout
    split_ifs <;> rfl
  · rw [hk]
    exact (return_to_thread_no_timeout_facts _ a).2.2.1

/-- Witness of the amended C20: the unhandled code `SV_UNLOCK` called by thread 1
of `ex_single`. -/
theorem kernel_call_unknown_witness :
    (kernel_call SV_UNLOCK 0 ex_single).2 = kc_exit.to_thread true ∧
    (kernel_call SV_UNLOCK 0 ex_single).1.thr 1 = cancel_timer (ex_single.thr 1) :=
  ⟨(kernel_call_unknown ex_single 1 SV_UNLOCK 0 rfl (by decide) (by decide) (by decide)
      (by decide) (by decide) (by decide)).1,
    (kernel_call_unknown ex_single 1 SV_UNLOCK 0 rfl (by decide) (by decide) (by decide)
      (by decide) (by decide) (by decide)).2.2.1⟩

/-! # Callbacks -/

theorem find?_append_singleton (q : Nat → Bool) (l : List Nat) (x : Nat) (hx : q x = true)
    (hl : ∀ p, p ∈ l → q p = true → p = x) : (l ++ [x]).find? q = some x := by
  induction l with
  | nil => simp [hx]
  | cons b l ih =>
    rw [List.cons_append, List.find?_cons]
    cases hb : q b
    · exact ih (fun p hp hq => hl p (List.mem_cons_of_mem _ hp) hq)
    · rw [hl b (List.mem_cons_self _ _) hb]

/-- C14. The call `callback_refire` absorbs the earlier call: for every state,
every non-null `fn` and all `(p1, t1)`, `(p2, t2)`, when the allocation of the
first call succeeds (with address `x`), `callback_refire(fn, p1, t1)` followed by
`callback_refire(fn, p2, t2)` yields the same state, hence the same callback
collection with the same records in the same order, as the single call
`callback_refire(fn, p2, t2)`; the collection gains at most one record. -/
theorem callback_refire_absorbs (k : kernel) (fn p1 t1 p2 t2 x : Nat) (a2 : Option Nat)
    (hfn : fn ≠ 0) :
    callback_refire fn p2 t2 a2 (callback_refire fn p1 t1 (some x) k) =
      callback_refire fn p2 t2 (some x) k ∧
    (callback_refire fn p2 t2 a2 (callback_refire fn p1 t1 (some x) k))._callbacks.length ≤
      k._callbacks.length + 1 := by
  cases hf : k._callbacks.find? (fun p => (k.cbk p).function == fn) with
  | some a =>
    have h1 : callback_refire fn p1 t1 (some x) k =
        { k with
          cbk := Function.update k.cbk a { k.cbk a with timer := t1, param := p1 }
          ie := true } := by
      unfold callback_refire
      rw [if_neg hfn, hf]
    have h2 : callback_refire fn p2 t2 (some x) k =
        { k with
          cbk := Function.update k.cbk a { k.cbk a with timer := t2, param := p2 }
          ie := true } := by
      unfold callback_refire
      rw [if_neg hfn, hf]
    have hfun : (fun p => ((Function.update k.cbk a
          { k.cbk a with timer := t1, param := p1 }) p).function == fn) =
        (fun p => (k.cbk p).function == fn) := by
      funext p
      by_cases hp : p = a
      · subst hp
        rw [Function.update_same]
      · rw [Function.update_noteq hp]
    have h3 : callback_refire fn p2 t2 a2 (callback_refire fn p1 t1 (some x) k) =
        callback_refire fn p2 t2 (some x) k := by
      rw [h1, h2]
      unfold callback_refire
      rw [if_neg hfn]
      simp only [hfun, hf, Function.update_same, Function.update_idem]
    refine ⟨h3, ?_⟩
    rw [h3, h2]
    exact Nat.le_succ _
  | none =>
    have h1 : callback_refire fn p1 t1 (some x) k =
        { k with
          cbk := Function.update k.cbk x { function := fn, param := p1, timer := t1 }
          _callbacks := k._callbacks ++ [x]
          ie := true } := by
      unfold callback_refire
      rw [if_neg hfn, hf]
    have h2 : callback_refire fn p2 t2 (some x) k =
        { k with
          cbk := Function.update k.cbk x { function := fn, param := p2, timer := t2 }
          _callbacks := k._callbacks ++ [x]
          ie := true } := by
      unfold callback_refire
      rw [if_neg hfn, hf]
    have hfind : (k._callbacks ++ [x]).find?
        (fun p => ((Function.update k.cbk x
          { function := fn, param := p1, timer := t1 }) p).function == fn) = some x := by
      apply find?_append_singleton
      · simp
      · intro p hp hq
        by_contra hne
        rw [Function.update_noteq hne] at hq
        exact List.find?_eq_none.1 hf p hp hq
    have h3 : callback_refire fn p2 t2 a2 (callback_refire fn p1 t1 (some x) k) =
        callback_refire fn p2 t2 (some x) k := by
      rw [h1, h2]
      unfold callback_refire
      rw [if_neg hfn]
      simp only [hfind, Function.update_same, Function.update_idem]
    refine ⟨h3, ?_⟩
    rw [h3, h2]
    simp

/-- Witness of C14 on `ex_callbacks`, for a function that is pending (77) and for
one that is not (99, allocated at address 12). -/
theorem callback_refire_absorbs_witness :
    callback_refire 77 5 6 none (callback_refire 77 3 4 (some 12) ex_callbacks) =
      callback_refire 77 5 6 (some 12) ex_callbacks ∧
    (callback_refire 99 5 6 none (callback_refire 99 3 4 (some 12) ex_callbacks))._callbacks =
      [10, 11, 12] :=
  ⟨(callback_refire_absorbs ex_callbacks 77 3 4 5 6 12 none (by decide)).1, by
    rw [(callback_refire_absorbs ex_callbacks 99 3 4 5 6 12 none (by decide)).1]
    decide⟩

theorem scheduler_levels_callbacks (n : Nat) (k : kernel) :
    (scheduler_levels n k)._callbacks = k._callbacks ∧ (scheduler_levels n k).cbk = k.cbk := by
  induction n generalizing k with
  | zero => exact ⟨rfl, rfl⟩
  | succ n ih =>
    simp only [scheduler_levels]
    cases (k._threads n).find? (fun a => sched_ready (k.thr a)) with
    | some b => exact ⟨rfl, rfl⟩
    | none => exact ih _

/-- The loop applies its body to a record as many times as the record occurs in
the sequence. -/
theorem heap_apply_count {α : Type} (f : α → α) (l : List Nat) (h : Nat → α) (x : Nat) :
    heap_apply f l h x = f^[l.count x] (h x) := by
  induction l generalizing h with
  | nil => rfl
  | cons a l ih =>
    rw [heap_apply_cons, ih]
    by_cases hxa : x = a
    · subst hxa
      rw [Function.update_same, List.count_cons_self, Function.iterate_succ_apply]
    · rw [Function.update_noteq hxa, List.count_cons_of_ne hxa]

theorem scheduler_callbacks_none (code : Nat → Nat → kernel → kernel) (fuel : Nat)
    (k : kernel) (log : List invocation)
    (hf : k._callbacks.find? (fun cb => (k.cbk cb).timer == 0) = none) :
    scheduler_callbacks code (fuel + 1) k log = some (k, log) := by
  simp only [scheduler_callbacks, hf]

theorem tick_callback_record (f p r : Nat) :
    tick_callback { function := f, param := p, timer := r } =
      { function := f, param := p, timer := r - 1 } := by
  unfold tick_callback
  by_cases h : r = 0
  · subst h
    rfl
  · simp [h]

/-- When the first record of the collection matches and is the only record,
`list_remove(_callbacks, p)` finds `*lst`, the `next` field of that record,
`NULL` and returns at once, so the loop of `callback_cancel` starts again in the
same memory, for ever. -/
theorem callback_cancel_loop_head (g fn : Nat) (m : Nat → Nat) (hg : m g ≠ 0)
    (hfn : m (m g + 8) = fn) (hnext : m (m g) = 0) (fuel : Nat) :
    callback_cancel_loop g fn fuel m (m g) = none := by
  induction fuel with
  | zero => rfl
  | succ fuel ih =>
    have hrem : list_remove m (m g) (m g) = m := by
      unfold list_remove
      rw [if_neg hg, if_pos hnext]
    show (if m g = 0 then some m
      else if m (m g + 8) = fn then
        callback_cancel_loop g fn fuel (list_remove m (m g) (m g))
          (list_remove m (m g) (m g) g)
      else callback_cancel_loop g fn fuel m (m (m g))) = none
    rw [if_neg hg, if_pos hfn, hrem]
    exact ih

/-- C15, evaluated on the collection that holds one record, whose function is
77: the collection read from the head is `[200]`, the single `list_remove`
that `callback_cancel(77)` performs leaves the memory as it is, and the call
does not return, whatever the fuel; `list_remove(&_callbacks, p)`, as the
scheduler calls it, empties the collection. -/
theorem callback_cancel_single_diverges :
    list_from ex_cancel_mem 5 (ex_cancel_mem 100) = [200] ∧
    ex_cancel_mem (200 + 8) = 77 ∧
    list_remove ex_cancel_mem (ex_cancel_mem 100) 200 = ex_cancel_mem ∧
    (∀ fuel, callback_cancel 100 77 fuel ex_cancel_mem = none) ∧
    list_from (list_remove ex_cancel_mem 100 200) 5 (list_remove ex_cancel_mem 100 200 100)
      = [] := by
  refine ⟨by decide, by decide, ?_, ?_, by decide⟩
  · unfold list_remove
    rw [if_neg (by decide), if_pos (by decide)]
  · intro fuel
    unfold callback_cancel
    rw [if_neg (by decide)]
    exact callback_cancel_loop_head 100 77 ex_cancel_mem (by decide) (by decide) (by decide) fuel

/-- C17, evaluated at `thread_priority(200)` called by the single thread of
`ex_single` (priority 0): with a signed `char` the argument is -56, it passes
the clamp, and the index into `_threads` lies outside the array; the priority
field receives 0, the low three bits. With an unsigned `char` the call moves
the thread to level 2, as the clamp intends. -/
theorem thread_priority_negative_byte :
    char_value true 200 = -56 ∧
    thread_priority true 200 ex_single = none ∧
    ((ex_single.thr 1).set_prio (-56)).prio = 0 ∧
    ∃ k2, thread_priority false 200 ex_single = some k2 ∧
      (k2.thr 1).prio = 2 ∧ k2._threads 2 = [1] ∧ k2._threads 0 = [] := by
  refine ⟨by decide, rfl, by decide, _, rfl, by decide, by decide, by decide⟩

/-- C18, evaluated: on `ex_yielded_above`, whose two threads (at priorities 2
and 1) both have all wait bits clear, `os_count_ready` returns 0; on
`ex_single`, one ready thread at priority 0, it returns 6; on `ex_waiting`,
where the only thread waits for a signal at priority 1, it returns 3. -/
theorem os_count_ready_values :
    os_count_ready ex_yielded_above = 0 ∧ ready_count ex_yielded_above = 2 ∧
    os_count_ready ex_single = 6 ∧ ready_count ex_single = 1 ∧
    os_count_ready ex_waiting = 3 ∧ ready_count ex_waiting = 0 := by
  decide

/-! ## The initial stack of a thread -/

theorem and_mask_align (n b : Nat) (hb : 2 ≤ b) (hn : n < 2 ^ b) :
    n &&& (2 ^ b - 4) = n - n % 4 := by
  have h1 : 2 ^ b - 4 = (2 ^ (b - 2) - 1) <<< 2 := by
    rw [Nat.shiftLeft_eq]
    have : 2 ^ b = 2 ^ (b - 2) * 2 ^ 2 := by
      rw [← Nat.pow_add]
      congr 1
      omega
    omega
  have h2 : n - n % 4 = (n >>> 2) <<< 2 := by
    rw [Nat.shiftLeft_eq, Nat.shiftRight_eq_div_pow]
    omega
  rw [h1, h2]
  apply Nat.eq_of_testBit_eq
  intro j
  rw [Nat.testBit_and, Nat.testBit_shiftLeft, Nat.testBit_shiftLeft,
    Nat.testBit_two_pow_sub_one, Nat.testBit_shiftRight]
  by_cases hj : 2 ≤ j
  · have e : 2 + (j - 2) = j := by omega
    rw [e]
    by_cases hjb : j < b
    · have : j - 2 < b - 2 := by omega
      simp [hj, this]
    · have hf : n.testBit j = false :=
        Nat.testBit_lt_two_pow (lt_of_lt_of_le hn (Nat.pow_le_pow_right (by decide) (by omega)))
      simp [hf]
  · simp [hj]

theorem initial_sp_eq (sp0 size : Nat) (hsize : size < 2 ^ 16) (hal : sp0 % 4 = 0)
    (hin : sp0 + size + 4 ≤ 2 ^ 32) : initial_sp sp0 size = sp0 + (size - size % 4) := by
  unfold initial_sp
  rw [Nat.mod_eq_of_lt hsize]
  have h1 : size &&& 0xfffc = size - size % 4 := and_mask_align size 16 (by decide) hsize
  rw [h1]
  have hlt : sp0 + (size - size % 4) < 2 ^ 32 := by omega
  rw [Nat.mod_eq_of_lt hlt]
  have h2 := and_mask_align (sp0 + (size - size % 4)) 32 (by decide) hlt
  have h3 : (2 : Nat) ^ 32 - 4 = 0xfffffffc := by decide
  rw [h3] at h2
  rw [h2]
  omega

theorem byte_of_lt (w i : Nat) : byte_of w i < 256 := Nat.mod_lt _ (by decide)

theorem load_word_bytes (w : Nat) (hw : w < 2 ^ 32) :
    byte_of w 0 + 256 * byte_of w 1 + 256 ^ 2 * byte_of w 2 + 256 ^ 3 * byte_of w 3 = w := by
  unfold byte_of
  simp only [Nat.shiftRight_eq_div_pow]
  norm_num
  omega

theorem ptr_dec_eq (a : Nat) (h1 : 1 ≤ a) (h2 : a < 2 ^ 32) : ptr_dec a = a - 1 := by
  unfold ptr_dec
  have e : a + 2 ^ 32 - 1 = (a - 1) + 2 ^ 32 := by omega
  rw [e, Nat.add_mod_right, Nat.mod_eq_of_lt (by omega)]

theorem store_entry_eq (m : Nat → Nat) (sp entry : Nat) (h1 : 4 ≤ sp) (h2 : sp < 2 ^ 32) :
    store_entry m sp entry =
      Function.update (Function.update (Function.update (Function.update m
        (sp - 1) (byte_of (entry % 2 ^ 32) 3)) (sp - 2) (byte_of (entry % 2 ^ 32) 2))
        (sp - 3) (byte_of (entry % 2 ^ 32) 1)) (sp - 4) (byte_of (entry % 2 ^ 32) 0) := by
  unfold store_entry
  have e3 : ptr_dec sp = sp - 1 := ptr_dec_eq sp (by omega) h2
  have e2 : ptr_dec (sp - 1) = sp - 2 := by
    rw [ptr_dec_eq (sp - 1) (by omega) (by omega)]
    omega
  have e1 : ptr_dec (sp - 2) = sp - 3 := by
    rw [ptr_dec_eq (sp - 2) (by omega) (by omega)]
    omega
  have e0 : ptr_dec (sp - 3) = sp - 4 := by
    rw [ptr_dec_eq (sp - 3) (by omega) (by omega)]
    omega
  simp only [e3, e2, e1, e0]

/-- C25, as stated, fails: with `stack_size = 0` and the region of 4 bytes at
`0x1000`, the saved stack pointer is `0x1000` and the four bytes of the entry
address are stored at `0xFFC` to `0xFFF`, below the region. -/
theorem thread_create_small_stack_counterexample :
    ((thread_create 0x9D001234 0 (some 2) (some 0x1000) ex_single).1.thr 2).sp0 = 0x1000 ∧
    ((thread_create 0x9D001234 0 (some 2) (some 0x1000) ex_single).1.thr 2).sp = 0x1000 ∧
    ex_single.mem 0xFFC = 0 ∧
    (thread_create 0x9D001234 0 (some 2) (some 0x1000) ex_single).1.mem 0xFFC = 0x34 ∧
    (thread_create 0x9D001234 0 (some 2) (some 0x1000) ex_single).1.mem 0xFFF = 0x9D ∧
    ¬ (0x1000 ≤ ((thread_create 0x9D001234 0 (some 2) (some 0x1000) ex_single).1.thr 2).sp
      - 4) := by
  decide

/-- C25, amended. For every 16-bit `stack_size` of at least 4 and every entry
address, when both allocations succeed, the stack region being the
`stack_size + 4` bytes from the 4-byte-aligned address `sp0`: the call returns
the record; the saved stack pointer is `sp0 + stack_size` rounded down to a
multiple of 4, it is 4-byte aligned; the four bytes at `sp - 4` to `sp - 1` lie
inside the region and hold the entry address in little-endian order, so that
the word loaded from `sp - 4` is the entry address; every other byte of the
region is zero; all flag bits and the priority of the record are zero; and the
record is appended to the collection of priority 0, the other collections
being unchanged. -/
theorem thread_create_stack_layout (k : kernel) (entry size p sp0 : Nat)
    (hsize : size < 2 ^ 16) (h4 : 4 ≤ size) (hal : sp0 % 4 = 0)
    (hin : sp0 + size + 4 ≤ 2 ^ 32) (hentry : entry < 2 ^ 32) :
    (thread_create entry size (some p) (some sp0) k).2 = some p ∧
    ((thread_create entry size (some p) (some sp0) k).1.thr p).sp0 = sp0 ∧
    ((thread_create entry size (some p) (some sp0) k).1.thr p).sp =
      sp0 + (size - size % 4) ∧
    ((thread_create entry size (some p) (some sp0) k).1.thr p).sp % 4 = 0 ∧
    sp0 ≤ ((thread_create entry size (some p) (some sp0) k).1.thr p).sp - 4 ∧
    ((thread_create entry size (some p) (some sp0) k).1.thr p).sp - 1 < sp0 + size + 4 ∧
    (∀ i, i < 4 →
      (thread_create entry size (some p) (some sp0) k).1.mem
        (((thread_create entry size (some p) (some sp0) k).1.thr p).sp - 4 + i) =
        byte_of entry i) ∧
    load_word (thread_create entry size (some p) (some sp0) k).1.mem
      (((thread_create entry size (some p) (some sp0) k).1.thr p).sp - 4) = entry ∧
    (∀ x, sp0 ≤ x → x < sp0 + size + 4 →
      (x < ((thread_create entry size (some p) (some sp0) k).1.thr p).sp - 4 ∨
        ((thread_create entry size (some p) (some sp0) k).1.thr p).sp ≤ x) →
      (thread_create entry size (some p) (some sp0) k).1.mem x = 0) ∧
    ((thread_create entry size (some p) (some sp0) k).1.thr p).flags = 0 ∧
    (∀ j, ((thread_create entry size (some p) (some sp0) k).1.thr p).flags.testBit j = false) ∧
    ((thread_create entry size (some p) (some sp0) k).1.thr p).prio = 0 ∧
    (thread_create entry size (some p) (some sp0) k).1._threads 0 = k._threads 0 ++ [p] ∧
    (∀ i, i ≠ 0 → (thread_create entry size (some p) (some sp0) k).1._threads i = k._threads i) := by
  have hsp : initial_sp sp0 size = sp0 + (size - size % 4) := initial_sp_eq sp0 size hsize hal hin
  have hrec : (thread_create entry size (some p) (some sp0) k).1.thr p =
      { k.thr p with sp0 := sp0, sp := sp0 + (size - size % 4), flags := 0 } := by
    show Function.update k.thr p _ p = _
    rw [Function.update_same, hsp]
  have hmem : (thread_create entry size (some p) (some sp0) k).1.mem =
      Function.update (Function.update (Function.update (Function.update
        (memset k.mem sp0 0 (size + 4))
        (sp0 + (size - size % 4) - 1) (byte_of entry 3))
        (sp0 + (size - size % 4) - 2) (byte_of entry 2))
        (sp0 + (size - size % 4) - 3) (byte_of entry 1))
        (sp0 + (size - size % 4) - 4) (byte_of entry 0) := by
    show store_entry (memset k.mem sp0 0 (size % 2 ^ 16 + 4)) (initial_sp sp0 size) entry = _
    rw [hsp, store_entry_eq _ _ _ (by omega) (by omega), Nat.mod_eq_of_lt hsize,
      Nat.mod_eq_of_lt hentry]
  have hb : ∀ i, i < 4 →
      (thread_create entry size (some p) (some sp0) k).1.mem
        (sp0 + (size - size % 4) - 4 + i) = byte_of entry i := by
    intro i hi
    rw [hmem]
    have hi4 : i = 0 ∨ i = 1 ∨ i = 2 ∨ i = 3 := by omega
    rcases hi4 with e | e | e | e <;> subst e
    · exact Function.update_same _ _ _
    · rw [Function.update_noteq (by omega),
        show sp0 + (size - size % 4) - 4 + 1 = sp0 + (size - size % 4) - 3 by omega,
        Function.update_same]
    · rw [Function.update_noteq (by omega), Function.update_noteq (by omega),
        show sp0 + (size - size % 4) - 4 + 2 = sp0 + (size - size % 4) - 2 by omega,
        Function.update_same]
    · rw [Function.update_noteq (by omega), Function.update_noteq (by omega),
        Function.update_noteq (by omega),
        show sp0 + (size - size % 4) - 4 + 3 = sp0 + (size - size % 4) - 1 by omega,
        Function.update_same]
  refine ⟨rfl, ?_, ?_, ?_, ?_, ?_, ?_, ?_, ?_, ?_, ?_, ?_, ?_, ?_⟩
  · rw [hrec]
  · rw [hrec]
  · rw [hrec]
    show (sp0 + (size - size % 4)) % 4 = 0
    omega
  · rw [hrec]
    show sp0 ≤ sp0 + (size - size % 4) - 4
    omega
  · rw [hrec]
    show sp0 + (size - size % 4) - 1 < sp0 + size + 4
    omega
  · rw [hrec]
    exact hb
  · rw [hrec]
    show load_word _ (sp0 + (size - size % 4) - 4) = entry
    unfold load_word
    have h0 : (thread_create entry size (some p) (some sp0) k).1.mem
        (sp0 + (size - size % 4) - 4) = byte_of entry 0 := hb 0 (by decide)
    rw [h0, hb 1 (by decide), hb 2 (by decide), hb 3 (by decide)]
    exact load_word_bytes entry hentry
  · rw [hrec]
    intro x hx1 hx2 hx3
    have hx3b : x < sp0 + (size - size % 4) - 4 ∨ sp0 + (size - size % 4) ≤ x := hx3
    rw [hmem, Function.update_noteq (by omega), Function.update_noteq (by omega),
      Function.update_noteq (by omega), Function.update_noteq (by omega)]
    unfold memset
    rw [if_pos ⟨hx1, hx2⟩]
  · rw [hrec]
  · rw [hrec]
    intro j
    exact Nat.zero_testBit j
  · rw [hrec]
    show ((0 : Nat) >>> 8) % 8 = 0
    decide
  · show Function.update k._threads 0 (k._threads 0 ++ [p]) 0 = _
    rw [Function.update_same]
  · intro i hi
    show Function.update k._threads 0 (k._threads 0 ++ [p]) i = _
    rw [Function.update_noteq hi]

/-- Witness of C25 (amended): a stack of 64 bytes at `0x1000` for the entry
address `0x9D001234`. -/
theorem thread_create_stack_layout_witness :
    ((thread_create 0x9D001234 64 (some 2) (some 0x1000) ex_single).1.thr 2).sp = 0x1040 ∧
    load_word (thread_create 0x9D001234 64 (some 2) (some 0x1000) ex_single).1.mem
      (((thread_create 0x9D001234 64 (some 2) (some 0x1000) ex_single).1.thr 2).sp - 4) =
      0x9D001234 :=
  ⟨(thread_create_stack_layout ex_single 0x9D001234 64 2 0x1000 (by decide) (by decide)
      (by decide) (by decide) (by decide)).2.2.1,
   (thread_create_stack_layout ex_single 0x9D001234 64 2 0x1000 (by decide) (by decide)
      (by decide) (by decide) (by decide)).2.2.2.2.2.2.2.1⟩

/-! ## Interrupt bracketing of the support operations -/

/-- The two ways in which `thread_priority` returns: at once, the state being
what it was, or after moving the current thread `a` from its level to the end
of level `c`. -/
theorem thread_priority_some (cs : Bool) (arg : Nat) (k k2 : kernel)
    (h : thread_priority cs arg k = some k2) :
    k2 = k ∨ ∃ a c, k._thrp = some a ∧ c < MAX_PRIO ∧ (k.thr a).prio < MAX_PRIO ∧
      c ≠ (k.thr a).prio ∧
      k2 = { k with
        thr := Function.update k.thr a ((k.thr a).set_prio (c : Int))
        _threads := Function.update
          (Function.update k._threads (k.thr a).prio ((k._threads (k.thr a).prio).erase a)) c
          (Function.update k._threads (k.thr a).prio ((k._threads (k.thr a).prio).erase a) c
            ++ [a])
        ie := true } := by
  unfold thread_priority at h
  cases hc : k._thrp with
  | none =>
    rw [hc] at h
    left
    exact (Option.some.inj h).symm
  | some a =>
    rw [hc] at h
    dsimp only at h
    generalize (if char_value cs arg > ( MAX_PRIO : Int) - 1 then ( MAX_PRIO : Int) - 1
      else char_value cs arg) = pr at h
    by_cases h1 : ((k.thr a).prio : Int) = pr
    · rw [if_pos h1] at h
      left
      exact (Option.some.inj h).symm
    · rw [if_neg h1] at h
      by_cases h2 : (k.thr a).prio < MAX_PRIO ∧ 0 ≤ pr ∧ pr < ( MAX_PRIO : Int)
      · rw [if_pos h2] at h
        right
        obtain ⟨ho, h0, hlt⟩ := h2
        obtain ⟨c, rfl⟩ := Int.eq_ofNat_of_zero_le h0
        refine ⟨a, c, rfl, by exact_mod_cast hlt, ho, ?_, ?_⟩
        · intro e
          apply h1
          rw [e]
        · rw [Int.toNat_ofNat] at h
          exact (Option.some.inj h).symm
      · rw [if_neg h2] at h
        cases h

/-- C24, evaluated: `callback_refire(99, 7, 2)` on `ex_callbacks`, where no
pending callback has function 99, with `malloc` failing, returns with interrupts
disabled (the collection is unchanged); `callback_fire` with `malloc` failing
returns the state as it was. Called with interrupts enabled, the other support
operations return with interrupts enabled, `callback_refire` too when the
function is found or the allocation succeeds. -/
theorem callback_refire_alloc_failure :
    ex_callbacks.ie = true ∧
    (callback_refire 99 7 2 none ex_callbacks).ie = false ∧
    (callback_refire 99 7 2 none ex_callbacks)._callbacks = ex_callbacks._callbacks ∧
    (∀ k fn par time, callback_fire fn par time none k = k) ∧
    (∀ k fn par time x, k.ie = true → (callback_fire fn par time (some x) k).ie = true) ∧
    (∀ k fn par time x, k.ie = true → (callback_refire fn par time (some x) k).ie = true) ∧
    (∀ k th, (thread_kill th k).ie = true ∧ (thread_terminate th k).ie = true ∧
      (thread_suspend th k).ie = true ∧ (thread_release th k).ie = true ∧
      (thread_force th k).ie = true) ∧
    (∀ k ptr, (thread_signal ptr k).ie = true ∧ (thread_unlock ptr k).ie = true) ∧
    (∀ cs arg k k2, k.ie = true → thread_priority cs arg k = some k2 → k2.ie = true) := by
  refine ⟨by decide, by decide, by decide, ?_, ?_, ?_, ?_, ?_, ?_⟩
  · intro k fn par time
    unfold callback_fire
    split_ifs <;> rfl
  · intro k fn par time x hk
    unfold callback_fire
    split_ifs
    · exact hk
    · rfl
  · intro k fn par time x hk
    unfold callback_refire
    split_ifs
    · exact hk
    · split <;> rfl
  · intro k th
    exact ⟨rfl, rfl, rfl, rfl, rfl⟩
  · intro k ptr
    refine ⟨rfl, ?_⟩
    unfold thread_unlock
    split_ifs
    · rfl
    · split <;> rfl
  · intro cs arg k k2 hk h
    rcases thread_priority_some cs arg k k2 h with e | ⟨a, c, _, _, _, _, e⟩
    · rw [e]
      exact hk
    · rw [e]

/-! ## A sleep of zero ticks -/

theorem f_time_pending_set_f_nice (t : thread_t) (b : Bool) :
    (t.set_f_nice b).f_time_pending = t.f_time_pending := by
  show (bit_assign t.flags 0 b).testBit 1 = t.flags.testBit 1
  rw [testBit_bit_assign, if_neg (by decide)]

/-- A member of the table that is not current, with time_pending set and timer
0, stays so along timer interrupts and scheduler passes, and is never
selected. -/
theorem sleep_zero_stays (a : Nat) (es : List event)
    (hes : ∀ e, e ∈ es → e = event.tick ∨ e = event.sched) (k : kernel)
    (hwf : table_wf k) (hmem : a ∈ all_threads k) (hcur : k._thrp ≠ some a)
    (hp : (k.thr a).f_time_pending = true) (ht : (k.thr a).timer = 0) :
    ((run es k).thr a).f_time_pending = true ∧ ((run es k).thr a).timer = 0 ∧
      (run es k)._thrp ≠ some a := by
  induction es generalizing k with
  | nil => exact ⟨hp, ht, hcur⟩
  | cons e es ih =>
    have hes2 : ∀ e2, e2 ∈ es → e2 = event.tick ∨ e2 = event.sched :=
      fun e2 h2 => hes e2 (List.mem_cons_of_mem _ h2)
    have hwf2 : table_wf (step e k) := step_table_wf e k hwf
    have hmem2 : a ∈ all_threads (step e k) := step_mem_all_threads e k a hcur hmem
    rcases hes e (List.mem_cons_self _ _) with he | he
    · subst he
      have hrec : (step event.tick k).thr a = k.thr a := by
        show (os_tick k).thr a = k.thr a
        rw [os_tick_thr k hwf a, if_pos hmem, tick_thread_zero _ ht]
      exact ih hes2 (step event.tick k) hwf2 hmem2 hcur (by rw [hrec]; exact hp)
        (by rw [hrec]; exact ht)
    · subst he
      have hns : (scheduler_threads k)._thrp ≠ some a :=
        scheduler_not_selected k a (runnable_of_f_time_pending _ hp)
      have hrec : ((scheduler_threads k).thr a).f_time_pending = true ∧
          ((scheduler_threads k).thr a).timer = 0 := by
        rcases scheduler_threads_thr_cases k a with e | e
        · rw [e]
          exact ⟨hp, ht⟩
        · rw [e]
          exact ⟨(f_time_pending_set_f_nice _ _).trans hp, ht⟩
      exact ih hes2 (step event.sched k) hwf2 hmem2 hns hrec.1 hrec.2

/-- C23, evaluated: from `kernel_init`, a thread is created, dispatched, and
calls `thread_sleep(0)`. In the state reached the thread is live, its
time_pending bit is set and its timer is 0; and along all timer interrupts and
scheduler passes that follow, time_pending stays set, the timer stays 0 and the
thread is never dispatched again. -/
theorem sleep_zero_never_wakes :
    ∃ k, api_run true ex_sleep_zero (kernel_init ex_single) [] = some (k, [1]) ∧
      1 ∈ all_threads k ∧
      (k.thr 1).f_time_pending = true ∧ (k.thr 1).timer = 0 ∧
      ∀ es, (∀ e, e ∈ es → e = event.tick ∨ e = event.sched) →
        ((run es k).thr 1).f_time_pending = true ∧ ((run es k).thr 1).timer = 0 ∧
          (run es k)._thrp ≠ some 1 := by
  refine ⟨_, rfl, by decide, by decide, by decide, ?_⟩
  intro es hes
  exact sleep_zero_stays 1 es hes _ (by decide) (by decide) (by decide) (by decide) (by decide)

/-! ## How the flags of a record evolve -/

theorem evolves_refl (w : Nat) : evolves w w :=
  ⟨fun _ h => Or.inl h, fun _ _ _ => rfl⟩

theorem evolves_trans (w1 w2 w3 : Nat) (h12 : evolves w1 w2) (h23 : evolves w2 w3) :
    evolves w1 w3 := by
  refine ⟨fun j h => ?_, fun j h8 h11 => (h23.2 j h8 h11).trans (h12.2 j h8 h11)⟩
  rcases h23.1 j h with h2 | h2
  · exact h12.1 j h2
  · exact Or.inr h2

theorem evolves_bit_assign (w i : Nat) (b : Bool) (hi : i < 8)
    (hb : b = false ∨ i = 4 ∨ i = 6 ∨ i = 7) : evolves w (bit_assign w i b) := by
  refine ⟨fun j h => ?_, fun j h8 _ => ?_⟩
  · rw [testBit_bit_assign] at h
    by_cases hj : j = i
    · rw [if_pos hj] at h
      rcases hb with hb | hb
      · rw [hb] at h
        cases h
      · right
        rw [hj]
        exact hb
    · rw [if_neg hj] at h
      exact Or.inl h
  · rw [testBit_bit_assign, if_neg (by omega)]

theorem evolves_clear_wait_mask (w : Nat) : evolves w (clear_wait_mask w) := by
  refine ⟨fun j h => ?_, fun j h8 h11 => ?_⟩
  · rw [testBit_clear_wait_mask] at h
    left
    cases hw : w.testBit j
    · rw [hw] at h
      simp at h
    · rfl
  · rw [testBit_clear_wait_mask, testBit_mask_wait]
    have h1 : j ≠ 1 := by omega
    have h2 : j ≠ 2 := by omega
    have h3 : j ≠ 3 := by omega
    have h4 : j ≠ 4 := by omega
    have h16 : j < 16 := by omega
    simp [h1, h2, h3, h4, h16]

theorem evolves_terminate_thread (t : thread_t) :
    evolves t.flags (terminate_thread t).flags := by
  refine ⟨fun j h => ?_, fun j h8 h11 => ?_⟩
  · rw [testBit_terminate_thread, testBit_mask_terminate] at h
    by_cases h6 : j = 6
    · exact Or.inr (Or.inr (Or.inl h6))
    by_cases h7 : j = 7
    · exact Or.inr (Or.inr (Or.inr h7))
    left
    cases hw : t.flags.testBit j
    · rw [hw] at h
      simp [h6, h7] at h
    · rfl
  · rw [testBit_terminate_thread, testBit_mask_terminate, testBit_mask_wait]
    have h1 : j ≠ 1 := by omega
    have h2 : j ≠ 2 := by omega
    have h3 : j ≠ 3 := by omega
    have h4 : j ≠ 4 := by omega
    have h6 : j ≠ 6 := by omega
    have h7 : j ≠ 7 := by omega
    have h16 : j < 16 := by omega
    simp [h1, h2, h3, h4, h6, h7, h16]

theorem evolves_tick_thread (t : thread_t) : evolves t.flags (tick_thread t).flags := by
  by_cases h0 : t.timer = 0
  · rw [tick_thread_zero t h0]
    exact evolves_refl _
  by_cases h1 : t.timer = 1
  · by_cases hm : t.flags &&& MASK_TIMEOUT = 0
    · rw [tick_thread_last_plain t h1 hm]
      exact evolves_bit_assign _ 1 false (by decide) (Or.inl rfl)
    · rw [tick_thread_last_wait t h1 hm]
      exact evolves_trans _ _ _ (evolves_trans _ _ _ (evolves_clear_wait_mask _)
        (evolves_bit_assign _ 6 true (by decide) (Or.inr (Or.inr (Or.inl rfl)))))
        (evolves_bit_assign _ 1 false (by decide) (Or.inl rfl))
  · rw [tick_thread_many t (by omega)]
    exact evolves_refl _

theorem evolves_signal_thread (ptr : Nat) (t : thread_t) :
    evolves t.flags (signal_thread ptr t).flags := by
  unfold signal_thread
  split_ifs
  · rw [cancel_timer_flags]
    exact evolves_bit_assign _ 2 false (by decide) (Or.inl rfl)
  · exact evolves_refl _
  · exact evolves_refl _

theorem evolves_force_thread (t : thread_t) : evolves t.flags (force_thread t).flags := by
  unfold force_thread
  split_ifs
  · rw [cancel_timer_flags]
    exact evolves_trans _ _ _ (evolves_bit_assign _ 2 false (by decide) (Or.inl rfl))
      (evolves_bit_assign _ 6 true (by decide) (Or.inr (Or.inr (Or.inl rfl))))
  · exact evolves_refl _

/-- A loop over the table that rewrites the visited records with `f` makes the
flags of every record evolve, when `f` does. -/
theorem evolves_foldl_heap_apply (f : thread_t → thread_t)
    (hf : ∀ t, evolves t.flags (f t).flags) (T : Nat → List Nat) (ls : List Nat)
    (h : Nat → thread_t) (x : Nat) :
    evolves (h x).flags (ls.foldl (fun h i => heap_apply f (T i) h) h x).flags :=
  foldl_heap_apply_keeps f (fun t => evolves (h x).flags t.flags)
    (fun t ht => evolves_trans _ _ _ ht (hf t)) T ls h x (evolves_refl _)

theorem evolves_update (h : Nat → thread_t) (th x : Nat) (t : thread_t)
    (ht : evolves (h th).flags t.flags) :
    evolves (h x).flags (Function.update h th t x).flags := by
  by_cases e : x = th
  · subst e
    rw [Function.update_same]
    exact ht
  · rw [Function.update_noteq e]
    exact evolves_refl _

/-- Every event other than a kernel call of the thread itself makes the flags
of the record of `a` evolve. -/
theorem step_evolves (e : event) (k : kernel) (a : Nat)
    (hcall : ∀ func arg, e = event.call func arg → k._thrp ≠ some a) :
    evolves (k.thr a).flags ((step e k).thr a).flags := by
  cases e with
  | tick => exact evolves_foldl_heap_apply tick_thread evolves_tick_thread k._threads levels_up k.thr a
  | sched =>
    show evolves _ ((scheduler_threads k).thr a).flags
    rcases scheduler_threads_thr_cases k a with e | e
    · rw [e]
      exact evolves_refl _
    · rw [e]
      exact evolves_bit_assign _ 0 false (by decide) (Or.inl rfl)
  | call func arg =>
    show evolves _ ((kernel_call func arg k).1.thr a).flags
    rw [kernel_call_thr_other k a func arg (hcall func arg rfl)]
    exact evolves_refl _
  | signal id =>
    exact evolves_foldl_heap_apply (signal_thread id) (evolves_signal_thread id) k._threads
      levels_down k.thr a
  | unlock m =>
    show evolves _ ((thread_unlock m k).thr a).flags
    rcases thread_unlock_thr_cases m k a with e | e
    · rw [e]
      exact evolves_refl _
    · rw [e, cancel_timer_flags]
      exact evolves_bit_assign _ 3 false (by decide) (Or.inl rfl)
  | force th => exact evolves_update k.thr th a _ (evolves_force_thread _)
  | terminate th => exact evolves_update k.thr th a _ (evolves_terminate_thread _)
  | suspend th =>
    exact evolves_update k.thr th a _
      (evolves_bit_assign _ 4 true (by decide) (Or.inr (Or.inl rfl)))
  | release th =>
    exact evolves_update k.thr th a _ (evolves_bit_assign _ 4 false (by decide) (Or.inl rfl))

/-! ## The kernel call of the current thread, field by field -/

theorem return_to_main_fields (k2 : kernel) (c : Nat) :
    (return_to_main k2 c).1._thrp = none ∧
    ((return_to_main k2 c).1.thr c).flags = (k2.thr c).flags ∧
    (return_to_main k2 c).1._threads = k2._threads := by
  refine ⟨rfl, ?_, rfl⟩
  show (Function.update k2.thr c { k2.thr c with sp := k2.sp_reg } c).flags = _
  rw [Function.update_same]

theorem return_to_thread_no_timeout_fields (k2 : kernel) (c : Nat) :
    (return_to_thread_no_timeout k2 c).1._thrp = k2._thrp ∧
    ((return_to_thread_no_timeout k2 c).1.thr c).flags = (k2.thr c).flags ∧
    (return_to_thread_no_timeout k2 c).1._threads = k2._threads := by
  unfold return_to_thread_no_timeout
  split_ifs
  · refine ⟨rfl, ?_, rfl⟩
    show (Function.update k2.thr c { k2.thr c with timer := 0 } c).flags = _
    rw [Function.update_same]
  · exact ⟨rfl, rfl, rfl⟩

/-- What a kernel call does to the flags of the calling thread `c`, to the
current thread and to the table: either the thread stays current and no bit
other than timeout changes, or it is suspended and at most one of the bits nice,
time_pending, waiting and semaphore has changed; the table changes only for
`SV_END`, which unlinks `c` from the level of its priority. -/
theorem kernel_call_cur (k : kernel) (c func arg : Nat) (hc : k._thrp = some c) :
    (((kernel_call func arg k).1._thrp = some c ∧
        ∀ j, j ≠ 6 →
          ((kernel_call func arg k).1.thr c).flags.testBit j = (k.thr c).flags.testBit j) ∨
      ((kernel_call func arg k).1._thrp = none ∧
        ∃ i, i < 4 ∧ ∀ j, j ≠ i →
          ((kernel_call func arg k).1.thr c).flags.testBit j = (k.thr c).flags.testBit j)) ∧
    (func ≠ SV_END → (kernel_call func arg k).1._threads = k._threads) ∧
    (func = SV_END →
      (kernel_call func arg k).1._thrp = none ∧
      (kernel_call func arg k).1._threads =
        Function.update k._threads (k.thr c).prio ((k._threads (k.thr c).prio).erase c)) := by
  have hset : ∀ (k2 : kernel) (i : Nat) (b : Bool) (t : thread_t), i < 4 →
      t.flags = bit_assign (k.thr c).flags i b →
      k2.thr = Function.update k.thr c t → k2._threads = k._threads →
      (((return_to_main k2 c).1._thrp = some c ∧
          ∀ j, j ≠ 6 →
            ((return_to_main k2 c).1.thr c).flags.testBit j = (k.thr c).flags.testBit j) ∨
        ((return_to_main k2 c).1._thrp = none ∧
          ∃ i, i < 4 ∧ ∀ j, j ≠ i →
            ((return_to_main k2 c).1.thr c).flags.testBit j = (k.thr c).flags.testBit j)) ∧
      (return_to_main k2 c).1._threads = k._threads := by
    intro k2 i b t hi ht hthr htab
    obtain ⟨h1, h2, h3⟩ := return_to_main_fields k2 c
    refine ⟨Or.inr ⟨h1, i, hi, fun j hj => ?_⟩, h3.trans htab⟩
    rw [h2, hthr, Function.update_same, ht, testBit_bit_assign, if_neg hj]
  have hnt : ∀ k2 : kernel, k2._thrp = some c → k2.thr = k.thr → k2._threads = k._threads →
      (((return_to_thread_no_timeout k2 c).1._thrp = some c ∧
          ∀ j, j ≠ 6 →
            ((return_to_thread_no_timeout k2 c).1.thr c).flags.testBit j =
              (k.thr c).flags.testBit j) ∨
        ((return_to_thread_no_timeout k2 c).1._thrp = none ∧
          ∃ i, i < 4 ∧ ∀ j, j ≠ i →
            ((return_to_thread_no_timeout k2 c).1.thr c).flags.testBit j =
              (k.thr c).flags.testBit j)) ∧
      (return_to_thread_no_timeout k2 c).1._threads = k._threads := by
    intro k2 hcur hthr htab
    obtain ⟨h1, h2, h3⟩ := return_to_thread_no_timeout_fields k2 c
    refine ⟨Or.inl ⟨h1.trans hcur, fun j _ => ?_⟩, h3.trans htab⟩
    rw [h2, hthr]
  have h09 : SV_YIELD ≠ SV_END := by decide
  have h19 : SV_SLEEP ≠ SV_END := by decide
  have h39 : SV_WAIT ≠ SV_END := by decide
  have h29 : SV_SETTIMEOUT ≠ SV_END := by decide
  have h59 : SV_LOCK ≠ SV_END := by decide
  unfold kernel_call
  rw [hc]
  dsimp only
  by_cases h1 : func = SV_YIELD
  · rw [if_pos h1]
    obtain ⟨ha, hb⟩ := hset ({ k with
      ie := false
      _thrp := some c
      thr := Function.update k.thr c ((k.thr c).set_f_nice true) } : kernel) 0 true _ (by decide)
      rfl rfl rfl
    exact ⟨ha, fun _ => hb, fun h9 => absurd (h1.symm.trans h9) h09⟩
  rw [if_neg h1]
  by_cases h2 : func = SV_END
  · rw [if_pos h2]
    refine ⟨Or.inr ⟨rfl, 0, by decide, fun j _ => ?_⟩, fun hne => absurd h2 hne,
      fun _ => ⟨rfl, rfl⟩⟩
    rw [(return_to_main_fields _ c).2.1]
  rw [if_neg h2]
  by_cases h3 : func = SV_SLEEP
  · rw [if_pos h3]
    obtain ⟨ha, hb⟩ := hset ({ k with
      ie := false
      _thrp := some c
      thr := Function.update k.thr c ({ k.thr c with timer := arg }.set_f_time_pending true) } : kernel)
      1 true _ (by decide) rfl rfl rfl
    exact ⟨ha, fun _ => hb, fun h9 => absurd h9 h2⟩
  rw [if_neg h3]
  by_cases h4 : func = SV_WAIT
  · rw [if_pos h4]
    obtain ⟨ha, hb⟩ := hset ({ k with
      ie := false
      _thrp := some c
      thr := Function.update k.thr c { (k.thr c).set_f_waiting true with data := arg } } : kernel)
      2 true _ (by decide) rfl rfl rfl
    exact ⟨ha, fun _ => hb, fun h9 => absurd h9 h2⟩
  rw [if_neg h4]
  by_cases h5 : func = SV_SETTIMEOUT
  · rw [if_pos h5]
    refine ⟨Or.inl ⟨rfl, fun j hj => ?_⟩, fun _ => rfl, fun h9 => absurd h9 h2⟩
    have hrec : ∀ t : thread_t, t.flags = bit_assign (k.thr c).flags 6 false →
        (Function.update k.thr c t c).flags.testBit j = (k.thr c).flags.testBit j := by
      intro t ht
      rw [Function.update_same, ht, testBit_bit_assign, if_neg hj]
    exact hrec _ rfl
  rw [if_neg h5]
  by_cases h6 : func = SV_LOCK
  · rw [if_pos h6]
    by_cases h7 : k.mem arg ≠ 0
    · rw [if_pos h7]
      obtain ⟨ha, hb⟩ := hset ({ k with
        ie := false
        _thrp := some c
        thr := Function.update k.thr c { (k.thr c).set_f_semaphore true with data := arg } } : kernel)
        3 true _ (by decide) rfl rfl rfl
      exact ⟨ha, fun _ => hb, fun h9 => absurd h9 h2⟩
    · rw [if_neg h7]
      obtain ⟨ha, hb⟩ := hnt ({ k with
        ie := false
        _thrp := some c
        mem := Function.update k.mem arg 1 } : kernel) rfl rfl rfl
      exact ⟨ha, fun _ => hb, fun h9 => absurd h9 h2⟩
  rw [if_neg h6]
  obtain ⟨ha, hb⟩ := hnt ({ k with ie := false, _thrp := some c } : kernel) rfl rfl rfl
  exact ⟨ha, fun _ => hb, fun h9 => absurd h9 h2⟩

/-! ## The blocking-flag invariant -/

theorem evolves_wait_bit (w w2 : Nat) (h : evolves w w2) (j : Nat)
    (hj : j = 1 ∨ j = 2 ∨ j = 3) (hold : w.testBit j = false) : w2.testBit j = false := by
  cases hn : w2.testBit j
  · rfl
  · rcases h.1 j hn with h1 | h1
    · rw [hold] at h1
      cases h1
    · omega

theorem thread_unlock_thrp (m : Nat) (k : kernel) : (thread_unlock m k)._thrp = k._thrp := by
  unfold thread_unlock
  split_ifs
  · rfl
  · split <;> rfl

/-- Only the scheduler and a kernel call change the current thread. -/
theorem step_thrp (e : event) (k : kernel) (hs : e ≠ event.sched)
    (hcall : ∀ func arg, e ≠ event.call func arg) : (step e k)._thrp = k._thrp := by
  cases e with
  | tick => rfl
  | sched => exact absurd rfl hs
  | call func arg => exact absurd rfl (hcall func arg)
  | signal id => rfl
  | unlock m => exact thread_unlock_thrp m k
  | force th => rfl
  | terminate th => rfl
  | suspend th => rfl
  | release th => rfl

/-- The thread that a scheduler pass dispatches has its four wait-mask bits
clear. -/
theorem scheduler_threads_selected (k : kernel) (a : Nat)
    (h : (scheduler_threads k)._thrp = some a) :
    ((scheduler_threads k).thr a).flags.testBit 1 = false ∧
    ((scheduler_threads k).thr a).flags.testBit 2 = false ∧
    ((scheduler_threads k).thr a).flags.testBit 3 = false := by
  have hr : sched_ready ((scheduler_threads k).thr a) = true :=
    scheduler_levels_ready MAX_PRIO { k with ie := false } a h
  unfold sched_ready at hr
  have hm : ((scheduler_threads k).thr a).flags &&& MASK_WAIT = 0 := by
    have h2 := Bool.and_eq_true_iff.1 hr
    exact beq_iff_eq.1 h2.2
  obtain ⟨h1, h2, h3, _⟩ := (and_mask_wait_eq_zero _).1 hm
  exact ⟨h1, h2, h3⟩

theorem mem_all_threads_step (e : event) (k : kernel) (a : Nat)
    (h : a ∈ all_threads (step e k)) : a ∈ all_threads k := by
  obtain ⟨i, hi, ha⟩ := (mem_all_threads _ a).1 h
  exact (mem_all_threads k a).2 ⟨i, hi, (step_threads_sublist e k i).subset ha⟩

/-- Every event keeps the blocking-flag invariant. -/
theorem step_blocking_inv (e : event) (k : kernel) (h : blocking_inv k) :
    blocking_inv (step e k) := by
  obtain ⟨hboth, hcur⟩ := h
  have hother : ∀ a, (∀ func arg, e = event.call func arg → k._thrp ≠ some a) →
      ∀ j, j = 1 ∨ j = 2 ∨ j = 3 → (k.thr a).flags.testBit j = false →
        ((step e k).thr a).flags.testBit j = false :=
    fun a hc j hj hold => evolves_wait_bit _ _ (step_evolves e k a hc) j hj hold
  have hnot : ∀ a, (∀ func arg, e = event.call func arg → k._thrp ≠ some a) →
      a ∈ all_threads k →
      ¬ (((step e k).thr a).f_waiting = true ∧ ((step e k).thr a).f_semaphore = true) := by
    intro a hc ha hn
    apply hboth a ha
    constructor
    · cases hw : (k.thr a).flags.testBit 2
      · have := hother a hc 2 (by omega) hw
        rw [show ((step e k).thr a).flags.testBit 2 = true from hn.1] at this
        cases this
      · exact hw
    · cases hw : (k.thr a).flags.testBit 3
      · have := hother a hc 3 (by omega) hw
        rw [show ((step e k).thr a).flags.testBit 3 = true from hn.2] at this
        cases this
      · exact hw
  have hkeep : (step e k)._thrp = k._thrp →
      (∀ a, (∀ func arg, e = event.call func arg → k._thrp ≠ some a)) →
      ∀ c, (step e k)._thrp = some c →
        ((step e k).thr c).f_waiting = false ∧ ((step e k).thr c).f_semaphore = false ∧
          ((step e k).thr c).f_time_pending = false := by
    intro he hc c hcn
    obtain ⟨h2, h3, h1⟩ := hcur c (he.symm.trans hcn)
    exact ⟨hother c (hc c) 2 (by omega) h2, hother c (hc c) 3 (by omega) h3,
      hother c (hc c) 1 (by omega) h1⟩
  constructor
  · intro a ha
    have ha0 : a ∈ all_threads k := mem_all_threads_step e k a ha
    cases e with
    | call func arg =>
      by_cases hca : k._thrp = some a
      · intro hn
        obtain ⟨h2, h3, _⟩ := hcur a hca
        have h2b : (k.thr a).flags.testBit 2 = false := h2
        have h3b : (k.thr a).flags.testBit 3 = false := h3
        have hn2 : ((kernel_call func arg k).1.thr a).flags.testBit 2 = true := hn.1
        have hn3 : ((kernel_call func arg k).1.thr a).flags.testBit 3 = true := hn.2
        rcases (kernel_call_cur k a func arg hca).1 with ⟨_, hs⟩ | ⟨_, i, _, hs⟩
        · rw [hs 2 (by decide), h2b] at hn2
          cases hn2
        · by_cases hi : i = 2
          · rw [hs 3 (by omega), h3b] at hn3
            cases hn3
          · rw [hs 2 (fun e2 => hi e2.symm), h2b] at hn2
            cases hn2
      · exact hnot a (fun _ _ _ => hca) ha0
    | tick => exact hnot a (fun _ _ h => by cases h) ha0
    | sched => exact hnot a (fun _ _ h => by cases h) ha0
    | signal id => exact hnot a (fun _ _ h => by cases h) ha0
    | unlock m => exact hnot a (fun _ _ h => by cases h) ha0
    | force th => exact hnot a (fun _ _ h => by cases h) ha0
    | terminate th => exact hnot a (fun _ _ h => by cases h) ha0
    | suspend th => exact hnot a (fun _ _ h => by cases h) ha0
    | release th => exact hnot a (fun _ _ h => by cases h) ha0
  · intro c hc
    cases e with
    | sched =>
      obtain ⟨h1, h2, h3⟩ := scheduler_threads_selected k c hc
      exact ⟨h2, h3, h1⟩
    | call func arg =>
      cases hk : k._thrp with
      | none =>
        have hsame : step (event.call func arg) k = k := by
          show (kernel_call func arg k).1 = k
          rw [kernel_call_no_thread k func arg hk]
        rw [hsame] at hc
        rw [hk] at hc
        cases hc
      | some c0 =>
        rcases (kernel_call_cur k c0 func arg hk).1 with ⟨h0, hs⟩ | ⟨h0, _⟩
        · have hcc : c0 = c := Option.some.inj (h0.symm.trans hc)
          subst hcc
          obtain ⟨h2, h3, h1⟩ := hcur c0 hk
          exact ⟨(hs 2 (by decide)).trans h2, (hs 3 (by decide)).trans h3,
            (hs 1 (by decide)).trans h1⟩
        · have hc2 : (kernel_call func arg k).1._thrp = some c := hc
          rw [h0] at hc2
          cases hc2
    | tick =>
      exact hkeep (step_thrp _ k (fun h => by cases h) (fun _ _ h => by cases h))
        (fun _ _ _ h => by cases h) c hc
    | signal id =>
      exact hkeep (step_thrp _ k (fun h => by cases h) (fun _ _ h => by cases h))
        (fun _ _ _ h => by cases h) c hc
    | unlock m =>
      exact hkeep (step_thrp _ k (fun h => by cases h) (fun _ _ h => by cases h))
        (fun _ _ _ h => by cases h) c hc
    | force th =>
      exact hkeep (step_thrp _ k (fun h => by cases h) (fun _ _ h => by cases h))
        (fun _ _ _ h => by cases h) c hc
    | terminate th =>
      exact hkeep (step_thrp _ k (fun h => by cases h) (fun _ _ h => by cases h))
        (fun _ _ _ h => by cases h) c hc
    | suspend th =>
      exact hkeep (step_thrp _ k (fun h => by cases h) (fun _ _ h => by cases h))
        (fun _ _ _ h => by cases h) c hc
    | release th =>
      exact hkeep (step_thrp _ k (fun h => by cases h) (fun _ _ h => by cases h))
        (fun _ _ _ h => by cases h) c hc

/-! ## The table under insertion and removal -/

theorem table_wf_intro (k : kernel)
    (hnd : ∀ i, i < MAX_PRIO → (k._threads i).Nodup)
    (hdis : ∀ i j, i < MAX_PRIO → j < MAX_PRIO → i ≠ j → ∀ a, a ∈ k._threads i →
      a ∉ k._threads j) : table_wf k := by
  unfold table_wf all_threads levels_up
  rw [List.nodup_flatMap]
  refine ⟨fun i hi => hnd i (List.mem_range.1 hi), ?_⟩
  apply (List.nodup_range MAX_PRIO).pairwise_of_forall_ne
  intro i hi j hj hij a hai haj
  exact hdis i j (List.mem_range.1 hi) (List.mem_range.1 hj) hij a hai haj

theorem table_wf_erase (k k1 : kernel) (i x : Nat)
    (h : k1._threads = Function.update k._threads i ((k._threads i).erase x))
    (hwf : table_wf k) : table_wf k1 := by
  unfold table_wf all_threads at hwf ⊢
  refine List.Nodup.sublist (flatMap_sublist _ _ _ (fun j => ?_)) hwf
  rw [h]
  by_cases hj : j = i
  · subst hj
    rw [Function.update_same]
    exact List.erase_sublist _ _
  · rw [Function.update_noteq hj]

theorem mem_all_threads_erase (k k1 : kernel) (i x : Nat)
    (h : k1._threads = Function.update k._threads i ((k._threads i).erase x))
    (hwf : table_wf k) (hi : i < MAX_PRIO) (hx : x ∈ k._threads i) (a : Nat) :
    a ∈ all_threads k1 ↔ a ∈ all_threads k ∧ a ≠ x := by
  rw [mem_all_threads, mem_all_threads, h]
  constructor
  · rintro ⟨j, hj, ha⟩
    by_cases hji : j = i
    · subst hji
      rw [Function.update_same] at ha
      have hnd := table_wf_nodup k hwf j hj
      exact ⟨⟨j, hj, List.mem_of_mem_erase ha⟩, fun e => by
        rw [e] at ha
        exact (List.Nodup.not_mem_erase hnd) ha⟩
    · rw [Function.update_noteq hji] at ha
      refine ⟨⟨j, hj, ha⟩, fun e => ?_⟩
      rw [e] at ha
      exact table_wf_disjoint k hwf i j hi hj (fun e2 => hji e2.symm) x hx ha
  · rintro ⟨⟨j, hj, ha⟩, hne⟩
    refine ⟨j, hj, ?_⟩
    by_cases hji : j = i
    · subst hji
      rw [Function.update_same]
      exact (List.mem_erase_of_ne hne).2 ha
    · rw [Function.update_noteq hji]
      exact ha

theorem mem_all_threads_append (k k1 : kernel) (c x : Nat) (hc : c < MAX_PRIO)
    (h : k1._threads = Function.update k._threads c (k._threads c ++ [x])) (a : Nat) :
    a ∈ all_threads k1 ↔ a ∈ all_threads k ∨ a = x := by
  rw [mem_all_threads, mem_all_threads, h]
  constructor
  · rintro ⟨j, hj, ha⟩
    by_cases hjc : j = c
    · subst hjc
      rw [Function.update_same] at ha
      rcases List.mem_append.1 ha with h1 | h1
      · exact Or.inl ⟨j, hj, h1⟩
      · exact Or.inr (List.mem_singleton.1 h1)
    · rw [Function.update_noteq hjc] at ha
      exact Or.inl ⟨j, hj, ha⟩
  · rintro (⟨j, hj, ha⟩ | e)
    · refine ⟨j, hj, ?_⟩
      by_cases hjc : j = c
      · subst hjc
        rw [Function.update_same]
        exact List.mem_append_left _ ha
      · rw [Function.update_noteq hjc]
        exact ha
    · refine ⟨c, hc, ?_⟩
      rw [Function.update_same, e]
      exact List.mem_append_right _ (List.mem_singleton_self x)

theorem table_wf_append (k k1 : kernel) (c x : Nat)
    (h : k1._threads = Function.update k._threads c (k._threads c ++ [x]))
    (hwf : table_wf k) (hx : x ∉ all_threads k) : table_wf k1 := by
  have hxn : ∀ j, j < MAX_PRIO → x ∉ k._threads j :=
    fun j hj hm => hx ((mem_all_threads k x).2 ⟨j, hj, hm⟩)
  apply table_wf_intro
  · intro i hi
    rw [h]
    by_cases hic : i = c
    · subst hic
      rw [Function.update_same]
      refine List.Nodup.append (table_wf_nodup k hwf i hi) (List.nodup_singleton x) ?_
      intro a ha hb
      rw [List.mem_singleton.1 hb] at ha
      exact hxn i hi ha
    · rw [Function.update_noteq hic]
      exact table_wf_nodup k hwf i hi
  · intro i j hi hj hij a hai haj
    rw [h] at hai haj
    by_cases hic : i = c
    · subst hic
      rw [Function.update_same] at hai
      rw [Function.update_noteq (fun e => hij e.symm)] at haj
      rcases List.mem_append.1 hai with h1 | h1
      · exact table_wf_disjoint k hwf i j hi hj hij a h1 haj
      · rw [List.mem_singleton.1 h1] at haj
        exact hxn j hj haj
    · rw [Function.update_noteq hic] at hai
      by_cases hjc : j = c
      · subst hjc
        rw [Function.update_same] at haj
        rcases List.mem_append.1 haj with h1 | h1
        · exact table_wf_disjoint k hwf i j hi hj hij a hai h1
        · rw [List.mem_singleton.1 h1] at hai
          exact hxn i hi hai
      · rw [Function.update_noteq hjc] at haj
        exact table_wf_disjoint k hwf i j hi hj hij a hai haj

theorem callback_fire_fields (fn par time : Nat) (alloc : Option Nat) (k : kernel) :
    (callback_fire fn par time alloc k).thr = k.thr ∧
    (callback_fire fn par time alloc k)._threads = k._threads ∧
    (callback_fire fn par time alloc k)._thrp = k._thrp := by
  unfold callback_fire
  split_ifs
  · exact ⟨rfl, rfl, rfl⟩
  · split <;> exact ⟨rfl, rfl, rfl⟩

theorem callback_refire_fields (fn par time : Nat) (alloc : Option Nat) (k : kernel) :
    (callback_refire fn par time alloc k).thr = k.thr ∧
    (callback_refire fn par time alloc k)._threads = k._threads ∧
    (callback_refire fn par time alloc k)._thrp = k._thrp := by
  unfold callback_refire
  split_ifs
  · exact ⟨rfl, rfl, rfl⟩
  · split
    · exact ⟨rfl, rfl, rfl⟩
    · split <;> exact ⟨rfl, rfl, rfl⟩

theorem testBit_set_prio (t : thread_t) (v : Int) (j : Nat) (hj : j < 8) :
    (t.set_prio v).flags.testBit j = t.flags.testBit j := by
  show (bit_assign (bit_assign (bit_assign t.flags 8 _) 9 _) 10 _).testBit j = _
  rw [testBit_bit_assign, if_neg (by omega), testBit_bit_assign, if_neg (by omega),
    testBit_bit_assign, if_neg (by omega)]

theorem prio_set_prio (t : thread_t) (c : Nat) (hc : c < 8) :
    (t.set_prio (c : Int)).prio = c := by
  have hv : ((c : Int) % 8).toNat = c := by omega
  show (bit_assign (bit_assign (bit_assign t.flags 8 (((c : Int) % 8).toNat.testBit 0))
    9 (((c : Int) % 8).toNat.testBit 1)) 10 (((c : Int) % 8).toNat.testBit 2) >>> 8) % 2 ^ 3 = c
  rw [hv]
  apply Nat.eq_of_testBit_eq
  intro j
  rw [Nat.testBit_mod_two_pow, Nat.testBit_shiftRight]
  by_cases hj : j < 3
  · have hj3 : j = 0 ∨ j = 1 ∨ j = 2 := by omega
    rcases hj3 with e | e | e <;> subst e <;>
      simp [testBit_bit_assign]
  · have hf : c.testBit j = false :=
      Nat.testBit_lt_two_pow (lt_of_lt_of_le (show c < 2 ^ 3 from hc)
        (Nat.pow_le_pow_right (show 0 < 2 by decide) (show 3 ≤ j by omega)))
    simp [hj, hf]

theorem thread_create_cases (entry size : Nat) (ap asp : Option Nat) (k : kernel) :
    (thread_create entry size ap asp k).1 = k ∨
      ∃ p sp0, ap = some p ∧ asp = some sp0 ∧
        (thread_create entry size ap asp k).2 = some p ∧
        (thread_create entry size ap asp k).1.thr =
          Function.update k.thr p
            { k.thr p with sp0 := sp0, sp := initial_sp sp0 size, flags := 0 } ∧
        (thread_create entry size ap asp k).1._threads =
          Function.update k._threads 0 (k._threads 0 ++ [p]) ∧
        (thread_create entry size ap asp k).1._thrp = k._thrp := by
  cases ap with
  | none => exact Or.inl rfl
  | some p =>
    cases asp with
    | none => exact Or.inl rfl
    | some sp0 => exact Or.inr ⟨p, sp0, rfl, rfl, rfl, rfl, rfl, rfl⟩

/-- The blocking-flag invariant passes from `k` to `k1` when no flag bit is set
in `k1` that was clear in `k`, the current thread is the same, and every member
of the table of `k1` is a member in `k`, or the current thread, or a record with
all flags clear. -/
theorem blocking_inv_of (k k1 : kernel) (hinv : blocking_inv k)
    (hthr : ∀ a j, j < 8 → (k1.thr a).flags.testBit j = true →
      (k.thr a).flags.testBit j = true)
    (hmem : ∀ a, a ∈ all_threads k1 →
      a ∈ all_threads k ∨ k._thrp = some a ∨ (k1.thr a).flags = 0)
    (hcur : k1._thrp = k._thrp) : blocking_inv k1 := by
  obtain ⟨hboth, hc⟩ := hinv
  have hfalse : ∀ a j, j < 8 → (k.thr a).flags.testBit j = false →
      (k1.thr a).flags.testBit j = false := by
    intro a j hj hold
    cases hn : (k1.thr a).flags.testBit j
    · rfl
    · rw [hthr a j hj hn] at hold
      cases hold
  constructor
  · intro a ha hn
    have hn2 : (k1.thr a).flags.testBit 2 = true := hn.1
    have hn3 : (k1.thr a).flags.testBit 3 = true := hn.2
    rcases hmem a ha with h | h | h
    · exact hboth a h ⟨hthr a 2 (by decide) hn2, hthr a 3 (by decide) hn3⟩
    · have h2 : (k.thr a).flags.testBit 2 = false := (hc a h).1
      rw [hthr a 2 (by decide) hn2] at h2
      cases h2
    · rw [h, Nat.zero_testBit] at hn2
      cases hn2
  · intro c hcc
    obtain ⟨h2, h3, h1⟩ := hc c (hcur.symm.trans hcc)
    exact ⟨hfalse c 2 (by decide) h2, hfalse c 3 (by decide) h3, hfalse c 1 (by decide) h1⟩

/-- Every public operation keeps the blocking-flag invariant. -/
theorem api_step_blocking_inv (cs : Bool) (o : api) (k k1 : kernel)
    (h : api_step cs o k = some k1) (hinv : blocking_inv k) : blocking_inv k1 := by
  cases o with
  | ev e =>
    rw [← Option.some.inj h]
    exact step_blocking_inv e k hinv
  | create entry size ap asp =>
    rw [← Option.some.inj h]
    rcases thread_create_cases entry size ap asp k with e | ⟨p, sp0, _, _, _, hthr, htab, hcur⟩
    · rw [e]
      exact hinv
    · refine blocking_inv_of k _ hinv (fun a j _ hn => ?_) (fun a ha => ?_) hcur
      · rw [hthr] at hn
        by_cases hap : a = p
        · subst hap
          rw [Function.update_same] at hn
          rw [show ({ k.thr a with sp0 := sp0, sp := initial_sp sp0 size, flags := 0 }
            : thread_t).flags = 0 from rfl, Nat.zero_testBit] at hn
          cases hn
        · rw [Function.update_noteq hap] at hn
          exact hn
      · rcases (mem_all_threads_append k _ 0 p (by decide) htab a).1 ha with h1 | h1
        · exact Or.inl h1
        · right
          right
          rw [hthr, h1, Function.update_same]
  | kill th =>
    rw [← Option.some.inj h]
    refine blocking_inv_of k _ hinv (fun a j _ hn => hn) (fun a ha => Or.inl ?_) rfl
    obtain ⟨i, hi, hm⟩ := (mem_all_threads _ a).1 ha
    refine (mem_all_threads k a).2 ⟨i, hi, ?_⟩
    have hm2 : a ∈ Function.update k._threads (k.thr th).prio
        ((k._threads (k.thr th).prio).erase th) i := hm
    by_cases hip : i = (k.thr th).prio
    · rw [hip, Function.update_same] at hm2
      rw [hip]
      exact List.mem_of_mem_erase hm2
    · rw [Function.update_noteq hip] at hm2
      exact hm2
  | priority arg =>
    rcases thread_priority_some cs arg k k1 h with e | ⟨a, c, hcur, hc, _, _, e⟩
    · rw [e]
      exact hinv
    · rw [e]
      refine blocking_inv_of k _ hinv (fun x j hj hn => ?_) (fun x hx => ?_) rfl
      · have hn2 : (Function.update k.thr a ((k.thr a).set_prio (c : Int)) x).flags.testBit j
            = true := hn
        by_cases hxa : x = a
        · subst hxa
          rw [Function.update_same, testBit_set_prio _ _ _ hj] at hn2
          exact hn2
        · rw [Function.update_noteq hxa] at hn2
          exact hn2
      · rcases (mem_all_threads_append
          { k with _threads := (Function.update k._threads (k.thr a).prio
              ((k._threads (k.thr a).prio).erase a)) } _ c a hc rfl x).1 hx with h1 | h1
        · left
          obtain ⟨i, hi, hm⟩ := (mem_all_threads _ x).1 h1
          refine (mem_all_threads k x).2 ⟨i, hi, ?_⟩
          have hm2 : x ∈ Function.update k._threads (k.thr a).prio
              ((k._threads (k.thr a).prio).erase a) i := hm
          by_cases hip : i = (k.thr a).prio
          · rw [hip, Function.update_same] at hm2
            rw [hip]
            exact List.mem_of_mem_erase hm2
          · rw [Function.update_noteq hip] at hm2
            exact hm2
        · right
          left
          rw [h1]
          exact hcur
  | fire fn par time alloc =>
    rw [← Option.some.inj h]
    obtain ⟨h1, h2, h3⟩ := callback_fire_fields fn par time alloc k
    refine blocking_inv_of k _ hinv (fun a j _ hn => ?_) (fun a ha => Or.inl ?_) h3
    · rw [h1] at hn
      exact hn
    · unfold all_threads at ha ⊢
      rw [h2] at ha
      exact ha
  | refire fn par time alloc =>
    rw [← Option.some.inj h]
    obtain ⟨h1, h2, h3⟩ := callback_refire_fields fn par time alloc k
    refine blocking_inv_of k _ hinv (fun a j _ hn => ?_) (fun a ha => Or.inl ?_) h3
    · rw [h1] at hn
      exact hn
    · unfold all_threads at ha ⊢
      rw [h2] at ha
      exact ha

theorem api_run_blocking_inv (cs : Bool) (ops : List api) (k : kernel) (live : List Nat)
    (k1 : kernel) (live1 : List Nat) (h : api_run cs ops k live = some (k1, live1))
    (hinv : blocking_inv k) : blocking_inv k1 := by
  induction ops generalizing k live with
  | nil =>
    have e : k = k1 := congrArg Prod.fst (Option.some.inj h)
    rw [← e]
    exact hinv
  | cons o ops ih =>
    unfold api_run at h
    split_ifs at h
    cases hs : api_step cs o k with
    | none =>
      rw [hs] at h
      cases h
    | some k2 =>
      rw [hs] at h
      exact ih k2 _ h (api_step_blocking_inv cs o k k2 hs hinv)

theorem blocking_inv_kernel_init (k : kernel) : blocking_inv (kernel_init k) :=
  ⟨(fun a ha => by
    have h := (mem_all_threads _ a).1 ha
    obtain ⟨i, _, hm⟩ := h
    cases hm), (fun c hc => by cases hc)⟩

/-! ## The membership invariant -/

/-- No event changes the priority field of a record. -/
theorem step_prio (e : event) (k : kernel) (a : Nat) :
    ((step e k).thr a).prio = (k.thr a).prio := by
  by_cases hc : ∀ func arg, e = event.call func arg → k._thrp ≠ some a
  · exact prio_eq_of_testBit _ _ (step_evolves e k a hc).2
  · have hc2 : ∃ func arg, e = event.call func arg ∧ k._thrp = some a := by
      by_contra hn
      apply hc
      intro func arg he hk
      exact hn ⟨func, arg, he, hk⟩
    obtain ⟨func, arg, rfl, hk⟩ := hc2
    apply prio_eq_of_testBit
    intro j h8 h11
    rcases (kernel_call_cur k a func arg hk).1 with ⟨_, hs⟩ | ⟨_, i, hi, hs⟩
    · exact hs j (by omega)
    · exact hs j (by omega)

/-- Only a kernel call changes the table. -/
theorem step_threads_eq (e : event) (k : kernel)
    (hcall : ∀ func arg, e ≠ event.call func arg) : (step e k)._threads = k._threads := by
  cases e with
  | tick => rfl
  | sched => exact scheduler_threads_threads k
  | call func arg => exact absurd rfl (hcall func arg)
  | signal id => rfl
  | unlock m => exact thread_unlock_threads m k
  | force th => rfl
  | terminate th => rfl
  | suspend th => rfl
  | release th => rfl

theorem scheduler_threads_member (k : kernel) (hwf : table_wf k) (a : Nat)
    (h : (scheduler_threads k)._thrp = some a) : a ∈ all_threads k := by
  rw [scheduler_threads_thrp k hwf] at h
  obtain ⟨p, hp, ha, _⟩ := spec_select_some k MAX_PRIO a h
  exact (mem_all_threads k a).2 ⟨p, hp, ha⟩

theorem all_threads_congr (k k1 : kernel) (h : k1._threads = k._threads) :
    all_threads k1 = all_threads k := by
  unfold all_threads
  rw [h]

/-- The invariants pass from `k` to `k1` when the table and the current thread
are the same and no priority field has changed. -/
theorem table_inv_same (k k1 : kernel) (live : List Nat) (htab : k1._threads = k._threads)
    (hprio : ∀ a, (k1.thr a).prio = (k.thr a).prio)
    (hcur : ∀ c, k1._thrp = some c → c ∈ all_threads k)
    (hinv : table_inv k) (hlive : live_inv k live) : table_inv k1 ∧ live_inv k1 live := by
  have hall := all_threads_congr k k1 htab
  refine ⟨⟨table_wf_of_threads_eq k k1 htab hinv.1, fun i hi a ha => ?_⟩, hlive.1,
    fun a => ?_, fun c hc => ?_⟩
  · rw [htab] at ha
    rw [hprio a]
    exact hinv.2 i hi a ha
  · rw [hall]
    exact hlive.2.1 a
  · rw [hall]
    exact hcur c hc

/-- The invariants after `x`, a member of the table, has been unlinked from the
level of its priority, the records being the same up to fields other than the
priority, and the new current thread being a member other than `x`. -/
theorem table_inv_erase (k k1 : kernel) (live : List Nat) (x : Nat)
    (htab : k1._threads =
      Function.update k._threads (k.thr x).prio ((k._threads (k.thr x).prio).erase x))
    (hprio : ∀ a, (k1.thr a).prio = (k.thr a).prio)
    (hx : x ∈ all_threads k)
    (hcur : ∀ c, k1._thrp = some c → c ∈ all_threads k ∧ c ≠ x)
    (hinv : table_inv k) (hlive : live_inv k live) :
    table_inv k1 ∧ live_inv k1 (live.erase x) := by
  obtain ⟨i, hi, hxi⟩ := (mem_all_threads k x).1 hx
  have hpx : (k.thr x).prio = i := hinv.2 i hi x hxi
  rw [hpx] at htab
  have hmem := mem_all_threads_erase k k1 i x htab hinv.1 hi hxi
  refine ⟨⟨table_wf_erase k k1 i x htab hinv.1, fun j hj a ha => ?_⟩,
    hlive.1.erase x, fun a => ?_, fun c hc => ?_⟩
  · rw [hprio a]
    apply hinv.2 j hj a
    rw [htab] at ha
    by_cases hji : j = i
    · rw [hji, Function.update_same] at ha
      rw [hji]
      exact List.mem_of_mem_erase ha
    · rw [Function.update_noteq hji] at ha
      exact ha
  · rw [hlive.1.mem_erase_iff, hmem a, hlive.2.1 a]
    exact and_comm
  · exact (hmem c).2 (hcur c hc)

/-- The invariants after `x`, which is not in the table, has been appended to
level `c` with its priority field set to `c`. -/
theorem table_inv_append (k k1 : kernel) (live : List Nat) (c x : Nat) (hc : c < MAX_PRIO)
    (htab : k1._threads = Function.update k._threads c (k._threads c ++ [x]))
    (hprio : ∀ a, a ≠ x → (k1.thr a).prio = (k.thr a).prio)
    (hpx : (k1.thr x).prio = c) (hx : x ∉ all_threads k)
    (hcur : ∀ d, k1._thrp = some d → d ∈ all_threads k ∨ d = x)
    (hinv : table_inv k) (hlive : live_inv k live) :
    table_inv k1 ∧ live_inv k1 (live ++ [x]) := by
  have hmem := mem_all_threads_append k k1 c x hc htab
  have hxl : x ∉ live := fun h => hx ((hlive.2.1 x).1 h)
  refine ⟨⟨table_wf_append k k1 c x htab hinv.1 hx, fun j hj a ha => ?_⟩, ?_,
    fun a => ?_, fun d hd => (hmem d).2 (hcur d hd)⟩
  · rw [htab] at ha
    by_cases hjc : j = c
    · rw [hjc, Function.update_same] at ha
      rcases List.mem_append.1 ha with h1 | h1
      · have hne : a ≠ x := fun e => hx (e ▸ (mem_all_threads k a).2 ⟨c, hc, h1⟩)
        rw [hprio a hne, hjc]
        exact hinv.2 c hc a h1
      · rw [List.mem_singleton.1 h1, hjc]
        exact hpx
    · rw [Function.update_noteq hjc] at ha
      have hne : a ≠ x := fun e => hx (e ▸ (mem_all_threads k a).2 ⟨j, hj, ha⟩)
      rw [hprio a hne]
      exact hinv.2 j hj a ha
  · refine List.Nodup.append hlive.1 (List.nodup_singleton x) ?_
    intro a ha hb
    rw [List.mem_singleton.1 hb] at ha
    exact hxl ha
  · rw [List.mem_append, List.mem_singleton, hmem a, hlive.2.1 a]

/-- Every event keeps the membership invariant, the live threads changing as
`api_live` says. -/
theorem step_table_inv (e : event) (k : kernel) (live : List Nat)
    (hinv : table_inv k) (hlive : live_inv k live) :
    table_inv (step e k) ∧ live_inv (step e k) (api_live (api.ev e) k live) := by
  have hsame : ∀ e2 : event, (∀ func arg, e2 ≠ event.call func arg) →
      (∀ c, (step e2 k)._thrp = some c → c ∈ all_threads k) →
      table_inv (step e2 k) ∧ live_inv (step e2 k) live :=
    fun e2 hc hcur => table_inv_same k _ live (step_threads_eq e2 k hc) (step_prio e2 k) hcur
      hinv hlive
  have hold : ∀ e2 : event, e2 ≠ event.sched → (∀ func arg, e2 ≠ event.call func arg) →
      table_inv (step e2 k) ∧ live_inv (step e2 k) live :=
    fun e2 hs hc => hsame e2 hc (fun c hcc =>
      hlive.2.2 c ((step_thrp e2 k hs hc).symm.trans hcc))
  cases e with
  | tick => exact hold _ (fun h => by cases h) (fun _ _ h => by cases h)
  | sched =>
    exact hsame _ (fun _ _ h => by cases h)
      (fun c hc => scheduler_threads_member k hinv.1 c hc)
  | signal id => exact hold _ (fun h => by cases h) (fun _ _ h => by cases h)
  | unlock m => exact hold _ (fun h => by cases h) (fun _ _ h => by cases h)
  | force th => exact hold _ (fun h => by cases h) (fun _ _ h => by cases h)
  | terminate th => exact hold _ (fun h => by cases h) (fun _ _ h => by cases h)
  | suspend th => exact hold _ (fun h => by cases h) (fun _ _ h => by cases h)
  | release th => exact hold _ (fun h => by cases h) (fun _ _ h => by cases h)
  | call func arg =>
    cases hk : k._thrp with
    | none =>
      have hst : step (event.call func arg) k = k := by
        show (kernel_call func arg k).1 = k
        rw [kernel_call_no_thread k func arg hk]
      have hl : api_live (api.ev (event.call func arg)) k live = live := by
        show (if func = SV_END then
          match k._thrp with
          | some c => live.erase c
          | none => live
          else live) = live
        rw [hk]
        split_ifs <;> rfl
      rw [hst, hl]
      exact ⟨hinv, hlive⟩
    | some c =>
      obtain ⟨hcur, hne, heq⟩ := kernel_call_cur k c func arg hk
      by_cases h9 : func = SV_END
      · have hl : api_live (api.ev (event.call func arg)) k live = live.erase c := by
          show (if func = SV_END then
            match k._thrp with
            | some c => live.erase c
            | none => live
            else live) = live.erase c
          rw [hk, if_pos h9]
        rw [hl]
        refine table_inv_erase k _ live c (heq h9).2 (step_prio _ k) (hlive.2.2 c hk)
          (fun d hd => ?_) hinv hlive
        have hd2 : (kernel_call func arg k).1._thrp = some d := hd
        rw [(heq h9).1] at hd2
        cases hd2
      · have hl : api_live (api.ev (event.call func arg)) k live = live := by
          show (if func = SV_END then
            match k._thrp with
            | some c => live.erase c
            | none => live
            else live) = live
          rw [if_neg h9]
        rw [hl]
        refine table_inv_same k _ live (hne h9) (step_prio _ k) (fun d hd => ?_) hinv hlive
        have hd2 : (kernel_call func arg k).1._thrp = some d := hd
        rcases hcur with ⟨h1, _⟩ | ⟨h1, _⟩
        · rw [h1] at hd2
          rw [← Option.some.inj hd2]
          exact hlive.2.2 c hk
        · rw [h1] at hd2
          cases hd2

/-- Every public operation, called as `api_pre` asks, keeps the membership
invariant, the live threads changing as `api_live` says. -/
theorem api_step_table_inv (cs : Bool) (o : api) (k k1 : kernel) (live : List Nat)
    (hpre : api_pre o k = true) (h : api_step cs o k = some k1)
    (hinv : table_inv k) (hlive : live_inv k live) :
    table_inv k1 ∧ live_inv k1 (api_live o k live) := by
  cases o with
  | ev e =>
    rw [← Option.some.inj h]
    exact step_table_inv e k live hinv hlive
  | create entry size ap asp =>
    rw [← Option.some.inj h]
    cases ap with
    | none => exact ⟨hinv, hlive⟩
    | some p =>
      cases asp with
      | none => exact ⟨hinv, hlive⟩
      | some sp0 =>
        have hp : p ∉ all_threads k := of_decide_eq_true hpre
        refine table_inv_append k _ live 0 p (by decide) rfl (fun a ha => ?_) ?_ hp
          (fun d hd => Or.inl (hlive.2.2 d hd)) hinv hlive
        · show (Function.update k.thr p _ a).prio = _
          rw [Function.update_noteq ha]
        · show (Function.update k.thr p _ p).prio = _
          rw [Function.update_same]
          show ((0 : Nat) >>> 8) % 8 = 0
          decide
  | kill th =>
    rw [← Option.some.inj h]
    have hp : decide (th ∈ all_threads k) = true ∧ decide (k._thrp ≠ some th) = true :=
      Bool.and_eq_true_iff.1 hpre
    have hth : th ∈ all_threads k := of_decide_eq_true hp.1
    have hnc : k._thrp ≠ some th := of_decide_eq_true hp.2
    refine table_inv_erase k _ live th rfl (fun a => rfl) hth (fun c hc => ?_) hinv hlive
    exact ⟨hlive.2.2 c hc, fun e => hnc (e ▸ hc)⟩
  | priority arg =>
    rcases thread_priority_some cs arg k k1 h with e | ⟨a, c, hcur, hc, _, _, e⟩
    · rw [e]
      exact ⟨hinv, hlive⟩
    · have ha : a ∈ all_threads k := hlive.2.2 a hcur
      have hal : a ∈ live := (hlive.2.1 a).2 ha
      obtain ⟨hi1, hl1⟩ := table_inv_erase k
        { k with
          _threads := (Function.update k._threads (k.thr a).prio
            ((k._threads (k.thr a).prio).erase a))
          _thrp := none } live a rfl (fun _ => rfl) ha
        (fun d hd => by cases hd) hinv hlive
      have hna : a ∉ all_threads { k with
          _threads := (Function.update k._threads (k.thr a).prio
            ((k._threads (k.thr a).prio).erase a))
          _thrp := none } := fun hm =>
        (List.Nodup.not_mem_erase hlive.1) ((hl1.2.1 a).2 hm)
      obtain ⟨hi2, hl2⟩ := table_inv_append _ k1 (live.erase a) c a hc
        (by rw [e]) (fun x hx => by
          rw [e]
          show (Function.update k.thr a _ x).prio = _
          rw [Function.update_noteq hx])
        (by
          rw [e]
          show (Function.update k.thr a _ a).prio = _
          rw [Function.update_same]
          exact prio_set_prio _ c (lt_trans hc (by decide)))
        hna (fun d hd => by
          right
          rw [e] at hd
          exact (Option.some.inj (hcur.symm.trans hd)).symm) hi1 hl1
      refine ⟨hi2, hlive.1, fun x => ?_, hl2.2.2⟩
      rw [← hl2.2.1 x, List.mem_append, List.mem_singleton, hlive.1.mem_erase_iff]
      constructor
      · intro hx
        by_cases hxa : x = a
        · exact Or.inr hxa
        · exact Or.inl ⟨hxa, hx⟩
      · rintro (⟨_, hx⟩ | hx)
        · exact hx
        · rw [hx]
          exact hal
  | fire fn par time alloc =>
    rw [← Option.some.inj h]
    obtain ⟨h1, h2, h3⟩ := callback_fire_fields fn par time alloc k
    exact table_inv_same k _ live h2 (fun a => by rw [h1])
      (fun c hc => hlive.2.2 c (h3.symm.trans hc)) hinv hlive
  | refire fn par time alloc =>
    rw [← Option.some.inj h]
    obtain ⟨h1, h2, h3⟩ := callback_refire_fields fn par time alloc k
    exact table_inv_same k _ live h2 (fun a => by rw [h1])
      (fun c hc => hlive.2.2 c (h3.symm.trans hc)) hinv hlive

theorem api_run_table_inv (cs : Bool) (ops : List api) (k : kernel) (live : List Nat)
    (k1 : kernel) (live1 : List Nat) (h : api_run cs ops k live = some (k1, live1))
    (hinv : table_inv k) (hlive : live_inv k live) : table_inv k1 ∧ live_inv k1 live1 := by
  induction ops generalizing k live with
  | nil =>
    have e := Option.some.inj h
    have e1 : k = k1 := congrArg Prod.fst e
    have e2 : live = live1 := congrArg Prod.snd e
    rw [← e1, ← e2]
    exact ⟨hinv, hlive⟩
  | cons o ops ih =>
    unfold api_run at h
    by_cases hpre : api_pre o k = true
    · rw [if_pos hpre] at h
      cases hs : api_step cs o k with
      | none =>
        rw [hs] at h
        cases h
      | some k2 =>
        rw [hs] at h
        obtain ⟨h1, h2⟩ := api_step_table_inv cs o k k2 live hpre hs hinv hlive
        exact ih k2 _ h h1 h2
    · rw [if_neg hpre] at h
      cases h

theorem table_inv_kernel_init (k : kernel) :
    table_inv (kernel_init k) ∧ live_inv (kernel_init k) [] := by
  have hall : all_threads (kernel_init k) = [] := by
    unfold all_threads levels_up
    simp [kernel_init]
  refine ⟨⟨?_, fun i _ a ha => by cases ha⟩, List.nodup_nil, fun a => ?_,
    fun c hc => by cases hc⟩
  · unfold table_wf
    rw [hall]
    exact List.nodup_nil
  · rw [hall]

theorem live_inv_length (k : kernel) (live : List Nat) (hinv : table_inv k)
    (hlive : live_inv k live) : (all_threads k).length = live.length :=
  ((List.perm_ext_iff_of_nodup hinv.1 hlive.1).2 (fun a => (hlive.2.1 a).symm)).length_eq

theorem os_count_threads_eq (k : kernel) :
    os_count_threads k = (all_threads k).length % 2 ^ 16 := by
  unfold os_count_threads all_threads levels_up
  simp [ MAX_PRIO, List.range_succ, List.flatMap]
  omega

theorem thread_is_running_iff (th : Nat) (k : kernel) :
    thread_is_running th k = true ↔ th ∈ all_threads k := by
  unfold thread_is_running levels_up
  rw [mem_all_threads, List.any_eq_true]
  constructor
  · rintro ⟨i, hi, h⟩
    exact ⟨i, List.mem_range.1 hi, of_decide_eq_true h⟩
  · rintro ⟨i, hi, h⟩
    exact ⟨i, List.mem_range.2 hi, decide_eq_true h⟩

/-- The membership invariant of the thread table along the runs in which every
call of `thread_priority` stays inside `_threads`. In every state reached from
`kernel_init` by such a run of public operations and timer interrupts
(`thread_create` with a block that is not a live record, `thread_kill` on a
live thread that is not current, `kernel_call` with any service, `SV_END`
included, scheduler passes, the support operations and the callback
operations), `live` being the records created and neither killed nor ended:
every live record has a priority below
`MAX_PRIO`, occurs exactly once in the collection of that priority and in no
other collection, and every member of a collection is live. Consequently
`os_count_threads()` is the number of live threads (as a `uint16_t`), a
successful `thread_create` raises it by one, `thread_kill` and `thread_end`
lower it by one, and `thread_is_running(th)` is true exactly for the live
threads. -/
theorem table_membership_defined_run (cs : Bool) (k0 : kernel) (ops : List api) (k : kernel)
    (live : List Nat) (h : api_run cs ops (kernel_init k0) [] = some (k, live)) :
    live.Nodup ∧
    (∀ a, a ∈ live → (k.thr a).prio < MAX_PRIO ∧
      (k._threads (k.thr a).prio).count a = 1 ∧
      ∀ j, j < MAX_PRIO → j ≠ (k.thr a).prio → a ∉ k._threads j) ∧
    (∀ i a, i < MAX_PRIO → a ∈ k._threads i → a ∈ live) ∧
    os_count_threads k = live.length % 2 ^ 16 ∧
    (live.length < 2 ^ 16 → os_count_threads k = live.length) ∧
    (∀ th, thread_is_running th k = true ↔ th ∈ live) ∧
    (∀ entry size p sp0, p ∉ live →
      os_count_threads (thread_create entry size (some p) (some sp0) k).1 =
        (live.length + 1) % 2 ^ 16) ∧
    (∀ th, th ∈ live → k._thrp ≠ some th →
      os_count_threads (thread_kill th k) = (live.length - 1) % 2 ^ 16) ∧
    (∀ c arg, k._thrp = some c →
      c ∈ live ∧ os_count_threads (kernel_call SV_END arg k).1 = (live.length - 1) % 2 ^ 16) := by
  obtain ⟨hinv, hlive⟩ := api_run_table_inv cs ops _ [] k live h
    (table_inv_kernel_init k0).1 (table_inv_kernel_init k0).2
  have hlen := live_inv_length k live hinv hlive
  have hcount : os_count_threads k = live.length % 2 ^ 16 := by
    rw [os_count_threads_eq, hlen]
  refine ⟨hlive.1, fun a ha => ?_, fun i a hi ha => ?_, hcount, fun hlt => ?_, fun th => ?_,
    fun entry size p sp0 hp => ?_, fun th hth hnc => ?_, fun c arg hc => ?_⟩
  · obtain ⟨i, hi, hai⟩ := (mem_all_threads k a).1 ((hlive.2.1 a).1 ha)
    have hp : (k.thr a).prio = i := hinv.2 i hi a hai
    rw [hp]
    exact ⟨hi, List.count_eq_one_of_mem (table_wf_nodup k hinv.1 i hi) hai,
      fun j hj hji => table_wf_disjoint k hinv.1 i j hi hj (fun e => hji e.symm) a hai⟩
  · exact (hlive.2.1 a).2 ((mem_all_threads k a).2 ⟨i, hi, ha⟩)
  · rw [hcount, Nat.mod_eq_of_lt hlt]
  · rw [thread_is_running_iff, hlive.2.1 th]
  · have hpre : api_pre (api.create entry size (some p) (some sp0)) k = true :=
      decide_eq_true (fun hm => hp ((hlive.2.1 p).2 hm))
    obtain ⟨h1, h2⟩ := api_step_table_inv cs (api.create entry size (some p) (some sp0)) k _
      live hpre rfl hinv hlive
    have hl := live_inv_length _ _ h1 h2
    rw [os_count_threads_eq, hl]
    show (live ++ [p]).length % 2 ^ 16 = _
    rw [List.length_append, List.length_singleton]
  · have hpre : api_pre (api.kill th) k = true :=
      Bool.and_eq_true_iff.2 ⟨decide_eq_true ((hlive.2.1 th).1 hth), decide_eq_true hnc⟩
    obtain ⟨h1, h2⟩ := api_step_table_inv cs (api.kill th) k _ live hpre rfl hinv hlive
    have hl := live_inv_length _ _ h1 h2
    rw [os_count_threads_eq, hl]
    show (live.erase th).length % 2 ^ 16 = _
    rw [List.length_erase_of_mem hth]
  · have hcl : c ∈ live := (hlive.2.1 c).2 (hlive.2.2 c hc)
    refine ⟨hcl, ?_⟩
    obtain ⟨h1, h2⟩ := step_table_inv (event.call SV_END arg) k live hinv hlive
    have hl := live_inv_length _ _ h1 h2
    have hlv : api_live (api.ev (event.call SV_END arg)) k live = live.erase c := by
      show (if SV_END = SV_END then
        match k._thrp with
        | some c => live.erase c
        | none => live
        else live) = live.erase c
      rw [if_pos rfl, hc]
    rw [hlv] at hl
    show os_count_threads (step (event.call SV_END arg) k) = _
    rw [os_count_threads_eq, hl, List.length_erase_of_mem hcl]

/-- The run `ex_api_run` from `kernel_init`, with a signed `char`, is defined;
at its end one thread is live and it is counted. -/
theorem table_membership_defined_run_example :
    ∃ k, api_run true ex_api_run (kernel_init ex_single) [] = some (k, [3]) ∧
      os_count_threads k = 1 ∧ (∀ th, thread_is_running th k = true ↔ th ∈ [3]) :=
  ⟨_, rfl, (table_membership_defined_run true ex_single ex_api_run _ [3] rfl).2.2.2.1,
    (table_membership_defined_run true ex_single ex_api_run _ [3] rfl).2.2.2.2.2.1⟩

/-- C22. The blocking-flag invariant. In every state reached from `kernel_init`
by a run of public operations and timer interrupts, `live` being the live
threads: no live thread, and no member of the table, has both waiting and
semaphore set; and the current thread, if there is one, is live and has none of
waiting, semaphore and time_pending set. -/
theorem blocking_flag_invariant (cs : Bool) (k0 : kernel) (ops : List api) (k : kernel)
    (live : List Nat) (h : api_run cs ops (kernel_init k0) [] = some (k, live)) :
    (∀ a, a ∈ live →
      ¬ ((k.thr a).f_waiting = true ∧ (k.thr a).f_semaphore = true)) ∧
    (∀ a, a ∈ all_threads k →
      ¬ ((k.thr a).f_waiting = true ∧ (k.thr a).f_semaphore = true)) ∧
    (∀ c, k._thrp = some c →
      c ∈ live ∧ (k.thr c).f_waiting = false ∧ (k.thr c).f_semaphore = false ∧
        (k.thr c).f_time_pending = false) := by
  obtain ⟨_, hlive⟩ := api_run_table_inv cs ops _ [] k live h
    (table_inv_kernel_init k0).1 (table_inv_kernel_init k0).2
  obtain ⟨h1, h2⟩ := api_run_blocking_inv cs ops _ [] k live h (blocking_inv_kernel_init k0)
  exact ⟨fun a ha => h1 a ((hlive.2.1 a).1 ha), h1,
    fun c hc => ⟨(hlive.2.1 c).2 (hlive.2.2 c hc), h2 c hc⟩⟩

/-- Witness of C22: after `ex_blocking_run` thread 2 is current and thread 1
waits for a signal. -/
theorem blocking_flag_invariant_witness :
    ∃ k, api_run true ex_blocking_run (kernel_init ex_single) [] = some (k, [1, 2]) ∧
      k._thrp = some 2 ∧ (k.thr 1).f_waiting = true ∧
      ¬ ((k.thr 1).f_waiting = true ∧ (k.thr 1).f_semaphore = true) ∧
      (2 ∈ [1, 2] ∧ (k.thr 2).f_waiting = false ∧ (k.thr 2).f_semaphore = false ∧
        (k.thr 2).f_time_pending = false) :=
  ⟨_, rfl, rfl, by decide,
    (blocking_flag_invariant true ex_single ex_blocking_run _ [1, 2] rfl).1 1 (by decide),
    (blocking_flag_invariant true ex_single ex_blocking_run _ [1, 2] rfl).2.2 2 rfl⟩

/-! ## The linked list and the sequence of its nodes -/

/-- C26, as stated, fails: the list `ex_pushed` holds the sequence 24, 8, 16 and
the `prev` of its first node is its last node, 16, the nodes being distinct
objects; but the `prev` of node 8 is 16, not 24, and after `list_remove(&l, 8)`
node 8 is still reached from the head and node 16 is its own successor: the
nodes reached are not 24, 16. -/
theorem list_remove_stale_prev_counterexample :
    list_seq ex_pushed 100 [24, 8, 16] ∧
    cells_apart 100 [24, 8, 16] ∧
    list_from ex_pushed 6 (ex_pushed 100) = [24, 8, 16] ∧
    ex_pushed (8 + 4) = 16 ∧
    list_from (list_remove ex_pushed 100 8) 6 (list_remove ex_pushed 100 8 100) =
      [24, 8, 16, 16, 16, 16] ∧
    ¬ list_seq (list_remove ex_pushed 100 8) 100 [24, 16] := by
  unfold list_seq
  decide

theorem lseg_frame (m m2 : Nat → Nat) (l : List Nat) (p q : Nat)
    (hm : ∀ x, x ∈ l → m2 x = m x) (h : lseg m p q l) : lseg m2 p q l := by
  induction l generalizing p with
  | nil => exact h
  | cons x xs ih =>
    obtain ⟨h1, h2, h3⟩ := h
    refine ⟨h1, h2, ?_⟩
    rw [hm x (List.mem_cons_self _ _)]
    exact ih _ (fun y hy => hm y (List.mem_cons_of_mem _ hy)) h3

theorem prev_ok_frame (m m2 : Nat → Nat) (l : List Nat) (y : Nat)
    (hm : ∀ z, z ∈ l → m2 (z + 4) = m (z + 4)) (h : prev_ok m y l) : prev_ok m2 y l := by
  induction l generalizing y with
  | nil => trivial
  | cons z zs ih =>
    obtain ⟨h1, h2⟩ := h
    refine ⟨?_, ih _ (fun w hw => hm w (List.mem_cons_of_mem _ hw)) h2⟩
    rw [hm z (List.mem_cons_self _ _)]
    exact h1

theorem lseg_append (m : Nat → Nat) (l1 l2 : List Nat) (p q : Nat) :
    lseg m p q (l1 ++ l2) ↔ ∃ r, lseg m p r l1 ∧ lseg m r q l2 := by
  induction l1 generalizing p with
  | nil =>
    constructor
    · intro h
      exact ⟨p, rfl, h⟩
    · rintro ⟨r, h1, h2⟩
      have e : p = r := h1
      rw [e]
      exact h2
  | cons x xs ih =>
    constructor
    · rintro ⟨h1, h2, h3⟩
      obtain ⟨r, h4, h5⟩ := (ih (m x)).1 h3
      exact ⟨r, ⟨h1, h2, h4⟩, h5⟩
    · rintro ⟨r, ⟨h1, h2, h4⟩, h5⟩
      exact ⟨h1, h2, (ih (m x)).2 ⟨r, h4, h5⟩⟩

theorem prev_ok_append (m : Nat → Nat) (l1 l2 : List Nat) (y : Nat) :
    prev_ok m y (l1 ++ l2) ↔ prev_ok m y l1 ∧ prev_ok m (last_of y l1) l2 := by
  induction l1 generalizing y with
  | nil => exact ⟨fun h => ⟨trivial, h⟩, fun h => h.2⟩
  | cons z zs ih =>
    constructor
    · rintro ⟨h1, h2⟩
      obtain ⟨h3, h4⟩ := (ih z).1 h2
      exact ⟨⟨h1, h3⟩, h4⟩
    · rintro ⟨⟨h1, h3⟩, h4⟩
      exact ⟨h1, (ih z).2 ⟨h3, h4⟩⟩

theorem last_of_mem (x : Nat) (l : List Nat) : last_of x l ∈ x :: l := by
  induction l generalizing x with
  | nil => exact List.mem_cons_self _ _
  | cons y ys ih => exact List.mem_cons_of_mem _ (ih y)

theorem last_of_append_cons (x : Nat) (l1 : List Nat) (y : Nat) (l2 : List Nat) :
    last_of x (l1 ++ y :: l2) = last_of y l2 := by
  induction l1 generalizing x with
  | nil => rfl
  | cons z zs ih => exact ih z

theorem lseg_ne_zero (m : Nat → Nat) (l : List Nat) (p q : Nat) (h : lseg m p q l) (x : Nat)
    (hx : x ∈ l) : x ≠ 0 := by
  induction l generalizing p with
  | nil => cases hx
  | cons y ys ih =>
    obtain ⟨_, h2, h3⟩ := h
    rcases List.mem_cons.1 hx with e | e
    · rw [e]
      exact h2
    · exact ih _ h3 e

theorem lseg_unique (m : Nat → Nat) (l l2 : List Nat) (p : Nat) (h : lseg m p 0 l)
    (h2 : lseg m p 0 l2) : l = l2 := by
  induction l generalizing p l2 with
  | nil =>
    cases l2 with
    | nil => rfl
    | cons y ys =>
      have e : p = 0 := h
      exact absurd (h2.1.symm.trans e) h2.2.1
  | cons x xs ih =>
    cases l2 with
    | nil =>
      have e : p = 0 := h2
      exact absurd (h.1.symm.trans e) h.2.1
    | cons y ys =>
      have e : x = y := h.1.symm.trans h2.1
      subst e
      rw [ih ys _ h.2.2 h2.2.2]

/-- A sequence of nodes that ends in null holds no node twice. -/
theorem lseg_nodup (m : Nat → Nat) (l : List Nat) (p : Nat) (h : lseg m p 0 l) : l.Nodup := by
  induction l generalizing p with
  | nil => exact List.nodup_nil
  | cons x xs ih =>
    refine List.nodup_cons.2 ⟨fun hx => ?_, ih _ h.2.2⟩
    obtain ⟨a, b, e⟩ := List.append_of_mem hx
    have h3 := h.2.2
    rw [e] at h3
    obtain ⟨r, _, h5⟩ := (lseg_append m a (x :: b) _ 0).1 h3
    have h6 : lseg m (m x) 0 b := h5.2.2
    have h7 := lseg_unique m _ _ _ h.2.2 h6
    have h8 := congrArg List.length h7
    rw [e, List.length_append, List.length_cons] at h8
    omega

/-- Storing `v` in the `next` of the last node makes the segment end at `v`. -/
theorem lseg_set_last (m : Nat → Nat) (t : List Nat) (p q y v : Nat)
    (h : lseg m p q (y :: t)) (hnd : (y :: t).Nodup) :
    lseg (Function.update m (last_of y t) v) p v (y :: t) := by
  induction t generalizing p y with
  | nil =>
    refine ⟨h.1, h.2.1, ?_⟩
    show Function.update m y v y = v
    rw [Function.update_same]
  | cons z zs ih =>
    obtain ⟨h1, h2, h3⟩ := h
    have hnd2 := (List.nodup_cons.1 hnd).2
    have hy : y ≠ last_of z zs := fun e =>
      (List.nodup_cons.1 hnd).1 (e ▸ last_of_mem z zs)
    refine ⟨h1, h2, ?_⟩
    show lseg (Function.update m (last_of z zs) v)
      (Function.update m (last_of z zs) v y) v (z :: zs)
    rw [Function.update_noteq hy]
    exact ih _ z h3 hnd2

theorem list_length_loop_eq (m : Nat → Nat) (l : List Nat) (p i fuel : Nat)
    (h : lseg m p 0 l) (hf : l.length < fuel) :
    list_length_loop m fuel p i = some (i + l.length) := by
  induction l generalizing p i fuel with
  | nil =>
    cases fuel with
    | zero => omega
    | succ f =>
      have e : p = 0 := h
      show (if p = 0 then some i else _) = _
      rw [if_pos e]
      rfl
  | cons x xs ih =>
    cases fuel with
    | zero => omega
    | succ f =>
      obtain ⟨h1, h2, h3⟩ := h
      show (if p = 0 then some i else list_length_loop m f (m p) (i + 1)) = _
      rw [if_neg (h1 ▸ h2), h1, ih (m x) (i + 1) f h3 (by simpa using hf), List.length_cons]
      congr 1
      omega

theorem list_contains_eq (m : Nat → Nat) (item : Nat) (l : List Nat) (p fuel : Nat)
    (h : lseg m p 0 l) (hf : l.length < fuel) :
    list_contains m item fuel p = some (decide (item ∈ l)) := by
  induction l generalizing p fuel with
  | nil =>
    cases fuel with
    | zero => omega
    | succ f =>
      have e : p = 0 := h
      show (if p = 0 then some false else _) = _
      rw [if_pos e]
      simp
  | cons x xs ih =>
    cases fuel with
    | zero => omega
    | succ f =>
      obtain ⟨h1, h2, h3⟩ := h
      show (if p = 0 then some false
        else if item = p then some true else list_contains m item f (m p)) = _
      rw [if_neg (h1 ▸ h2), h1]
      by_cases hi : item = x
      · rw [if_pos hi]
        simp [hi]
      · rw [if_neg hi, ih (m x) f h3 (by simpa using hf)]
        simp [hi]

theorem list_add_nil_eq (m : Nat → Nat) (g x : Nat) (hg : m g = 0) (hxg : x ≠ g) :
    list_add m g x =
      Function.update (Function.update (Function.update m g x) x 0) (x + 4) 0 := by
  unfold list_add
  rw [if_pos hg]
  dsimp only
  have e1 : Function.update m g x g = x := Function.update_same _ _ _
  rw [e1]
  have e2 : Function.update (Function.update m g x) x 0 g = x := by
    rw [Function.update_noteq (Ne.symm hxg), Function.update_same]
  rw [e2]

theorem list_add_cons_eq (m : Nat → Nat) (g x h : Nat) (hg : m g = h) (hh : h ≠ 0) :
    list_add m g x =
      Function.update (Function.update (Function.update (Function.update m (h + 4) x)
        (x + 4) (if m (h + 4) = 0 then h else m (h + 4))) x 0)
        (if m (h + 4) = 0 then h else m (h + 4)) x := by
  unfold list_add
  rw [hg, if_neg hh]

/-- The `prev` of the first node, read as `list_add` reads it, is the last
node. -/
theorem head_prev_last (m : Nat → Nat) (h : Nat) (t : List Nat) (p : Nat)
    (hseg : lseg m p 0 (h :: t)) (hhead : head_prev_ok m (h :: t)) :
    (if m (h + 4) = 0 then h else m (h + 4)) = last_of h t := by
  rcases hhead with ⟨h0, ht⟩ | h1
  · rw [if_pos h0, ht]
    rfl
  · have hne : last_of h t ≠ 0 := lseg_ne_zero m _ _ _ hseg _ (last_of_mem h t)
    rw [if_neg (h1 ▸ hne), h1]

/-- The call `list_add(&l, x)`, with `x` a new node, appends `x` to the
sequence and keeps the list doubly linked. -/
theorem list_add_rep (m : Nat → Nat) (g : Nat) (l : List Nat) (x : Nat)
    (hrep : list_rep m g l) (hap : cells_apart g (l ++ [x])) (hx : x ∉ l) (hx0 : x ≠ 0) :
    list_rep (list_add m g x) g (l ++ [x]) := by
  obtain ⟨⟨hseg, hhead⟩, hinner⟩ := hrep
  have hxm : x ∈ l ++ [x] := List.mem_append_right _ (List.mem_singleton_self x)
  have hxg : x ≠ g := (hap.1 x hxm).1
  have hx4g : x + 4 ≠ g := (hap.1 x hxm).2
  cases l with
  | nil =>
    have hg : m g = 0 := hseg
    rw [list_add_nil_eq m g x hg hxg]
    refine ⟨⟨⟨?_, hx0, ?_⟩, Or.inl ⟨Function.update_same _ _ _, rfl⟩⟩, trivial⟩
    · rw [Function.update_noteq (Ne.symm hx4g), Function.update_noteq (Ne.symm hxg),
        Function.update_same]
    · have e : ∀ M : Nat → Nat, M x = 0 → lseg M (M x) 0 [] := fun _ h0 => h0
      apply e
      rw [Function.update_noteq (by omega), Function.update_same]
  | cons h t =>
    obtain ⟨hg, hh, htl⟩ := hseg
    have hseg2 : lseg m h 0 (h :: t) := ⟨rfl, hh, htl⟩
    have hnd : (h :: t).Nodup := lseg_nodup m _ _ hseg2
    have hmem : ∀ z, z ∈ h :: t → z ∈ (h :: t) ++ [x] := fun z hz => List.mem_append_left _ hz
    have hzx : ∀ z, z ∈ h :: t → z ≠ x := fun z hz e => hx (e ▸ hz)
    have hL : last_of h t ∈ h :: t := last_of_mem h t
    rw [list_add_cons_eq m g x h hg hh, head_prev_last m h t h hseg2 hhead]
    have hseg3 : lseg (Function.update (Function.update (Function.update m (h + 4) x)
        (x + 4) (last_of h t)) x 0) h 0 (h :: t) := by
      refine lseg_frame m _ _ _ _ (fun z hz => ?_) hseg2
      rw [Function.update_noteq (hzx z hz),
        Function.update_noteq (Ne.symm (hap.2 x hxm z (hmem z hz))),
        Function.update_noteq (Ne.symm (hap.2 h (hmem h (List.mem_cons_self _ _)) z
          (hmem z hz)))]
    have hseg4 := lseg_set_last _ t h 0 h x hseg3 hnd
    refine ⟨⟨?_, ?_⟩, ?_⟩
    · rw [Function.update_noteq (Ne.symm (hap.1 _ (hmem _ hL)).1),
        Function.update_noteq (Ne.symm hxg), Function.update_noteq (Ne.symm hx4g),
        Function.update_noteq (Ne.symm (hap.1 h (hmem h (List.mem_cons_self _ _))).2), hg]
      refine (lseg_append _ (h :: t) [x] h 0).2 ⟨x, hseg4, rfl, hx0, ?_⟩
      have e : ∀ M : Nat → Nat, M x = 0 → lseg M (M x) 0 [] := fun _ h0 => h0
      apply e
      rw [Function.update_noteq (Ne.symm (hzx _ hL)), Function.update_same]
    · right
      show _ = last_of h (t ++ [x])
      rw [Function.update_noteq (hap.2 h (hmem h (List.mem_cons_self _ _)) _ (hmem _ hL)),
        Function.update_noteq (hap.2 h (hmem h (List.mem_cons_self _ _)) x hxm),
        Function.update_noteq (by
          have := hzx h (List.mem_cons_self _ _)
          omega),
        Function.update_same, last_of_append_cons]
      rfl
    · show prev_ok _ h (t ++ [x])
      refine (prev_ok_append _ t [x] h).2 ⟨?_, ?_, trivial⟩
      · refine prev_ok_frame m _ t h (fun z hz => ?_) hinner
        have hzt : z ∈ h :: t := List.mem_cons_of_mem _ hz
        have hzh : z ≠ h := fun e => (List.nodup_cons.1 hnd).1 (e ▸ hz)
        rw [Function.update_noteq (hap.2 z (hmem z hzt) _ (hmem _ hL)),
          Function.update_noteq (hap.2 z (hmem z hzt) x hxm),
          Function.update_noteq (by
            have := hzx z hzt
            omega),
          Function.update_noteq (by omega)]
      · rw [Function.update_noteq (hap.2 x hxm _ (hmem _ hL)),
          Function.update_noteq (by omega), Function.update_same]

theorem list_remove_head_eq (m : Nat → Nat) (g x : Nat) (hx0 : x ≠ 0) (hg : m g = x) :
    list_remove m g x =
      if m x ≠ 0 then Function.update (Function.update m g (m x)) (m x + 4) (m (x + 4))
      else Function.update m g (m x) := by
  unfold list_remove
  rw [if_neg hx0, hg, if_neg hx0, if_pos rfl]

theorem list_remove_inner_eq (m : Nat → Nat) (g x h : Nat) (hx0 : x ≠ 0) (hg : m g = h)
    (hh : h ≠ 0) (hxh : h ≠ x) (hq : m (x + 4) ≠ 0) :
    list_remove m g x =
      Function.update
        (if m x ≠ 0 then Function.update m (m x + 4) (m (x + 4))
          else Function.update m (h + 4) (m (x + 4)))
        (m (x + 4)) (m x) := by
  unfold list_remove
  rw [if_neg hx0, hg, if_neg hh, if_neg hxh]
  dsimp only
  rw [if_pos hq]

theorem erase_middle (l1 : List Nat) (x : Nat) (l2 : List Nat) (hx : x ∉ l1) :
    (l1 ++ x :: l2).erase x = l1 ++ l2 := by
  induction l1 with
  | nil => exact List.erase_cons_head x l2
  | cons a l ih =>
    have hax : a ≠ x := fun e => hx (e ▸ List.mem_cons_self _ _)
    have hxl : x ∉ l := fun h => hx (List.mem_cons_of_mem _ h)
    rw [List.cons_append, List.erase_cons_tail (by simpa using hax), ih hxl, List.cons_append]

/-- Removing the first node. -/
theorem list_remove_rep_head (m : Nat → Nat) (g x : Nat) (t : List Nat)
    (hrep : list_rep m g (x :: t)) (hap : cells_apart g (x :: t)) :
    list_rep (list_remove m g x) g t := by
  obtain ⟨⟨⟨hg, hx0, htl⟩, hhead⟩, hinner⟩ := hrep
  have hnd : (x :: t).Nodup := lseg_nodup m _ _ (⟨hg, hx0, htl⟩ : lseg m (m g) 0 (x :: t))
  rw [list_remove_head_eq m g x hx0 hg]
  cases t with
  | nil =>
    have h0 : m x = 0 := htl
    rw [h0, if_neg (by simp)]
    refine ⟨⟨?_, trivial⟩, trivial⟩
    show Function.update m g 0 g = 0
    rw [Function.update_same]
  | cons y l3 =>
    obtain ⟨hy, hy0, hl3⟩ := htl
    have hyW : y ∈ x :: y :: l3 := by simp
    have hW : ∀ z, z ∈ y :: l3 → z ∈ x :: y :: l3 := fun z hz => List.mem_cons_of_mem _ hz
    rw [hy, if_pos hy0]
    refine ⟨⟨?_, ?_⟩, ?_⟩
    · rw [Function.update_noteq (Ne.symm (hap.1 y hyW).2), Function.update_same]
      refine lseg_frame m _ _ _ _ (fun z hz => ?_) (⟨rfl, hy0, hl3⟩ : lseg m y 0 (y :: l3))
      rw [Function.update_noteq (Ne.symm (hap.2 y hyW z (hW z hz))),
        Function.update_noteq (hap.1 z (hW z hz)).1]
    · right
      show Function.update (Function.update m g y) (y + 4) (m (x + 4)) (y + 4) = last_of y l3
      rw [Function.update_same]
      rcases hhead with ⟨_, he⟩ | h1
      · cases he
      · exact h1
    · have hin : prev_ok m y l3 := hinner.2
      have hnd2 : (y :: l3).Nodup := (List.nodup_cons.1 hnd).2
      refine prev_ok_frame m _ l3 y (fun z hz => ?_) hin
      have hzy : z ≠ y := fun e => (List.nodup_cons.1 hnd2).1 (e ▸ hz)
      rw [Function.update_noteq (by omega),
        Function.update_noteq (hap.1 z (hW z (List.mem_cons_of_mem _ hz))).2]

/-- Removing a node other than the first. -/
theorem list_remove_rep_inner (m : Nat → Nat) (g h x : Nat) (l1 l2 : List Nat)
    (hrep : list_rep m g (h :: (l1 ++ x :: l2))) (hap : cells_apart g (h :: (l1 ++ x :: l2))) :
    list_rep (list_remove m g x) g (h :: (l1 ++ l2)) := by
  obtain ⟨⟨hseg, hhead⟩, hinner⟩ := hrep
  have hnd : ((h :: l1) ++ x :: l2).Nodup := lseg_nodup m _ _ hseg
  have hg : m g = h := hseg.1
  have hh : h ≠ 0 := hseg.2.1
  have hseg2 : lseg m h 0 ((h :: l1) ++ x :: l2) := ⟨rfl, hh, hseg.2.2⟩
  obtain ⟨r, hA, hB⟩ := (lseg_append m (h :: l1) (x :: l2) h 0).1 hseg2
  have hr : r = x := hB.1
  rw [hr] at hA
  have hx0 : x ≠ 0 := hB.2.1
  have hxl2 : lseg m (m x) 0 l2 := hB.2.2
  have hdis := List.disjoint_of_nodup_append hnd
  have hnd1 : (h :: l1).Nodup := hnd.sublist (List.sublist_append_left _ _)
  have hnd2 : (x :: l2).Nodup := hnd.sublist (List.sublist_append_right _ _)
  have hW1 : ∀ z, z ∈ h :: l1 → z ∈ h :: (l1 ++ x :: l2) :=
    fun z hz => List.mem_append_left (x :: l2) hz
  have hW2 : ∀ z, z ∈ x :: l2 → z ∈ h :: (l1 ++ x :: l2) :=
    fun z hz => List.mem_append_right (h :: l1) hz
  have hhW : h ∈ h :: (l1 ++ x :: l2) := List.mem_cons_self _ _
  have hQ1 : last_of h l1 ∈ h :: l1 := last_of_mem h l1
  have hQW := hW1 _ hQ1
  have hxh : h ≠ x := fun e => hdis (List.mem_cons_self h l1) (e ▸ List.mem_cons_self x l2)
  obtain ⟨hin1, hin2⟩ := (prev_ok_append m l1 (x :: l2) h).1 hinner
  have hq : m (x + 4) = last_of h l1 := hin2.1
  have hq0 : m (x + 4) ≠ 0 := by
    rw [hq]
    exact lseg_ne_zero m _ _ _ hA _ hQ1
  rw [list_remove_inner_eq m g x h hx0 hg hh hxh hq0, hq]
  have hgQ : g ≠ last_of h l1 := Ne.symm (hap.1 _ hQW).1
  cases l2 with
  | nil =>
    have hp : m x = 0 := hxl2
    rw [hp, if_neg (by simp), List.append_nil]
    have hA2 : lseg (Function.update m (h + 4) (last_of h l1)) h x (h :: l1) := by
      refine lseg_frame m _ _ _ _ (fun z hz => ?_) hA
      rw [Function.update_noteq (Ne.symm (hap.2 h hhW z (hW1 z hz)))]
    refine ⟨⟨?_, ?_⟩, ?_⟩
    · rw [Function.update_noteq hgQ, Function.update_noteq (Ne.symm (hap.1 h hhW).2), hg]
      exact lseg_set_last _ l1 h x h 0 hA2 hnd1
    · right
      show _ = last_of h l1
      rw [Function.update_noteq (hap.2 h hhW _ hQW), Function.update_same]
    · refine prev_ok_frame m _ l1 h (fun z hz => ?_) hin1
      have hz1 : z ∈ h :: l1 := List.mem_cons_of_mem _ hz
      have hzh : z ≠ h := fun e => (List.nodup_cons.1 hnd1).1 (e ▸ hz)
      rw [Function.update_noteq (hap.2 z (hW1 z hz1) _ hQW),
        Function.update_noteq (by omega)]
  | cons y l3 =>
    obtain ⟨hy, hy0, hl3⟩ := hxl2
    have hy2 : y ∈ x :: y :: l3 := by simp
    have hyW := hW2 y hy2
    have hW3 : ∀ z, z ∈ y :: l3 → z ∈ h :: (l1 ++ x :: y :: l3) :=
      fun z hz => hW2 z (List.mem_cons_of_mem _ hz)
    rw [hy, if_pos hy0]
    have hA2 : lseg (Function.update m (y + 4) (last_of h l1)) h x (h :: l1) := by
      refine lseg_frame m _ _ _ _ (fun z hz => ?_) hA
      rw [Function.update_noteq (Ne.symm (hap.2 y hyW z (hW1 z hz)))]
    refine ⟨⟨?_, ?_⟩, ?_⟩
    · rw [Function.update_noteq hgQ, Function.update_noteq (Ne.symm (hap.1 y hyW).2), hg]
      refine (lseg_append _ (h :: l1) (y :: l3) h 0).2
        ⟨y, lseg_set_last _ l1 h x h y hA2 hnd1, ?_⟩
      refine lseg_frame m _ _ _ _ (fun z hz => ?_) (⟨rfl, hy0, hl3⟩ : lseg m y 0 (y :: l3))
      have hzQ : z ≠ last_of h l1 :=
        fun e => hdis hQ1 (e ▸ List.mem_cons_of_mem x hz)
      rw [Function.update_noteq hzQ,
        Function.update_noteq (Ne.symm (hap.2 y hyW z (hW3 z hz)))]
    · right
      have hhy : h ≠ y := fun e => hdis (List.mem_cons_self h l1) (e ▸ hy2)
      show _ = last_of h (l1 ++ y :: l3)
      rw [Function.update_noteq (hap.2 h hhW _ hQW), Function.update_noteq (by omega),
        last_of_append_cons]
      rcases hhead with ⟨_, he⟩ | h1
      · exact absurd he (by simp)
      · rw [h1, last_of_append_cons]
        rfl
    · refine (prev_ok_append _ l1 (y :: l3) h).2 ⟨?_, ?_, ?_⟩
      · refine prev_ok_frame m _ l1 h (fun z hz => ?_) hin1
        have hz1 : z ∈ h :: l1 := List.mem_cons_of_mem _ hz
        have hzy : z ≠ y := fun e => hdis hz1 (e ▸ hy2)
        rw [Function.update_noteq (hap.2 z (hW1 z hz1) _ hQW),
          Function.update_noteq (by omega)]
      · rw [Function.update_noteq (hap.2 y hyW _ hQW), Function.update_same]
      · have hin3 : prev_ok m y l3 := hin2.2.2
        refine prev_ok_frame m _ l3 y (fun z hz => ?_) hin3
        have hz3 : z ∈ y :: l3 := List.mem_cons_of_mem _ hz
        have hzy : z ≠ y :=
          fun e => (List.nodup_cons.1 (List.nodup_cons.1 hnd2).2).1 (e ▸ hz)
        rw [Function.update_noteq (hap.2 z (hW3 z hz3) _ hQW),
          Function.update_noteq (by omega)]

/-- The call `list_remove(&l, x)`, with `x` a node of the list, erases `x` from
the sequence and keeps the list doubly linked. -/
theorem list_remove_rep (m : Nat → Nat) (g : Nat) (l : List Nat) (x : Nat)
    (hrep : list_rep m g l) (hap : cells_apart g l) (hx : x ∈ l) :
    list_rep (list_remove m g x) g (l.erase x) := by
  have hnd : l.Nodup := lseg_nodup m _ _ hrep.1.1
  cases l with
  | nil => cases hx
  | cons h t =>
    by_cases hxh : x = h
    · subst hxh
      rw [List.erase_cons_head]
      exact list_remove_rep_head m g x t hrep hap
    · have hxt : x ∈ t := (List.mem_cons.1 hx).resolve_left hxh
      obtain ⟨l1, l2, e⟩ := List.append_of_mem hxt
      subst e
      have hx1 : x ∉ l1 := by
        intro h1
        have hd := List.disjoint_of_nodup_append (List.nodup_cons.1 hnd).2
        exact hd h1 (List.mem_cons_self x l2)
      rw [List.erase_cons_tail (by simpa using fun e => hxh e.symm), erase_middle l1 x l2 hx1]
      exact list_remove_rep_inner m g h x l1 l2 hrep hap

theorem lseg_head (m : Nat → Nat) (l : List Nat) (p : Nat) (h : lseg m p 0 l) :
    p = l.headD 0 := by
  cases l with
  | nil => exact h
  | cons x xs => exact h.1

/-- C26, amended. The linked list refines a sequence. The abstraction of a list
is the sequence of nodes reached from the head by following `next`; the `prev`
of the first node is null (only for a list of one node) or the last node,
and the `prev` of every other node is the node before it (`list_rep`); nodes
and head cell are distinct objects (`cells_apart`). For every such list:
`list_add(&l, x)` with `x` not in the list yields the sequence with `x`
appended at the end; `list_remove(&l, x)` with `x` in the list yields the
sequence with `x` erased and the other nodes in the same order, the head cell
pointing to the new first node; both keep the requirements on the `prev`
fields; `list_length` returns, with enough fuel, the length of the sequence (as
a `uint16_t`) and `list_contains` returns true exactly for the members. -/
theorem list_refines_sequence (m : Nat → Nat) (g : Nat) (l : List Nat)
    (hrep : list_rep m g l) (hap : cells_apart g l) :
    (∀ x, x ∉ l → x ≠ 0 → cells_apart g (l ++ [x]) →
      list_rep (list_add m g x) g (l ++ [x])) ∧
    (∀ x, x ∈ l →
      list_rep (list_remove m g x) g (l.erase x) ∧
        list_remove m g x g = (l.erase x).headD 0) ∧
    (∀ fuel, l.length < fuel → list_length m fuel (m g) = some (l.length % 2 ^ 16)) ∧
    (∀ item fuel, l.length < fuel →
      list_contains m item fuel (m g) = some (decide (item ∈ l))) := by
  refine ⟨fun x hx hx0 hapx => list_add_rep m g l x hrep hapx hx hx0, fun x hx => ?_,
    fun fuel hf => ?_, fun item fuel hf => list_contains_eq m item l _ fuel hrep.1.1 hf⟩
  · have h := list_remove_rep m g l x hrep hap hx
    exact ⟨h, lseg_head _ _ _ h.1.1⟩
  · unfold list_length
    rw [list_length_loop_eq m l _ 0 fuel hrep.1.1 hf, Nat.zero_add]
    rfl

/-- Witness of C26 (amended): the list 8, 16 built by two calls of `list_add`. -/
theorem list_refines_sequence_witness :
    list_rep ex_two 100 [8, 16] ∧
    list_rep (list_add ex_two 100 24) 100 ([8, 16] ++ [24]) ∧
    list_rep (list_remove ex_two 100 8) 100 ([8, 16].erase 8) ∧
    list_length ex_two 3 (ex_two 100) = some (2 % 2 ^ 16) ∧
    list_contains ex_two 16 3 (ex_two 100) = some (decide (16 ∈ [8, 16])) :=
  ⟨by decide,
    (list_refines_sequence ex_two 100 [8, 16] (by decide) (by decide)).1 24 (by decide)
      (by decide) (by decide),
    ((list_refines_sequence ex_two 100 [8, 16] (by decide) (by decide)).2.1 8
      (by decide)).1,
    (list_refines_sequence ex_two 100 [8, 16] (by decide) (by decide)).2.2.1 3 (by decide),
    (list_refines_sequence ex_two 100 [8, 16] (by decide) (by decide)).2.2.2 16 3
      (by decide)⟩

/-! ## The membership invariant and `thread_priority` -/

/-- C21, evaluated: from `kernel_init` a thread is created and dispatched; it is
live, current, the only member of the table, and `os_count_threads()` is 1. It
calls `thread_priority(200)` where plain `char` is signed: the argument is -56,
the run has no defined state after the call, since `list_add` is handed
`&_threads[-56]`; at that call the thread, still live and current, has priority
field 0 and has been unlinked from level 0: it is in no collection,
`os_count_threads()` is 0 and `thread_is_running` is false for it. -/
theorem thread_priority_leaves_table :
    ∃ k, api_run true ex_dispatched (kernel_init ex_single) [] = some (k, [1]) ∧
      k._thrp = some 1 ∧ all_threads k = [1] ∧ os_count_threads k = 1 ∧
      thread_is_running 1 k = true ∧
      api_run true (ex_dispatched ++ [api.priority 200]) (kernel_init ex_single) [] = none ∧
      thread_priority true 200 k = none ∧
      char_value true 200 = -56 ∧
      ∃ k2, thread_priority_before_add true 200 k = some k2 ∧
        k2._thrp = some 1 ∧ (k2.thr 1).prio = 0 ∧ all_threads k2 = [] ∧
        os_count_threads k2 = 0 ∧ thread_is_running 1 k2 = false :=
  ⟨_, rfl, rfl, by decide, by decide, by decide, rfl, rfl, by decide,
    _, rfl, rfl, by decide, by decide, by decide, by decide⟩

/-! # The yield invariant and the tick on reachable states -/

theorem evolves_low_bit (w w2 : Nat) (h : evolves w w2) (j : Nat)
    (hj : j < 4) (hold : w.testBit j = false) : w2.testBit j = false := by
  cases hn : w2.testBit j
  · rfl
  · rcases h.1 j hn with h1 | h1
    · rw [hold] at h1
      cases h1
    · omega

/-- The thread that a pass dispatches has its nice bit clear. -/
theorem scheduler_threads_selected_nice (k : kernel) (a : Nat)
    (h : (scheduler_threads k)._thrp = some a) :
    ((scheduler_threads k).thr a).f_nice = false := by
  have hr : sched_ready ((scheduler_threads k).thr a) = true :=
    scheduler_levels_ready MAX_PRIO { k with ie := false } a h
  unfold sched_ready at hr
  have h2 := (Bool.and_eq_true_iff.1 hr).1
  cases hn : ((scheduler_threads k).thr a).f_nice
  · rfl
  · rw [hn] at h2
    cases h2

/-- Every event keeps the yield invariant, given the blocking-flag invariant. -/
theorem step_yield_inv (e : event) (k : kernel) (hb : blocking_inv k) (hy : yield_inv k) :
    yield_inv (step e k) := by
  obtain ⟨_, hbc⟩ := hb
  obtain ⟨hm, hc⟩ := hy
  have hlow : ∀ a, (∀ func arg, e = event.call func arg → k._thrp ≠ some a) →
      ∀ j, j < 4 → (k.thr a).flags.testBit j = false →
        ((step e k).thr a).flags.testBit j = false :=
    fun a hcall j hj hold => evolves_low_bit _ _ (step_evolves e k a hcall) j hj hold
  have hother : ∀ a, (∀ func arg, e = event.call func arg → k._thrp ≠ some a) →
      a ∈ all_threads k → ((step e k).thr a).f_nice = true →
      ((step e k).thr a).f_waiting = false ∧ ((step e k).thr a).f_semaphore = false := by
    intro a hcall ha hn
    have hold : (k.thr a).f_nice = true := by
      cases h0 : (k.thr a).flags.testBit 0
      · have := hlow a hcall 0 (by decide) h0
        rw [show ((step e k).thr a).flags.testBit 0 = true from hn] at this
        cases this
      · exact h0
    obtain ⟨h2, h3⟩ := hm a ha hold
    exact ⟨hlow a hcall 2 (by decide) h2, hlow a hcall 3 (by decide) h3⟩
  have hkeep : (step e k)._thrp = k._thrp →
      (∀ a, (∀ func arg, e = event.call func arg → k._thrp ≠ some a)) →
      ∀ c, (step e k)._thrp = some c → ((step e k).thr c).f_nice = false :=
    fun he hcall c hcn => hlow c (hcall c) 0 (by decide) (hc c (he.symm.trans hcn))
  constructor
  · intro a ha
    have ha0 : a ∈ all_threads k := mem_all_threads_step e k a ha
    cases e with
    | call func arg =>
      by_cases hca : k._thrp = some a
      · intro hn
        obtain ⟨h2, h3, _⟩ := hbc a hca
        have h0b : (k.thr a).flags.testBit 0 = false := hc a hca
        have h2b : (k.thr a).flags.testBit 2 = false := h2
        have h3b : (k.thr a).flags.testBit 3 = false := h3
        have hn0 : ((kernel_call func arg k).1.thr a).flags.testBit 0 = true := hn
        show ((kernel_call func arg k).1.thr a).flags.testBit 2 = false ∧
          ((kernel_call func arg k).1.thr a).flags.testBit 3 = false
        rcases (kernel_call_cur k a func arg hca).1 with ⟨_, hs⟩ | ⟨_, i, _, hs⟩
        · rw [hs 0 (by decide), h0b] at hn0
          cases hn0
        · by_cases hi : i = 0
          · rw [hs 2 (by omega), hs 3 (by omega)]
            exact ⟨h2b, h3b⟩
          · rw [hs 0 (fun e2 => hi e2.symm), h0b] at hn0
            cases hn0
      · exact hother a (fun _ _ _ => hca) ha0
    | tick => exact hother a (fun _ _ h => by cases h) ha0
    | sched => exact hother a (fun _ _ h => by cases h) ha0
    | signal id => exact hother a (fun _ _ h => by cases h) ha0
    | unlock m => exact hother a (fun _ _ h => by cases h) ha0
    | force th => exact hother a (fun _ _ h => by cases h) ha0
    | terminate th => exact hother a (fun _ _ h => by cases h) ha0
    | suspend th => exact hother a (fun _ _ h => by cases h) ha0
    | release th => exact hother a (fun _ _ h => by cases h) ha0
  · intro c hcc
    cases e with
    | sched => exact scheduler_threads_selected_nice k c hcc
    | call func arg =>
      cases hk : k._thrp with
      | none =>
        have hsame : step (event.call func arg) k = k := by
          show (kernel_call func arg k).1 = k
          rw [kernel_call_no_thread k func arg hk]
        rw [hsame] at hcc
        rw [hk] at hcc
        cases hcc
      | some c0 =>
        have hcc2 : (kernel_call func arg k).1._thrp = some c := hcc
        show ((kernel_call func arg k).1.thr c).flags.testBit 0 = false
        rcases (kernel_call_cur k c0 func arg hk).1 with ⟨hp, hs⟩ | ⟨hp, _⟩
        · rw [hp] at hcc2
          have e0 : c0 = c := Option.some.inj hcc2
          subst e0
          rw [hs 0 (by decide)]
          exact hc c0 hk
        · rw [hp] at hcc2
          cases hcc2
    | tick => exact hkeep rfl (fun _ _ _ h => by cases h) c hcc
    | signal id => exact hkeep rfl (fun _ _ _ h => by cases h) c hcc
    | unlock m =>
      exact hkeep (thread_unlock_thrp m k) (fun _ _ _ h => by cases h) c hcc
    | force th => exact hkeep rfl (fun _ _ _ h => by cases h) c hcc
    | terminate th => exact hkeep rfl (fun _ _ _ h => by cases h) c hcc
    | suspend th => exact hkeep rfl (fun _ _ _ h => by cases h) c hcc
    | release th => exact hkeep rfl (fun _ _ _ h => by cases h) c hcc

/-- The yield invariant passes from `k` to `k1` under the conditions of
`blocking_inv_of`. -/
theorem yield_inv_of (k k1 : kernel) (hb : blocking_inv k) (hy : yield_inv k)
    (hthr : ∀ a j, j < 8 → (k1.thr a).flags.testBit j = true →
      (k.thr a).flags.testBit j = true)
    (hmem : ∀ a, a ∈ all_threads k1 →
      a ∈ all_threads k ∨ k._thrp = some a ∨ (k1.thr a).flags = 0)
    (hcur : k1._thrp = k._thrp) : yield_inv k1 := by
  obtain ⟨_, hbc⟩ := hb
  obtain ⟨hm, hc⟩ := hy
  have hfalse : ∀ a j, j < 8 → (k.thr a).flags.testBit j = false →
      (k1.thr a).flags.testBit j = false := by
    intro a j hj hold
    cases hn : (k1.thr a).flags.testBit j
    · rfl
    · rw [hthr a j hj hn] at hold
      cases hold
  constructor
  · intro a ha hn
    have hn0 : (k1.thr a).flags.testBit 0 = true := hn
    rcases hmem a ha with h | h | h
    · obtain ⟨h2, h3⟩ := hm a h (hthr a 0 (by decide) hn0)
      exact ⟨hfalse a 2 (by decide) h2, hfalse a 3 (by decide) h3⟩
    · have h0 : (k.thr a).flags.testBit 0 = false := hc a h
      rw [hthr a 0 (by decide) hn0] at h0
      cases h0
    · rw [h, Nat.zero_testBit] at hn0
      cases hn0
  · intro c hcc
    exact hfalse c 0 (by decide) (hc c (hcur.symm.trans hcc))

/-- Every public operation keeps the blocking-flag and the yield invariant. -/
theorem api_step_yield_inv (cs : Bool) (o : api) (k k1 : kernel)
    (h : api_step cs o k = some k1) (hinv : blocking_inv k) (hy : yield_inv k) :
    yield_inv k1 := by
  cases o with
  | ev e =>
    rw [← Option.some.inj h]
    exact step_yield_inv e k hinv hy
  | create entry size ap asp =>
    rw [← Option.some.inj h]
    rcases thread_create_cases entry size ap asp k with e | ⟨p, sp0, _, _, _, hthr, htab, hcur⟩
    · rw [e]
      exact hy
    · refine yield_inv_of k _ hinv hy (fun a j _ hn => ?_) (fun a ha => ?_) hcur
      · rw [hthr] at hn
        by_cases hap : a = p
        · subst hap
          rw [Function.update_same] at hn
          rw [show ({ k.thr a with sp0 := sp0, sp := initial_sp sp0 size, flags := 0 }
            : thread_t).flags = 0 from rfl, Nat.zero_testBit] at hn
          cases hn
        · rw [Function.update_noteq hap] at hn
          exact hn
      · rcases (mem_all_threads_append k _ 0 p (by decide) htab a).1 ha with h1 | h1
        · exact Or.inl h1
        · right
          right
          rw [hthr, h1, Function.update_same]
  | kill th =>
    rw [← Option.some.inj h]
    refine yield_inv_of k _ hinv hy (fun a j _ hn => hn) (fun a ha => Or.inl ?_) rfl
    obtain ⟨i, hi, hm⟩ := (mem_all_threads _ a).1 ha
    refine (mem_all_threads k a).2 ⟨i, hi, ?_⟩
    have hm2 : a ∈ Function.update k._threads (k.thr th).prio
        ((k._threads (k.thr th).prio).erase th) i := hm
    by_cases hip : i = (k.thr th).prio
    · rw [hip, Function.update_same] at hm2
      rw [hip]
      exact List.mem_of_mem_erase hm2
    · rw [Function.update_noteq hip] at hm2
      exact hm2
  | priority arg =>
    rcases thread_priority_some cs arg k k1 h with e | ⟨a, c, hcur, hc, _, _, e⟩
    · rw [e]
      exact hy
    · rw [e]
      refine yield_inv_of k _ hinv hy (fun x j hj hn => ?_) (fun x hx => ?_) rfl
      · have hn2 : (Function.update k.thr a ((k.thr a).set_prio (c : Int)) x).flags.testBit j
            = true := hn
        by_cases hxa : x = a
        · subst hxa
          rw [Function.update_same, testBit_set_prio _ _ _ hj] at hn2
          exact hn2
        · rw [Function.update_noteq hxa] at hn2
          exact hn2
      · rcases (mem_all_threads_append
          { k with _threads := (Function.update k._threads (k.thr a).prio
              ((k._threads (k.thr a).prio).erase a)) } _ c a hc rfl x).1 hx with h1 | h1
        · left
          obtain ⟨i, hi, hm⟩ := (mem_all_threads _ x).1 h1
          refine (mem_all_threads k x).2 ⟨i, hi, ?_⟩
          have hm2 : x ∈ Function.update k._threads (k.thr a).prio
              ((k._threads (k.thr a).prio).erase a) i := hm
          by_cases hip : i = (k.thr a).prio
          · rw [hip, Function.update_same] at hm2
            rw [hip]
            exact List.mem_of_mem_erase hm2
          · rw [Function.update_noteq hip] at hm2
            exact hm2
        · right
          left
          rw [h1]
          exact hcur
  | fire fn par time alloc =>
    rw [← Option.some.inj h]
    obtain ⟨h1, h2, h3⟩ := callback_fire_fields fn par time alloc k
    refine yield_inv_of k _ hinv hy (fun a j _ hn => ?_) (fun a ha => Or.inl ?_) h3
    · rw [h1] at hn
      exact hn
    · unfold all_threads at ha ⊢
      rw [h2] at ha
      exact ha
  | refire fn par time alloc =>
    rw [← Option.some.inj h]
    obtain ⟨h1, h2, h3⟩ := callback_refire_fields fn par time alloc k
    refine yield_inv_of k _ hinv hy (fun a j _ hn => ?_) (fun a ha => Or.inl ?_) h3
    · rw [h1] at hn
      exact hn
    · unfold all_threads at ha ⊢
      rw [h2] at ha
      exact ha

theorem api_run_yield_inv (cs : Bool) (ops : List api) (k : kernel) (live : List Nat)
    (k1 : kernel) (live1 : List Nat) (h : api_run cs ops k live = some (k1, live1))
    (hinv : blocking_inv k) (hy : yield_inv k) : yield_inv k1 := by
  induction ops generalizing k live with
  | nil =>
    have e : k = k1 := congrArg Prod.fst (Option.some.inj h)
    rw [← e]
    exact hy
  | cons o ops ih =>
    unfold api_run at h
    split_ifs at h
    cases hs : api_step cs o k with
    | none =>
      rw [hs] at h
      cases h
    | some k2 =>
      rw [hs] at h
      exact ih k2 _ h (api_step_blocking_inv cs o k k2 hs hinv)
        (api_step_yield_inv cs o k k2 hs hinv hy)

theorem yield_inv_kernel_init (k : kernel) : yield_inv (kernel_init k) :=
  ⟨(fun a ha => by
    have h := (mem_all_threads _ a).1 ha
    obtain ⟨i, _, hm⟩ := h
    cases hm), (fun c hc => by cases hc)⟩

/-- C19. Tick expiry mask, in every state `k` reached from `kernel_init` by a run
of public operations and timer interrupts, for every live thread `a`. If the
timer of `a` is 1 before a tick, after the tick the timer is 0 and time_pending
is clear; if `a` had waiting or semaphore set, then its waiting, semaphore,
suspend and nice bits are all clear, its timeout bit is set, and no bit of the
flags word outside bits 0 to 4 and 6 changes; if it had neither waiting nor
semaphore set, no bit other than time_pending changes. If the timer is 0 the
record is left entirely unchanged, and if the timer is greater than 1 the
record only has its timer decremented by one. -/
theorem tick_expiry_reachable (cs : Bool) (k0 : kernel) (ops : List api) (k : kernel)
    (live : List Nat) (h : api_run cs ops (kernel_init k0) [] = some (k, live))
    (a : Nat) (ha : a ∈ live) :
    ((k.thr a).timer = 0 → (os_tick k).thr a = k.thr a) ∧
    (2 ≤ (k.thr a).timer →
      (os_tick k).thr a = { k.thr a with timer := (k.thr a).timer - 1 }) ∧
    ((k.thr a).timer = 1 →
      ((os_tick k).thr a).timer = 0 ∧
      ((os_tick k).thr a).f_time_pending = false ∧
      ((os_tick k).thr a).data = (k.thr a).data ∧
      (((k.thr a).f_waiting = true ∨ (k.thr a).f_semaphore = true) →
        ((os_tick k).thr a).f_waiting = false ∧
        ((os_tick k).thr a).f_semaphore = false ∧
        ((os_tick k).thr a).f_suspend = false ∧
        ((os_tick k).thr a).f_nice = false ∧
        ((os_tick k).thr a).f_timeout = true ∧
        ∀ j, 4 < j → j ≠ 6 → j < 16 →
          ((os_tick k).thr a).flags.testBit j = (k.thr a).flags.testBit j) ∧
      (¬ ((k.thr a).f_waiting = true ∨ (k.thr a).f_semaphore = true) →
        ∀ j, j ≠ 1 → ((os_tick k).thr a).flags.testBit j = (k.thr a).flags.testBit j)) := by
  obtain ⟨htab, hlive⟩ := api_run_table_inv cs ops _ [] k live h
    (table_inv_kernel_init k0).1 (table_inv_kernel_init k0).2
  have hmem : a ∈ all_threads k := (hlive.2.1 a).1 ha
  have hy := api_run_yield_inv cs ops _ [] k live h (blocking_inv_kernel_init k0)
    (yield_inv_kernel_init k0)
  obtain ⟨h0, h2, h1⟩ := os_tick_expiry_bits k a htab.1 hmem
  refine ⟨h0, h2, fun ht => ?_⟩
  obtain ⟨e1, e2, e3, e4, e5⟩ := h1 ht
  refine ⟨e1, e2, e3, fun hws => ?_, e5⟩
  have hb := e4 hws
  have hnice : (k.thr a).flags.testBit 0 = false := by
    cases hn : (k.thr a).flags.testBit 0
    · rfl
    · obtain ⟨w2, w3⟩ := hy.1 a hmem hn
      rcases hws with w | w
      · rw [w2] at w
        cases w
      · rw [w3] at w
        cases w
  refine ⟨?_, ?_, ?_, ?_, ?_, ?_⟩
  · have := hb 2 (by decide)
    simpa using this
  · have := hb 3 (by decide)
    simpa using this
  · have := hb 4 (by decide)
    simpa using this
  · have := hb 0 (by decide)
    rw [if_neg (by decide), if_neg (by decide), hnice] at this
    exact this
  · have := hb 6 (by decide)
    simpa using this
  · intro j h4 h6 h16
    rw [hb j h16, if_neg (by omega), if_neg h6]

/-- Witness of C19: thread 1 of `ex_deadline_run` waits with one tick left; the
tick clears its waiting bit, sets its timeout bit and zeroes its timer. -/
theorem tick_expiry_reachable_witness :
    ∃ k, api_run true ex_deadline_run (kernel_init ex_single) [] = some (k, [1]) ∧
      (k.thr 1).timer = 1 ∧ (k.thr 1).f_waiting = true ∧
      ((os_tick k).thr 1).timer = 0 ∧ ((os_tick k).thr 1).f_waiting = false ∧
      ((os_tick k).thr 1).f_nice = false ∧ ((os_tick k).thr 1).f_timeout = true :=
  ⟨_, rfl, by decide, by decide,
    ((tick_expiry_reachable true ex_single ex_deadline_run _ [1] rfl 1 (by decide)).2.2
      (by decide)).1,
    (((tick_expiry_reachable true ex_single ex_deadline_run _ [1] rfl 1 (by decide)).2.2
      (by decide)).2.2.2.1 (Or.inl (by decide))).1,
    (((tick_expiry_reachable true ex_single ex_deadline_run _ [1] rfl 1 (by decide)).2.2
      (by decide)).2.2.2.1 (Or.inl (by decide))).2.2.2.1,
    (((tick_expiry_reachable true ex_single ex_deadline_run _ [1] rfl 1 (by decide)).2.2
      (by decide)).2.2.2.1 (Or.inl (by decide))).2.2.2.2.1⟩

/-! # Timed wait with interrupts between the two calls -/

/-- A property of the record of the running thread `a`, indexed by the number of
ticks so far, that the tick body carries to the next index, holds along every
sequence of interrupting events; the thread stays current and the table is the
same. -/
theorem run_during_invariant (a : Nat) (Q : Nat → thread_t → Prop)
    (htick : ∀ j t, Q j t → Q (j + 1) (tick_thread t))
    (es : List event) (k : kernel) (j : Nat) (hwf : table_wf k) (hmem : a ∈ all_threads k)
    (hcur : k._thrp = some a) (hrun : during a k es) (h0 : Q j (k.thr a)) :
    Q (j + ticks_in es) ((run es k).thr a) ∧ (run es k)._thrp = some a ∧
      (run es k)._threads = k._threads := by
  induction es generalizing k j with
  | nil => exact ⟨h0, hcur, rfl⟩
  | cons e es ih =>
    obtain ⟨hq, hrest⟩ := hrun
    have hnc : ∀ func arg, e ≠ event.call func arg := by
      intro func arg he
      rw [he] at hq
      exact hq
    have hns : e ≠ event.sched := by
      intro he
      rw [he] at hq
      exact hq
    have hthreads : (step e k)._threads = k._threads := step_threads_eq e k hnc
    have hwf2 : table_wf (step e k) := table_wf_of_threads_eq k _ hthreads hwf
    have hmem2 : a ∈ all_threads (step e k) := by
      unfold all_threads
      rw [hthreads]
      exact hmem
    have hcur2 : (step e k)._thrp = some a := (step_thrp e k hns hnc).trans hcur
    show Q (j + ticks_in (e :: es)) ((run es (step e k)).thr a) ∧
      (run es (step e k))._thrp = some a ∧ (run es (step e k))._threads = k._threads
    by_cases he : e = event.tick
    · subst he
      have hrec : (step event.tick k).thr a = tick_thread (k.thr a) := by
        show (os_tick k).thr a = _
        rw [os_tick_thr k hwf, if_pos hmem]
      have h := ih (step event.tick k) (j + 1) hwf2 hmem2 hcur2 hrest (hrec ▸ htick j _ h0)
      rw [ticks_in_cons_tick, show j + (ticks_in es + 1) = (j + 1) + ticks_in es by omega]
      exact ⟨h.1, h.2.1, h.2.2.trans hthreads⟩
    · have hrec : (step e k).thr a = k.thr a := by
        cases e with
        | tick => exact absurd rfl he
        | sched => exact absurd rfl hns
        | call func arg => exact absurd rfl (hnc func arg)
        | signal id => exact hq
        | unlock m => exact hq
        | force th => exact hq
        | terminate th => exact hq
        | suspend th => exact hq
        | release th => exact hq
      have h := ih (step e k) j hwf2 hmem2 hcur2 hrest (hrec ▸ h0)
      rw [ticks_in_cons_other e es he]
      exact ⟨h.1, h.2.1, h.2.2.trans hthreads⟩

/-- The record of a running thread with a deadline armed `j` ticks ago, after
one more tick. -/
theorem armed_tick (n j : Nat) (t : thread_t)
    (h : t.timer = n - j ∧ t.f_waiting = false ∧ t.f_semaphore = false) :
    (tick_thread t).timer = n - (j + 1) ∧ (tick_thread t).f_waiting = false ∧
      (tick_thread t).f_semaphore = false := by
  obtain ⟨ht, hw, hs⟩ := h
  by_cases h0 : t.timer = 0
  · rw [tick_thread_zero t h0]
    exact ⟨by omega, hw, hs⟩
  · by_cases h1 : t.timer = 1
    · rw [tick_thread_last_plain t h1 ((and_mask_timeout_eq_zero _).2 ⟨hw, hs⟩)]
      refine ⟨by show 0 = _; omega, ?_, ?_⟩
      · show (bit_assign t.flags 1 false).testBit 2 = false
        rw [testBit_bit_assign]
        exact hw
      · show (bit_assign t.flags 1 false).testBit 3 = false
        rw [testBit_bit_assign]
        exact hs
    · rw [tick_thread_many t (by omega)]
      exact ⟨by show t.timer - 1 = _; omega, hw, hs⟩

/-- The call `thread_wait(id)` of the current thread `a`. -/
theorem kernel_call_wait_fields (k : kernel) (a id : Nat) (hcur : k._thrp = some a) :
    (kernel_call SV_WAIT id k).1.thr a =
        { (k.thr a).set_f_waiting true with data := id, sp := k.sp_reg } ∧
      (kernel_call SV_WAIT id k).1._threads = k._threads ∧
      (kernel_call SV_WAIT id k).1._thrp = none ∧
      (kernel_call SV_WAIT id k).2 = kc_exit.to_main := by
  rw [kernel_call_wait_eq k a id hcur]
  simp [return_to_main, switch_threads]

/-- A thread that waits with timer 0 has no deadline: along every quiet run it
keeps waiting, its timer stays 0 and its timeout bit stays as it was. -/
theorem wait_without_deadline (a : Nat) (b : Bool) (es : List event) (k : kernel)
    (hwf : table_wf k) (hmem : a ∈ all_threads k) (hrun : away a (quiet a) k es)
    (hw : (k.thr a).f_waiting = true) (ht : (k.thr a).timer = 0)
    (hto : (k.thr a).f_timeout = b) :
    ((run es k).thr a).f_waiting = true ∧ ((run es k).thr a).timer = 0 ∧
      ((run es k).thr a).f_timeout = b ∧ (scheduler_threads (run es k))._thrp ≠ some a := by
  have hQ := run_quiet_invariant a
    (fun _ t => t.f_waiting = true ∧ t.timer = 0 ∧ t.f_timeout = b)
    (fun _ t h => ⟨by
        show (bit_assign t.flags 0 false).testBit 2 = true
        rw [testBit_bit_assign]
        exact h.1, h.2.1, by
        rw [f_timeout_set_f_nice]
        exact h.2.2⟩)
    (fun _ t h => by
      rw [tick_thread_zero t h.2.1]
      exact h)
    es k 0 hwf hmem hrun ⟨hw, ht, hto⟩
  exact ⟨hQ.1, hQ.2.1, hQ.2.2, scheduler_not_selected _ a (runnable_of_f_waiting _ hQ.1)⟩

/-- C5, as stated, fails for n = 1: thread 1 of `ex_running` (created and
dispatched from `kernel_init`) calls SETTIMEOUT(1), which returns to it with
interrupts enabled; one timer interrupt is served before it calls WAIT(9). That tick takes the timer to 0 while the thread is not
yet waiting, so the wait has no deadline: one tick after SETTIMEOUT, and one
tick after WAIT, the waiting bit is still set and the timeout bit clear, and
along every later run of ticks, scheduler passes and other quiet events the
thread keeps waiting and no pass selects it. -/
theorem timed_wait_late_counterexample :
    ex_running._thrp = some 1 ∧
    (kernel_call SV_SETTIMEOUT 1 ex_running).2 = kc_exit.to_thread true ∧
    during 1 (kernel_call SV_SETTIMEOUT 1 ex_running).1 [event.tick] ∧
    ((timed_wait 1 9 [event.tick] ex_running).thr 1).f_waiting = true ∧
    ((timed_wait 1 9 [event.tick] ex_running).thr 1).timer = 0 ∧
    ((run [event.tick] (timed_wait 1 9 [event.tick] ex_running)).thr 1).f_waiting = true ∧
    ((run [event.tick] (timed_wait 1 9 [event.tick] ex_running)).thr 1).f_timeout = false ∧
    ∀ es, away 1 (quiet 1) (timed_wait 1 9 [event.tick] ex_running) es →
      ((run es (timed_wait 1 9 [event.tick] ex_running)).thr 1).f_waiting = true ∧
      ((run es (timed_wait 1 9 [event.tick] ex_running)).thr 1).f_timeout = false ∧
      (scheduler_threads (run es (timed_wait 1 9 [event.tick] ex_running)))._thrp ≠ some 1 := by
  refine ⟨rfl, by decide, by decide, by decide, by decide, by decide, by decide, ?_⟩
  intro es hes
  have h := wait_without_deadline 1 false es (timed_wait 1 9 [event.tick] ex_running)
    (by decide) (by decide) hes (by decide) (by decide) (by decide)
  exact ⟨h.1, h.2.2.1, h.2.2.2⟩

/-- C5, amended. Timed wait expiry, counting ticks from the SETTIMEOUT call. The
current thread `a`, a member of the table with waiting and semaphore clear (as
the current thread of every reachable state has them), calls SETTIMEOUT(n),
which returns true to it; the events `between` (timer interrupts and
support operations that do not touch the record of `a`) happen before it calls
WAIT(id), and fewer than `n` of them are ticks (so `n >= 1`). Then `a` is still current at
the WAIT call, which switches to the main thread, and along any run `es` of
ticks, scheduler passes, kernel calls of other threads and support operations
that do not touch the record of `a`: while fewer than `n` ticks have occurred
since SETTIMEOUT the waiting bit of `a` is set, its timer is `n` minus the
number of ticks, and a scheduler pass does not select `a`; once `n` ticks have
occurred (exactly `n`, or more while `a` has not run) its waiting bit is clear,
its timeout bit is set and its timer is 0, and when the scheduler dispatches it
kernel_call returns false. -/
theorem timed_wait_expires (k : kernel) (a n id : Nat) (between es : List event)
    (hwf : table_wf k) (hmem : a ∈ all_threads k) (hcur : k._thrp = some a)
    (hw : (k.thr a).f_waiting = false) (hs : (k.thr a).f_semaphore = false)
    (hbet : during a (kernel_call SV_SETTIMEOUT n k).1 between)
    (hlt : ticks_in between < n)
    (hrun : away a (quiet a) (timed_wait n id between k) es) :
    (kernel_call SV_SETTIMEOUT n k).2 = kc_exit.to_thread true ∧
    (run between (kernel_call SV_SETTIMEOUT n k).1)._thrp = some a ∧
    (kernel_call SV_WAIT id (run between (kernel_call SV_SETTIMEOUT n k).1)).2 =
      kc_exit.to_main ∧
    (ticks_in between + ticks_in es < n →
      ((run es (timed_wait n id between k)).thr a).f_waiting = true ∧
      ((run es (timed_wait n id between k)).thr a).timer =
        n - (ticks_in between + ticks_in es) ∧
      (scheduler_threads (run es (timed_wait n id between k)))._thrp ≠ some a) ∧
    (n ≤ ticks_in between + ticks_in es →
      ((run es (timed_wait n id between k)).thr a).f_waiting = false ∧
      ((run es (timed_wait n id between k)).thr a).f_timeout = true ∧
      ((run es (timed_wait n id between k)).thr a).timer = 0 ∧
      ((run es (timed_wait n id between k))._thrp = some a →
        kernel_call_resume (run es (timed_wait n id between k)) = false) ∧
      ((scheduler_threads (run es (timed_wait n id between k)))._thrp = some a →
        kernel_call_resume (scheduler_threads (run es (timed_wait n id between k))) =
          false)) := by
  have h1 := kernel_call_settimeout_eq k a n hcur
  have hc1 : (kernel_call SV_SETTIMEOUT n k).1._thrp = some a := by rw [h1]; exact hcur
  have ht1 : (kernel_call SV_SETTIMEOUT n k).1._threads = k._threads := by rw [h1]
  have hr1 : (kernel_call SV_SETTIMEOUT n k).1.thr a =
      ({ k.thr a with timer := n } : thread_t).set_f_timeout false := by
    rw [h1]
    exact Function.update_same _ _ _
  have hwf1 : table_wf (kernel_call SV_SETTIMEOUT n k).1 := table_wf_of_threads_eq k _ ht1 hwf
  have hmem1 : a ∈ all_threads (kernel_call SV_SETTIMEOUT n k).1 := by
    unfold all_threads
    rw [ht1]
    exact hmem
  have hB := run_during_invariant a
    (fun j t => t.timer = n - j ∧ t.f_waiting = false ∧ t.f_semaphore = false)
    (fun j t h => armed_tick n j t h)
    between (kernel_call SV_SETTIMEOUT n k).1 0 hwf1 hmem1 hc1 hbet (by
      rw [hr1]
      refine ⟨rfl, ?_, ?_⟩
      · show (bit_assign (k.thr a).flags 6 false).testBit 2 = false
        rw [testBit_bit_assign]
        exact hw
      · show (bit_assign (k.thr a).flags 6 false).testBit 3 = false
        rw [testBit_bit_assign]
        exact hs)
  rw [Nat.zero_add] at hB
  obtain ⟨⟨hbt, _, _⟩, hbc, hbth⟩ := hB
  obtain ⟨hrec, hthreads, _, hexit⟩ :=
    kernel_call_wait_fields (run between (kernel_call SV_SETTIMEOUT n k).1) a id hbc
  have hrec2 : (timed_wait n id between k).thr a = _ := hrec
  have hthreads2 : (timed_wait n id between k)._threads = k._threads :=
    (hthreads.trans hbth).trans ht1
  have hwf2 : table_wf (timed_wait n id between k) := table_wf_of_threads_eq k _ hthreads2 hwf
  have hmem2 : a ∈ all_threads (timed_wait n id between k) := by
    unfold all_threads
    rw [hthreads2]
    exact hmem
  have h0 : (0 < n - ticks_in between →
        ((timed_wait n id between k).thr a).timer = n - ticks_in between - 0 ∧
        ((timed_wait n id between k).thr a).f_waiting = true) ∧
      (n - ticks_in between ≤ 0 → ((timed_wait n id between k).thr a).timer = 0 ∧
        ((timed_wait n id between k).thr a).f_waiting = false ∧
        ((timed_wait n id between k).thr a).f_timeout = true) := by
    refine ⟨fun _ => ?_, fun h => by omega⟩
    rw [hrec2]
    exact ⟨hbt, f_waiting_set_f_waiting _ true⟩
  have hQ := run_quiet_invariant a
    (fun j t => (j < n - ticks_in between → t.timer = n - ticks_in between - j ∧
        t.f_waiting = true) ∧
      (n - ticks_in between ≤ j → t.timer = 0 ∧ t.f_waiting = false ∧ t.f_timeout = true))
    (fun j t h => ⟨fun hj => ⟨(h.1 hj).1, by
        show (bit_assign t.flags 0 false).testBit 2 = true
        rw [testBit_bit_assign]
        exact (h.1 hj).2⟩,
      fun hj => ⟨(h.2 hj).1, by
        show (bit_assign t.flags 0 false).testBit 2 = false
        rw [testBit_bit_assign]
        exact (h.2 hj).2.1, by
        rw [f_timeout_set_f_nice]
        exact (h.2 hj).2.2⟩⟩)
    (fun j t h => timed_wait_tick (n - ticks_in between) j t h)
    es (timed_wait n id between k) 0 hwf2 hmem2 hrun h0
  rw [Nat.zero_add] at hQ
  refine ⟨by rw [h1], hbc, hexit, ?_, ?_⟩
  · intro hj
    obtain ⟨ht, hw2⟩ := hQ.1 (by omega)
    exact ⟨hw2, by rw [ht]; omega, scheduler_not_selected _ a (runnable_of_f_waiting _ hw2)⟩
  · intro hj
    obtain ⟨ht, hw2, hto⟩ := hQ.2 (by omega)
    refine ⟨hw2, hto, ht, fun hc => resume_of_f_timeout _ a hc hto, fun hc => ?_⟩
    exact resume_of_f_timeout _ a hc (by rw [scheduler_threads_f_timeout]; exact hto)

/-- Witness of C5, amended: thread 1 of `ex_running` arms a deadline of 2 ticks,
one timer interrupt is served before it waits for signal 9; a pass right after
the call does not select it, and after one more tick the pass dispatches it and
kernel_call returns false. -/
theorem timed_wait_expires_witness :
    (scheduler_threads (run [] (timed_wait 2 9 [event.tick] ex_running)))._thrp ≠ some 1 ∧
    (run [event.sched, event.tick, event.sched] (timed_wait 2 9 [event.tick] ex_running))._thrp =
      some 1 ∧
    kernel_call_resume
      (run [event.sched, event.tick, event.sched] (timed_wait 2 9 [event.tick] ex_running)) =
        false :=
  ⟨((timed_wait_expires ex_running 1 2 9 [event.tick] [] (by decide) (by decide) rfl
      (by decide) (by decide) (by decide) (by decide)
      (by decide)).2.2.2.1 (by decide)).2.2,
    by decide,
    ((timed_wait_expires ex_running 1 2 9 [event.tick]
      [event.sched, event.tick, event.sched] (by decide) (by decide) rfl
      (by decide) (by decide) (by decide) (by decide)
      (by decide)).2.2.2.2 (by decide)).2.2.2.1 (by decide)⟩

/-! # Deferred callbacks with interrupts served during the callbacks -/

theorem scheduler_callbacks_step (code : Nat → Nat → kernel → kernel) (fuel : Nat)
    (k : kernel) (log : List invocation) (cb : Nat)
    (hf : k._callbacks.find? (fun cb => (k.cbk cb).timer == 0) = some cb) :
    scheduler_callbacks code (fuel + 1) k log =
      scheduler_callbacks code fuel (after_call code k (invocation_of k cb))
        (log ++ [invocation_of k cb]) := by
  simp only [scheduler_callbacks, hf]
  rfl

theorem after_calls_cons (code : Nat → Nat → kernel → kernel) (i : invocation)
    (fired : List invocation) (s : kernel) :
    after_calls code (i :: fired) s = after_calls code fired (after_call code s i) := rfl

theorem after_call_callbacks (code : Nat → Nat → kernel → kernel)
    (irq : Nat → Nat → kernel → Nat) (henv : callback_env code irq) (s : kernel)
    (i : invocation) : (after_call code s i)._callbacks = s._callbacks.erase i.cb := by
  show (code i.function i.param { s with ie := true })._callbacks.erase i.cb = _
  rw [(henv i.function i.param { s with ie := true }).1]

/-- Timer interrupts leave the collection as it is and count down the timer of a
record that occurs once in it. -/
theorem os_tick_iterate_callbacks (m : Nat) (s : kernel) :
    (os_tick^[m] s)._callbacks = s._callbacks := by
  induction m with
  | zero => rfl
  | succ m ih =>
    rw [Function.iterate_succ_apply']
    exact ih

theorem os_tick_iterate_record (m : Nat) (s : kernel) (x f p r : Nat)
    (hcount : s._callbacks.count x = 1)
    (hrec : s.cbk x = { function := f, param := p, timer := r }) :
    (os_tick^[m] s).cbk x = { function := f, param := p, timer := r - m } := by
  induction m with
  | zero => exact hrec
  | succ m ih =>
    rw [Function.iterate_succ_apply']
    show heap_apply tick_callback (os_tick^[m] s)._callbacks (os_tick^[m] s).cbk x = _
    rw [heap_apply_count, os_tick_iterate_callbacks, hcount, ih]
    show tick_callback _ = _
    rw [tick_callback_record, show r - m - 1 = r - (m + 1) by omega]

theorem after_call_record (code : Nat → Nat → kernel → kernel)
    (irq : Nat → Nat → kernel → Nat) (henv : callback_env code irq) (s : kernel)
    (i : invocation) (x f p r : Nat) (hcount : s._callbacks.count x = 1)
    (hrec : s.cbk x = { function := f, param := p, timer := r }) :
    (after_call code s i).cbk x =
      { function := f, param := p, timer := r - irq i.function i.param { s with ie := true } } := by
  show (code i.function i.param { s with ie := true }).cbk x = _
  rw [(henv i.function i.param { s with ie := true }).2]
  exact os_tick_iterate_record _ { s with ie := true } x f p r hcount hrec

/-- Part 1 of the scheduler returns as soon as its fuel exceeds the number of
pending callbacks; the state it returns is the state after the invocations it
has made, which form a `due_trace`. -/
theorem scheduler_callbacks_trace (code : Nat → Nat → kernel → kernel)
    (irq : Nat → Nat → kernel → Nat) (henv : callback_env code irq) (fuel : Nat)
    (k : kernel) (log : List invocation) (hfuel : k._callbacks.length < fuel) :
    ∃ fired, scheduler_callbacks code fuel k log =
        some (after_calls code fired k, log ++ fired) ∧ due_trace code k fired := by
  induction fuel generalizing k log with
  | zero => omega
  | succ fuel ih =>
    cases hf : k._callbacks.find? (fun cb => (k.cbk cb).timer == 0) with
    | none =>
      refine ⟨[], ?_, hf⟩
      rw [scheduler_callbacks_none code fuel k log hf, List.append_nil]
      rfl
    | some cb =>
      have hmem : cb ∈ k._callbacks := List.mem_of_find?_eq_some hf
      have hlen : (after_call code k (invocation_of k cb))._callbacks.length < fuel := by
        rw [after_call_callbacks code irq henv]
        show (k._callbacks.erase cb).length < fuel
        rw [List.length_erase_of_mem hmem]
        have : 0 < k._callbacks.length := List.length_pos_of_mem hmem
        omega
      obtain ⟨fired, h1, h2⟩ := ih (after_call code k (invocation_of k cb))
        (log ++ [invocation_of k cb]) hlen
      refine ⟨invocation_of k cb :: fired, ?_, hf, rfl, h2⟩
      rw [scheduler_callbacks_step code fuel k log cb hf, h1, after_calls_cons,
        List.append_assoc]
      rfl

/-- A record that is not in the collection is not invoked. -/
theorem due_trace_absent (code : Nat → Nat → kernel → kernel)
    (irq : Nat → Nat → kernel → Nat) (henv : callback_env code irq) (x : Nat)
    (fired : List invocation) (s : kernel) (htr : due_trace code s fired)
    (hx : x ∉ s._callbacks) :
    (∀ i, i ∈ fired → i.cb ≠ x) ∧ x ∉ (after_calls code fired s)._callbacks := by
  induction fired generalizing s with
  | nil => exact ⟨(fun i hi => by cases hi), hx⟩
  | cons i fired ih =>
    obtain ⟨hf, _, hrest⟩ := htr
    have hmem : i.cb ∈ s._callbacks := List.mem_of_find?_eq_some hf
    have hx2 : x ∉ (after_call code s i)._callbacks := by
      rw [after_call_callbacks code irq henv]
      exact fun h => hx (List.mem_of_mem_erase h)
    obtain ⟨h1, h2⟩ := ih (after_call code s i) hrest hx2
    refine ⟨fun j hj => ?_, h2⟩
    rcases List.mem_cons.1 hj with e | e
    · rw [e]
      intro hix
      exact hx (hix ▸ hmem)
    · exact h1 j e

/-- A record that is in the collection once, with `r` ticks left, through the
invocations of part 1 of the scheduler, during which `calls_ticks` timer
interrupts are served: either fewer than `r` interrupts are served, the record
is not invoked and stays with its timer counted down; or at least `r` are
served, the record is invoked exactly once, with its function and parameter,
and removed. -/
theorem due_trace_record (code : Nat → Nat → kernel → kernel)
    (irq : Nat → Nat → kernel → Nat) (henv : callback_env code irq) (x f p : Nat)
    (fired : List invocation) (s : kernel) (r : Nat) (htr : due_trace code s fired)
    (hcount : s._callbacks.count x = 1)
    (hrec : s.cbk x = { function := f, param := p, timer := r }) :
    (calls_ticks code irq fired s < r ∧
      (after_calls code fired s)._callbacks.count x = 1 ∧
      (after_calls code fired s).cbk x =
        { function := f, param := p, timer := r - calls_ticks code irq fired s } ∧
      ∀ i, i ∈ fired → i.cb ≠ x) ∨
    (r ≤ calls_ticks code irq fired s ∧
      x ∉ (after_calls code fired s)._callbacks ∧
      (fired.map invocation.cb).count x = 1 ∧
      ∀ i, i ∈ fired → i.cb = x → i = { cb := x, function := f, param := p }) := by
  induction fired generalizing s r with
  | nil =>
    left
    have hmem : x ∈ s._callbacks := List.count_pos_iff.1 (by omega)
    have hnz := List.find?_eq_none.1 htr x hmem
    rw [hrec] at hnz
    have hr : r ≠ 0 := by simpa using hnz
    exact ⟨(by show 0 < r; omega), hcount, hrec, (fun i hi => by cases hi)⟩
  | cons i fired ih =>
    obtain ⟨hf, hi, hrest⟩ := htr
    by_cases hix : i.cb = x
    · right
      have hz : ((s.cbk x).timer == 0) = true := by
        have := List.find?_some hf
        rw [hix] at this
        exact this
      rw [hrec] at hz
      have hr : r = 0 := by simpa using hz
      have hx2 : x ∉ (after_call code s i)._callbacks := by
        rw [after_call_callbacks code irq henv, hix]
        intro hm
        have hpos : 0 < (s._callbacks.erase x).count x := List.count_pos_iff.2 hm
        rw [List.count_erase_self, hcount] at hpos
        omega
      obtain ⟨h1, h2⟩ := due_trace_absent code irq henv x fired _ hrest hx2
      refine ⟨by omega, h2, ?_, ?_⟩
      · rw [List.map_cons, hix, List.count_cons_self, List.count_eq_zero.2]
        intro hm
        obtain ⟨j, hj, hjx⟩ := List.mem_map.1 hm
        exact h1 j hj hjx
      · intro j hj hjx
        rcases List.mem_cons.1 hj with e | e
        · rw [e, hi, hix]
          show ({ cb := x, function := (s.cbk x).function, param := (s.cbk x).param }
            : invocation) = _
          rw [hrec]
        · exact absurd hjx (h1 j e)
    · have hcount2 : (after_call code s i)._callbacks.count x = 1 := by
        rw [after_call_callbacks code irq henv, List.count_erase_of_ne (Ne.symm hix)]
        exact hcount
      have hrec2 := after_call_record code irq henv s i x f p r hcount hrec
      have hsplit : calls_ticks code irq (i :: fired) s =
          irq i.function i.param { s with ie := true } +
            calls_ticks code irq fired (after_call code s i) := rfl
      rw [hsplit, after_calls_cons]
      rcases ih (after_call code s i) _ hrest hcount2 hrec2 with
        ⟨h1, h2, h3, h4⟩ | ⟨h1, h2, h3, h4⟩
      · left
        refine ⟨by omega, h2, ?_, ?_⟩
        · rw [h3, Nat.sub_sub]
        · intro j hj
          rcases List.mem_cons.1 hj with e | e
          · rw [e]
            exact hix
          · exact h4 j e
      · right
        refine ⟨by omega, h2, ?_, ?_⟩
        · rw [List.map_cons, List.count_cons_of_ne (Ne.symm hix)]
          exact h3
        · intro j hj hjx
          rcases List.mem_cons.1 hj with e | e
          · rw [e] at hjx
            exact absurd hjx hix
          · exact h4 j e hjx

/-- When part 1 of the scheduler is over, no record of the collection has timer
0. -/
theorem due_trace_end (code : Nat → Nat → kernel → kernel) (fired : List invocation)
    (s : kernel) (htr : due_trace code s fired) :
    ∀ cb, cb ∈ (after_calls code fired s)._callbacks →
      ((after_calls code fired s).cbk cb).timer ≠ 0 := by
  induction fired generalizing s with
  | nil =>
    intro cb hcb
    have h := List.find?_eq_none.1 htr cb hcb
    simpa using h
  | cons i fired ih => exact ih (after_call code s i) htr.2.2

/-- The records left by part 1 of the scheduler are records of the collection it
started with, in the same order. -/
theorem due_trace_sublist (code : Nat → Nat → kernel → kernel)
    (irq : Nat → Nat → kernel → Nat) (henv : callback_env code irq)
    (fired : List invocation) (s : kernel) :
    ((after_calls code fired s)._callbacks).Sublist s._callbacks := by
  induction fired generalizing s with
  | nil => exact List.Sublist.refl _
  | cons i fired ih =>
    have h := ih (after_call code s i)
    rw [after_call_callbacks code irq henv] at h
    exact h.trans (List.erase_sublist _ _)

/-- Every invocation of part 1 of the scheduler is made in a state in which the
record is in the collection with timer 0, and calls the function of the record
with its parameter. -/
theorem due_trace_invoked (code : Nat → Nat → kernel → kernel) (pre : List invocation)
    (i : invocation) (post : List invocation) (s : kernel)
    (htr : due_trace code s (pre ++ i :: post)) :
    i.cb ∈ (after_calls code pre s)._callbacks ∧
      ((after_calls code pre s).cbk i.cb).timer = 0 ∧
      i = invocation_of (after_calls code pre s) i.cb := by
  induction pre generalizing s with
  | nil =>
    obtain ⟨hf, hi, _⟩ := htr
    have hz := List.find?_some hf
    exact ⟨List.mem_of_find?_eq_some hf, by simpa using hz, hi⟩
  | cons j pre ih => exact ih (after_call code s j) htr.2.2

theorem invocation_of_congr (s s2 : kernel) (h : s2.cbk = s.cbk) :
    invocation_of s2 = invocation_of s := by
  funext cb
  unfold invocation_of
  rw [h]

/-- When no timer interrupt is served during the callbacks, part 1 of the
scheduler invokes exactly the records whose timer is 0 when it starts, in
collection order, and leaves the others in the collection, in order, with all
records as they were. -/
theorem due_trace_quiet (code : Nat → Nat → kernel → kernel)
    (irq : Nat → Nat → kernel → Nat) (henv : callback_env code irq)
    (fired : List invocation) (s : kernel) (htr : due_trace code s fired)
    (h0 : calls_ticks code irq fired s = 0) :
    fired = (s._callbacks.filter (fun cb => (s.cbk cb).timer == 0)).map (invocation_of s) ∧
      (after_calls code fired s)._callbacks =
        s._callbacks.filter (fun cb => !((s.cbk cb).timer == 0)) ∧
      (after_calls code fired s).cbk = s.cbk := by
  induction fired generalizing s with
  | nil =>
    have hnone := List.find?_eq_none.1 htr
    refine ⟨?_, ?_, rfl⟩
    · have : s._callbacks.filter (fun cb => (s.cbk cb).timer == 0) = [] :=
        List.filter_eq_nil_iff.2 hnone
      rw [this]
      rfl
    · symm
      show s._callbacks.filter (fun cb => !((s.cbk cb).timer == 0)) = s._callbacks
      rw [List.filter_eq_self]
      intro a ha
      have := hnone a ha
      simpa using this
  | cons i fired ih =>
    obtain ⟨hf, hi, hrest⟩ := htr
    have hsum : irq i.function i.param { s with ie := true } +
        calls_ticks code irq fired (after_call code s i) = 0 := h0
    have hm0 : irq i.function i.param { s with ie := true } = 0 := by omega
    have hcbk : (after_call code s i).cbk = s.cbk := by
      show (code i.function i.param { s with ie := true }).cbk = _
      rw [(henv i.function i.param { s with ie := true }).2, hm0]
      rfl
    obtain ⟨h1, h2, h3⟩ := ih (after_call code s i) hrest (by omega)
    rw [after_calls_cons]
    rw [hcbk, invocation_of_congr s _ hcbk, after_call_callbacks code irq henv] at h1
    rw [hcbk, after_call_callbacks code irq henv] at h2
    obtain ⟨hz, pre, post, hsplit, hpre⟩ := List.find?_eq_some.1 hf
    have hcb_pre : i.cb ∉ pre := by
      intro hm
      have := hpre i.cb hm
      rw [hz] at this
      cases this
    have hlist : s._callbacks.erase i.cb = pre ++ post := by
      rw [hsplit, List.erase_append_right _ hcb_pre, List.erase_cons_head]
    have hpre0 : pre.filter (fun cb => (s.cbk cb).timer == 0) = [] := by
      rw [List.filter_eq_nil_iff]
      intro a ha
      have := hpre a ha
      simpa using this
    have hpre1 : pre.filter (fun cb => !((s.cbk cb).timer == 0)) = pre := by
      rw [List.filter_eq_self]
      intro a ha
      exact hpre a ha
    rw [hlist] at h1 h2
    refine ⟨?_, ?_, h3.trans hcbk⟩
    · rw [h1, hsplit, List.filter_append, List.filter_append, hpre0, List.filter_cons, hz]
      simp only [List.nil_append, if_true, List.map_cons]
      rw [← hi]
    · rw [h2, hsplit, List.filter_append, List.filter_append, hpre1, List.filter_cons, hz]
      simp

/-- A whole pass of the scheduler with fuel above the number of pending
callbacks: it returns the state that the thread selection makes of the state
after the invocations, and the invocations form a `due_trace`. -/
theorem scheduler_trace (code : Nat → Nat → kernel → kernel)
    (irq : Nat → Nat → kernel → Nat) (henv : callback_env code irq) (fuel : Nat)
    (k : kernel) (hfuel : k._callbacks.length < fuel) :
    ∃ fired, scheduler code fuel k =
        some (scheduler_threads (after_calls code fired { k with ie := false }), fired) ∧
      due_trace code { k with ie := false } fired := by
  obtain ⟨fired, h1, h2⟩ :=
    scheduler_callbacks_trace code irq henv fuel { k with ie := false } [] hfuel
  refine ⟨fired, ?_, h2⟩
  unfold scheduler
  rw [h1]
  rfl

theorem scheduler_threads_callbacks (k : kernel) :
    (scheduler_threads k)._callbacks = k._callbacks ∧ (scheduler_threads k).cbk = k.cbk :=
  scheduler_levels_callbacks MAX_PRIO { k with ie := false }

theorem ex_code_env : callback_env ex_code ex_irq := by
  intro f p s
  unfold ex_code ex_irq
  by_cases h : f = 88
  · rw [if_pos h, if_pos h]
    exact ⟨rfl, rfl⟩
  · rw [if_neg h, if_neg h]
    exact ⟨rfl, rfl⟩

/-- One pass of the scheduler on a record that is pending or done. -/
theorem pass_record (code : Nat → Nat → kernel → kernel) (irq : Nat → Nat → kernel → Nat)
    (henv : callback_env code irq) (x f p t : Nat) (k : kernel) (log : List invocation)
    (n : Nat) (hinv : cb_pending x f p t k log n ∨ cb_done x f p t k log n)
    (fired : List invocation) (htr : due_trace code { k with ie := false } fired) :
    (n + calls_ticks code irq fired { k with ie := false } < t →
      cb_pending x f p t (scheduler_threads (after_calls code fired { k with ie := false }))
        (log ++ fired) (n + calls_ticks code irq fired { k with ie := false })) ∧
    (t ≤ n + calls_ticks code irq fired { k with ie := false } →
      cb_done x f p t (scheduler_threads (after_calls code fired { k with ie := false }))
        (log ++ fired) (n + calls_ticks code irq fired { k with ie := false })) := by
  obtain ⟨hcb, hcbk⟩ :=
    scheduler_threads_callbacks (after_calls code fired { k with ie := false })
  unfold cb_pending cb_done
  rw [hcb, hcbk]
  rcases hinv with ⟨hc, hr, hl⟩ | ⟨ht, hx, hcnt, hall⟩
  · have hlog0 : (log.map invocation.cb).count x = 0 := by
      rw [List.count_eq_zero]
      intro hm
      obtain ⟨j, hj, hjx⟩ := List.mem_map.1 hm
      exact hl j hj hjx
    rcases due_trace_record code irq henv x f p fired { k with ie := false } (t - n) htr hc hr
      with ⟨h1, h2, h3, h4⟩ | ⟨h1, h2, h3, h4⟩
    · refine ⟨fun _ => ⟨h2, ?_, ?_⟩, fun h => by omega⟩
      · rw [h3, Nat.sub_sub]
      · intro i hi
        rcases List.mem_append.1 hi with e | e
        · exact hl i e
        · exact h4 i e
    · refine ⟨fun h => by omega, fun _ => ⟨by omega, h2, ?_, ?_⟩⟩
      · rw [List.map_append, List.count_append, hlog0, h3]
      · intro i hi hix
        rcases List.mem_append.1 hi with e | e
        · exact absurd hix (hl i e)
        · exact h4 i e hix
  · obtain ⟨h1, h2⟩ := due_trace_absent code irq henv x fired { k with ie := false } htr hx
    have hf0 : (fired.map invocation.cb).count x = 0 := by
      rw [List.count_eq_zero]
      intro hm
      obtain ⟨j, hj, hjx⟩ := List.mem_map.1 hm
      exact h1 j hj hjx
    refine ⟨fun h => by omega, fun _ => ⟨by omega, h2, ?_, ?_⟩⟩
    · rw [List.map_append, List.count_append, hf0, hcnt]
    · intro i hi hix
      rcases List.mem_append.1 hi with e | e
      · exact hall i e hix
      · exact absurd hix (h1 i e)

/-- Along ticks and scheduler passes every pass returns, and a record that is
pending or done is pending or done afterwards. -/
theorem cb_run_record (code : Nat → Nat → kernel → kernel) (irq : Nat → Nat → kernel → Nat)
    (henv : callback_env code irq) (x f p t : Nat) (es : List cb_event) (k : kernel)
    (log : List invocation) (n : Nat)
    (hinv : cb_pending x f p t k log n ∨ cb_done x f p t k log n) :
    ∃ k2 log2 n2, cb_run code irq es k log n = some (k2, log2, n2) ∧
      (cb_pending x f p t k2 log2 n2 ∨ cb_done x f p t k2 log2 n2) := by
  induction es generalizing k log n with
  | nil => exact ⟨k, log, n, rfl, hinv⟩
  | cons e es ih =>
    cases e with
    | tick =>
      apply ih (os_tick k) log (n + 1)
      rcases hinv with ⟨hc, hr, hl⟩ | ⟨ht, hx, hcnt, hall⟩
      · left
        refine ⟨hc, ?_, hl⟩
        show heap_apply tick_callback k._callbacks k.cbk x = _
        rw [heap_apply_count, hc, hr]
        show tick_callback _ = _
        rw [tick_callback_record, Nat.sub_sub]
      · right
        exact ⟨by omega, hx, hcnt, hall⟩
    | pass =>
      obtain ⟨fired, hs, htr⟩ :=
        scheduler_trace code irq henv (k._callbacks.length + 1) k (Nat.lt_succ_self _)
      obtain ⟨h1, h2⟩ := pass_record code irq henv x f p t k log n hinv fired htr
      obtain ⟨k2, log2, n2, h3, h4⟩ := ih _ (log ++ fired)
        (n + calls_ticks code irq fired { k with ie := false })
        (by
          by_cases hlt : n + calls_ticks code irq fired { k with ie := false } < t
          · exact Or.inl (h1 hlt)
          · exact Or.inr (h2 (by omega)))
      refine ⟨k2, log2, n2, ?_, h4⟩
      show (match scheduler code (k._callbacks.length + 1) k with
        | some (k1, fired) =>
          cb_run code irq es k1 (log ++ fired)
            (n + calls_ticks code irq fired { k with ie := false })
        | none => none) = _
      rw [hs]
      exact h3

/-- C16, as stated, fails when a timer interrupt is served during a callback,
which the scheduler allows by calling the function between `enable()` and
`disable()`. On `ex_callbacks_due` (reached from `kernel_init` by two calls of
`callback_fire`: record 10 with timer 1, record 11 with timer 0),
`callback_fire(99, 7, 1)` adds record 12 with timer 1, and the
scheduler pass follows at once, after no tick. The pass invokes record 11; one
tick is served while its function runs, which takes the timers of records 10
and 12 to 0; the scan starts again at the head and invokes record 10 and then
record 12. So the function fired with delay 1 is invoked, and its record
removed, by a pass that follows fewer than 1 ticks; the callbacks invoked are
not those that had timer 0 (record 11 alone), and they are not invoked in
collection order (11 before 10). -/
theorem callback_fires_early_counterexample :
    callback_env ex_code ex_irq ∧
    (callback_fire 99 7 1 (some 12) ex_callbacks_due)._callbacks = [10, 11, 12] ∧
    ((callback_fire 99 7 1 (some 12) ex_callbacks_due).cbk 10).timer = 1 ∧
    ((callback_fire 99 7 1 (some 12) ex_callbacks_due).cbk 11).timer = 0 ∧
    ((callback_fire 99 7 1 (some 12) ex_callbacks_due).cbk 12).timer = 1 ∧
    ∃ k2, scheduler ex_code 4 (callback_fire 99 7 1 (some 12) ex_callbacks_due) =
        some (k2, [{ cb := 11, function := 88, param := 2 },
          { cb := 10, function := 77, param := 1 },
          { cb := 12, function := 99, param := 7 }]) ∧
      k2._callbacks = [] :=
  ⟨ex_code_env, rfl, rfl, rfl, rfl, _, rfl, rfl⟩

/-- C16, amended. A deferred callback fires exactly once when it is due, the
ticks being all timer interrupts since the call, those served while a callback
runs included (`n` below). For every delay `t`, a non-null function `f`,
callback functions that do not themselves modify the callback collection and
any number of timer interrupts served during each callback: after
`callback_fire(f, p, t)` (allocated at a fresh address `x`) and any sequence of
ticks and scheduler passes, every pass has returned, and the record is either
pending (in the collection once, with `t - n` ticks left, never invoked) or
done (`t <= n`, invoked exactly once, as `f(p)`, and removed); while fewer than
`t` ticks have occurred it is pending. The next pass returns the state that the
thread selection makes of the state after its invocations; if fewer than `t`
ticks have occurred when it ends the record is still pending, and if `t` ticks
or more have occurred the record is done. In every pass, as soon as the fuel
exceeds the number of pending callbacks: each invocation is made when the
record is in the collection with timer 0, with the function and parameter of
the record; when the pass ends no record of the collection has timer 0, and
those left are records of the initial collection in the same order; and if no
tick is served during the callbacks, the callbacks invoked are exactly those
with timer 0 at the start, in collection order, and those with a nonzero timer
are left in the collection, in order, unchanged. -/
theorem deferred_callback_fires_when_due (code : Nat → Nat → kernel → kernel)
    (irq : Nat → Nat → kernel → Nat) (henv : callback_env code irq) (k : kernel)
    (f p t x : Nat) (hf : f ≠ 0) (hx : x ∉ k._callbacks) (es : List cb_event) :
    (∃ k2 log n,
      cb_run code irq es (callback_fire f p t (some x) k) [] 0 = some (k2, log, n) ∧
      (cb_pending x f p t k2 log n ∨ cb_done x f p t k2 log n) ∧
      (n < t → cb_pending x f p t k2 log n) ∧
      ∃ fired, scheduler code (k2._callbacks.length + 1) k2 =
          some (scheduler_threads (after_calls code fired { k2 with ie := false }), fired) ∧
        (n + calls_ticks code irq fired { k2 with ie := false } < t →
          cb_pending x f p t
            (scheduler_threads (after_calls code fired { k2 with ie := false }))
            (log ++ fired) (n + calls_ticks code irq fired { k2 with ie := false })) ∧
        (t ≤ n + calls_ticks code irq fired { k2 with ie := false } →
          cb_done x f p t
            (scheduler_threads (after_calls code fired { k2 with ie := false }))
            (log ++ fired) (n + calls_ticks code irq fired { k2 with ie := false }))) ∧
    (∀ s fuel, s._callbacks.length < fuel →
      ∃ fired, scheduler code fuel s =
          some (scheduler_threads (after_calls code fired { s with ie := false }), fired) ∧
        (∀ pre i post, fired = pre ++ i :: post →
          i.cb ∈ (after_calls code pre { s with ie := false })._callbacks ∧
          ((after_calls code pre { s with ie := false }).cbk i.cb).timer = 0 ∧
          i = invocation_of (after_calls code pre { s with ie := false }) i.cb) ∧
        (∀ cb, cb ∈ (after_calls code fired { s with ie := false })._callbacks →
          ((after_calls code fired { s with ie := false }).cbk cb).timer ≠ 0) ∧
        ((after_calls code fired { s with ie := false })._callbacks).Sublist s._callbacks ∧
        (calls_ticks code irq fired { s with ie := false } = 0 →
          fired = (s._callbacks.filter (fun cb => (s.cbk cb).timer == 0)).map
            (invocation_of s) ∧
          (after_calls code fired { s with ie := false })._callbacks =
            s._callbacks.filter (fun cb => !((s.cbk cb).timer == 0)) ∧
          (after_calls code fired { s with ie := false }).cbk = s.cbk)) := by
  constructor
  · have hfire : callback_fire f p t (some x) k =
        { k with
          cbk := Function.update k.cbk x { function := f, param := p, timer := t }
          _callbacks := k._callbacks ++ [x]
          ie := true } := by
      unfold callback_fire
      rw [if_neg hf]
    have hcount : (callback_fire f p t (some x) k)._callbacks.count x = 1 := by
      rw [hfire]
      show (k._callbacks ++ [x]).count x = 1
      rw [List.count_append, List.count_eq_zero.2 hx]
      simp
    have hrec : (callback_fire f p t (some x) k).cbk x =
        { function := f, param := p, timer := t - 0 } := by
      rw [hfire]
      exact Function.update_same _ _ _
    obtain ⟨k2, log, n, h1, h2⟩ := cb_run_record code irq henv x f p t es
      (callback_fire f p t (some x) k) [] 0 (Or.inl ⟨hcount, hrec, fun i hi => by cases hi⟩)
    obtain ⟨fired, hs, htr⟩ :=
      scheduler_trace code irq henv (k2._callbacks.length + 1) k2 (Nat.lt_succ_self _)
    obtain ⟨h3, h4⟩ := pass_record code irq henv x f p t k2 log n h2 fired htr
    refine ⟨k2, log, n, h1, h2, fun hlt => ?_, fired, hs, h3, h4⟩
    rcases h2 with h | h
    · exact h
    · have := h.1
      omega
  · intro s fuel hfuel
    obtain ⟨fired, hs, htr⟩ := scheduler_trace code irq henv fuel s hfuel
    refine ⟨fired, hs, ?_, due_trace_end code fired _ htr,
      due_trace_sublist code irq henv fired { s with ie := false },
      fun h0 => due_trace_quiet code irq henv fired { s with ie := false } htr h0⟩
    intro pre i post hsplit
    rw [hsplit] at htr
    exact due_trace_invoked code pre i post _ htr

/-- Witness of C16, amended, on `ex_callbacks_due` with the callbacks of
`ex_code`: after `callback_fire(99, 7, 3)`, a pass during which one tick is
served, and one more tick, two ticks have occurred and the record of the call
is pending. -/
theorem deferred_callback_fires_when_due_witness :
    ∃ k2 log n,
      cb_run ex_code ex_irq [cb_event.pass, cb_event.tick]
        (callback_fire 99 7 3 (some 12) ex_callbacks_due) [] 0 = some (k2, log, n) ∧
      n = 2 ∧ cb_pending 12 99 7 3 k2 log n := by
  obtain ⟨k2, log, n, h1, _, h3, _⟩ :=
    (deferred_callback_fires_when_due ex_code ex_irq ex_code_env ex_callbacks_due 99 7 3 12
      (by decide) (by decide) [cb_event.pass, cb_event.tick]).1
  have e : ∃ K L, cb_run ex_code ex_irq [cb_event.pass, cb_event.tick]
      (callback_fire 99 7 3 (some 12) ex_callbacks_due) [] 0 = some (K, L, 2) := ⟨_, _, rfl⟩
  obtain ⟨K, L, e⟩ := e
  have hn : n = 2 := by
    rw [e] at h1
    exact (congrArg (fun r => r.2.2) (Option.some.inj h1)).symm
  exact ⟨k2, log, n, h1, hn, h3 (by omega)⟩

end ChronOS
